import Mathlib

/-!
# The IR of one basic block and its register renamer (`ir.c`)

A shallow embedding of `src/ir.c`: the pool arena, the circular doubly-linked
node list with its sentinel `node_dummy`, the builder `ir_build`, and the
backward renaming pass `ir_rename` with its helpers `tag_def` and `tag_use`.

Modelling conventions.

* Pointers are values of `NodePtr` / `PoolPtr`; the heap is a total map from
  pointers to records, written with `Function.update`.  Dereferencing `null`
  is undefined behaviour in C and makes the model return `none`.
* `&pool_k->nodes[i]` is `NodePtr.cell k i`, where `pool_k` is the `k`-th pool
  handed out by `malloc`.  `malloc` is assumed to succeed and to return fresh
  memory.
* C `int` is modelled by `Int`.  The counters `block_len`, `index`, `vrname`
  and `live` grow by at most three per node, and are assumed not to overflow;
  the one addition that a small input can overflow, `max_sr + 1`, is checked.
* The tables `SRToVR` and `LU` (arrays of `nSR` ints) are modelled by their
  contents as functions on indices; an access outside `0 .. nSR - 1` is
  undefined behaviour in C and makes the model return `none`.
* The C loops over the linked list take a fuel argument: running out of fuel
  (a list that does not lead back to the sentinel) gives `none`.
-/

namespace ILOC

/-! ## Data model (`ir.h`) -/

/-- The enum IROpcode of ir.h. -/
inductive IROpcode where
  | IR_LOAD
  | IR_LOADI
  | IR_STORE
  | IR_ADD
  | IR_SUB
  | IR_MULT
  | IR_LSHIFT
  | IR_RSHIFT
  | IR_OUTPUT
  | IR_NOP
  deriving DecidableEq

/-- The struct IROperand of ir.h: source register, virtual register, physical
register (unused) and next use. -/
structure IROperand where
  sr : Int
  vr : Int
  pr : Int
  nu : Int
  deriving DecidableEq

/-- Pointers to IRNode: NULL, the static sentinel `&node_dummy`, or
`&pool_k->nodes[idx]`. -/
inductive NodePtr where
  | null
  | node_dummy
  | cell (pool : Nat) (idx : Nat)
  deriving DecidableEq

/-- Pointers to IRPool: NULL, the static sentinel `&pool_dummy`, or the `k`-th
pool returned by malloc. -/
inductive PoolPtr where
  | null
  | pool_dummy
  | pool (k : Nat)
  deriving DecidableEq

/-- The struct IRNode of ir.h. -/
structure IRNode where
  line : Int
  opcode : IROpcode
  op1 : IROperand
  op2 : IROperand
  op3 : IROperand
  prev : NodePtr
  next : NodePtr
  deriving DecidableEq

/-- The struct IRPool of ir.c without its node array, whose cells live in
`IRState.nodes` at `NodePtr.cell k i`. -/
structure IRPool where
  next_free : Int
  next : PoolPtr
  prev : PoolPtr
  deriving DecidableEq

/-- The global state of ir.c: the pool heap (with `pool_dummy`), the node heap
(with `node_dummy`), the number of pools malloc has handed out so far, and the
static counter `vrname`. -/
structure IRState where
  pools : PoolPtr → IRPool
  nodes : NodePtr → IRNode
  npools : Nat
  vrname : Int

/-- The constant POOL_SIZE. -/
def POOL_SIZE : Int := 2000

/-- The constant INT_MAX of limits.h for a 32-bit int. -/
def INT_MAX : Int := 2147483647

/-- The pointer `pool_head`, which always holds `&pool_dummy`. -/
def pool_head : PoolPtr := PoolPtr.pool_dummy

/-- The pointer `node_head`, which always holds `&node_dummy`. -/
def node_head : NodePtr := NodePtr.node_dummy

/-- An operand after `memset(.., -1, ..)`: every field is -1. -/
def unused_operand : IROperand := { sr := -1, vr := -1, pr := -1, nu := -1 }

/-- A zero-initialised IRNode (static storage before any assignment). -/
def zero_node : IRNode :=
  { line := 0, opcode := IROpcode.IR_LOAD,
    op1 := { sr := 0, vr := 0, pr := 0, nu := 0 },
    op2 := { sr := 0, vr := 0, pr := 0, nu := 0 },
    op3 := { sr := 0, vr := 0, pr := 0, nu := 0 },
    prev := NodePtr.null, next := NodePtr.null }

/-- The memory at program start with every cell zeroed: statics are
zero-initialised, no pool has been allocated. The cells malloc hands out
later hold arbitrary values in C; the general theorems therefore range over
every initial memory, and this one serves for closed evaluations. -/
def start_state : IRState :=
  { pools := fun _ => { next_free := 0, next := PoolPtr.null, prev := PoolPtr.null },
    nodes := fun _ => zero_node,
    npools := 0,
    vrname := 0 }

/-- Write through a node pointer: `*p = f(*p)`. -/
def IRState.setNode (s : IRState) (p : NodePtr) (f : IRNode → IRNode) : IRState :=
  { s with nodes := Function.update s.nodes p (f (s.nodes p)) }

/-- Write through a pool pointer: `*p = f(*p)`. -/
def IRState.setPool (s : IRState) (p : PoolPtr) (f : IRPool → IRPool) : IRState :=
  { s with pools := Function.update s.pools p (f (s.pools p)) }

/-! ## Pool list and node list -/

/-- The function init_pool_list: `pool_head->prev = pool_head->next = pool_head`. -/
def init_pool_list (s : IRState) : IRState :=
  s.setPool pool_head (fun x => { x with prev := pool_head, next := pool_head })

/-- The function insert_into_pool_list. -/
def insert_into_pool_list (s : IRState) (p : PoolPtr) : Option IRState :=
  let tail := (s.pools pool_head).prev
  if tail = PoolPtr.null ∨ p = PoolPtr.null then none
  else
    let s1 := s.setPool tail (fun x => { x with next := p })
    let s2 := s1.setPool p (fun x => { x with prev := tail })
    let s3 := s2.setPool p (fun x => { x with next := pool_head })
    some (s3.setPool pool_head (fun x => { x with prev := p }))

/-- The function init_node_list: `node_head->prev = node_head->next = node_head`. -/
def init_node_list (s : IRState) : IRState :=
  s.setNode node_head (fun x => { x with prev := node_head, next := node_head })

/-- The function insert_into_node_list. -/
def insert_into_node_list (s : IRState) (n : NodePtr) : Option IRState :=
  let tail := (s.nodes node_head).prev
  if tail = NodePtr.null ∨ n = NodePtr.null then none
  else
    let s1 := s.setNode tail (fun x => { x with next := n })
    let s2 := s1.setNode n (fun x => { x with prev := tail })
    let s3 := s2.setNode n (fun x => { x with next := node_head })
    some (s3.setNode node_head (fun x => { x with prev := n }))

/-- The function new_pool: malloc a pool, zero its `next_free`, link it. -/
def new_pool (s : IRState) : Option (IRState × PoolPtr) :=
  let p := PoolPtr.pool s.npools
  let s1 : IRState := { s with npools := s.npools + 1 }
  let s2 := s1.setPool p (fun x => { x with next_free := 0 })
  (insert_into_pool_list s2 p).map (fun s3 => (s3, p))

/-- The function ir_new_node. -/
def ir_new_node (s : IRState) (opcode : IROpcode) (line : Int) : Option (IRState × NodePtr) :=
  let tail_pool := (s.pools pool_head).prev
  if tail_pool = PoolPtr.null then none
  else
    (if tail_pool = pool_head ∨ (s.pools tail_pool).next_free ≥ POOL_SIZE
      then new_pool s else some (s, tail_pool)).bind fun (s1, tail_pool) =>
    match tail_pool with
    | PoolPtr.pool k =>
      let i := (s1.pools tail_pool).next_free
      if 0 ≤ i ∧ i < POOL_SIZE then
        let n := NodePtr.cell k i.toNat
        let s2 := s1.setPool tail_pool (fun x => { x with next_free := i + 1 })
        let s3 := s2.setNode n (fun x => { x with line := line })
        let s4 := s3.setNode n (fun x => { x with opcode := opcode })
        let s5 := s4.setNode n (fun x =>
          { x with op1 := unused_operand, op2 := unused_operand, op3 := unused_operand })
        (insert_into_node_list s5 n).map (fun s6 => (s6, n))
      else none
    | _ => none

/-- The macro va_arg on the remaining variadic arguments; reading past the
last argument is undefined behaviour. -/
def va_arg : List Int → Option (Int × List Int)
  | [] => none
  | a :: rest => some (a, rest)

/-- The function ir_build; `args` are the variadic arguments after `nops`. -/
def ir_build (s : IRState) (op : IROpcode) (line : Int) (nops : Int) (args : List Int) :
    Option (IRState × NodePtr) :=
  (ir_new_node s op line).bind fun (s0, n) =>
  (if nops = 1 then
      (va_arg args).bind fun (a, rest) =>
      some (s0.setNode n (fun x => { x with op1 := { x.op1 with sr := a } }), rest)
    else some (s0, args)).bind fun (s1, args1) =>
  (if nops = 2 then
      (va_arg args1).bind fun (a, rest) =>
      (va_arg rest).bind fun (b, rest2) =>
      let t := s1.setNode n (fun x => { x with op1 := { x.op1 with sr := a } })
      some (t.setNode n (fun x => { x with op3 := { x.op3 with sr := b } }), rest2)
    else some (s1, args1)).bind fun (s2, args2) =>
  (if nops = 3 then
      (va_arg args2).bind fun (a, rest) =>
      (va_arg rest).bind fun (b, rest2) =>
      (va_arg rest2).bind fun (c, rest3) =>
      let t := s2.setNode n (fun x => { x with op1 := { x.op1 with sr := a } })
      let u := t.setNode n (fun x => { x with op2 := { x.op2 with sr := b } })
      some (u.setNode n (fun x => { x with op3 := { x.op3 with sr := c } }), rest3)
    else some (s2, args2)).bind fun (s3, _) =>
  some (s3, n)

/-! ## The renamer -/

/-- The tables and counters of one run of ir_rename: the table size `nSR`,
the tables `SRToVR` and `LU`, the static `vrname`, and the locals `index` and
`maxlive`. -/
structure RenameVars where
  nSR : Int
  SRToVR : Int → Int
  LU : Int → Int
  vrname : Int
  index : Int
  maxlive : Int

/-- The function tag_def on the operand `*o`. -/
def tag_def (o : IROperand) (t : RenameVars) : Option (IROperand × RenameVars) :=
  if 0 ≤ o.sr ∧ o.sr < t.nSR then
    let t1 : RenameVars :=
      if t.SRToVR o.sr < 0 then
        { t with SRToVR := Function.update t.SRToVR o.sr t.vrname, vrname := t.vrname + 1 }
      else t
    let o1 : IROperand := { o with vr := t1.SRToVR o.sr }
    let o2 : IROperand := { o1 with nu := t1.LU o.sr }
    some (o2, { t1 with SRToVR := Function.update t1.SRToVR o.sr (-1),
                        LU := Function.update t1.LU o.sr INT_MAX })
  else none

/-- The function tag_use on the operand `*o`. -/
def tag_use (o : IROperand) (t : RenameVars) : Option (IROperand × RenameVars) :=
  if 0 ≤ o.sr ∧ o.sr < t.nSR then
    let t1 : RenameVars :=
      if t.SRToVR o.sr < 0 then
        { t with SRToVR := Function.update t.SRToVR o.sr t.vrname, vrname := t.vrname + 1 }
      else t
    let o1 : IROperand := { o with vr := t1.SRToVR o.sr }
    some ({ o1 with nu := t1.LU o.sr }, t1)
  else none

/-- The assignment `LU[sr] = index` of the third switch of ir_rename. -/
def set_LU (sr : Int) (t : RenameVars) : Option RenameVars :=
  if 0 ≤ sr ∧ sr < t.nSR then some { t with LU := Function.update t.LU sr t.index }
  else none

/-- The count `live` of ir_rename: the number of `i < nSR` with
`SRToVR[i] >= 0`. -/
def count_live (t : RenameVars) : Int :=
  (((List.range t.nSR.toNat).filter
    (fun i : Nat => decide (0 ≤ t.SRToVR (i : Int)))).length : Int)

/-- First switch of the loop body of ir_rename: the operand the node defines. -/
def rename_defs (n : IRNode) (t : RenameVars) : Option (IRNode × RenameVars) :=
  match n.opcode with
  | IROpcode.IR_LOAD | IROpcode.IR_LOADI | IROpcode.IR_ADD | IROpcode.IR_SUB
  | IROpcode.IR_MULT | IROpcode.IR_LSHIFT | IROpcode.IR_RSHIFT =>
    (tag_def n.op3 t).bind fun (o, t1) => some ({ n with op3 := o }, t1)
  | _ => some (n, t)

/-- Second switch of the loop body of ir_rename: the operands the node uses. -/
def rename_uses (n : IRNode) (t : RenameVars) : Option (IRNode × RenameVars) :=
  match n.opcode with
  | IROpcode.IR_LOAD =>
    (tag_use n.op1 t).bind fun (o, t1) => some ({ n with op1 := o }, t1)
  | IROpcode.IR_STORE =>
    (tag_use n.op1 t).bind fun (o, t1) =>
    (tag_use n.op3 t1).bind fun (o3, t2) => some ({ n with op1 := o, op3 := o3 }, t2)
  | IROpcode.IR_ADD | IROpcode.IR_SUB | IROpcode.IR_MULT | IROpcode.IR_LSHIFT
  | IROpcode.IR_RSHIFT =>
    (tag_use n.op1 t).bind fun (o, t1) =>
    (tag_use n.op2 t1).bind fun (o2, t2) => some ({ n with op1 := o, op2 := o2 }, t2)
  | IROpcode.IR_OUTPUT =>
    (tag_use n.op1 t).bind fun (o, t1) => some ({ n with op1 := o }, t1)
  | _ => some (n, t)

/-- Third switch of the loop body of ir_rename: the last-use updates. -/
def rename_last_use (n : IRNode) (t : RenameVars) : Option RenameVars :=
  match n.opcode with
  | IROpcode.IR_LOAD => set_LU n.op1.sr t
  | IROpcode.IR_STORE => (set_LU n.op1.sr t).bind fun t1 => set_LU n.op3.sr t1
  | IROpcode.IR_ADD | IROpcode.IR_SUB | IROpcode.IR_MULT | IROpcode.IR_LSHIFT
  | IROpcode.IR_RSHIFT => (set_LU n.op1.sr t).bind fun t1 => set_LU n.op2.sr t1
  | IROpcode.IR_OUTPUT => set_LU n.op1.sr t
  | _ => some t

/-- The body of the backward loop of ir_rename on the node `*p`: the three
switches, `index--`, and the maxlive update. -/
def rename_body (n : IRNode) (t : RenameVars) : Option (IRNode × RenameVars) :=
  (rename_defs n t).bind fun (n1, t1) =>
  (rename_uses n1 t1).bind fun (n2, t2) =>
  (rename_last_use n2 t2).bind fun t3 =>
  let t4 : RenameVars := { t3 with index := t3.index - 1 }
  let live := count_live t4
  some (n2, if live > t4.maxlive then { t4 with maxlive := live } else t4)

/-- The body of the first loop of ir_rename on the node `*p`: the new value
of `max_sr`. -/
def scan_step (n : IRNode) (max_sr : Int) : Int :=
  let m1 := if n.op1.sr > max_sr then n.op1.sr else max_sr
  let m2 := if n.op2.sr > m1 then n.op2.sr else m1
  if n.op3.sr > m2 then n.op3.sr else m2

/-- The first loop of ir_rename, from node `p` on: counts the nodes and finds
the largest `sr` of any slot. Returns `(block_len, max_sr)`. -/
def scan_loop : Nat → IRState → NodePtr → Int → Int → Option (Int × Int)
  | 0, _, _, _, _ => none
  | fuel + 1, s, p, block_len, max_sr =>
    if p = node_head then some (block_len, max_sr)
    else if p = NodePtr.null then none
    else scan_loop fuel s (s.nodes p).next (block_len + 1) (scan_step (s.nodes p) max_sr)

/-- One iteration of the backward loop of ir_rename at `p != node_head`:
the body on `*p`, then `p = p->prev`. -/
def rename_iter (s : IRState) (p : NodePtr) (t : RenameVars) :
    Option (IRState × NodePtr × RenameVars) :=
  if p = NodePtr.null then none
  else
    (rename_body (s.nodes p) t).bind fun (n1, t1) =>
    some ({ s with nodes := Function.update s.nodes p n1 }, n1.prev, t1)

/-- The backward loop of ir_rename, from node `p` on. -/
def rename_loop : Nat → IRState → NodePtr → RenameVars → Option (IRState × RenameVars)
  | 0, _, _, _ => none
  | fuel + 1, s, p, t =>
    if p = node_head then some (s, t)
    else (rename_iter s p t).bind fun (s1, p1, t1) => rename_loop fuel s1 p1 t1

/-- The tables and counters of ir_rename at the entry of its backward loop. -/
def rename_entry (fuel : Nat) (s : IRState) : Option RenameVars :=
  (scan_loop fuel s (s.nodes node_head).next 0 (-1)).bind fun (block_len, max_sr) =>
  if max_sr = INT_MAX then none
  else
    let nSR := if max_sr ≥ 0 then max_sr + 1 else 1
    some { nSR := nSR, SRToVR := fun _ => -1, LU := fun _ => INT_MAX,
           vrname := 0, index := block_len - 1, maxlive := 0 }

/-- The function ir_rename; returns the new state and the value written to
`*maxlive_out`. -/
def ir_rename (fuel : Nat) (s : IRState) : Option (IRState × Int) :=
  (rename_entry fuel s).bind fun t0 =>
  (rename_loop fuel s (s.nodes node_head).prev t0).bind fun (s1, t) =>
  some ({ s1 with vrname := t.vrname }, t.maxlive)

/-- Exactly `m` iterations of the backward loop of ir_rename, from node `p`
on; `none` when the loop ends earlier. -/
def rename_steps : Nat → IRState → NodePtr → RenameVars →
    Option (IRState × NodePtr × RenameVars)
  | 0, s, p, t => some (s, p, t)
  | m + 1, s, p, t =>
    if p = node_head then none
    else (rename_iter s p t).bind fun (s1, p1, t1) => rename_steps m s1 p1 t1

/-- The nodes met by the forward traversal `for (n = p; n != node_head;
n = n->next)`, in order. -/
def node_list : Nat → IRState → NodePtr → Option (List IRNode)
  | 0, _, _ => none
  | fuel + 1, s, p =>
    if p = node_head then some []
    else if p = NodePtr.null then none
    else (node_list fuel s (s.nodes p).next).map (fun l => s.nodes p :: l)

/-- The node sequence of a state: the forward traversal from
`node_head->next`. -/
def node_seq (fuel : Nat) (s : IRState) : Option (List IRNode) :=
  node_list fuel s (s.nodes node_head).next

/-! ## Blocks built through ir_build -/

/-- The arguments of one call `ir_build(op, line, nops, ...)`. -/
structure BuildCall where
  op : IROpcode
  line : Int
  nops : Int
  args : List Int
  deriving DecidableEq

/-- The state after `init_pool_list(); init_node_list();` followed by the
given calls of ir_build, in order. -/
def build_from (s : IRState) : List BuildCall → Option IRState
  | [] => some s
  | c :: rest => (ir_build s c.op c.line c.nops c.args).bind fun (s1, _) => build_from s1 rest

/-- The block built by `init_pool_list(); init_node_list();` and the given
calls of ir_build, starting from the memory `s0`. -/
def build_block (s0 : IRState) (calls : List BuildCall) : Option IRState :=
  build_from (init_node_list (init_pool_list s0)) calls

/-- Build the block from the memory `s0` and run ir_rename on it; returns the
state after renaming and the MAXLIVE written to `*maxlive_out`. -/
def build_and_rename (fuel : Nat) (s0 : IRState) (calls : List BuildCall) :
    Option (IRState × Int) :=
  (build_block s0 calls).bind fun s => ir_rename fuel s

/-- The tables and counters of ir_rename on the built block after exactly `m`
iterations of its backward loop (that is, after the last `m` nodes have been
processed). -/
def vars_after_steps (fuel m : Nat) (s0 : IRState) (calls : List BuildCall) :
    Option RenameVars :=
  (build_block s0 calls).bind fun s =>
  (rename_entry fuel s).bind fun t0 =>
  (rename_steps m s (s.nodes node_head).prev t0).map fun r => r.2.2

/-! ## Vocabulary of the specification: slots and slot roles -/

/-- The three operand slots of a node. -/
inductive Slot where
  | s1
  | s2
  | s3
  deriving DecidableEq

/-- The operand in a slot of a node. -/
def IRNode.get (n : IRNode) : Slot → IROperand
  | Slot.s1 => n.op1
  | Slot.s2 => n.op2
  | Slot.s3 => n.op3

/-- Replace the operand in a slot of a node. -/
def IRNode.set (n : IRNode) : Slot → IROperand → IRNode
  | Slot.s1, o => { n with op1 := o }
  | Slot.s2, o => { n with op2 := o }
  | Slot.s3, o => { n with op3 := o }

/-- Opcodes whose slot 3 is a definition (first switch of ir_rename, and the
slot-role table of the specification). -/
def has_def : IROpcode → Bool
  | IROpcode.IR_LOAD | IROpcode.IR_LOADI | IROpcode.IR_ADD | IROpcode.IR_SUB
  | IROpcode.IR_MULT | IROpcode.IR_LSHIFT | IROpcode.IR_RSHIFT => true
  | _ => false

/-- The register-role use slots of an opcode, per the slot-role table of the
specification: the literal slot 1 of LoadI and Output is not among them. -/
def reg_use_slots : IROpcode → List Slot
  | IROpcode.IR_LOAD => [Slot.s1]
  | IROpcode.IR_STORE => [Slot.s1, Slot.s3]
  | IROpcode.IR_ADD | IROpcode.IR_SUB | IROpcode.IR_MULT | IROpcode.IR_LSHIFT
  | IROpcode.IR_RSHIFT => [Slot.s1, Slot.s2]
  | _ => []

/-- The slots that the second switch of ir_rename passes to tag_use, in
order: the register-role use slots and, in addition, slot 1 of Output. -/
def tagged_use_slots : IROpcode → List Slot
  | IROpcode.IR_LOAD => [Slot.s1]
  | IROpcode.IR_STORE => [Slot.s1, Slot.s3]
  | IROpcode.IR_ADD | IROpcode.IR_SUB | IROpcode.IR_MULT | IROpcode.IR_LSHIFT
  | IROpcode.IR_RSHIFT => [Slot.s1, Slot.s2]
  | IROpcode.IR_OUTPUT => [Slot.s1]
  | _ => []

/-- The slots ir_rename stamps on a node of the given opcode, in the order it
stamps them: the definition slot first, then the use slots. -/
def stamped_slots (op : IROpcode) : List Slot :=
  (if has_def op then [Slot.s3] else []) ++ tagged_use_slots op

/-- The number of operand values ir_build is given for an opcode. -/
def arity : IROpcode → Nat
  | IROpcode.IR_NOP => 0
  | IROpcode.IR_OUTPUT => 1
  | IROpcode.IR_LOAD | IROpcode.IR_LOADI | IROpcode.IR_STORE => 2
  | _ => 3

/-- The `sr` that ir_build stores in a slot for the given call (-1 when the
slot is not filled). -/
def BuildCall.sr (c : BuildCall) : Slot → Int
  | Slot.s1 => if c.nops = 1 ∨ c.nops = 2 ∨ c.nops = 3 then c.args.getD 0 (-1) else -1
  | Slot.s2 => if c.nops = 3 then c.args.getD 1 (-1) else -1
  | Slot.s3 => if c.nops = 2 then c.args.getD 1 (-1)
               else if c.nops = 3 then c.args.getD 2 (-1) else -1

/-- A call of ir_build as the parser makes it: the arity matches the opcode,
register ids are non-negative, and so is the literal of Output, which
ir_rename uses as a table index. Every value is below INT_MAX, so that
`max_sr + 1` does not overflow. -/
def BuildCall.valid (c : BuildCall) : Prop :=
  c.nops = (arity c.op : Int) ∧ c.args.length = arity c.op ∧
  (∀ a ∈ c.args, a < INT_MAX) ∧
  (has_def c.op = true → 0 ≤ c.sr Slot.s3) ∧
  (∀ sl ∈ tagged_use_slots c.op, 0 ≤ c.sr sl)

instance : DecidablePred BuildCall.valid := fun c => by
  unfold BuildCall.valid; infer_instance

/-- The instruction of the call defines source register `r`. -/
def BuildCall.defines (c : BuildCall) (r : Int) : Prop :=
  has_def c.op = true ∧ c.sr Slot.s3 = r

instance (c : BuildCall) (r : Int) : Decidable (c.defines r) := by
  unfold BuildCall.defines; infer_instance

/-- The instruction of the call uses source register `r` in a register-role
use slot. -/
def BuildCall.uses (c : BuildCall) (r : Int) : Prop :=
  ∃ sl ∈ reg_use_slots c.op, c.sr sl = r

instance (c : BuildCall) (r : Int) : Decidable (c.uses r) := by
  unfold BuildCall.uses; infer_instance

/-- The source registers referenced in a block: the registers in its
definition slots and in its register-role use slots. -/
def referenced_regs (calls : List BuildCall) : List Int :=
  calls.flatMap fun c =>
    (if has_def c.op then [c.sr Slot.s3] else []) ++ (reg_use_slots c.op).map c.sr

/-- Register `r` is live before the first instruction of the list: some
instruction of the list uses `r` in a register-role use slot and no
instruction before it defines `r`. -/
def live_in : List BuildCall → Int → Prop
  | [], _ => False
  | c :: rest, r => c.uses r ∨ (¬ c.defines r ∧ live_in rest r)

/-- Decide `live_in`. -/
def live_in_dec : (l : List BuildCall) → (r : Int) → Decidable (live_in l r)
  | [], _ => isFalse (fun h => h)
  | c :: rest, r =>
    have := live_in_dec rest r
    inferInstanceAs (Decidable (c.uses r ∨ (¬ c.defines r ∧ live_in rest r)))

instance (l : List BuildCall) (r : Int) : Decidable (live_in l r) := live_in_dec l r

/-- The source registers in the register-role use slots of a block. -/
def used_regs (calls : List BuildCall) : List Int :=
  calls.flatMap fun c => (reg_use_slots c.op).map c.sr

/-- The number of distinct source registers live immediately before
instruction `i` of the block. -/
def live_count (calls : List BuildCall) (i : Nat) : Nat :=
  (((used_regs (calls.drop i)).dedup).filter fun r => decide (live_in (calls.drop i) r)).length

/-- The maximum of `live_count` over the positions of the block, 0 for the
empty block. -/
def max_live_count (calls : List BuildCall) : Nat :=
  (List.range calls.length).foldr (fun i m => max (live_count calls i) m) 0

/-- The position of the next use of register `r` at or after position `p`,
the position of the first instruction of the list: the nearest instruction
that uses `r` in a register-role use slot with no definition of `r` before
it, or INT_MAX when there is none. -/
def next_use_in : List BuildCall → Int → Int → Int
  | [], _, _ => INT_MAX
  | c :: rest, p, r =>
    if c.uses r then p else if c.defines r then INT_MAX else next_use_in rest (p + 1) r

/-- The operands ir_rename stamps on a node, in stamping order. -/
def stamped_ops (n : IRNode) : List IROperand :=
  (stamped_slots n.opcode).map n.get

/-- The operands ir_rename stamps on a block, in the order of the backward
walk: last node first, and within a node the definition slot, then the use
slots in slot order. -/
def stamps (out : List IRNode) : List IROperand :=
  out.reverse.flatMap stamped_ops

/-- Keep the first occurrence of every value of a list, in order. -/
def first_occurrences : List Int → List Int
  | [] => []
  | x :: xs => x :: (first_occurrences xs).filter (fun y => decide (y ≠ x))

/-- The list `0, 1, ..., k-1` of the first `k` virtual register ids. -/
def ids_below (k : Int) : List Int :=
  List.map (fun i : Nat => (i : Int)) (List.range k.toNat)

/-- The worked scenario of the specification:
`loadI 5 => r1 ; add r1, r1 => r2 ; store r2 => r3`. -/
def worked_block : List BuildCall :=
  [ { op := IROpcode.IR_LOADI, line := 1, nops := 2, args := [5, 1] },
    { op := IROpcode.IR_ADD, line := 2, nops := 3, args := [1, 1, 2] },
    { op := IROpcode.IR_STORE, line := 3, nops := 2, args := [2, 3] } ]

/-- The one-instruction block `add r1, r2 => r3`. -/
def add_block : List BuildCall :=
  [ { op := IROpcode.IR_ADD, line := 1, nops := 3, args := [1, 2, 3] } ]

/-- The block `loadI 5 => r1 ; output 1`. -/
def loadI_output_block : List BuildCall :=
  [ { op := IROpcode.IR_LOADI, line := 1, nops := 2, args := [5, 1] },
    { op := IROpcode.IR_OUTPUT, line := 2, nops := 1, args := [1] } ]

/-- The block `loadI 7 => r2 ; output 2`. -/
def dead_def_block : List BuildCall :=
  [ { op := IROpcode.IR_LOADI, line := 1, nops := 2, args := [7, 2] },
    { op := IROpcode.IR_OUTPUT, line := 2, nops := 1, args := [2] } ]

/-- The one-instruction block `output 1`. -/
def output_block : List BuildCall :=
  [ { op := IROpcode.IR_OUTPUT, line := 1, nops := 1, args := [1] } ]

/-- The block `load r1 => r2 ; store r2 => r1 ; add r1, r4 => r5`, in which
`r1` and `r4` are used but never defined. -/
def live_in_block : List BuildCall :=
  [ { op := IROpcode.IR_LOAD, line := 1, nops := 2, args := [1, 2] },
    { op := IROpcode.IR_STORE, line := 2, nops := 2, args := [2, 1] },
    { op := IROpcode.IR_ADD, line := 3, nops := 3, args := [1, 4, 5] } ]

/-- The three operands of every node of a node sequence. -/
def operands_of (l : List IRNode) : List (IROpcode × IROperand × IROperand × IROperand) :=
  l.map fun n => (n.opcode, n.op1, n.op2, n.op3)

/-- The node sequence and MAXLIVE after building and renaming a block. -/
def renamed_block (fuel : Nat) (s0 : IRState) (calls : List BuildCall) :
    Option (List (IROpcode × IROperand × IROperand × IROperand) × Int) :=
  (build_and_rename fuel s0 calls).bind fun (s, m) =>
  (node_seq fuel s).map fun l => (operands_of l, m)

/-! ## The block as a list: devices for the proofs -/

/-- The value of `max_sr` after the first loop of ir_rename has visited the
given nodes. -/
def scan_max : Int → List IRNode → Int
  | m, [] => m
  | m, n :: rest => scan_max (scan_step n m) rest

/-- The tables and counters at the entry of the backward loop, for a block
with the given nodes. -/
def entry_vars (pre : List IRNode) : RenameVars :=
  { nSR := if scan_max (-1) pre ≥ 0 then scan_max (-1) pre + 1 else 1,
    SRToVR := fun _ => -1, LU := fun _ => INT_MAX,
    vrname := 0, index := (pre.length : Int) - 1, maxlive := 0 }

/-- The backward loop of ir_rename on a block given as the list of its nodes
in program order: the nodes after the first are processed before it. -/
def rename_walk : List IRNode → RenameVars → Option (List IRNode × RenameVars)
  | [], t => some ([], t)
  | n :: rest, t =>
    (rename_walk rest t).bind fun (rest1, t1) =>
    (rename_body n t1).bind fun (n1, t2) => some (n1 :: rest1, t2)

/-- The common first step of tag_def and tag_use: give register `r` a fresh
virtual id when it has none. -/
def mint (t : RenameVars) (r : Int) : RenameVars :=
  if t.SRToVR r < 0 then
    { t with SRToVR := Function.update t.SRToVR r t.vrname, vrname := t.vrname + 1 }
  else t

/-- Apply tag_def (flag true) or tag_use (flag false) to one slot of a node. -/
def tag_slot (e : Bool × Slot) (n : IRNode) (t : RenameVars) : Option (IRNode × RenameVars) :=
  (if e.1 then tag_def (n.get e.2) t else tag_use (n.get e.2) t).map
    fun r => (n.set e.2 r.1, r.2)

/-- Apply tag_def / tag_use to a list of slots, in order. -/
def tag_slots : List (Bool × Slot) → IRNode → RenameVars → Option (IRNode × RenameVars)
  | [], n, t => some (n, t)
  | e :: es, n, t => (tag_slot e n t).bind fun r => tag_slots es r.1 r.2

/-- The slots the first two switches of ir_rename tag for an opcode, in
order, each with the flag `true` for tag_def and `false` for tag_use. -/
def events (op : IROpcode) : List (Bool × Slot) :=
  (if has_def op then [(true, Slot.s3)] else []) ++
    (tagged_use_slots op).map (fun sl => (false, sl))

/-- The end of the loop body of ir_rename: `index--` and the maxlive update. -/
def finish_body (t3 : RenameVars) : RenameVars :=
  if count_live { t3 with index := t3.index - 1 } > t3.maxlive then
    { t3 with index := t3.index - 1, maxlive := count_live { t3 with index := t3.index - 1 } }
  else { t3 with index := t3.index - 1 }

/-- Following `next` from `a` visits the pointers of the list and then
`node_head`. -/
def FwdLinked (s : IRState) : NodePtr → List NodePtr → Prop
  | a, [] => (s.nodes a).next = node_head
  | a, b :: rest => (s.nodes a).next = b ∧ FwdLinked s b rest

/-- Following `prev` from `a` visits the pointers of the list and then
`node_head`. -/
def BwdLinked (s : IRState) : NodePtr → List NodePtr → Prop
  | a, [] => (s.nodes a).prev = node_head
  | a, b :: rest => (s.nodes a).prev = b ∧ BwdLinked s b rest

/-- The node list of the state consists of the cells `ptrs`, in program
order, linked in both directions through the sentinel. -/
def Chain (s : IRState) (ptrs : List NodePtr) : Prop :=
  FwdLinked s node_head ptrs ∧ BwdLinked s node_head ptrs.reverse ∧ ptrs.Nodup ∧
  ∀ p ∈ ptrs, ∃ k i, p = NodePtr.cell k i

/-- The pool bookkeeping is consistent with the cells handed out so far: the
tail pool exists, and every cell in use lies in an allocated pool below its
`next_free`. -/
def PoolInv (s : IRState) (ptrs : List NodePtr) : Prop :=
  ((s.pools pool_head).prev = pool_head ∨
    ∃ k, (s.pools pool_head).prev = PoolPtr.pool k ∧ k < s.npools ∧
      0 ≤ (s.pools (PoolPtr.pool k)).next_free) ∧
  ∀ k i, NodePtr.cell k i ∈ ptrs →
    k < s.npools ∧
    ((s.pools pool_head).prev = PoolPtr.pool k → (i : Int) < (s.pools (PoolPtr.pool k)).next_free)

/-- The part of ir_new_node after the tail pool has been chosen. -/
def new_node_in (s1 : IRState) (tail_pool : PoolPtr) (opcode : IROpcode) (line : Int) :
    Option (IRState × NodePtr) :=
  match tail_pool with
  | PoolPtr.pool k =>
    let i := (s1.pools tail_pool).next_free
    if 0 ≤ i ∧ i < POOL_SIZE then
      let n := NodePtr.cell k i.toNat
      let s2 := s1.setPool tail_pool (fun x => { x with next_free := i + 1 })
      let s3 := s2.setNode n (fun x => { x with line := line })
      let s4 := s3.setNode n (fun x => { x with opcode := opcode })
      let s5 := s4.setNode n (fun x =>
        { x with op1 := unused_operand, op2 := unused_operand, op3 := unused_operand })
      (insert_into_node_list s5 n).map (fun s6 => (s6, n))
    else none
  | _ => none

/-- Two nodes agree on everything but their links. -/
def SamePayload (a b : IRNode) : Prop :=
  a.line = b.line ∧ a.opcode = b.opcode ∧ a.op1 = b.op1 ∧ a.op2 = b.op2 ∧ a.op3 = b.op3

/-- The node that a call of ir_build leaves in the node sequence, up to its
links. -/
def Matches (c : BuildCall) (n : IRNode) : Prop :=
  n.opcode = c.op ∧ n.line = c.line ∧
  ∀ sl, n.get sl = { sr := c.sr sl, vr := -1, pr := -1, nu := -1 }

/-- The table `SRToVR` and the counter `vrname` are consistent: ids in the
table are below the counter, and no two registers share an id. -/
def TInv (t : RenameVars) : Prop :=
  0 ≤ t.vrname ∧ (∀ r, t.SRToVR r < t.vrname) ∧
  (∀ r r1, 0 ≤ t.SRToVR r → t.SRToVR r = t.SRToVR r1 → r = r1)

/-- The virtual id `v` has been handed out and is no longer in the table. -/
def Retired (v : Int) (t : RenameVars) : Prop :=
  0 ≤ v ∧ v < t.vrname ∧ ∀ r, t.SRToVR r ≠ v

/-- The operands stamped on a node, in stamping order, each with the flag
`true` for a definition and `false` for a use. -/
def stamped_events (n : IRNode) : List (Bool × IROperand) :=
  (events n.opcode).map fun e => (e.1, n.get e.2)

/-- The flagged operands stamped on a block, in the order of the backward
walk. -/
def stamp_events (out : List IRNode) : List (Bool × IROperand) :=
  out.reverse.flatMap stamped_events

/-- The invariant of the backward walk that links the table `SRToVR`, the
counter `vrname` and the operands stamped so far. -/
def SInv (t : RenameVars) (S : List (Bool × IROperand)) : Prop :=
  TInv t ∧
  (∀ e ∈ S, 0 ≤ e.2.vr ∧ e.2.vr < t.vrname) ∧
  (∀ e ∈ S, ∀ r, t.SRToVR r = e.2.vr → e.2.sr = r) ∧
  (∀ e ∈ S, ∀ e1 ∈ S, e.2.vr = e1.2.vr → e.2.sr = e1.2.sr) ∧
  (∀ r, 0 ≤ t.SRToVR r → ∃ e ∈ S, e.1 = false ∧ e.2.sr = r ∧ e.2.vr = t.SRToVR r) ∧
  first_occurrences (S.map fun e => e.2.vr) = ids_below t.vrname

/-- The source registers in the slots ir_rename tags as uses, over a block. -/
def use_regs (pre : List IRNode) : List Int :=
  pre.flatMap fun n => (tagged_use_slots n.opcode).map fun sl => (n.get sl).sr

/-- The node defines register `r`. -/
def node_defines (n : IRNode) (r : Int) : Prop :=
  has_def n.opcode = true ∧ (n.get Slot.s3).sr = r

/-- The node has `r` in a slot that ir_rename tags as a use. -/
def node_uses (n : IRNode) (r : Int) : Prop :=
  ∃ sl ∈ tagged_use_slots n.opcode, (n.get sl).sr = r

instance (n : IRNode) (r : Int) : Decidable (node_defines n r) := by
  unfold node_defines; infer_instance

instance (n : IRNode) (r : Int) : Decidable (node_uses n r) := by
  unfold node_uses; infer_instance

/-- The counterpart of `live_in` on nodes, with the uses ir_rename tags. -/
def live_nodes : List IRNode → Int → Prop
  | [], _ => False
  | n :: rest, r => node_uses n r ∨ (¬ node_defines n r ∧ live_nodes rest r)

/-- The counterpart of `next_use_in` on nodes, with the uses ir_rename tags. -/
def next_use_nodes : List IRNode → Int → Int → Int
  | [], _, _ => INT_MAX
  | n :: rest, p, r =>
    if node_uses n r then p else if node_defines n r then INT_MAX
    else next_use_nodes rest (p + 1) r

/-- The state holds the block built by the calls: its node list is the chain
of cells `ptrs`, and the cell of every call holds the node the call made. -/
def Built (s : IRState) (ptrs : List NodePtr) (calls : List BuildCall) : Prop :=
  Chain s ptrs ∧ PoolInv s ptrs ∧ List.Forall₂ (fun c p => Matches c (s.nodes p)) calls ptrs

/-! ## Removal from the lists, and the traversals by pointer -/

/-- The function remove_from_node_list. -/
def remove_from_node_list (s : IRState) (n : NodePtr) : Option IRState :=
  if n = NodePtr.null then none
  else if ((s.nodes n).next = n ∧ (s.nodes n).prev = n) ∨
      ((s.nodes n).next = NodePtr.null ∧ (s.nodes n).prev = NodePtr.null) then some s
  else
    let next_n := (s.nodes n).next
    let prev_n := (s.nodes n).prev
    if prev_n = NodePtr.null ∨ next_n = NodePtr.null then none
    else
      let s1 := s.setNode prev_n (fun x => { x with next := next_n })
      let s2 := s1.setNode next_n (fun x => { x with prev := prev_n })
      let s3 := s2.setNode n (fun x => { x with next := n })
      some (s3.setNode n (fun x => { x with prev := n }))

/-- The function remove_from_pool_list. -/
def remove_from_pool_list (s : IRState) (p : PoolPtr) : Option IRState :=
  if p = PoolPtr.null then none
  else if ((s.pools p).next = p ∧ (s.pools p).prev = p) ∨
      ((s.pools p).next = PoolPtr.null ∧ (s.pools p).prev = PoolPtr.null) then some s
  else
    let next_p := (s.pools p).next
    let prev_p := (s.pools p).prev
    if prev_p = PoolPtr.null ∨ next_p = PoolPtr.null then none
    else
      let s1 := s.setPool prev_p (fun x => { x with next := next_p })
      let s2 := s1.setPool next_p (fun x => { x with prev := prev_p })
      let s3 := s2.setPool p (fun x => { x with next := p })
      some (s3.setPool p (fun x => { x with prev := p }))

/-- The pointers met by the forward traversal `for (n = p; n != node_head;
n = n->next)`, in order (the loop of ir_print and the first loop of
ir_rename). -/
def fwd_ptrs : Nat → IRState → NodePtr → Option (List NodePtr)
  | 0, _, _ => none
  | fuel + 1, s, p =>
    if p = node_head then some []
    else if p = NodePtr.null then none
    else (fwd_ptrs fuel s (s.nodes p).next).map (fun l => p :: l)

/-- The pointers met by the backward traversal `for (p = q; p != node_head;
p = p->prev)`, in order (the second loop of ir_rename). -/
def bwd_ptrs : Nat → IRState → NodePtr → Option (List NodePtr)
  | 0, _, _ => none
  | fuel + 1, s, p =>
    if p = node_head then some []
    else if p = NodePtr.null then none
    else (bwd_ptrs fuel s (s.nodes p).prev).map (fun l => p :: l)

/-- The pointers met by a forward traversal of the pool list, `for (p = q;
p != pool_head; p = p->next)`; the source has no such loop, the function
serves to state what remove_from_pool_list does to the list. -/
def fwd_pools : Nat → IRState → PoolPtr → Option (List PoolPtr)
  | 0, _, _ => none
  | fuel + 1, s, p =>
    if p = pool_head then some []
    else if p = PoolPtr.null then none
    else (fwd_pools fuel s (s.pools p).next).map (fun l => p :: l)

/-- A sequence of calls of ir_build, keeping the handles they return, in
order. -/
def build_handles (s : IRState) : List BuildCall → Option (IRState × List NodePtr)
  | [] => some (s, [])
  | c :: rest =>
    (ir_build s c.op c.line c.nops c.args).bind fun (s1, p) =>
    (build_handles s1 rest).map fun (s2, ps) => (s2, p :: ps)

/-- The call passes at least the variadic arguments that ir_build reads for
its `nops`. -/
def BuildCall.enough_args (c : BuildCall) : Prop :=
  (c.nops = 1 → 1 ≤ c.args.length) ∧ (c.nops = 2 → 2 ≤ c.args.length) ∧
  (c.nops = 3 → 3 ≤ c.args.length)

instance : DecidablePred BuildCall.enough_args := fun c => by
  unfold BuildCall.enough_args; infer_instance

/-- The block `loadI 5 => r1 ; nop`. -/
def loadI_nop_block : List BuildCall :=
  [ { op := IROpcode.IR_LOADI, line := 1, nops := 2, args := [5, 1] },
    { op := IROpcode.IR_NOP, line := 2, nops := 0, args := [] } ]

/-- The block `store r1 => r2 ; output 3`. -/
def store_output_block : List BuildCall :=
  [ { op := IROpcode.IR_STORE, line := 1, nops := 2, args := [1, 2] },
    { op := IROpcode.IR_OUTPUT, line := 2, nops := 1, args := [3] } ]

/-- The node sequence of the block built by the calls, before any renaming. -/
def built_block (fuel : Nat) (s0 : IRState) (calls : List BuildCall) :
    Option (List (IROpcode × IROperand × IROperand × IROperand)) :=
  (build_block s0 calls).bind fun s => (node_seq fuel s).map operands_of

/-! ## Linked lists through a sentinel, for nodes and for pools -/

/-- Following the link `nx` from `a` visits the elements of the list, in
order, and then the sentinel `hd`. -/
def Linked {α : Type} (nx : α → α) (hd : α) : α → List α → Prop
  | a, [] => nx a = hd
  | a, b :: rest => nx a = b ∧ Linked nx hd b rest

/-- The pool list of the state consists of the pools `pl`, in order, linked
in both directions through the sentinel `pool_dummy`. -/
def PoolChain (s : IRState) (pl : List PoolPtr) : Prop :=
  Linked (fun x => (s.pools x).next) pool_head pool_head pl ∧
  Linked (fun x => (s.pools x).prev) pool_head pool_head pl.reverse ∧ pl.Nodup ∧
  ∀ p ∈ pl, p ≠ pool_head ∧ p ≠ PoolPtr.null

/-- The states of the node list reachable from init_node_list by
insert_into_node_list of a node that is not on the list (and is neither the
sentinel nor NULL) and by remove_from_node_list of a node that is on the
list; "on the list" means met by the forward traversal from
`node_head->next`. -/
inductive ListReachable : IRState → Prop
  | init (s0 : IRState) : ListReachable (init_node_list s0)
  | insert (s s1 : IRState) (n : NodePtr) (l : List NodePtr) (fuel : Nat) :
      ListReachable s → fwd_ptrs fuel s (s.nodes node_head).next = some l →
      n ∉ l → n ≠ node_head → n ≠ NodePtr.null →
      insert_into_node_list s n = some s1 → ListReachable s1
  | remove (s s1 : IRState) (n : NodePtr) (l : List NodePtr) (fuel : Nat) :
      ListReachable s → fwd_ptrs fuel s (s.nodes node_head).next = some l →
      n ∈ l → remove_from_node_list s n = some s1 → ListReachable s1

/-- The node list after `init_node_list` on the zeroed memory and the
insertion of the cell `&pool_0->nodes[0]`. -/
def list_state_a : IRState :=
  (insert_into_node_list (init_node_list start_state) (NodePtr.cell 0 0)).getD start_state

/-- The node list of `list_state_a` after the insertion of the cell
`&pool_0->nodes[1]`. -/
def list_state_b : IRState :=
  (insert_into_node_list list_state_a (NodePtr.cell 0 1)).getD start_state

/-- The node list of `list_state_b` after the removal of the cell
`&pool_0->nodes[0]`. -/
def list_state_c : IRState :=
  (remove_from_node_list list_state_b (NodePtr.cell 0 0)).getD start_state

/-- The state after building the block `loadI 5 => r1 ; nop` on the zeroed
memory: two nodes in one pool. -/
def two_node_state : IRState :=
  (build_block start_state loadI_nop_block).getD start_state

/-! ## The parser (`parser.c`)

Modelling conventions.

* The scanner is seen through get_next_token only. A token stream is the list
  `input` of the tokens it returns, and once the list is exhausted every
  further call returns an end-of-file token; a stream whose end-of-file is not
  sticky is a list with an end-of-file token in the middle. Beside the token,
  a call of get_next_token has one effect the parser and main can see:
  report_error of scanner.c sets the global `error_flag` when the call meets
  an invalid word (and returns an ordinary end-of-line token). The list `lex`
  says, for each call yet to come, whether it reports such a lexical error.
* Of the output, the text written to stdout is kept (`out`: the line
  `Unexpected token type ..` of the default case of parse_program); the
  diagnostics on stderr are left out.
* `opCount++` is assumed not to overflow.
* The loop of parse_program takes a fuel argument; the loop of parse_errorf is
  a recursion on the tokens yet to come.
-/

/-- The enum TokenType of scanner.h. -/
inductive TokenType where
  | TOK_MEMOP
  | TOK_LOADI
  | TOK_ARITHOP
  | TOK_OUTPUT
  | TOK_NOP
  | TOK_CONST
  | TOK_REG
  | TOK_COMMA
  | TOK_INTO
  | TOK_EOF
  | TOK_EOL
  | TOK_ERR
  deriving DecidableEq

/-- The struct Token of scanner.h. -/
structure Token where
  type : TokenType
  value : Int
  line : Int
  deriving DecidableEq

/-- The enum ArithOpCode of scanner.h. -/
def ARITH_ADD : Int := 0
/-- See `ARITH_ADD`. -/
def ARITH_SUB : Int := 1
/-- See `ARITH_ADD`. -/
def ARITH_MULT : Int := 2
/-- See `ARITH_ADD`. -/
def ARITH_LSHIFT : Int := 3
/-- See `ARITH_ADD`. -/
def ARITH_RSHIFT : Int := 4

/-- The enum MemOpCode of scanner.h. -/
def LOAD : Int := 0
/-- See `LOAD`. -/
def STORE : Int := 1

/-- The token the scanner returns when its input is exhausted, and at every
call after that. -/
def eof_token : Token := { type := TokenType.TOK_EOF, value := 0, line := 0 }

/-- The conversion `%d` of printf. -/
def fmt_d (n : Int) : String := toString n

/-- The token a call of get_next_token returns, and the tokens left: the
tokens of the stream one by one, and end-of-file once the stream is
exhausted. -/
def pop_token : List Token → Token × List Token
  | [] => (eof_token, [])
  | t :: rest => (t, rest)

/-- The value of `error_flag` after a call of get_next_token: report_error
sets it to 1 when the call reports a lexical error (the head of `lex`),
otherwise it keeps its value. -/
def lex_flag (lex : List Bool) (flag : Int) : Int :=
  if lex.head? = some true then 1 else flag

/-- The number `%d` prints for a token type: its position in the enum
TokenType of scanner.h. -/
def token_code : TokenType → Int
  | TokenType.TOK_MEMOP => 0
  | TokenType.TOK_LOADI => 1
  | TokenType.TOK_ARITHOP => 2
  | TokenType.TOK_OUTPUT => 3
  | TokenType.TOK_NOP => 4
  | TokenType.TOK_CONST => 5
  | TokenType.TOK_REG => 6
  | TokenType.TOK_COMMA => 7
  | TokenType.TOK_INTO => 8
  | TokenType.TOK_EOF => 9
  | TokenType.TOK_EOL => 10
  | TokenType.TOK_ERR => 11

/-- The state of the parser: the statics `word`, `opCount` and `tb[3]` of
parser.c, the global `error_flag` of main.c, the tokens the scanner has yet to
return (`input`) with the lexical errors it has yet to report (`lex`), the
text written to stdout so far, and the state of ir.c. -/
structure ParserState where
  word : Token
  opCount : Int
  tb0 : Token
  tb1 : Token
  tb2 : Token
  error_flag : Int
  input : List Token
  lex : List Bool
  out : String
  ir : IRState

/-- The function get_next_token as the parser sees it: it returns the next
token of the stream, and it sets `error_flag` when it reports a lexical
error. -/
def get_next_token (st : ParserState) : Token × ParserState :=
  ((pop_token st.input).1,
    { st with input := (pop_token st.input).2, error_flag := lex_flag st.lex st.error_flag,
              lex := st.lex.tail })

/-- The value of `error_flag` after the next `k` calls of get_next_token. -/
def lex_flags : Nat → List Bool → Int → Int
  | 0, _, flag => flag
  | k + 1, lex, flag => lex_flags k lex.tail (lex_flag lex flag)

/-- The lexical errors still to come after the next `k` calls of
get_next_token. -/
def lex_rest : Nat → List Bool → List Bool
  | 0, lex => lex
  | k + 1, lex => lex_rest k lex.tail

/-- The scanner reports no lexical error from this state on. -/
def NoLex (st : ParserState) : Prop := ∀ b ∈ st.lex, b = false

instance (st : ParserState) : Decidable (NoLex st) := by unfold NoLex; infer_instance

/-- The assignment `word = get_next_token();`. -/
def next_word (st : ParserState) : ParserState :=
  { (get_next_token st).2 with word := (get_next_token st).1 }

/-- The loop of parse_errorf, `while (word.type != TOK_EOL && word.type !=
TOK_EOF) word = get_next_token();`, on the current `word` and the tokens yet
to come. -/
def flush_line : Token → List Token → Token × List Token
  | w, [] =>
    if w.type = TokenType.TOK_EOL ∨ w.type = TokenType.TOK_EOF then (w, []) else (eof_token, [])
  | w, t :: rest =>
    if w.type = TokenType.TOK_EOL ∨ w.type = TokenType.TOK_EOF then (w, t :: rest)
    else flush_line t rest

/-- The number of calls of get_next_token the loop of parse_errorf makes, on
the current `word` and the tokens yet to come. -/
def flush_calls : Token → List Token → Nat
  | w, [] => if w.type = TokenType.TOK_EOL ∨ w.type = TokenType.TOK_EOF then 0 else 1
  | w, t :: rest =>
    if w.type = TokenType.TOK_EOL ∨ w.type = TokenType.TOK_EOF then 0
    else flush_calls t rest + 1

/-- The function parse_errorf without its output to stderr: set `error_flag`
and skip to the end of the line. The calls of get_next_token of its loop run
after `error_flag = 1`, so the flag is 1 at the end whether or not they
report lexical errors. -/
def parse_errorf (st : ParserState) : ParserState :=
  { st with error_flag := 1, word := (flush_line st.word st.input).1,
            input := (flush_line st.word st.input).2,
            lex := st.lex.drop (flush_calls st.word st.input) }

/-- The call `ir_build(...); opCount++;` at the end of a finish function. -/
def build_and_count (st : ParserState) (op : IROpcode) (line : Int) (nops : Int)
    (args : List Int) : Option ParserState :=
  (ir_build st.ir op line nops args).map fun r =>
    { st with ir := r.1, opCount := st.opCount + 1 }

/-- The function finish_memop. -/
def finish_memop (first : Token) (line : Int) (st0 : ParserState) : Option ParserState :=
  let st1 := next_word st0
  if st1.word.type ≠ TokenType.TOK_REG then some (parse_errorf st1)
  else
    let st2 := next_word { st1 with tb0 := st1.word }
    if st2.word.type ≠ TokenType.TOK_INTO then some (parse_errorf st2)
    else
      let st3 := next_word st2
      if st3.word.type ≠ TokenType.TOK_REG then some (parse_errorf st3)
      else
        let st4 := next_word { st3 with tb1 := st3.word }
        if st4.word.type ≠ TokenType.TOK_EOL ∧ st4.word.type ≠ TokenType.TOK_EOF then
          some (parse_errorf st4)
        else if first.value = LOAD then
          build_and_count st4 IROpcode.IR_LOAD line 2 [st4.tb0.value, st4.tb1.value]
        else if first.value = STORE then
          build_and_count st4 IROpcode.IR_STORE line 2 [st4.tb0.value, st4.tb1.value]
        else some (parse_errorf st4)

/-- The function finish_loadI. -/
def finish_loadI (line : Int) (st0 : ParserState) : Option ParserState :=
  let st1 := next_word st0
  if st1.word.type ≠ TokenType.TOK_CONST then some (parse_errorf st1)
  else
    let st2 := next_word { st1 with tb0 := st1.word }
    if st2.word.type ≠ TokenType.TOK_INTO then some (parse_errorf st2)
    else
      let st3 := next_word st2
      if st3.word.type ≠ TokenType.TOK_REG then some (parse_errorf st3)
      else
        let st4 := next_word { st3 with tb1 := st3.word }
        if st4.word.type ≠ TokenType.TOK_EOL ∧ st4.word.type ≠ TokenType.TOK_EOF then
          some (parse_errorf st4)
        else
          build_and_count st4 IROpcode.IR_LOADI line 2 [st4.tb0.value, st4.tb1.value]

/-- The function finish_arithop. -/
def finish_arithop (first : Token) (line : Int) (st0 : ParserState) : Option ParserState :=
  let st1 := next_word st0
  if st1.word.type ≠ TokenType.TOK_REG then some (parse_errorf st1)
  else
    let st2 := next_word { st1 with tb0 := st1.word }
    if st2.word.type ≠ TokenType.TOK_COMMA then some (parse_errorf st2)
    else
      let st3 := next_word st2
      if st3.word.type ≠ TokenType.TOK_REG then some (parse_errorf st3)
      else
        let st4 := next_word { st3 with tb1 := st3.word }
        if st4.word.type ≠ TokenType.TOK_INTO then some (parse_errorf st4)
        else
          let st5 := next_word st4
          if st5.word.type ≠ TokenType.TOK_REG then some (parse_errorf st5)
          else
            let st6 := next_word { st5 with tb2 := st5.word }
            if st6.word.type ≠ TokenType.TOK_EOL ∧ st6.word.type ≠ TokenType.TOK_EOF then
              some (parse_errorf st6)
            else
              let args := [st6.tb0.value, st6.tb1.value, st6.tb2.value]
              if first.value = ARITH_ADD then build_and_count st6 IROpcode.IR_ADD line 3 args
              else if first.value = ARITH_SUB then
                build_and_count st6 IROpcode.IR_SUB line 3 args
              else if first.value = ARITH_MULT then
                build_and_count st6 IROpcode.IR_MULT line 3 args
              else if first.value = ARITH_LSHIFT then
                build_and_count st6 IROpcode.IR_LSHIFT line 3 args
              else if first.value = ARITH_RSHIFT then
                build_and_count st6 IROpcode.IR_RSHIFT line 3 args
              else some (parse_errorf st6)

/-- The function finish_output. -/
def finish_output (line : Int) (st0 : ParserState) : Option ParserState :=
  let st1 := next_word st0
  if st1.word.type ≠ TokenType.TOK_CONST then some (parse_errorf st1)
  else
    let st2 := next_word { st1 with tb0 := st1.word }
    if st2.word.type ≠ TokenType.TOK_EOL ∧ st2.word.type ≠ TokenType.TOK_EOF then
      some (parse_errorf st2)
    else build_and_count st2 IROpcode.IR_OUTPUT line 1 [st2.tb0.value]

/-- The function finish_nop. Its `word` is a local variable that shadows the
static one: the token it reads does not reach the static `word`, which
parse_errorf flushes on. -/
def finish_nop (line : Int) (st0 : ParserState) : Option ParserState :=
  let local_word := (get_next_token st0).1
  let st1 := (get_next_token st0).2
  if local_word.type ≠ TokenType.TOK_EOL ∧ local_word.type ≠ TokenType.TOK_EOF then
    some (parse_errorf st1)
  else build_and_count st1 IROpcode.IR_NOP line 0 []

/-- The text `printf("Unexpected token type %d at line %d\n", word.type,
line)` writes in the default case of parse_program. -/
def unexpected_text (word : Token) (line : Int) : String :=
  "Unexpected token type " ++ fmt_d (token_code word.type) ++ " at line " ++ fmt_d line ++ "\n"

/-- The body of the loop of parse_program: the switch on `word.type`, then
`word = get_next_token();`. -/
def parse_step (st : ParserState) : Option ParserState :=
  let line := st.word.line
  (match st.word.type with
    | TokenType.TOK_MEMOP => finish_memop st.word line st
    | TokenType.TOK_LOADI => finish_loadI line st
    | TokenType.TOK_ARITHOP => finish_arithop st.word line st
    | TokenType.TOK_OUTPUT => finish_output line st
    | TokenType.TOK_NOP => finish_nop line st
    | TokenType.TOK_EOL => some st
    | _ => some (parse_errorf { st with out := st.out ++ unexpected_text st.word line })).map
    next_word

/-- The loop `while (word.type != TOK_EOF)` of parse_program. -/
def parse_loop : Nat → ParserState → Option ParserState
  | 0, _ => none
  | fuel + 1, st =>
    if st.word.type = TokenType.TOK_EOF then some st
    else (parse_step st).bind fun st1 => parse_loop fuel st1

/-- The function parse_program; returns the final state and the value
written to `*count`. -/
def parse_program (fuel : Nat) (st : ParserState) : Option (ParserState × Int) :=
  (parse_loop fuel (next_word { st with opCount := 0 })).map fun st1 => (st1, st1.opCount)

/-- The state in which main calls parse_program: the statics of parser.c
zero-initialised, `error_flag = 0`, the scanner at the start of the token
stream `toks`, on which it will report the lexical errors `errs`, nothing
written yet, and the lists of ir.c initialised on the memory `s0`. -/
def parser_start (toks : List Token) (errs : List Bool) (s0 : IRState) : ParserState :=
  { word := { type := TokenType.TOK_MEMOP, value := 0, line := 0 },
    opCount := 0,
    tb0 := { type := TokenType.TOK_MEMOP, value := 0, line := 0 },
    tb1 := { type := TokenType.TOK_MEMOP, value := 0, line := 0 },
    tb2 := { type := TokenType.TOK_MEMOP, value := 0, line := 0 },
    error_flag := 0,
    input := toks,
    lex := errs,
    out := "",
    ir := init_node_list (init_pool_list s0) }

/-! ## Vocabulary of the specification for the parser -/

/-- The slots the opcode-to-slot table of the specification marks unused. -/
def slot_unused : IROpcode → Slot → Bool
  | IROpcode.IR_LOAD, Slot.s2 => true
  | IROpcode.IR_LOADI, Slot.s2 => true
  | IROpcode.IR_STORE, Slot.s2 => true
  | IROpcode.IR_OUTPUT, Slot.s2 => true
  | IROpcode.IR_OUTPUT, Slot.s3 => true
  | IROpcode.IR_NOP, _ => true
  | _, _ => false

/-- The `source_id` of a slot is -1 exactly when the table marks the slot
unused for the opcode of the node. -/
def NodeOK (n : IRNode) : Prop :=
  ∀ sl, (n.get sl).sr = -1 ↔ slot_unused n.opcode sl = true

/-- The values of CONST and REG tokens are non-negative. -/
def TokOK (t : Token) : Prop :=
  (t.type = TokenType.TOK_CONST ∨ t.type = TokenType.TOK_REG) → 0 ≤ t.value

instance : DecidablePred TokOK := fun t => by unfold TokOK; infer_instance

/-- The IR opcode of an arithmetic mnemonic (the value of an ARITHOP
token). -/
def arith_opcode (v : Int) : Option IROpcode :=
  if v = ARITH_ADD then some IROpcode.IR_ADD
  else if v = ARITH_SUB then some IROpcode.IR_SUB
  else if v = ARITH_MULT then some IROpcode.IR_MULT
  else if v = ARITH_LSHIFT then some IROpcode.IR_LSHIFT
  else if v = ARITH_RSHIFT then some IROpcode.IR_RSHIFT
  else none

/-- The tokens of one well-formed statement, without its end-of-line, and
the node it stands for, given as the call of ir_build that makes it: the
opcode, the line of the opcode token, and the operand values in order. -/
inductive StmtTokens : List Token → BuildCall → Prop
  | load (op r1 into r2 : Token) :
      op.type = TokenType.TOK_MEMOP → op.value = LOAD → r1.type = TokenType.TOK_REG →
      into.type = TokenType.TOK_INTO → r2.type = TokenType.TOK_REG →
      StmtTokens [op, r1, into, r2]
        { op := IROpcode.IR_LOAD, line := op.line, nops := 2, args := [r1.value, r2.value] }
  | store (op r1 into r2 : Token) :
      op.type = TokenType.TOK_MEMOP → op.value = STORE → r1.type = TokenType.TOK_REG →
      into.type = TokenType.TOK_INTO → r2.type = TokenType.TOK_REG →
      StmtTokens [op, r1, into, r2]
        { op := IROpcode.IR_STORE, line := op.line, nops := 2, args := [r1.value, r2.value] }
  | loadI (op c into r : Token) :
      op.type = TokenType.TOK_LOADI → c.type = TokenType.TOK_CONST →
      into.type = TokenType.TOK_INTO → r.type = TokenType.TOK_REG →
      StmtTokens [op, c, into, r]
        { op := IROpcode.IR_LOADI, line := op.line, nops := 2, args := [c.value, r.value] }
  | arith (op r1 comma r2 into r3 : Token) (ir : IROpcode) :
      op.type = TokenType.TOK_ARITHOP → arith_opcode op.value = some ir →
      r1.type = TokenType.TOK_REG → comma.type = TokenType.TOK_COMMA →
      r2.type = TokenType.TOK_REG → into.type = TokenType.TOK_INTO →
      r3.type = TokenType.TOK_REG →
      StmtTokens [op, r1, comma, r2, into, r3]
        { op := ir, line := op.line, nops := 3, args := [r1.value, r2.value, r3.value] }
  | output (op c : Token) :
      op.type = TokenType.TOK_OUTPUT → c.type = TokenType.TOK_CONST →
      StmtTokens [op, c]
        { op := IROpcode.IR_OUTPUT, line := op.line, nops := 1, args := [c.value] }
  | nop (op : Token) :
      op.type = TokenType.TOK_NOP →
      StmtTokens [op] { op := IROpcode.IR_NOP, line := op.line, nops := 0, args := [] }

/-- A token stream that consists of well-formed statements only, with the
nodes it stands for, in order: blank lines are allowed, every statement is
followed by an end-of-line or, the last one, by the end of the file, and
after the first end-of-file token every token is an end-of-file. -/
inductive WellFormed : List Token → List BuildCall → Prop
  | done (rest : List Token) :
      (∀ t ∈ rest, t.type = TokenType.TOK_EOF) → WellFormed rest []
  | blank (eol : Token) (rest : List Token) (calls : List BuildCall) :
      eol.type = TokenType.TOK_EOL → WellFormed rest calls → WellFormed (eol :: rest) calls
  | stmt (ts : List Token) (c : BuildCall) (eol : Token) (rest : List Token)
      (calls : List BuildCall) :
      StmtTokens ts c → eol.type = TokenType.TOK_EOL → WellFormed rest calls →
      WellFormed (ts ++ eol :: rest) (c :: calls)
  | last (ts : List Token) (c : BuildCall) (rest : List Token) :
      StmtTokens ts c → (∀ t ∈ rest, t.type = TokenType.TOK_EOF) →
      WellFormed (ts ++ rest) [c]

/-- The node list and the pool bookkeeping are well linked, and every node
of the list satisfies `NodeOK`. -/
def NodesOK (s : IRState) : Prop :=
  ∃ ptrs, Chain s ptrs ∧ PoolInv s ptrs ∧ ∀ p ∈ ptrs, NodeOK (s.nodes p)

/-- The call of ir_build fills exactly the slots that the table marks as
used for its opcode, with values other than -1. -/
def CallOK (c : BuildCall) : Prop :=
  c.enough_args ∧ ∀ sl, c.sr sl = -1 ↔ slot_unused c.op sl = true

/-- The tokens of `loadI 5 => r1`, `nop r3` (a syntax error), `output 2` and
`add r1, r1 => r2`, each on a line of its own, the last one ended by the end
of the file. -/
def sample_tokens : List Token :=
  [ ⟨TokenType.TOK_LOADI, 0, 1⟩, ⟨TokenType.TOK_CONST, 5, 1⟩, ⟨TokenType.TOK_INTO, 0, 1⟩,
    ⟨TokenType.TOK_REG, 1, 1⟩, ⟨TokenType.TOK_EOL, 0, 1⟩,
    ⟨TokenType.TOK_NOP, 0, 2⟩, ⟨TokenType.TOK_REG, 3, 2⟩, ⟨TokenType.TOK_EOL, 0, 2⟩,
    ⟨TokenType.TOK_OUTPUT, 0, 3⟩, ⟨TokenType.TOK_CONST, 2, 3⟩, ⟨TokenType.TOK_EOL, 0, 3⟩,
    ⟨TokenType.TOK_ARITHOP, 0, 4⟩, ⟨TokenType.TOK_REG, 1, 4⟩, ⟨TokenType.TOK_COMMA, 0, 4⟩,
    ⟨TokenType.TOK_REG, 1, 4⟩, ⟨TokenType.TOK_INTO, 0, 4⟩, ⟨TokenType.TOK_REG, 2, 4⟩ ]

/-- The tokens of the well-formed program `load r1 => r2`, a blank line,
`nop`, `store r2 => r1` ended by the end of the file. -/
def program_tokens : List Token :=
  [ ⟨TokenType.TOK_MEMOP, 0, 1⟩, ⟨TokenType.TOK_REG, 1, 1⟩, ⟨TokenType.TOK_INTO, 0, 1⟩,
    ⟨TokenType.TOK_REG, 2, 1⟩, ⟨TokenType.TOK_EOL, 0, 1⟩,
    ⟨TokenType.TOK_EOL, 0, 2⟩,
    ⟨TokenType.TOK_NOP, 0, 3⟩, ⟨TokenType.TOK_EOL, 0, 3⟩,
    ⟨TokenType.TOK_MEMOP, 1, 4⟩, ⟨TokenType.TOK_REG, 2, 4⟩, ⟨TokenType.TOK_INTO, 0, 4⟩,
    ⟨TokenType.TOK_REG, 1, 4⟩, ⟨TokenType.TOK_EOF, 0, 4⟩ ]

/-- The nodes `program_tokens` stands for. -/
def program_calls : List BuildCall :=
  [ { op := IROpcode.IR_LOAD, line := 1, nops := 2, args := [1, 2] },
    { op := IROpcode.IR_NOP, line := 3, nops := 0, args := [] },
    { op := IROpcode.IR_STORE, line := 4, nops := 2, args := [2, 1] } ]

/-! ## The printer (`ir_print`)

Modelling conventions.

* The text written to stdout is a `String`; the conversion `%d` of printf on
  an int is the decimal numeral, with a minus sign for a negative value.
* ir_print and print_operand assign to no field of a node or of a pool (the
  only variable ir_print assigns is its cursor `n`), so their models return
  the text only: the state after the call is the state before it.
-/

/-- The function print_operand of src/ir.c; returns the text it writes. -/
def print_operand (op : IROperand) (is_const : Bool) : String :=
  if op.sr = -1 then "[ ]"
  else if is_const then "[ val " ++ fmt_d op.sr ++ " ]"
  else if op.nu = INT_MAX then
    "[ sr" ++ fmt_d op.sr ++ " vr" ++ fmt_d op.vr ++ " nu=-1 ]"
  else "[ sr" ++ fmt_d op.sr ++ " vr" ++ fmt_d op.vr ++ " nu=" ++ fmt_d op.nu ++ " ]"

/-- The function print_operand of src/scripts/ir.c, the earlier copy of the
printer that the program does not link. -/
def print_operand_scripts (op : IROperand) (is_const : Bool) : String :=
  if op.sr ≠ -1 then
    if is_const then "[ val " ++ fmt_d op.sr ++ " ]" else "[ sr" ++ fmt_d op.sr ++ " ]"
  else "[ ]"

/-- The first switch of the loop body of ir_print: the mnemonic and a tab. -/
def print_opcode : IROpcode → String
  | IROpcode.IR_LOAD => "load\t"
  | IROpcode.IR_LOADI => "loadI\t"
  | IROpcode.IR_STORE => "store\t"
  | IROpcode.IR_ADD => "add\t"
  | IROpcode.IR_SUB => "sub\t"
  | IROpcode.IR_MULT => "mult\t"
  | IROpcode.IR_LSHIFT => "lshift\t"
  | IROpcode.IR_RSHIFT => "rshift\t"
  | IROpcode.IR_OUTPUT => "output\t"
  | IROpcode.IR_NOP => "nop\t"

/-- The second switch of the loop body of ir_print: the three operands,
the first one as a constant for LoadI and Output. -/
def print_operands (n : IRNode) : String :=
  match n.opcode with
  | IROpcode.IR_LOADI =>
    print_operand n.op1 true ++ ", " ++ print_operand n.op2 false ++ ", " ++
      print_operand n.op3 false ++ "\n"
  | IROpcode.IR_OUTPUT =>
    print_operand n.op1 true ++ ", " ++ print_operand n.op2 false ++ ", " ++
      print_operand n.op3 false ++ "\n"
  | _ =>
    print_operand n.op1 false ++ ", " ++ print_operand n.op2 false ++ ", " ++
      print_operand n.op3 false ++ "\n"

/-- The loop body of ir_print on the node `*n`. -/
def print_node (n : IRNode) : String :=
  print_opcode n.opcode ++ print_operands n

/-- The loop of ir_print from node `p` on; returns the text it writes. -/
def print_loop : Nat → IRState → NodePtr → Option String
  | 0, _, _ => none
  | fuel + 1, s, p =>
    if p = node_head then some ""
    else if p = NodePtr.null then none
    else (print_loop fuel s (s.nodes p).next).map (fun rest => print_node (s.nodes p) ++ rest)

/-- The function ir_print; returns the text it writes. -/
def ir_print (fuel : Nat) (s : IRState) : Option String :=
  print_loop fuel s (s.nodes node_head).next

/-- Two calls of ir_print in a row; returns the two texts. -/
def ir_print_twice (fuel : Nat) (s : IRState) : Option (String × String) :=
  (ir_print fuel s).bind fun a => (ir_print fuel s).map fun b => (a, b)

/-- The concatenation of a list of texts, in order. -/
def concat_lines : List String → String
  | [] => ""
  | x :: rest => x ++ concat_lines rest

/-- The text the loop body of ir_print writes for the nodes of a list, in
order. -/
def text_of (l : List IRNode) : String :=
  concat_lines (l.map print_node)

/-- The text the loop body of ir_print writes for a node with the given
opcode and operands. -/
def print_ops (x : IROpcode × IROperand × IROperand × IROperand) : String :=
  print_node { line := 0, opcode := x.1, op1 := x.2.1, op2 := x.2.2.1, op3 := x.2.2.2,
               prev := NodePtr.null, next := NodePtr.null }

/-! ### The line format, in the words of the specification -/

/-- The mnemonic of an opcode. -/
def mnemonic : IROpcode → String
  | IROpcode.IR_LOAD => "load"
  | IROpcode.IR_LOADI => "loadI"
  | IROpcode.IR_STORE => "store"
  | IROpcode.IR_ADD => "add"
  | IROpcode.IR_SUB => "sub"
  | IROpcode.IR_MULT => "mult"
  | IROpcode.IR_LSHIFT => "lshift"
  | IROpcode.IR_RSHIFT => "rshift"
  | IROpcode.IR_OUTPUT => "output"
  | IROpcode.IR_NOP => "nop"

/-- The literal slots of the slot-role table: slot 1 of LoadI and of
Output. -/
def literal_slot (op : IROpcode) (sl : Slot) : Bool :=
  (op = IROpcode.IR_LOADI ∨ op = IROpcode.IR_OUTPUT) ∧ sl = Slot.s1

/-- The rendering of a slot after renaming, in the words of the
specification: a literal slot is `[ val N ]`, a slot with source_id -1 is
`[ ]`, every other slot is `[ srN vrM nu=K ]` with K = -1 for the infinity
sentinel and K = next_use otherwise. -/
def slot_text (op : IROpcode) (sl : Slot) (o : IROperand) : String :=
  if literal_slot op sl then "[ val " ++ fmt_d o.sr ++ " ]"
  else if o.sr = -1 then "[ ]"
  else "[ sr" ++ fmt_d o.sr ++ " vr" ++ fmt_d o.vr ++ " nu=" ++
    fmt_d (if o.nu = INT_MAX then -1 else o.nu) ++ " ]"

/-- The line of a node, in the words of the specification:
`<mnemonic>\t<slot1>, <slot2>, <slot3>\n`. -/
def line_text (n : IRNode) : String :=
  mnemonic n.opcode ++ "\t" ++ slot_text n.opcode Slot.s1 n.op1 ++ ", " ++
    slot_text n.opcode Slot.s2 n.op2 ++ ", " ++ slot_text n.opcode Slot.s3 n.op3 ++ "\n"

/-- The rendering of a register slot before renaming, in the words of the
specification: `[ srN ]`. -/
def unrenamed_slot_text (o : IROperand) : String :=
  "[ sr" ++ fmt_d o.sr ++ " ]"

/-- The one-instruction block `load r1 => r2`. -/
def load_block : List BuildCall :=
  [ { op := IROpcode.IR_LOAD, line := 1, nops := 2, args := [1, 2] } ]

/-- The text ir_print writes for the block built by the calls, before any
renaming (the mode `-r`). -/
def printed_block (fuel : Nat) (s0 : IRState) (calls : List BuildCall) : Option String :=
  (build_block s0 calls).bind fun s => ir_print fuel s

/-- The text ir_print writes for the block built by the calls after
ir_rename has run on it (the mode `-x`). -/
def printed_renamed_block (fuel : Nat) (s0 : IRState) (calls : List BuildCall) :
    Option String :=
  (build_and_rename fuel s0 calls).bind fun r => ir_print fuel r.1

/-! ## Vocabulary for the tables of the renamer -/

/-- The table size `nSR` that ir_rename computes for the block built by the
calls. -/
def table_size (fuel : Nat) (s0 : IRState) (calls : List BuildCall) : Option Int :=
  (build_block s0 calls).bind fun s => (rename_entry fuel s).map fun t => t.nSR

/-- The table size in the words of the specification: 1 + the maximum
source_id over the register-role (definition or use) slots of the block. -/
def register_role_size (calls : List BuildCall) : Int :=
  1 + (referenced_regs calls).foldr max (-1)

/-- The one-instruction block `loadI 9 => r1`. -/
def loadI_block : List BuildCall :=
  [ { op := IROpcode.IR_LOADI, line := 1, nops := 2, args := [9, 1] } ]

/-- The block `add r1, r1 => r1 ; store r1 => r2`. -/
def add_same_block : List BuildCall :=
  [ { op := IROpcode.IR_ADD, line := 1, nops := 3, args := [1, 1, 1] },
    { op := IROpcode.IR_STORE, line := 2, nops := 2, args := [1, 2] } ]

/-- The block `load r1 => r2 ; add r2, r2 => r2 ; store r2 => r1`. -/
def redefine_block : List BuildCall :=
  [ { op := IROpcode.IR_LOAD, line := 1, nops := 2, args := [1, 2] },
    { op := IROpcode.IR_ADD, line := 2, nops := 3, args := [2, 2, 2] },
    { op := IROpcode.IR_STORE, line := 3, nops := 2, args := [2, 1] } ]

/-! ## Vocabulary for the arena -/

/-- A sequence of calls of ir_new_node with the given opcodes and lines,
keeping the nodes they return, in order. -/
def new_nodes (s : IRState) : List (IROpcode × Int) → Option (IRState × List NodePtr)
  | [] => some (s, [])
  | r :: rest =>
    (ir_new_node s r.1 r.2).bind fun (s1, p) =>
    (new_nodes s1 rest).map fun (s2, ps) => (s2, p :: ps)

/-- The pools number `base`, `base + 1`, .. handed out by malloc, `count` of
them, in creation order. -/
def pools_from (base count : Nat) : List PoolPtr :=
  (List.range count).map fun k => PoolPtr.pool (base + k)

/-- The first `n` cells of the pools number `base`, `base + 1`, .., each pool
filled up to 2000 cells before the next one is begun. -/
def cells_from (base n : Nat) : List NodePtr :=
  (List.range n).map fun j => NodePtr.cell (base + j / 2000) (j % 2000)

/-- The arena after `n` nodes have been handed out from pools created after
the first `base` ones: there are `ceil(n / 2000)` such pools, linked in
creation order, pool `k` of them has handed out `min 2000 (n - 2000 k)`
cells, and the node list holds the `n` cells in order. -/
def Arena (s : IRState) (base n : Nat) : Prop :=
  s.npools = base + (n + 1999) / 2000 ∧
  PoolChain s (pools_from base ((n + 1999) / 2000)) ∧
  (∀ k, k < (n + 1999) / 2000 →
    (s.pools (PoolPtr.pool (base + k))).next_free = ((min 2000 (n - 2000 * k) : Nat) : Int)) ∧
  Chain s (cells_from base n)

/-! ## The front end (`main.c`)

The branches of main for the flags `-r` and `-x`, after `sb_init(f_in);
init_pool_list(); init_node_list();`. A run is followed through the calls it
makes: every call of ir_rename or ir_print by main goes through `call_ir_rename`
or `call_ir_print`, which runs the pass and enters it in the list `passes`;
`out` is the text on stdout, from the start of parse_program on (the
diagnostics on stderr are left out, as in the model of the parser).
-/

/-- The passes of ir.c that main calls after the parse. -/
inductive Pass where
  | rename
  | print
  deriving DecidableEq

/-- A run of main from the call of parse_program on: the calls of ir_rename
and ir_print made so far, in order, the text written to stdout so far, and
the state of ir.c. -/
structure Run where
  passes : List Pass
  out : String
  ir : IRState

/-- The run when parse_program has returned: no pass called yet. -/
def after_parse_program (st : ParserState) : Run :=
  { passes := [], out := st.out, ir := st.ir }

/-- A call `printf(txt)` by main. -/
def call_printf (txt : String) (r : Run) : Run :=
  { r with out := r.out ++ txt }

/-- The statements `int maxlive = 0; ir_rename(&maxlive);` of main. -/
def call_ir_rename (fuel : Nat) (r : Run) : Option Run :=
  (ir_rename fuel r.ir).map fun x => { r with passes := r.passes ++ [Pass.rename], ir := x.1 }

/-- The statement `ir_print();` of main. -/
def call_ir_print (fuel : Nat) (r : Run) : Option Run :=
  (ir_print fuel r.ir).map fun txt =>
    { r with passes := r.passes ++ [Pass.print], out := r.out ++ txt }

/-- The branch `mode == MODE_PRINT` of main (flag `-r`). -/
def main_MODE_PRINT (fuel : Nat) (st0 : ParserState) : Option Run :=
  (parse_program fuel st0).bind fun (st, count) =>
  if st.error_flag = 0 then
    call_ir_print fuel
      (call_printf ("Parse succeeded. Processed " ++ fmt_d count ++ " operations.\n")
        (after_parse_program st))
  else
    some (call_printf "\nDue to syntax error(s), run terminates.\n" (after_parse_program st))

/-- The branch `mode == MODE_RENAME` of main (flag `-x`). -/
def main_MODE_RENAME (fuel : Nat) (st0 : ParserState) : Option Run :=
  (parse_program fuel st0).bind fun (st, _) =>
  if st.error_flag = 0 then
    (call_ir_rename fuel (after_parse_program st)).bind fun r => call_ir_print fuel r
  else
    some (call_printf "\nDue to syntax error(s), run terminates.\n" (after_parse_program st))

/-- The values of CONST and REG tokens are non-negative and below INT_MAX. -/
def TokRange (t : Token) : Prop :=
  (t.type = TokenType.TOK_CONST ∨ t.type = TokenType.TOK_REG) →
    0 ≤ t.value ∧ t.value < INT_MAX

instance : DecidablePred TokRange := fun t => by unfold TokRange; infer_instance

/-- The state holds a block built by valid calls of ir_build. -/
def ValidIR (s : IRState) : Prop :=
  ∃ ptrs calls, Built s ptrs calls ∧ ∀ c ∈ calls, c.valid

/-! ## Vocabulary of the specification: a statement without its separator -/

/-- The tokens of one statement that is missing its separator, without its
end-of-line: the tokens of a well-formed statement with its `=>` token or its
`,` token taken out. -/
def MissingSep (bad : List Token) : Prop :=
  ∃ ts c sep, StmtTokens ts c ∧ sep ∈ ts ∧
    (sep.type = TokenType.TOK_INTO ∨ sep.type = TokenType.TOK_COMMA) ∧ bad = ts.erase sep

/-- A token stream `toks` in which one statement is missing its separator
and every other statement is well-formed; `toks1` is the stream with the
malformed line replaced by an empty line, and `calls` are the nodes the
well-formed statements stand for, in order. The malformed statement is
followed by an end-of-line or, as the last statement, by the end of the
file. -/
inductive OneMalformed : List Token → List Token → List BuildCall → Prop
  | here (bad : List Token) (eol : Token) (rest : List Token) (calls : List BuildCall) :
      MissingSep bad → eol.type = TokenType.TOK_EOL → WellFormed rest calls →
      OneMalformed (bad ++ eol :: rest) (eol :: rest) calls
  | here_last (bad rest : List Token) :
      MissingSep bad → (∀ t ∈ rest, t.type = TokenType.TOK_EOF) →
      OneMalformed (bad ++ rest) rest []
  | blank (eol : Token) (rest rest1 : List Token) (calls : List BuildCall) :
      eol.type = TokenType.TOK_EOL → OneMalformed rest rest1 calls →
      OneMalformed (eol :: rest) (eol :: rest1) calls
  | stmt (ts : List Token) (c : BuildCall) (eol : Token) (rest rest1 : List Token)
      (calls : List BuildCall) :
      StmtTokens ts c → eol.type = TokenType.TOK_EOL → OneMalformed rest rest1 calls →
      OneMalformed (ts ++ eol :: rest) (ts ++ eol :: rest1) (c :: calls)

/-- The tokens of `load r1 => r2`, `add r2 r2 => r3` (the comma is missing)
and `store r3 => r1`, each on a line of its own. -/
def malformed_tokens : List Token :=
  [ ⟨TokenType.TOK_MEMOP, 0, 1⟩, ⟨TokenType.TOK_REG, 1, 1⟩, ⟨TokenType.TOK_INTO, 0, 1⟩,
    ⟨TokenType.TOK_REG, 2, 1⟩, ⟨TokenType.TOK_EOL, 0, 1⟩,
    ⟨TokenType.TOK_ARITHOP, 0, 2⟩, ⟨TokenType.TOK_REG, 2, 2⟩, ⟨TokenType.TOK_REG, 2, 2⟩,
    ⟨TokenType.TOK_INTO, 0, 2⟩, ⟨TokenType.TOK_REG, 3, 2⟩, ⟨TokenType.TOK_EOL, 0, 2⟩,
    ⟨TokenType.TOK_MEMOP, 1, 3⟩, ⟨TokenType.TOK_REG, 3, 3⟩, ⟨TokenType.TOK_INTO, 0, 3⟩,
    ⟨TokenType.TOK_REG, 1, 3⟩, ⟨TokenType.TOK_EOL, 0, 3⟩ ]

/-- The stream `malformed_tokens` with its second line replaced by an empty
line. -/
def repaired_tokens : List Token :=
  [ ⟨TokenType.TOK_MEMOP, 0, 1⟩, ⟨TokenType.TOK_REG, 1, 1⟩, ⟨TokenType.TOK_INTO, 0, 1⟩,
    ⟨TokenType.TOK_REG, 2, 1⟩, ⟨TokenType.TOK_EOL, 0, 1⟩,
    ⟨TokenType.TOK_EOL, 0, 2⟩,
    ⟨TokenType.TOK_MEMOP, 1, 3⟩, ⟨TokenType.TOK_REG, 3, 3⟩, ⟨TokenType.TOK_INTO, 0, 3⟩,
    ⟨TokenType.TOK_REG, 1, 3⟩, ⟨TokenType.TOK_EOL, 0, 3⟩ ]

/-- The nodes the well-formed lines of `malformed_tokens` stand for. -/
def malformed_calls : List BuildCall :=
  [ { op := IROpcode.IR_LOAD, line := 1, nops := 2, args := [1, 2] },
    { op := IROpcode.IR_STORE, line := 3, nops := 2, args := [3, 1] } ]

/-! ## Vocabulary of the specification: the count of the parser -/

/-- The node list of the parser state is well linked, it consists of the
cells `p0` followed by further cells, and `opCount` is the number of those
further cells. -/
def CountInv (p0 : List NodePtr) (st : ParserState) : Prop :=
  ∃ ps, Chain st.ir (p0 ++ ps) ∧ PoolInv st.ir (p0 ++ ps) ∧ st.opCount = (ps.length : Int)

/-! ## The renamer of src/scripts/ir.c

The file src/scripts/ir.c has its own ir_rename and a printer ir_rename_print;
its node pools, its lists and its ir_build are those of src/ir.c, which the
definitions above embed. Its ir_rename keeps the tables and the counter in
locals, copies the operands of a node into the locals `op1`, `op2`, `op3`, and
contains no assignment through `p`. A table access outside `0 .. maxSR` is
undefined behaviour and gives `none`.
-/

/-- The locals of ir_rename of src/scripts/ir.c: `maxSR` (the tables have
`maxSR + 1` entries), the tables `SRToVR` and `LU`, the counter `VRName` and
`index`. -/
structure Scripts.Locals where
  maxSR : Int
  SRToVR : Int → Int
  LU : Int → Int
  VRName : Int
  index : Int

/-- The statements of the switch "handle use" for one operand, on the local
copy `o`: `if (SRToVR[o.sr] == -1) VRName++; o.vr = SRToVR[o.sr];
o.nu = LU[o.sr]; SRToVR[o.sr] = -1; LU[o.sr] = INT_MAX;`. -/
def Scripts.handle_use (o : IROperand) (t : Scripts.Locals) :
    Option (IROperand × Scripts.Locals) :=
  if 0 ≤ o.sr ∧ o.sr ≤ t.maxSR then
    let t1 : Scripts.Locals :=
      if t.SRToVR o.sr = -1 then { t with VRName := t.VRName + 1 } else t
    let o1 : IROperand := { o with vr := t1.SRToVR o.sr }
    let o2 : IROperand := { o1 with nu := t1.LU o.sr }
    some (o2, { t1 with SRToVR := Function.update t1.SRToVR o.sr (-1),
                        LU := Function.update t1.LU o.sr INT_MAX })
  else none

/-- The statements of the switch "handle define", on the local copy `o`:
`if (SRToVR[o.sr] == -1) VRName++; o.vr = SRToVR[o.sr]; o.nu = LU[o.sr];
LU[o.sr] = index;`. -/
def Scripts.handle_def (o : IROperand) (t : Scripts.Locals) :
    Option (IROperand × Scripts.Locals) :=
  if 0 ≤ o.sr ∧ o.sr ≤ t.maxSR then
    let t1 : Scripts.Locals :=
      if t.SRToVR o.sr = -1 then { t with VRName := t.VRName + 1 } else t
    let o1 : IROperand := { o with vr := t1.SRToVR o.sr }
    let o2 : IROperand := { o1 with nu := t1.LU o.sr }
    some (o2, { t1 with LU := Function.update t1.LU o.sr t1.index })
  else none

/-- The body of the backward loop of ir_rename of src/scripts/ir.c on the
node `*p`: the copies into the locals, the two switches and `index--`.
Returns the locals `op1`, `op2`, `op3` and the tables; the node is only
read. -/
def Scripts.rename_body (n : IRNode) (t : Scripts.Locals) :
    Option (IROperand × IROperand × IROperand × Scripts.Locals) :=
  (match n.opcode with
    | IROpcode.IR_LOAD | IROpcode.IR_STORE =>
      (Scripts.handle_use n.op1 t).bind fun (o1, t1) => some (o1, n.op2, t1)
    | IROpcode.IR_ADD | IROpcode.IR_SUB | IROpcode.IR_MULT | IROpcode.IR_LSHIFT
    | IROpcode.IR_RSHIFT =>
      (Scripts.handle_use n.op1 t).bind fun (o1, t1) =>
      (Scripts.handle_use n.op2 t1).bind fun (o2, t2) => some (o1, o2, t2)
    | _ => some (n.op1, n.op2, t)).bind fun (o1, o2, t2) =>
  (match n.opcode with
    | IROpcode.IR_LOAD | IROpcode.IR_LOADI | IROpcode.IR_STORE =>
      (Scripts.handle_def o2 t2).bind fun (o2d, t3) => some (o1, o2d, n.op3, t3)
    | IROpcode.IR_ADD | IROpcode.IR_SUB | IROpcode.IR_MULT | IROpcode.IR_LSHIFT
    | IROpcode.IR_RSHIFT =>
      (Scripts.handle_def n.op3 t2).bind fun (o3, t3) => some (o1, o2, o3, t3)
    | _ => some (o1, o2, n.op3, t2)).bind fun (o1, o2, o3, t3) =>
  some (o1, o2, o3, { t3 with index := t3.index - 1 })

/-- The backward loop of ir_rename of src/scripts/ir.c, from node `p` on. -/
def Scripts.rename_loop : Nat → IRState → NodePtr → Scripts.Locals → Option Scripts.Locals
  | 0, _, _, _ => none
  | fuel + 1, s, p, t =>
    if p = node_head then some t
    else if p = NodePtr.null then none
    else (Scripts.rename_body (s.nodes p) t).bind fun r =>
      Scripts.rename_loop fuel s (s.nodes p).prev r.2.2.2

/-- The function ir_rename of src/scripts/ir.c. Its first loop has the body
of the first loop of src/ir.c (`scan_loop`), started with `maxSR = 0`. The
state it returns is the state it was given: the function has no store into a
node, a pool or a static. -/
def Scripts.ir_rename (fuel : Nat) (s : IRState) : Option IRState :=
  (scan_loop fuel s (s.nodes node_head).next 0 0).bind fun (block_len, maxSR) =>
  if maxSR = INT_MAX then none
  else
    (Scripts.rename_loop fuel s (s.nodes node_head).prev
      { maxSR := maxSR, SRToVR := fun _ => -1, LU := fun _ => INT_MAX,
        VRName := 0, index := block_len - 1 }).map fun _ => s

/-- The text ir_rename_print writes for one node. -/
def Scripts.print_node (n : IRNode) : String :=
  match n.opcode with
  | IROpcode.IR_LOADI => "loadI  " ++ fmt_d n.op1.sr ++ "    => r" ++ fmt_d n.op2.vr ++ "\n"
  | IROpcode.IR_LOAD => "load   r" ++ fmt_d n.op1.vr ++ "    => r" ++ fmt_d n.op2.vr ++ "\n"
  | IROpcode.IR_STORE => "store  r" ++ fmt_d n.op1.vr ++ "    => r" ++ fmt_d n.op2.vr ++ "\n"
  | IROpcode.IR_ADD =>
    "add    r" ++ fmt_d n.op1.vr ++ ", r" ++ fmt_d n.op2.vr ++ " => r" ++ fmt_d n.op3.vr ++ "\n"
  | IROpcode.IR_SUB =>
    "sub    r" ++ fmt_d n.op1.vr ++ ", r" ++ fmt_d n.op2.vr ++ " => r" ++ fmt_d n.op3.vr ++ "\n"
  | IROpcode.IR_MULT =>
    "mult   r" ++ fmt_d n.op1.vr ++ ", r" ++ fmt_d n.op2.vr ++ " => r" ++ fmt_d n.op3.vr ++ "\n"
  | IROpcode.IR_LSHIFT =>
    "lshift r" ++ fmt_d n.op1.vr ++ ", r" ++ fmt_d n.op2.vr ++ " => r" ++ fmt_d n.op3.vr ++ "\n"
  | IROpcode.IR_RSHIFT =>
    "rshift r" ++ fmt_d n.op1.vr ++ ", r" ++ fmt_d n.op2.vr ++ " => r" ++ fmt_d n.op3.vr ++ "\n"
  | IROpcode.IR_OUTPUT => "output " ++ fmt_d n.op1.sr ++ "\n"
  | _ => "nop\n"

/-- The loop of ir_rename_print from node `p` on; returns the text it
writes. -/
def Scripts.print_loop : Nat → IRState → NodePtr → Option String
  | 0, _, _ => none
  | fuel + 1, s, p =>
    if p = node_head then some ""
    else if p = NodePtr.null then none
    else (Scripts.print_loop fuel s (s.nodes p).next).map
      (fun rest => Scripts.print_node (s.nodes p) ++ rest)

/-- The function ir_rename_print of src/scripts/ir.c; returns the text it
writes. -/
def Scripts.ir_rename_print (fuel : Nat) (s : IRState) : Option String :=
  Scripts.print_loop fuel s (s.nodes node_head).next

/-- The operands stored in the node sequence after ir_rename of
src/scripts/ir.c on the block built by the calls. -/
def Scripts.renamed_block (fuel : Nat) (s0 : IRState) (calls : List BuildCall) :
    Option (List (IROpcode × IROperand × IROperand × IROperand)) :=
  (build_block s0 calls).bind fun s =>
  (Scripts.ir_rename fuel s).bind fun s1 => (node_seq fuel s1).map operands_of

/-- The text main of src/scripts/main.c writes for the block built by the
calls: ir_rename, then ir_rename_print. -/
def Scripts.renamed_text (fuel : Nat) (s0 : IRState) (calls : List BuildCall) :
    Option String :=
  (build_block s0 calls).bind fun s =>
  (Scripts.ir_rename fuel s).bind fun s1 => Scripts.ir_rename_print fuel s1

/-! ## The scanner (src/scripts/scanner.c)

Conventions of the embedding:

* A text is the list of its `char` values, as C reads them into an `int`;
  `ch c` is the value of the character `c`, and `EOF` is -1.
* The file `in` is the list of the characters not yet read; getline hands out
  the characters up to and including the next newline.
* The statics are one record: the fields of `*sb`, the fill level
  `tb.bufpos` of the token buffer, `tb_recording`, and the global
  `error_flag`. The bytes of `tb.buf` feed the message on stderr only and are
  left out, as is the message; an append beyond the 128 bytes of `tb.buf`
  is undefined behaviour and gives `none`, as does a read outside `linebuf`.
* `int` is 32 bits wide: the accumulation `n = n * 10 + (c - 48)` is taken
  modulo 2^32 in two's complement (`wrap32`).
* The loops take a fuel argument.
-/

/-- The value of a character as C reads it into an `int`. -/
def ch (c : Char) : Int := (c.toNat : Int)

/-- The constant EOF of stdio.h. -/
def EOF : Int := -1

/-- The value of a 32-bit two's complement `int` holding `x`. -/
def wrap32 (x : Int) : Int := (x + 2147483648) % 4294967296 - 2147483648

/-- The characters of a string literal. -/
def text (str : String) : List Int := str.toList.map ch

/-- The statics of scanner.c: the fields `linebuf`, `bufpos`, `lineno`,
`linelen` of `*sb`, the unread rest `file` of `sb->in`, `tb.bufpos`,
`tb_recording`, and the global `error_flag`. -/
structure ScanState where
  linebuf : List Int
  bufpos : Int
  lineno : Int
  linelen : Int
  file : List Int
  tb_bufpos : Int
  tb_recording : Int
  error_flag : Int
  deriving DecidableEq

/-- The function sb_init, at program start (the statics are zero). -/
def Scanner.sb_init (file : List Int) : ScanState :=
  { linebuf := [], bufpos := 0, lineno := 1, linelen := 0, file := file,
    tb_bufpos := 0, tb_recording := 0, error_flag := 0 }

/-- The line getline reads from a non-empty file, and the rest of the
file. -/
def Scanner.getline : List Int → List Int × List Int
  | [] => ([], [])
  | c :: rest =>
    if c = ch '\n' then ([c], rest)
    else (c :: (Scanner.getline rest).1, (Scanner.getline rest).2)

/-- The function sb_refill; returns its result and the new state. -/
def Scanner.sb_refill (s : ScanState) : Int × ScanState :=
  if s.file = [] then (0, { s with linebuf := [] })
  else
    (1, { s with linebuf := (Scanner.getline s.file).1, file := (Scanner.getline s.file).2,
                 bufpos := 0, linelen := ((Scanner.getline s.file).1.length : Int) })

/-- The function do_tb_append, as far as `tb.bufpos` goes. -/
def Scanner.do_tb_append (s : ScanState) : Option ScanState :=
  if 0 ≤ s.tb_bufpos ∧ s.tb_bufpos + 1 < 128 then some { s with tb_bufpos := s.tb_bufpos + 1 }
  else none

/-- The second half of sb_getc: `char c = (char)sb->linebuf[sb->bufpos++];
if (tb_recording) do_tb_append(c); return c;`. -/
def Scanner.sb_fetch (s : ScanState) : Option (Int × ScanState) :=
  if 0 ≤ s.bufpos then
    match s.linebuf.get? s.bufpos.toNat with
    | none => none
    | some c =>
      if s.tb_recording ≠ 0 then
        (Scanner.do_tb_append { s with bufpos := s.bufpos + 1 }).map fun s1 => (c, s1)
      else some (c, { s with bufpos := s.bufpos + 1 })
  else none

/-- The function sb_getc; returns the character and the new state. -/
def Scanner.sb_getc (s : ScanState) : Option (Int × ScanState) :=
  if s.bufpos ≥ s.linelen then
    if (Scanner.sb_refill s).1 = 0 then some (EOF, (Scanner.sb_refill s).2)
    else Scanner.sb_fetch (Scanner.sb_refill s).2
  else Scanner.sb_fetch s

/-- The function start_tb_recording. -/
def Scanner.start_tb_recording (s : ScanState) : ScanState :=
  { s with tb_bufpos := 0, tb_recording := 1 }

/-- The function make_token. -/
def Scanner.make_token (t : TokenType) (value line : Int) : Token :=
  { type := t, value := value, line := line }

/-- The loop `while ((c = sb_getc()) != 10 && c != EOF) ;` of
report_error. -/
def Scanner.nuke_loop : Nat → ScanState → Option ScanState
  | 0, _ => none
  | fuel + 1, s =>
    (Scanner.sb_getc s).bind fun (c, s1) =>
    if c ≠ ch '\n' ∧ c ≠ EOF then Scanner.nuke_loop fuel s1 else some s1

/-- The function report_error; returns the token and the new state. -/
def Scanner.report_error (fuel : Nat) (s : ScanState) : Option (Token × ScanState) :=
  (if s.bufpos + 1 < s.linelen then Scanner.nuke_loop fuel s else some s).bind fun s1 =>
  some (Scanner.make_token TokenType.TOK_EOL 0 s1.lineno,
    { s1 with error_flag := 1, lineno := s1.lineno + 1 })

/-- The loop `while (c == 32 || c == 9) { if (flag == 0) flag = 1;
c = sb_getc(); }` of get_next_token; returns `c`, `flag` and the new
state. -/
def Scanner.skip_blanks : Nat → Int → Int → ScanState → Option (Int × Int × ScanState)
  | 0, _, _, _ => none
  | fuel + 1, c, flag, s =>
    if c = ch ' ' ∨ c = ch '\t' then
      (Scanner.sb_getc s).bind fun (c1, s1) =>
      Scanner.skip_blanks fuel c1 (if flag = 0 then 1 else flag) s1
    else some (c, flag, s)

/-- The step `c = sb_getc(); if (c == x) { k } else return report_error();`
of the keyword branches of get_next_token. -/
def Scanner.expect (fuel : Nat) (x : Int) (s : ScanState)
    (k : ScanState → Option (Token × ScanState)) : Option (Token × ScanState) :=
  (Scanner.sb_getc s).bind fun (c, s1) =>
  if c = x then k s1 else Scanner.report_error fuel s1

/-- The last step of a keyword branch of get_next_token: `c = sb_getc();
if (c == 32 || c == 9) return make_token(t, v, sb->lineno); else return
report_error();`. -/
def Scanner.keyword_end (fuel : Nat) (t : TokenType) (v : Int) (s : ScanState) :
    Option (Token × ScanState) :=
  (Scanner.sb_getc s).bind fun (c, s1) =>
  if c = ch ' ' ∨ c = ch '\t' then some (Scanner.make_token t v s1.lineno, s1)
  else Scanner.report_error fuel s1

/-- The loop `while (c >= 48 && c <= 57) { n = n * 10 + (c - 48);
c = sb_getc(); }` of get_next_token; returns `n`, `c` and the new state. -/
def Scanner.digits_loop : Nat → Int → Int → ScanState → Option (Int × Int × ScanState)
  | 0, _, _, _ => none
  | fuel + 1, n, c, s =>
    if c ≥ ch '0' ∧ c ≤ ch '9' then
      (Scanner.sb_getc s).bind fun (c1, s1) =>
      Scanner.digits_loop fuel (wrap32 (wrap32 (n * 10) + (c - ch '0'))) c1 s1
    else some (n, c, s)

/-- The code get_next_token runs once `c` is the first digit of a register
number or of a constant (the same statements in both branches): `int n =
c - 48; c = sb_getc();`, the loop over the digits, `if (c != EOF)
sb->bufpos--;` and `return make_token(t, n, sb->lineno);`. -/
def Scanner.scan_number (fuel : Nat) (t : TokenType) (c : Int) (s : ScanState) :
    Option (Token × ScanState) :=
  (Scanner.sb_getc s).bind fun (c1, s1) =>
  (Scanner.digits_loop fuel (c - ch '0') c1 s1).bind fun (n, c2, s2) =>
  some (Scanner.make_token t n s2.lineno,
    if c2 ≠ EOF then { s2 with bufpos := s2.bufpos - 1 } else s2)

/-- The loop `while (c != 10 && c != EOF) c = sb_getc();` of the comment
branch of get_next_token. -/
def Scanner.comment_loop : Nat → Int → ScanState → Option ScanState
  | 0, _, _ => none
  | fuel + 1, c, s =>
    if c ≠ ch '\n' ∧ c ≠ EOF then
      (Scanner.sb_getc s).bind fun (c1, s1) => Scanner.comment_loop fuel c1 s1
    else some s

/-- The statement `return make_token(TOK_EOL, 0, sb->lineno++);`. -/
def Scanner.eol (s : ScanState) : Option (Token × ScanState) :=
  some (Scanner.make_token TokenType.TOK_EOL 0 s.lineno, { s with lineno := s.lineno + 1 })

/-- The branch `c == 13` of get_next_token. -/
def Scanner.scan_cr (s : ScanState) : Option (Token × ScanState) :=
  (Scanner.do_tb_append (Scanner.start_tb_recording s)).bind fun s1 =>
  (Scanner.sb_getc s1).bind fun (c, s2) =>
  if c = ch '\n' then Scanner.eol s2
  else Scanner.eol (if c ≠ EOF then { s2 with bufpos := s2.bufpos - 1 } else s2)

/-- The branch `c == 61` (an equals sign) of get_next_token. -/
def Scanner.scan_into (fuel : Nat) (s : ScanState) : Option (Token × ScanState) :=
  (Scanner.do_tb_append (Scanner.start_tb_recording s)).bind fun s1 =>
  Scanner.expect fuel (ch '>') s1 fun s2 =>
    some (Scanner.make_token TokenType.TOK_INTO 0 s2.lineno, s2)

/-- The branch `c == 47` (a slash) of get_next_token. -/
def Scanner.scan_comment (fuel : Nat) (s : ScanState) : Option (Token × ScanState) :=
  (Scanner.do_tb_append (Scanner.start_tb_recording s)).bind fun s1 =>
  Scanner.expect fuel (ch '/') s1 fun s2 =>
    (Scanner.sb_getc { s2 with tb_recording := 0 }).bind fun (c, s3) =>
    (Scanner.comment_loop fuel c s3).bind fun s4 => Scanner.eol s4

/-- The branch `c == 115` (the letter s) of get_next_token: `store` and
`sub`. -/
def Scanner.scan_s (fuel : Nat) (s : ScanState) : Option (Token × ScanState) :=
  (Scanner.do_tb_append (Scanner.start_tb_recording s)).bind fun s1 =>
  (Scanner.sb_getc s1).bind fun (c, s2) =>
  if c = ch 't' then
    Scanner.expect fuel (ch 'o') s2 fun s3 =>
    Scanner.expect fuel (ch 'r') s3 fun s4 =>
    Scanner.expect fuel (ch 'e') s4 fun s5 =>
    Scanner.keyword_end fuel TokenType.TOK_MEMOP STORE s5
  else if c = ch 'u' then
    (Scanner.do_tb_append (Scanner.start_tb_recording s2)).bind fun s3 =>
    Scanner.expect fuel (ch 'b') s3 fun s4 =>
    Scanner.keyword_end fuel TokenType.TOK_ARITHOP ARITH_SUB s4
  else Scanner.report_error fuel s2

/-- The branch `c == 108` (the letter l) of get_next_token: `load`, `loadI`
and `lshift`. -/
def Scanner.scan_l (fuel : Nat) (s : ScanState) : Option (Token × ScanState) :=
  (Scanner.do_tb_append (Scanner.start_tb_recording s)).bind fun s1 =>
  (Scanner.sb_getc s1).bind fun (c, s2) =>
  if c = ch 'o' then
    Scanner.expect fuel (ch 'a') s2 fun s3 =>
    Scanner.expect fuel (ch 'd') s3 fun s4 =>
    (Scanner.sb_getc s4).bind fun (c1, s5) =>
    if c1 = ch 'I' then Scanner.keyword_end fuel TokenType.TOK_LOADI 0 s5
    else if c1 = ch ' ' ∨ c1 = ch '\t' then
      some (Scanner.make_token TokenType.TOK_MEMOP LOAD s5.lineno, s5)
    else Scanner.report_error fuel s5
  else if c = ch 's' then
    (Scanner.do_tb_append (Scanner.start_tb_recording s2)).bind fun s3 =>
    Scanner.expect fuel (ch 'h') s3 fun s4 =>
    Scanner.expect fuel (ch 'i') s4 fun s5 =>
    Scanner.expect fuel (ch 'f') s5 fun s6 =>
    Scanner.expect fuel (ch 't') s6 fun s7 =>
    Scanner.keyword_end fuel TokenType.TOK_ARITHOP ARITH_LSHIFT s7
  else Scanner.report_error fuel s2

/-- The branch `c == 114` (the letter r) of get_next_token: a register and
`rshift`. -/
def Scanner.scan_r (fuel : Nat) (s : ScanState) : Option (Token × ScanState) :=
  (Scanner.do_tb_append (Scanner.start_tb_recording s)).bind fun s1 =>
  (Scanner.sb_getc s1).bind fun (c, s2) =>
  if c ≥ ch '0' ∧ c ≤ ch '9' then Scanner.scan_number fuel TokenType.TOK_REG c s2
  else if c = ch 's' then
    (Scanner.do_tb_append (Scanner.start_tb_recording s2)).bind fun s3 =>
    Scanner.expect fuel (ch 'h') s3 fun s4 =>
    Scanner.expect fuel (ch 'i') s4 fun s5 =>
    Scanner.expect fuel (ch 'f') s5 fun s6 =>
    Scanner.expect fuel (ch 't') s6 fun s7 =>
    Scanner.keyword_end fuel TokenType.TOK_ARITHOP ARITH_RSHIFT s7
  else Scanner.report_error fuel s2

/-- The branch `c == 97` (the letter a) of get_next_token: `add`. -/
def Scanner.scan_a (fuel : Nat) (s : ScanState) : Option (Token × ScanState) :=
  (Scanner.do_tb_append (Scanner.start_tb_recording s)).bind fun s1 =>
  Scanner.expect fuel (ch 'd') s1 fun s2 =>
  Scanner.expect fuel (ch 'd') s2 fun s3 =>
  Scanner.keyword_end fuel TokenType.TOK_ARITHOP ARITH_ADD s3

/-- The branch `c == 109` (the letter m) of get_next_token: `mult`. -/
def Scanner.scan_m (fuel : Nat) (s : ScanState) : Option (Token × ScanState) :=
  (Scanner.do_tb_append (Scanner.start_tb_recording s)).bind fun s1 =>
  Scanner.expect fuel (ch 'u') s1 fun s2 =>
  Scanner.expect fuel (ch 'l') s2 fun s3 =>
  Scanner.expect fuel (ch 't') s3 fun s4 =>
  Scanner.keyword_end fuel TokenType.TOK_ARITHOP ARITH_MULT s4

/-- The branch `c == 110` (the letter n) of get_next_token: `nop`, which
needs no blank after it. -/
def Scanner.scan_n (fuel : Nat) (s : ScanState) : Option (Token × ScanState) :=
  (Scanner.do_tb_append (Scanner.start_tb_recording s)).bind fun s1 =>
  Scanner.expect fuel (ch 'o') s1 fun s2 =>
  Scanner.expect fuel (ch 'p') s2 fun s3 =>
    some (Scanner.make_token TokenType.TOK_NOP 0 s3.lineno, s3)

/-- The branch `c == 111` (the letter o) of get_next_token: `output`. -/
def Scanner.scan_o (fuel : Nat) (s : ScanState) : Option (Token × ScanState) :=
  (Scanner.do_tb_append (Scanner.start_tb_recording s)).bind fun s1 =>
  Scanner.expect fuel (ch 'u') s1 fun s2 =>
  Scanner.expect fuel (ch 't') s2 fun s3 =>
  Scanner.expect fuel (ch 'p') s3 fun s4 =>
  Scanner.expect fuel (ch 'u') s4 fun s5 =>
  Scanner.expect fuel (ch 't') s5 fun s6 =>
  Scanner.keyword_end fuel TokenType.TOK_OUTPUT 0 s6

/-- The chain of branches of get_next_token on the first character `c` that
is neither a blank nor a tab. -/
def Scanner.dispatch (fuel : Nat) (c : Int) (s : ScanState) : Option (Token × ScanState) :=
  if c = EOF then some (Scanner.make_token TokenType.TOK_EOF 0 s.lineno, s)
  else if c = ch '\n' then Scanner.eol s
  else if c = ch '\r' then Scanner.scan_cr s
  else if c = ch '=' then Scanner.scan_into fuel s
  else if c = ch ',' then some (Scanner.make_token TokenType.TOK_COMMA 0 s.lineno, s)
  else if c = ch '/' then Scanner.scan_comment fuel s
  else if c = ch 's' then Scanner.scan_s fuel s
  else if c = ch 'l' then Scanner.scan_l fuel s
  else if c = ch 'r' then Scanner.scan_r fuel s
  else if c = ch 'a' then Scanner.scan_a fuel s
  else if c = ch 'm' then Scanner.scan_m fuel s
  else if c = ch 'n' then Scanner.scan_n fuel s
  else if c = ch 'o' then Scanner.scan_o fuel s
  else if c ≥ ch '0' ∧ c ≤ ch '9' then Scanner.scan_number fuel TokenType.TOK_CONST c s
  else (Scanner.do_tb_append s).bind fun s1 => Scanner.report_error fuel s1

/-- The function get_next_token of scanner.c; returns the token and the new
state. -/
def Scanner.get_next_token (fuel : Nat) (s : ScanState) : Option (Token × ScanState) :=
  (Scanner.sb_getc { s with tb_bufpos := 0, tb_recording := 0 }).bind fun (c0, s1) =>
  (Scanner.skip_blanks fuel c0 0 s1).bind fun (c, flag, s2) =>
  Scanner.dispatch fuel c (if flag ≠ 0 then { s2 with tb_bufpos := 1 } else s2)

/-- The tokens that successive calls of get_next_token return, up to and
including the first end-of-file token (at most `n` calls). -/
def Scanner.tokens : Nat → Nat → ScanState → Option (List Token)
  | 0, _, _ => none
  | n + 1, fuel, s =>
    (Scanner.get_next_token fuel s).bind fun (t, s1) =>
    if t.type = TokenType.TOK_EOF then some [t]
    else (Scanner.tokens n fuel s1).map fun l => t :: l

/-! ## Vocabulary of the specification for the scanner -/

/-- The character is a decimal digit. -/
def is_digit (c : Int) : Prop := ch '0' ≤ c ∧ c ≤ ch '9'

instance : DecidablePred is_digit := fun c => by unfold is_digit; infer_instance

/-- The character is a blank or a tab. -/
def is_blank (c : Int) : Prop := c = ch ' ' ∨ c = ch '\t'

instance : DecidablePred is_blank := fun c => by unfold is_blank; infer_instance

/-- The decimal value of a string of digits. -/
def decimal_value (ds : List Int) : Int := ds.foldl (fun n c => n * 10 + (c - ch '0')) 0

/-- The characters the scanner has yet to read: the rest of the line buffer,
then the rest of the file. -/
def unread (s : ScanState) : List Int := s.linebuf.drop s.bufpos.toNat ++ s.file

/-- The line buffer is consistent: `linelen` is the length of `linebuf` and
`bufpos` lies within it. -/
def BufferOK (s : ScanState) : Prop :=
  s.linelen = (s.linebuf.length : Int) ∧ 0 ≤ s.bufpos ∧ s.bufpos ≤ s.linelen

/-- The fill level of the token buffer leaves room for the next append
whenever the scanner is recording. -/
def TbRoom (s : ScanState) : Prop :=
  s.tb_recording ≠ 0 → 0 ≤ s.tb_bufpos ∧ s.tb_bufpos + 1 < 128

/-- The value of the accumulation of get_next_token over the digits `ds`,
started at `n`, without the reduction modulo 2^32. -/
def decimal_from (n : Int) (ds : List Int) : Int :=
  ds.foldl (fun n c => n * 10 + (c - ch '0')) n

/-! ## The scanner and the parser together -/

/-- The token stream the parser sees when the scanner reads a text: the
tokens that successive calls of get_next_token return before the first
end-of-file token (at most `n` calls), and for each of these calls whether it
reported a lexical error, that is, whether report_error set `error_flag`
during the call. -/
def Scanner.stream : Nat → Nat → ScanState → Option (List Token × List Bool)
  | 0, _, _ => none
  | n + 1, fuel, s =>
    (Scanner.get_next_token fuel { s with error_flag := 0 }).bind fun (t, s1) =>
    if t.type = TokenType.TOK_EOF then some ([], [])
    else (Scanner.stream n fuel s1).map fun r =>
      (t :: r.1, decide (s1.error_flag ≠ 0) :: r.2)

/-- The tokens the scanner returns for the text of the two lines `x` and
`nop`: an end-of-line for the invalid word, the end-of-line it left behind,
`nop`, and its end-of-line. -/
def error_line_tokens : List Token :=
  [ ⟨TokenType.TOK_EOL, 0, 1⟩, ⟨TokenType.TOK_EOL, 0, 2⟩, ⟨TokenType.TOK_NOP, 0, 3⟩,
    ⟨TokenType.TOK_EOL, 0, 3⟩ ]

/-- The tokens of the line `loadI 2147483647 => r1`. -/
def big_literal_tokens : List Token :=
  [ ⟨TokenType.TOK_LOADI, 0, 1⟩, ⟨TokenType.TOK_CONST, 2147483647, 1⟩,
    ⟨TokenType.TOK_INTO, 0, 1⟩, ⟨TokenType.TOK_REG, 1, 1⟩, ⟨TokenType.TOK_EOL, 0, 1⟩ ]

/-- The tokens the scanner returns for the line `load r2147483648 => r1`:
the value of the first register has wrapped to a negative number. -/
def wrapped_register_tokens : List Token :=
  [ ⟨TokenType.TOK_MEMOP, 0, 1⟩, ⟨TokenType.TOK_REG, -2147483648, 1⟩,
    ⟨TokenType.TOK_INTO, 0, 1⟩, ⟨TokenType.TOK_REG, 1, 1⟩, ⟨TokenType.TOK_EOL, 0, 1⟩ ]

/-- Nothing has been written to stdout, or `error_flag` is set. -/
def OutInv (st : ParserState) : Prop := st.out = "" ∨ st.error_flag = 1

/-! ## Vocabulary of the specification: register operands and large values -/

/-- The definition operand and the register-role use operands of a node, in
the order ir_rename visits them: the definition slot, then the use slots in
slot order. The literal of LoadI and of Output is not among them. -/
def register_ops (n : IRNode) : List IROperand :=
  ((if has_def n.opcode = true then [Slot.s3] else []) ++ reg_use_slots n.opcode).map n.get

/-- The definition and register-role use operands of a block, in the order
of the backward walk. -/
def register_stamps (out : List IRNode) : List IROperand :=
  out.reverse.flatMap register_ops

/-- The block `store r1 => r2 ; output 7 ; store r3 => r4`. -/
def store_output_store_block : List BuildCall :=
  [ { op := IROpcode.IR_STORE, line := 1, nops := 2, args := [1, 2] },
    { op := IROpcode.IR_OUTPUT, line := 2, nops := 1, args := [7] },
    { op := IROpcode.IR_STORE, line := 3, nops := 2, args := [3, 4] } ]

/-- The block `load r2147483647 => r1`: the register id is INT_MAX. -/
def big_register_block : List BuildCall :=
  [ { op := IROpcode.IR_LOAD, line := 1, nops := 2, args := [2147483647, 1] } ]

/-- The block `loadI 2147483647 => r1`: the literal is INT_MAX. -/
def big_literal_block : List BuildCall :=
  [ { op := IROpcode.IR_LOADI, line := 1, nops := 2, args := [2147483647, 1] } ]

/-- The precondition of the builder as the specification words it: the
arity matches the opcode and every operand value is non-negative. -/
def BuildCall.non_negative (c : BuildCall) : Prop :=
  c.nops = (arity c.op : Int) ∧ c.args.length = arity c.op ∧ ∀ a ∈ c.args, 0 ≤ a

instance : DecidablePred BuildCall.non_negative := fun c => by
  unfold BuildCall.non_negative; infer_instance

/-! ## Heap writes -/

@[simp] theorem setNode_nodes (s : IRState) (p : NodePtr) (f : IRNode → IRNode) (x : NodePtr) :
    (s.setNode p f).nodes x = if x = p then f (s.nodes p) else s.nodes x := by
  simp [IRState.setNode, Function.update_apply]

@[simp] theorem setNode_pools (s : IRState) (p : NodePtr) (f : IRNode → IRNode) :
    (s.setNode p f).pools = s.pools := rfl

@[simp] theorem setNode_npools (s : IRState) (p : NodePtr) (f : IRNode → IRNode) :
    (s.setNode p f).npools = s.npools := rfl

@[simp] theorem setNode_vrname (s : IRState) (p : NodePtr) (f : IRNode → IRNode) :
    (s.setNode p f).vrname = s.vrname := rfl

@[simp] theorem setPool_pools (s : IRState) (p : PoolPtr) (f : IRPool → IRPool) (x : PoolPtr) :
    (s.setPool p f).pools x = if x = p then f (s.pools p) else s.pools x := by
  simp [IRState.setPool, Function.update_apply]

@[simp] theorem setPool_nodes (s : IRState) (p : PoolPtr) (f : IRPool → IRPool) :
    (s.setPool p f).nodes = s.nodes := rfl

@[simp] theorem setPool_npools (s : IRState) (p : PoolPtr) (f : IRPool → IRPool) :
    (s.setPool p f).npools = s.npools := rfl

@[simp] theorem setPool_vrname (s : IRState) (p : PoolPtr) (f : IRPool → IRPool) :
    (s.setPool p f).vrname = s.vrname := rfl

/-! ## Appending to the node list -/

theorem insert_into_node_list_spec (s : IRState) (n tail : NodePtr) (hn : n ≠ NodePtr.null)
    (htail : (s.nodes node_head).prev = tail) (ht : tail ≠ NodePtr.null) :
    ∃ s1, insert_into_node_list s n = some s1 ∧ s1.pools = s.pools ∧ s1.npools = s.npools ∧
      (∀ x, (s1.nodes x).next =
        if x = n then node_head else if x = tail then n else (s.nodes x).next) ∧
      (∀ x, (s1.nodes x).prev =
        if x = node_head then n else if x = n then tail else (s.nodes x).prev) ∧
      (∀ x, (s1.nodes x).line = (s.nodes x).line ∧ (s1.nodes x).opcode = (s.nodes x).opcode ∧
        (s1.nodes x).op1 = (s.nodes x).op1 ∧ (s1.nodes x).op2 = (s.nodes x).op2 ∧
        (s1.nodes x).op3 = (s.nodes x).op3) := by
  simp only [insert_into_node_list, htail, hn, ht, or_self, if_false]
  clear htail
  refine ⟨_, rfl, rfl, rfl, ?_, ?_, ?_⟩
  · intro x
    simp only [setNode_nodes]
    split_ifs <;> subst_vars <;> simp_all
  · intro x
    simp only [setNode_nodes]
    split_ifs <;> subst_vars <;> simp_all
  · intro x
    simp only [setNode_nodes]
    split_ifs <;> subst_vars <;> simp_all

theorem FwdLinked_congr (s s1 : IRState) (a : NodePtr) (l : List NodePtr)
    (h : ∀ x ∈ a :: l, (s1.nodes x).next = (s.nodes x).next) (hl : FwdLinked s a l) :
    FwdLinked s1 a l := by
  induction l generalizing a with
  | nil => simpa [FwdLinked, h a (by simp)] using hl
  | cons b rest ih =>
    obtain ⟨h1, h2⟩ := hl
    refine ⟨by rw [h a (by simp)]; exact h1, ih b (fun x hx => h x (by simp at hx ⊢; tauto)) h2⟩

theorem BwdLinked_congr (s s1 : IRState) (a : NodePtr) (l : List NodePtr)
    (h : ∀ x ∈ a :: l, (s1.nodes x).prev = (s.nodes x).prev) (hl : BwdLinked s a l) :
    BwdLinked s1 a l := by
  induction l generalizing a with
  | nil => simpa [BwdLinked, h a (by simp)] using hl
  | cons b rest ih =>
    obtain ⟨h1, h2⟩ := hl
    refine ⟨by rw [h a (by simp)]; exact h1, ih b (fun x hx => h x (by simp at hx ⊢; tauto)) h2⟩

/-- The tail of the node list: the last cell, or the sentinel when the list is
empty. -/
theorem Chain_tail (s : IRState) (ptrs : List NodePtr) (h : Chain s ptrs) :
    (s.nodes node_head).prev = (ptrs.reverse.head?).getD node_head := by
  obtain ⟨-, hb, -, -⟩ := h
  cases hr : ptrs.reverse with
  | nil => rw [hr] at hb; simpa [BwdLinked] using hb
  | cons b rest => rw [hr] at hb; simpa [BwdLinked] using hb.1

theorem FwdLinked_snoc (s s1 : IRState) (a n : NodePtr) (l : List NodePtr)
    (hnd : (a :: l).Nodup) (hn : n ∉ a :: l)
    (hnext : ∀ x, (s1.nodes x).next =
        if x = n then node_head else if x = (a :: l).getLast (by simp) then n
        else (s.nodes x).next)
    (hl : FwdLinked s a l) : FwdLinked s1 a (l ++ [n]) := by
  induction l generalizing a with
  | nil =>
    have han : a ≠ n := fun h => hn (by simp [h])
    simp [FwdLinked, hnext, han]
  | cons b rest ih =>
    obtain ⟨h1, h2⟩ := hl
    have han : a ≠ n := fun h => hn (by simp [h])
    have hlast : (a :: b :: rest).getLast (by simp) = (b :: rest).getLast (by simp) := by
      simp [List.getLast_cons]
    have hal : a ≠ (b :: rest).getLast (by simp) := by
      intro h
      have : a ∈ b :: rest := h ▸ List.getLast_mem _
      exact (List.nodup_cons.mp hnd).1 this
    refine ⟨?_, ih b (List.nodup_cons.mp hnd).2 (fun h => hn (List.mem_cons_of_mem _ h)) ?_ h2⟩
    · rw [hnext a, if_neg han, hlast, if_neg hal]; exact h1
    · intro x; rw [hnext x, hlast]

@[simp] theorem node_head_ne_cell (k i : Nat) : node_head ≠ NodePtr.cell k i := by
  simp [node_head]

@[simp] theorem cell_ne_node_head (k i : Nat) : NodePtr.cell k i ≠ node_head := by
  simp [node_head]

@[simp] theorem node_head_ne_null : node_head ≠ NodePtr.null := by
  simp [node_head]

theorem getLast_cons_eq (a : NodePtr) (l : List NodePtr) :
    (a :: l).getLast (by simp) = (l.reverse.head?).getD a := by
  induction l generalizing a with
  | nil => simp
  | cons b rest ih =>
    rw [List.getLast_cons (by simp), ih b]
    simp only [List.reverse_cons, List.head?_append, List.head?_reverse]
    cases rest.getLast? <;> simp

theorem Chain_snoc (s s1 : IRState) (ptrs : List NodePtr) (k i : Nat)
    (hc : Chain s ptrs) (hn : NodePtr.cell k i ∉ ptrs)
    (hnext : ∀ x, (s1.nodes x).next =
        if x = NodePtr.cell k i then node_head
        else if x = (s.nodes node_head).prev then NodePtr.cell k i else (s.nodes x).next)
    (hprev : ∀ x, (s1.nodes x).prev =
        if x = node_head then NodePtr.cell k i
        else if x = NodePtr.cell k i then (s.nodes node_head).prev else (s.nodes x).prev) :
    Chain s1 (ptrs ++ [NodePtr.cell k i]) := by
  have htail := Chain_tail s ptrs hc
  obtain ⟨hf, hb, hnd, hcell⟩ := hc
  have hhead : node_head ∉ ptrs := by
    intro h
    obtain ⟨k1, i1, h1⟩ := hcell _ h
    simp at h1
  refine ⟨?_, ?_, ?_, ?_⟩
  · apply FwdLinked_snoc s s1 node_head (NodePtr.cell k i) ptrs
        (List.nodup_cons.mpr ⟨hhead, hnd⟩) _ _ hf
    · simp [hn]
    · intro x
      rw [hnext x, getLast_cons_eq, htail]
  · rw [List.reverse_append]
    refine ⟨by simp [hprev], ?_⟩
    cases hr : ptrs.reverse with
    | nil =>
      rw [hr] at htail
      simp at htail
      simp [BwdLinked, hprev, htail]
    | cons b rest =>
      rw [hr] at htail hb
      have hmem : ∀ x ∈ b :: rest, x ∈ ptrs := by
        intro x hx
        rw [← hr] at hx
        exact List.mem_reverse.mp hx
      simp at htail
      refine ⟨by simp [hprev, htail], ?_⟩
      apply BwdLinked_congr s s1 b rest _ hb.2
      intro x hx
      have hx1 := hmem x hx
      have h1 : x ≠ node_head := fun h => hhead (h ▸ hx1)
      have h2 : x ≠ NodePtr.cell k i := fun h => hn (h ▸ hx1)
      rw [hprev x, if_neg h1, if_neg h2]
  · rw [List.nodup_append]
    refine ⟨hnd, by simp, ?_⟩
    intro x hx hx2
    simp at hx2
    exact hn (hx2 ▸ hx)
  · intro p hp
    rw [List.mem_append] at hp
    rcases hp with hp | hp
    · exact hcell p hp
    · simp at hp
      exact ⟨k, i, hp⟩

theorem Chain_congr (s s1 : IRState) (ptrs : List NodePtr)
    (h : ∀ x, (s1.nodes x).next = (s.nodes x).next ∧ (s1.nodes x).prev = (s.nodes x).prev)
    (hc : Chain s ptrs) : Chain s1 ptrs :=
  ⟨FwdLinked_congr s s1 _ _ (fun x _ => (h x).1) hc.1,
   BwdLinked_congr s s1 _ _ (fun x _ => (h x).2) hc.2.1, hc.2.2.1, hc.2.2.2⟩

theorem Chain_tail_ne_null (s : IRState) (ptrs : List NodePtr) (h : Chain s ptrs) :
    (s.nodes node_head).prev ≠ NodePtr.null := by
  rw [Chain_tail s ptrs h]
  cases hr : ptrs.reverse.head? with
  | none => simp
  | some b =>
    have hb : b ∈ ptrs := by
      have := List.mem_of_mem_head? hr
      exact List.mem_reverse.mp this
    obtain ⟨k, i, rfl⟩ := h.2.2.2 b hb
    simp

theorem ir_new_node_eq (s : IRState) (op : IROpcode) (line : Int) :
    ir_new_node s op line =
      if (s.pools pool_head).prev = PoolPtr.null then none
      else (if (s.pools pool_head).prev = pool_head ∨
                (s.pools (s.pools pool_head).prev).next_free ≥ POOL_SIZE
            then new_pool s else some (s, (s.pools pool_head).prev)).bind
          fun r => new_node_in r.1 r.2 op line := rfl

theorem new_node_in_spec (s1 : IRState) (ptrs : List NodePtr) (k : Nat) (op : IROpcode)
    (line i : Int) (hc : Chain s1 ptrs) (hi : (s1.pools (PoolPtr.pool k)).next_free = i)
    (h0 : 0 ≤ i) (h1 : i < POOL_SIZE) (hfresh : NodePtr.cell k i.toNat ∉ ptrs) :
    ∃ s6, new_node_in s1 (PoolPtr.pool k) op line = some (s6, NodePtr.cell k i.toNat) ∧
      Chain s6 (ptrs ++ [NodePtr.cell k i.toNat]) ∧ s6.npools = s1.npools ∧
      (∀ x, s6.pools x =
        if x = PoolPtr.pool k then { s1.pools x with next_free := i + 1 } else s1.pools x) ∧
      (s6.nodes (NodePtr.cell k i.toNat)).line = line ∧
      (s6.nodes (NodePtr.cell k i.toNat)).opcode = op ∧
      (s6.nodes (NodePtr.cell k i.toNat)).op1 = unused_operand ∧
      (s6.nodes (NodePtr.cell k i.toNat)).op2 = unused_operand ∧
      (s6.nodes (NodePtr.cell k i.toNat)).op3 = unused_operand ∧
      (∀ x, x ≠ NodePtr.cell k i.toNat → SamePayload (s6.nodes x) (s1.nodes x)) := by
  generalize hs5 : (((s1.setPool (PoolPtr.pool k) (fun x => { x with next_free := i + 1 })).setNode
      (NodePtr.cell k i.toNat) (fun x => { x with line := line })).setNode
      (NodePtr.cell k i.toNat) (fun x => { x with opcode := op })).setNode
      (NodePtr.cell k i.toNat) (fun x =>
        { x with op1 := unused_operand, op2 := unused_operand, op3 := unused_operand }) = s5
  have hlinks : ∀ x, (s5.nodes x).next = (s1.nodes x).next ∧
      (s5.nodes x).prev = (s1.nodes x).prev := by
    intro x
    subst hs5
    simp only [setNode_nodes, setPool_nodes]
    split_ifs with h
    · subst h; simp
    · simp
  have hc5 : Chain s5 ptrs := Chain_congr s1 s5 ptrs hlinks hc
  have ht5 : (s5.nodes node_head).prev = (s1.nodes node_head).prev := (hlinks node_head).2
  obtain ⟨s6, h6, hpools, hnp, hnext, hprev, hpay⟩ :=
    insert_into_node_list_spec s5 (NodePtr.cell k i.toNat) (s5.nodes node_head).prev (by simp) rfl
      (Chain_tail_ne_null s5 ptrs hc5)
  refine ⟨s6, ?_, Chain_snoc s5 s6 ptrs k i.toNat hc5 hfresh hnext hprev, ?_, ?_, ?_⟩
  · simp only [new_node_in, hi, h0, h1, and_self, if_true, hs5, h6, Option.map_some']
  · rw [hnp, ← hs5]; simp
  · intro x
    rw [hpools, ← hs5]
    simp only [setNode_pools, setPool_pools]
    split_ifs with h
    · subst h; simp [hi]
    · rfl
  · have hn := hpay (NodePtr.cell k i.toNat)
    refine ⟨?_, ?_, ?_, ?_, ?_, ?_⟩
    · rw [hn.1, ← hs5]; simp
    · rw [hn.2.1, ← hs5]; simp
    · rw [hn.2.2.1, ← hs5]; simp
    · rw [hn.2.2.2.1, ← hs5]; simp
    · rw [hn.2.2.2.2, ← hs5]; simp
    · intro x hx
      have hx5 : s5.nodes x = s1.nodes x := by
        rw [← hs5]; simp [hx]
      have := hpay x
      rw [hx5] at this
      exact this

@[simp] theorem pool_head_ne_pool (k : Nat) : pool_head ≠ PoolPtr.pool k := by
  simp [pool_head]

@[simp] theorem pool_ne_pool_head (k : Nat) : PoolPtr.pool k ≠ pool_head := by
  simp [pool_head]

@[simp] theorem pool_head_ne_null : pool_head ≠ PoolPtr.null := by
  simp [pool_head]

theorem insert_into_pool_list_spec (s : IRState) (p tail : PoolPtr) (hp : p ≠ PoolPtr.null)
    (htail : (s.pools pool_head).prev = tail) (ht : tail ≠ PoolPtr.null) :
    ∃ s1, insert_into_pool_list s p = some s1 ∧ s1.nodes = s.nodes ∧ s1.npools = s.npools ∧
      (∀ x, (s1.pools x).next_free = (s.pools x).next_free) ∧
      (s1.pools pool_head).prev = p := by
  simp only [insert_into_pool_list, htail, hp, ht, or_self, if_false]
  clear htail
  refine ⟨_, rfl, rfl, rfl, ?_, ?_⟩
  · intro x
    simp only [setPool_pools]
    split_ifs <;> subst_vars <;> simp_all
  · simp only [setPool_pools]
    split_ifs <;> subst_vars <;> simp_all

theorem new_pool_spec (s : IRState) (ht : (s.pools pool_head).prev ≠ PoolPtr.null) :
    ∃ s1, new_pool s = some (s1, PoolPtr.pool s.npools) ∧ s1.nodes = s.nodes ∧
      s1.npools = s.npools + 1 ∧ (s1.pools (PoolPtr.pool s.npools)).next_free = 0 ∧
      (s1.pools pool_head).prev = PoolPtr.pool s.npools := by
  generalize hs2 : ({ s with npools := s.npools + 1 } : IRState).setPool (PoolPtr.pool s.npools)
      (fun x => { x with next_free := 0 }) = s2
  have htl : (s2.pools pool_head).prev = (s.pools pool_head).prev := by
    rw [← hs2]; simp
  obtain ⟨s3, h3, hn, hnp, hnf, hprev⟩ :=
    insert_into_pool_list_spec s2 (PoolPtr.pool s.npools) _ (by simp) htl ht
  refine ⟨s3, ?_, ?_, ?_, ?_, hprev⟩
  · simp only [new_pool, hs2, h3, Option.map_some']
  · rw [hn, ← hs2]; rfl
  · rw [hnp, ← hs2]; rfl
  · rw [hnf, ← hs2]; simp

theorem ir_new_node_spec (s : IRState) (ptrs : List NodePtr) (op : IROpcode) (line : Int)
    (hc : Chain s ptrs) (hp : PoolInv s ptrs) :
    ∃ s1 k i, ir_new_node s op line = some (s1, NodePtr.cell k i) ∧
      NodePtr.cell k i ∉ ptrs ∧
      Chain s1 (ptrs ++ [NodePtr.cell k i]) ∧ PoolInv s1 (ptrs ++ [NodePtr.cell k i]) ∧
      (s1.nodes (NodePtr.cell k i)).line = line ∧
      (s1.nodes (NodePtr.cell k i)).opcode = op ∧
      (s1.nodes (NodePtr.cell k i)).op1 = unused_operand ∧
      (s1.nodes (NodePtr.cell k i)).op2 = unused_operand ∧
      (s1.nodes (NodePtr.cell k i)).op3 = unused_operand ∧
      (∀ x, x ≠ NodePtr.cell k i → SamePayload (s1.nodes x) (s.nodes x)) := by
  obtain ⟨htl, hcells⟩ := hp
  have hnn : (s.pools pool_head).prev ≠ PoolPtr.null := by
    rcases htl with h | ⟨k, h, -, -⟩ <;> rw [h] <;> simp
  by_cases hcond : (s.pools pool_head).prev = pool_head ∨
      (s.pools (s.pools pool_head).prev).next_free ≥ POOL_SIZE
  · -- a new pool is allocated
    obtain ⟨sA, hA, hAn, hAnp, hAnf, hAprev⟩ := new_pool_spec s hnn
    have hcA : Chain sA ptrs := Chain_congr s sA ptrs (fun x => by rw [hAn]; simp) hc
    have hfresh : NodePtr.cell s.npools (0 : Int).toNat ∉ ptrs := by
      intro h
      have := (hcells _ _ h).1
      omega
    obtain ⟨s6, h6, hc6, hnp6, hpools6, hpay⟩ :=
      new_node_in_spec sA ptrs s.npools op line 0 hcA hAnf (le_refl 0) (by decide) hfresh
    refine ⟨s6, s.npools, (0 : Int).toNat, ?_, hfresh, hc6, ?_, ?_⟩
    · rw [ir_new_node_eq, if_neg hnn, if_pos hcond, hA]
      exact h6
    · have hprev6 : (s6.pools pool_head).prev = PoolPtr.pool s.npools := by
        rw [hpools6, if_neg (by simp), hAprev]
      refine ⟨Or.inr ⟨s.npools, hprev6, by omega, ?_⟩, ?_⟩
      · rw [hpools6]; simp
      · intro k i hmem
        rw [hprev6, hnp6, hAnp]
        rw [List.mem_append] at hmem
        rcases hmem with hmem | hmem
        · have := (hcells k i hmem).1
          refine ⟨by omega, ?_⟩
          intro hk
          simp at hk
          omega
        · simp at hmem
          obtain ⟨rfl, rfl⟩ := hmem
          refine ⟨by omega, ?_⟩
          intro _
          rw [hpools6]; simp
    · rw [hAn] at hpay
      exact hpay
  · -- the tail pool has room
    push_neg at hcond
    obtain ⟨hne, hlt⟩ := hcond
    rcases htl with h | ⟨k, hk, hknp, hk0⟩
    · exact absurd h hne
    · rw [hk] at hlt
      generalize hi : (s.pools (PoolPtr.pool k)).next_free = i at hlt hk0
      have hfresh : NodePtr.cell k i.toNat ∉ ptrs := by
        intro h
        have := (hcells _ _ h).2 hk
        rw [hi] at this
        omega
      obtain ⟨s6, h6, hc6, hnp6, hpools6, hpay⟩ :=
        new_node_in_spec s ptrs k op line i hc hi hk0 hlt hfresh
      refine ⟨s6, k, i.toNat, ?_, hfresh, hc6, ?_, hpay⟩
      · rw [ir_new_node_eq, if_neg hnn, if_neg (by rw [hk, hi]; push_neg; exact ⟨by simp, hlt⟩)]
        simp only [Option.some_bind, hk]
        exact h6
      · have hprev6 : (s6.pools pool_head).prev = PoolPtr.pool k := by
          rw [hpools6, if_neg (by simp), hk]
        refine ⟨Or.inr ⟨k, hprev6, by omega, ?_⟩, ?_⟩
        · rw [hpools6]; simp [hi]; omega
        · intro k1 i1 hmem
          rw [hprev6, hnp6]
          rw [List.mem_append] at hmem
          rcases hmem with hmem | hmem
          · have := hcells k1 i1 hmem
            refine ⟨this.1, ?_⟩
            intro hk1
            simp at hk1
            subst hk1
            have h2 := this.2 hk
            rw [hi] at h2
            rw [hpools6]; simp [hi]; omega
          · simp at hmem
            obtain ⟨rfl, rfl⟩ := hmem
            refine ⟨hknp, ?_⟩
            intro _
            rw [hpools6]; simp [hi]; omega

theorem Matches_congr (c : BuildCall) (a b : IRNode) (h : SamePayload a b) (hm : Matches c b) :
    Matches c a := by
  obtain ⟨h1, h2, h3, h4, h5⟩ := h
  obtain ⟨m1, m2, m3⟩ := hm
  refine ⟨h2 ▸ m1, h1 ▸ m2, ?_⟩
  intro sl
  have := m3 sl
  cases sl <;> simp only [IRNode.get] at this ⊢
  · rw [h3]; exact this
  · rw [h4]; exact this
  · rw [h5]; exact this

theorem arity_cases (op : IROpcode) : arity op = 0 ∨ arity op = 1 ∨ arity op = 2 ∨ arity op = 3 := by
  cases op <;> simp [arity]

theorem ir_build_spec (s : IRState) (ptrs : List NodePtr) (c : BuildCall)
    (hc : Chain s ptrs) (hp : PoolInv s ptrs) (hv : c.valid) :
    ∃ s1 k i, ir_build s c.op c.line c.nops c.args = some (s1, NodePtr.cell k i) ∧
      Chain s1 (ptrs ++ [NodePtr.cell k i]) ∧ PoolInv s1 (ptrs ++ [NodePtr.cell k i]) ∧
      Matches c (s1.nodes (NodePtr.cell k i)) ∧
      (∀ x ∈ ptrs, SamePayload (s1.nodes x) (s.nodes x)) := by
  obtain ⟨s0, k, i, hnew, hfresh, hc0, hp0, hline, hop, h1, h2, h3, hold⟩ :=
    ir_new_node_spec s ptrs c.op c.line hc hp
  obtain ⟨hnops, hlen, -, -, -⟩ := hv
  have key : ∀ s1 : IRState, s1.pools = s0.pools → s1.npools = s0.npools →
      (∀ x, x ≠ NodePtr.cell k i → s1.nodes x = s0.nodes x) →
      (s1.nodes (NodePtr.cell k i)).next = (s0.nodes (NodePtr.cell k i)).next →
      (s1.nodes (NodePtr.cell k i)).prev = (s0.nodes (NodePtr.cell k i)).prev →
      Matches c (s1.nodes (NodePtr.cell k i)) →
      Chain s1 (ptrs ++ [NodePtr.cell k i]) ∧ PoolInv s1 (ptrs ++ [NodePtr.cell k i]) ∧
      Matches c (s1.nodes (NodePtr.cell k i)) ∧
      (∀ x ∈ ptrs, SamePayload (s1.nodes x) (s.nodes x)) := by
    intro s1 hpl hnp hsame hnx hpv hm
    refine ⟨?_, ?_, hm, ?_⟩
    · apply Chain_congr s0 s1 _ _ hc0
      intro x
      by_cases hx : x = NodePtr.cell k i
      · subst hx; exact ⟨hnx, hpv⟩
      · rw [hsame x hx]; exact ⟨rfl, rfl⟩
    · simpa [PoolInv, hpl, hnp] using hp0
    · intro x hx
      have hne : x ≠ NodePtr.cell k i := fun h => hfresh (h ▸ hx)
      rw [hsame x hne]
      exact hold x hne
  rcases arity_cases c.op with ha | ha | ha | ha
  · rw [ha] at hnops hlen
    have hargs : c.args = [] := List.length_eq_zero.mp hlen
    refine ⟨s0, k, i, ?_, key s0 rfl rfl (fun _ _ => rfl) rfl rfl ?_⟩
    · simp [ir_build, hnew, hnops]
    · refine ⟨hop, hline, ?_⟩
      intro sl
      cases sl <;> simp [IRNode.get, BuildCall.sr, hnops, h1, h2, h3, unused_operand]
  · rw [ha] at hnops hlen
    obtain ⟨a, hargs⟩ := List.length_eq_one.mp hlen
    refine ⟨(s0.setNode (NodePtr.cell k i) (fun x => { x with op1 := { x.op1 with sr := a } })), k, i, ?_,
      key _ rfl rfl (fun x hx => by simp [hx]) (by simp) (by simp) ?_⟩
    · simp [ir_build, hnew, hnops, hargs, va_arg]
    · refine ⟨by simp [hop], by simp [hline], ?_⟩
      intro sl
      cases sl <;>
        simp [IRNode.get, BuildCall.sr, hnops, hargs, h1, h2, h3, unused_operand]
  · rw [ha] at hnops hlen
    obtain ⟨a, b, hargs⟩ := List.length_eq_two.mp hlen
    refine ⟨((s0.setNode (NodePtr.cell k i) (fun x => { x with op1 := { x.op1 with sr := a } })).setNode (NodePtr.cell k i)
        (fun x => { x with op3 := { x.op3 with sr := b } })), k, i, ?_,
      key _ rfl rfl (fun x hx => by simp [hx]) (by simp) (by simp) ?_⟩
    · simp [ir_build, hnew, hnops, hargs, va_arg]
    · refine ⟨by simp [hop], by simp [hline], ?_⟩
      intro sl
      cases sl <;>
        simp [IRNode.get, BuildCall.sr, hnops, hargs, h1, h2, h3, unused_operand]
  · rw [ha] at hnops hlen
    obtain ⟨a, b, d, hargs⟩ := List.length_eq_three.mp hlen
    refine ⟨(((s0.setNode (NodePtr.cell k i) (fun x => { x with op1 := { x.op1 with sr := a } })).setNode (NodePtr.cell k i)
        (fun x => { x with op2 := { x.op2 with sr := b } })).setNode (NodePtr.cell k i)
        (fun x => { x with op3 := { x.op3 with sr := d } })), k, i, ?_,
      key _ rfl rfl (fun x hx => by simp [hx]) (by simp) (by simp) ?_⟩
    · simp [ir_build, hnew, hnops, hargs, va_arg]
    · refine ⟨by simp [hop], by simp [hline], ?_⟩
      intro sl
      cases sl <;>
        simp [IRNode.get, BuildCall.sr, hnops, hargs, h1, h2, h3, unused_operand]

theorem Forall₂_congr_right {α β : Type} {R R1 : α → β → Prop} {l1 : List α} {l2 : List β}
    (h : List.Forall₂ R l1 l2) (himp : ∀ a, ∀ b ∈ l2, R a b → R1 a b) :
    List.Forall₂ R1 l1 l2 := by
  induction h with
  | nil => exact List.Forall₂.nil
  | cons hab _ ih =>
    exact List.Forall₂.cons (himp _ _ (by simp) hab)
      (ih (fun a b hb => himp a b (List.mem_cons_of_mem _ hb)))

theorem Built_init (s : IRState) : Built (init_node_list (init_pool_list s)) [] [] := by
  refine ⟨⟨?_, ?_, List.nodup_nil, by simp⟩, ⟨Or.inl ?_, by simp⟩, List.Forall₂.nil⟩
  · simp [FwdLinked, init_node_list]
  · simp [BwdLinked, init_node_list]
  · simp [init_node_list, init_pool_list]

theorem build_from_spec (calls : List BuildCall) (s : IRState) (ptrs : List NodePtr)
    (calls0 : List BuildCall) (hb : Built s ptrs calls0) (hv : ∀ c ∈ calls, c.valid) :
    ∃ s1 ptrs1, build_from s calls = some s1 ∧ Built s1 (ptrs ++ ptrs1) (calls0 ++ calls) := by
  induction calls generalizing s ptrs calls0 with
  | nil => exact ⟨s, [], rfl, by simpa using hb⟩
  | cons c rest ih =>
    obtain ⟨hc, hp, hm⟩ := hb
    obtain ⟨s1, k, i, h1, hc1, hp1, hm1, hold⟩ :=
      ir_build_spec s ptrs c hc hp (hv c (by simp))
    have hb1 : Built s1 (ptrs ++ [NodePtr.cell k i]) (calls0 ++ [c]) := by
      refine ⟨hc1, hp1, List.rel_append ?_ (List.Forall₂.cons hm1 List.Forall₂.nil)⟩
      exact Forall₂_congr_right hm (fun a b hb hab => Matches_congr a _ _ (hold b hb) hab)
    obtain ⟨s2, ptrs2, h2, hb2⟩ :=
      ih s1 (ptrs ++ [NodePtr.cell k i]) (calls0 ++ [c]) hb1
        (fun c1 hc1 => hv c1 (List.mem_cons_of_mem _ hc1))
    refine ⟨s2, NodePtr.cell k i :: ptrs2, ?_, by simpa using hb2⟩
    simp [build_from, h1, h2]

theorem build_block_spec (s0 : IRState) (calls : List BuildCall)
    (hv : ∀ c ∈ calls, c.valid) :
    ∃ s ptrs, build_block s0 calls = some s ∧ Built s ptrs calls := by
  obtain ⟨s1, ptrs1, h1, hb1⟩ :=
    build_from_spec calls _ [] [] (Built_init s0) hv
  exact ⟨s1, ptrs1, h1, by simpa using hb1⟩

/-! ## The loop body as a sequence of tag steps -/

theorem tag_use_eq (o : IROperand) (t : RenameVars) :
    tag_use o t =
      if 0 ≤ o.sr ∧ o.sr < t.nSR then
        some ({ o with vr := (mint t o.sr).SRToVR o.sr, nu := (mint t o.sr).LU o.sr },
              mint t o.sr)
      else none := rfl

theorem tag_def_eq (o : IROperand) (t : RenameVars) :
    tag_def o t =
      if 0 ≤ o.sr ∧ o.sr < t.nSR then
        some ({ o with vr := (mint t o.sr).SRToVR o.sr, nu := (mint t o.sr).LU o.sr },
              { mint t o.sr with
                SRToVR := Function.update (mint t o.sr).SRToVR o.sr (-1),
                LU := Function.update (mint t o.sr).LU o.sr INT_MAX })
      else none := rfl

theorem bind_some_map {α β : Type} (x : Option α) (f : α → β) :
    (x.bind fun a => some (f a)) = x.map f := by
  cases x <;> rfl

theorem rename_defs_eq (n : IRNode) (t : RenameVars) :
    rename_defs n t = tag_slots (if has_def n.opcode then [(true, Slot.s3)] else []) n t := by
  cases h : n.opcode <;>
    simp [rename_defs, has_def, tag_slots, tag_slot, h, IRNode.get, IRNode.set, bind_some_map]

theorem rename_uses_eq (n : IRNode) (t : RenameVars) :
    rename_uses n t = tag_slots ((tagged_use_slots n.opcode).map (fun sl => (false, sl))) n t := by
  cases h : n.opcode <;>
    simp [rename_uses, tagged_use_slots, tag_slots, tag_slot, h, IRNode.get, IRNode.set,
      bind_some_map] <;>
    rcases tag_use n.op1 t with _ | ⟨o, t1⟩ <;> simp [h, bind_some_map]

theorem tag_slots_append (es fs : List (Bool × Slot)) (n : IRNode) (t : RenameVars) :
    tag_slots (es ++ fs) n t = (tag_slots es n t).bind fun r => tag_slots fs r.1 r.2 := by
  induction es generalizing n t with
  | nil => simp [tag_slots]
  | cons e es ih =>
    simp only [List.cons_append, tag_slots]
    rcases tag_slot e n t with _ | ⟨n1, t1⟩
    · simp
    · simp [ih]

/-- What tag_def and tag_use leave alone. -/
theorem tag_slot_frame (e : Bool × Slot) (n n1 : IRNode) (t t1 : RenameVars)
    (h : tag_slot e n t = some (n1, t1)) :
    n1.opcode = n.opcode ∧ n1.line = n.line ∧ n1.prev = n.prev ∧ n1.next = n.next ∧
    (∀ sl, (n1.get sl).sr = (n.get sl).sr ∧ (n1.get sl).pr = (n.get sl).pr) ∧
    (∀ sl, sl ≠ e.2 → n1.get sl = n.get sl) ∧
    t1.nSR = t.nSR ∧ t1.index = t.index ∧ t1.maxlive = t.maxlive ∧
    0 ≤ (n.get e.2).sr ∧ (n.get e.2).sr < t.nSR := by
  obtain ⟨d, sl0⟩ := e
  simp only [tag_slot, tag_def_eq, tag_use_eq] at h
  by_cases hr : 0 ≤ (n.get sl0).sr ∧ (n.get sl0).sr < t.nSR
  · simp only [hr, and_self, if_true] at h
    have hm : (mint t (n.get sl0).sr).nSR = t.nSR ∧ (mint t (n.get sl0).sr).index = t.index ∧
        (mint t (n.get sl0).sr).maxlive = t.maxlive := by
      unfold mint; split_ifs <;> simp
    cases d <;> simp at h <;> obtain ⟨rfl, rfl⟩ := h <;>
      refine ⟨?_, ?_, ?_, ?_, ?_, ?_, ?_⟩ <;>
      first
        | (cases sl0 <;> rfl)
        | (intro sl; cases sl <;> cases sl0 <;> simp [IRNode.get, IRNode.set])
        | (simp only [hm]; exact ⟨trivial, trivial, trivial, hr.1, hr.2⟩)
  · simp [hr] at h

theorem tag_slots_frame (es : List (Bool × Slot)) (n n1 : IRNode) (t t1 : RenameVars)
    (h : tag_slots es n t = some (n1, t1)) :
    n1.opcode = n.opcode ∧ n1.line = n.line ∧ n1.prev = n.prev ∧ n1.next = n.next ∧
    (∀ sl, (n1.get sl).sr = (n.get sl).sr ∧ (n1.get sl).pr = (n.get sl).pr) ∧
    (∀ sl, (∀ e ∈ es, sl ≠ e.2) → n1.get sl = n.get sl) ∧
    t1.nSR = t.nSR ∧ t1.index = t.index ∧ t1.maxlive = t.maxlive ∧
    (∀ e ∈ es, 0 ≤ (n.get e.2).sr ∧ (n.get e.2).sr < t.nSR) := by
  induction es generalizing n t with
  | nil =>
    simp only [tag_slots, Option.some.injEq, Prod.mk.injEq] at h
    obtain ⟨rfl, rfl⟩ := h
    simp
  | cons e es ih =>
    simp only [tag_slots] at h
    rcases he : tag_slot e n t with _ | ⟨n2, t2⟩
    · simp [he] at h
    · simp only [he, Option.some_bind] at h
      obtain ⟨a1, a2, a3, a4, a5, a6, a7, a8, a9, a10, a11⟩ := tag_slot_frame e n n2 t t2 he
      obtain ⟨b1, b2, b3, b4, b5, b6, b7, b8, b9, b10⟩ := ih n2 t2 h
      refine ⟨b1.trans a1, b2.trans a2, b3.trans a3, b4.trans a4, ?_, ?_, b7.trans a7,
        b8.trans a8, b9.trans a9, ?_⟩
      · intro sl
        exact ⟨(b5 sl).1.trans (a5 sl).1, (b5 sl).2.trans (a5 sl).2⟩
      · intro sl hsl
        rw [b6 sl (fun e1 he1 => hsl e1 (List.mem_cons_of_mem _ he1)), a6 sl (hsl e (by simp))]
      · intro e1 he1
        rcases List.mem_cons.mp he1 with rfl | he1
        · exact ⟨a10, a11⟩
        · have := b10 e1 he1
          rw [(a5 e1.2).1, a7] at this
          exact this

theorem tag_slot_total (e : Bool × Slot) (n : IRNode) (t : RenameVars)
    (h : 0 ≤ (n.get e.2).sr ∧ (n.get e.2).sr < t.nSR) : ∃ r, tag_slot e n t = some r := by
  obtain ⟨d, sl0⟩ := e
  cases d <;> simp [tag_slot, tag_def_eq, tag_use_eq, h]

theorem tag_slots_total (es : List (Bool × Slot)) (n : IRNode) (t : RenameVars)
    (h : ∀ e ∈ es, 0 ≤ (n.get e.2).sr ∧ (n.get e.2).sr < t.nSR) :
    ∃ r, tag_slots es n t = some r := by
  induction es generalizing n t with
  | nil => exact ⟨_, rfl⟩
  | cons e es ih =>
    obtain ⟨⟨n2, t2⟩, he⟩ := tag_slot_total e n t (h e (by simp))
    obtain ⟨-, -, -, -, a5, -, a7, -, -, -, -⟩ := tag_slot_frame e n n2 t t2 he
    obtain ⟨r, hr⟩ := ih n2 t2 (fun e1 he1 => by
      rw [(a5 e1.2).1, a7]; exact h e1 (List.mem_cons_of_mem _ he1))
    exact ⟨r, by simp [tag_slots, he, hr]⟩

theorem set_LU_some (sr : Int) (t t1 : RenameVars) (h : set_LU sr t = some t1) :
    t1.SRToVR = t.SRToVR ∧ t1.vrname = t.vrname ∧ t1.nSR = t.nSR ∧ t1.index = t.index ∧
    t1.maxlive = t.maxlive := by
  unfold set_LU at h
  split_ifs at h
  simp only [Option.some.injEq] at h
  subst h
  simp

theorem rename_last_use_frame (n : IRNode) (t t1 : RenameVars)
    (h : rename_last_use n t = some t1) :
    t1.SRToVR = t.SRToVR ∧ t1.vrname = t.vrname ∧ t1.nSR = t.nSR ∧ t1.index = t.index ∧
    t1.maxlive = t.maxlive := by
  have two : ∀ a b : Int, ((set_LU a t).bind fun t2 => set_LU b t2) = some t1 →
      t1.SRToVR = t.SRToVR ∧ t1.vrname = t.vrname ∧ t1.nSR = t.nSR ∧ t1.index = t.index ∧
      t1.maxlive = t.maxlive := by
    intro a b hab
    rcases ha : set_LU a t with _ | t2
    · simp [ha] at hab
    · simp only [ha, Option.some_bind] at hab
      obtain ⟨x1, x2, x3, x4, x5⟩ := set_LU_some a t t2 ha
      obtain ⟨y1, y2, y3, y4, y5⟩ := set_LU_some b t2 t1 hab
      exact ⟨y1.trans x1, y2.trans x2, y3.trans x3, y4.trans x4, y5.trans x5⟩
  unfold rename_last_use at h
  cases hop : n.opcode <;> simp only [hop] at h <;>
    first
      | exact set_LU_some _ _ _ h
      | exact two _ _ h
      | (simp only [Option.some.injEq] at h; subst h; simp)

theorem rename_last_use_total (n : IRNode) (t : RenameVars)
    (h : ∀ sl ∈ tagged_use_slots n.opcode, 0 ≤ (n.get sl).sr ∧ (n.get sl).sr < t.nSR) :
    ∃ t1, rename_last_use n t = some t1 := by
  unfold rename_last_use
  cases hop : n.opcode <;> simp only [hop, tagged_use_slots] at h ⊢ <;>
    simp [set_LU, IRNode.get] at h ⊢ <;> simp [h]

theorem events_slots (op : IROpcode) : (events op).map (fun e => e.2) = stamped_slots op := by
  cases op <;> simp [events, stamped_slots, has_def, tagged_use_slots]

theorem rename_body_eq (n : IRNode) (t : RenameVars) :
    rename_body n t =
      (tag_slots (events n.opcode) n t).bind fun r =>
        (rename_last_use r.1 r.2).map fun t3 => (r.1, finish_body t3) := by
  unfold events
  rw [tag_slots_append, ← rename_defs_eq]
  unfold rename_body
  rcases hd : rename_defs n t with _ | ⟨n2, t2⟩
  · simp
  · have hop : n2.opcode = n.opcode := by
      rw [rename_defs_eq] at hd
      exact (tag_slots_frame _ _ _ _ _ hd).1
    simp only [Option.some_bind, ← hop, ← rename_uses_eq]
    rcases rename_uses n2 t2 with _ | ⟨n3, t3⟩
    · simp
    · simp only [Option.some_bind]
      rcases rename_last_use n3 t3 with _ | t4
      · simp
      · simp [finish_body]

theorem rename_body_some (n n1 : IRNode) (t t1 : RenameVars)
    (h : rename_body n t = some (n1, t1)) :
    ∃ t2 t3, tag_slots (events n.opcode) n t = some (n1, t2) ∧
      rename_last_use n1 t2 = some t3 ∧ t1 = finish_body t3 := by
  rw [rename_body_eq] at h
  rcases ht : tag_slots (events n.opcode) n t with _ | ⟨n2, t2⟩
  · simp [ht] at h
  · simp only [ht, Option.some_bind] at h
    rcases hl : rename_last_use n2 t2 with _ | t3
    · simp [hl] at h
    · simp only [hl, Option.map_some', Option.some.injEq, Prod.mk.injEq] at h
      obtain ⟨rfl, rfl⟩ := h
      exact ⟨t2, t3, rfl, hl, rfl⟩

theorem mem_events (op : IROpcode) (e : Bool × Slot) (he : e ∈ events op) :
    e.2 ∈ stamped_slots op := by
  rw [← events_slots]
  exact List.mem_map_of_mem _ he

theorem tagged_use_sub_stamped (op : IROpcode) (sl : Slot) (h : sl ∈ tagged_use_slots op) :
    sl ∈ stamped_slots op := by
  unfold stamped_slots
  exact List.mem_append_right _ h

/-- The loop body succeeds when every slot it tags holds a valid table index. -/
theorem rename_body_total (n : IRNode) (t : RenameVars)
    (h : ∀ sl ∈ stamped_slots n.opcode, 0 ≤ (n.get sl).sr ∧ (n.get sl).sr < t.nSR) :
    ∃ r, rename_body n t = some r := by
  obtain ⟨⟨n2, t2⟩, h2⟩ := tag_slots_total (events n.opcode) n t
    (fun e he => h e.2 (mem_events _ _ he))
  obtain ⟨a1, -, -, -, a5, -, a7, -, -, -⟩ := tag_slots_frame _ _ _ _ _ h2
  obtain ⟨t3, h3⟩ := rename_last_use_total n2 t2 (fun sl hsl => by
    rw [(a5 sl).1, a7]
    rw [a1] at hsl
    exact h sl (tagged_use_sub_stamped _ _ hsl))
  exact ⟨(n2, finish_body t3), by rw [rename_body_eq, h2]; simp [h3]⟩

theorem finish_body_frame (t : RenameVars) :
    (finish_body t).SRToVR = t.SRToVR ∧ (finish_body t).vrname = t.vrname ∧
    (finish_body t).nSR = t.nSR ∧ (finish_body t).index = t.index - 1 ∧
    (finish_body t).LU = t.LU := by
  unfold finish_body
  split_ifs <;> simp

/-- What the loop body leaves alone. -/
theorem rename_body_frame (n n1 : IRNode) (t t1 : RenameVars)
    (h : rename_body n t = some (n1, t1)) :
    n1.opcode = n.opcode ∧ n1.line = n.line ∧ n1.prev = n.prev ∧ n1.next = n.next ∧
    (∀ sl, (n1.get sl).sr = (n.get sl).sr ∧ (n1.get sl).pr = (n.get sl).pr) ∧
    (∀ sl, sl ∉ stamped_slots n.opcode → n1.get sl = n.get sl) ∧
    t1.nSR = t.nSR ∧ t1.index = t.index - 1 := by
  obtain ⟨t2, t3, h2, h3, rfl⟩ := rename_body_some n n1 t t1 h
  obtain ⟨a1, a2, a3, a4, a5, a6, a7, a8, -, -⟩ := tag_slots_frame _ _ _ _ _ h2
  obtain ⟨-, -, b3, b4, -⟩ := rename_last_use_frame _ _ _ h3
  obtain ⟨-, -, c3, c4, -⟩ := finish_body_frame t3
  refine ⟨a1, a2, a3, a4, a5, ?_, by rw [c3, b3, a7], by rw [c4, b4, a8]⟩
  intro sl hsl
  apply a6
  intro e he heq
  exact hsl (heq ▸ mem_events _ _ he)

/-! ## The loops of ir_rename on a well-linked node list -/

theorem scan_loop_spec (s : IRState) (l : List NodePtr) (a : NodePtr)
    (hf : FwdLinked s a l) (hcell : ∀ p ∈ l, p ≠ node_head ∧ p ≠ NodePtr.null)
    (fuel : Nat) (hfuel : l.length < fuel) (bl ms : Int) :
    scan_loop fuel s (s.nodes a).next bl ms =
      some (bl + (l.length : Int), scan_max ms (l.map s.nodes)) := by
  induction l generalizing a fuel bl ms with
  | nil =>
    obtain ⟨f, rfl⟩ : ∃ f, fuel = f + 1 := ⟨fuel - 1, by simp at hfuel; omega⟩
    simp only [FwdLinked] at hf
    simp [scan_loop, hf, scan_max]
  | cons b rest ih =>
    obtain ⟨f, rfl⟩ : ∃ f, fuel = f + 1 := ⟨fuel - 1, by simp at hfuel; omega⟩
    obtain ⟨h1, h2⟩ := hf
    obtain ⟨hb1, hb2⟩ := hcell b (by simp)
    rw [h1]
    simp only [scan_loop, hb1, hb2, if_false]
    rw [ih b h2 (fun p hp => hcell p (List.mem_cons_of_mem _ hp)) f (by simp at hfuel; omega)]
    simp only [scan_max, List.map_cons, List.length_cons, Nat.cast_add, Nat.cast_one,
      Option.some.injEq, Prod.mk.injEq, and_true]
    ring

theorem node_list_spec (s : IRState) (l : List NodePtr) (a : NodePtr)
    (hf : FwdLinked s a l) (hcell : ∀ p ∈ l, p ≠ node_head ∧ p ≠ NodePtr.null)
    (fuel : Nat) (hfuel : l.length < fuel) :
    node_list fuel s (s.nodes a).next = some (l.map s.nodes) := by
  induction l generalizing a fuel with
  | nil =>
    obtain ⟨f, rfl⟩ : ∃ f, fuel = f + 1 := ⟨fuel - 1, by simp at hfuel; omega⟩
    simp only [FwdLinked] at hf
    simp [node_list, hf]
  | cons b rest ih =>
    obtain ⟨f, rfl⟩ : ∃ f, fuel = f + 1 := ⟨fuel - 1, by simp at hfuel; omega⟩
    obtain ⟨h1, h2⟩ := hf
    obtain ⟨hb1, hb2⟩ := hcell b (by simp)
    rw [h1]
    simp only [node_list, hb1, hb2, if_false]
    rw [ih b h2 (fun p hp => hcell p (List.mem_cons_of_mem _ hp)) f (by simp at hfuel; omega)]
    simp

theorem rename_walk_snoc (xs : List IRNode) (h : IRNode) (t : RenameVars) :
    rename_walk (xs ++ [h]) t =
      (rename_body h t).bind fun r =>
        (rename_walk xs r.2).bind fun q => some (q.1 ++ [r.1], q.2) := by
  induction xs with
  | nil =>
    simp only [List.nil_append, rename_walk, Option.some_bind]
  | cons x xs ih =>
    show rename_walk (x :: (xs ++ [h])) t = _
    simp only [rename_walk]
    rw [ih]
    rcases rename_body h t with _ | ⟨h1, t1⟩
    · simp
    · simp only [Option.some_bind]
      rcases rename_walk xs t1 with _ | ⟨xs1, t2⟩
      · simp
      · simp only [Option.some_bind]
        rcases rename_body x t2 with _ | ⟨x1, t3⟩ <;> simp

theorem rename_loop_spec (l : List NodePtr) (s : IRState) (a : NodePtr) (t t1 : RenameVars)
    (outs : List IRNode)
    (hb : BwdLinked s a l) (hnd : l.Nodup)
    (hcell : ∀ p ∈ l, p ≠ node_head ∧ p ≠ NodePtr.null)
    (hw : rename_walk (l.reverse.map s.nodes) t = some (outs, t1))
    (fuel : Nat) (hfuel : l.length < fuel) :
    ∃ s1, rename_loop fuel s (s.nodes a).prev t = some (s1, t1) ∧
      l.reverse.map s1.nodes = outs ∧
      (∀ p, p ∉ l → s1.nodes p = s.nodes p) ∧
      (∀ p, (s1.nodes p).prev = (s.nodes p).prev ∧ (s1.nodes p).next = (s.nodes p).next) ∧
      s1.pools = s.pools ∧ s1.npools = s.npools := by
  induction l generalizing s a t outs fuel with
  | nil =>
    obtain ⟨f, rfl⟩ : ∃ f, fuel = f + 1 := ⟨fuel - 1, by simp at hfuel; omega⟩
    simp only [BwdLinked] at hb
    simp only [List.reverse_nil, List.map_nil, rename_walk, Option.some.injEq,
      Prod.mk.injEq] at hw
    obtain ⟨rfl, rfl⟩ := hw
    exact ⟨s, by simp [rename_loop, hb], rfl, fun _ _ => rfl, fun _ => ⟨rfl, rfl⟩, rfl, rfl⟩
  | cons b rest ih =>
    obtain ⟨f, rfl⟩ : ∃ f, fuel = f + 1 := ⟨fuel - 1, by simp at hfuel; omega⟩
    obtain ⟨h1, h2⟩ := hb
    obtain ⟨hb1, hb2⟩ := hcell b (by simp)
    obtain ⟨hbr, hndr⟩ := List.nodup_cons.mp hnd
    have hsplit : (b :: rest).reverse.map s.nodes = rest.reverse.map s.nodes ++ [s.nodes b] := by
      simp
    rw [hsplit, rename_walk_snoc] at hw
    obtain ⟨⟨nb, t2⟩, hbody, hw2⟩ := Option.bind_eq_some.mp hw
    obtain ⟨⟨outs1, t3⟩, hrest, hw3⟩ := Option.bind_eq_some.mp hw2
    simp only [Option.some.injEq, Prod.mk.injEq] at hw3
    obtain ⟨rfl, rfl⟩ := hw3
    obtain ⟨-, -, f3, f4, -, -, -, -⟩ := rename_body_frame _ _ _ _ hbody
    generalize hs2 : ({ s with nodes := Function.update s.nodes b nb } : IRState) = s2
    have hn2 : ∀ p, s2.nodes p = if p = b then nb else s.nodes p := by
      intro p; rw [← hs2]; simp [Function.update_apply]
    have hlinks : ∀ p, (s2.nodes p).prev = (s.nodes p).prev ∧
        (s2.nodes p).next = (s.nodes p).next := by
      intro p
      rw [hn2]
      split_ifs with hp
      · subst hp; exact ⟨f3, f4⟩
      · exact ⟨rfl, rfl⟩
    have hmap : rest.reverse.map s2.nodes = rest.reverse.map s.nodes := by
      apply List.map_congr_left
      intro p hp
      rw [hn2, if_neg]
      intro hpb
      exact hbr (hpb ▸ List.mem_reverse.mp hp)
    obtain ⟨s3, g1, g2, g3, g4, g5, g6⟩ := ih s2 b t2 outs1
      (BwdLinked_congr s s2 b rest (fun x _ => (hlinks x).1) h2) hndr
      (fun p hp => hcell p (List.mem_cons_of_mem _ hp)) (by rw [hmap]; exact hrest)
      f (by simp at hfuel; omega)
    refine ⟨s3, ?_, ?_, ?_, ?_, ?_, ?_⟩
    · rw [h1]
      simp only [rename_loop, hb1, if_false, rename_iter, hb2, hbody, Option.some_bind, hs2]
      rw [f3, ← (hlinks b).1]
      exact g1
    · have hsplit3 : (b :: rest).reverse.map s3.nodes =
          rest.reverse.map s3.nodes ++ [s3.nodes b] := by simp
      rw [hsplit3, g2, g3 b hbr, hn2, if_pos rfl]
    · intro p hp
      have hp1 : p ≠ b := fun h => hp (h ▸ List.mem_cons_self _ _)
      rw [g3 p (fun h => hp (List.mem_cons_of_mem _ h)), hn2, if_neg hp1]
    · intro p
      exact ⟨(g4 p).1.trans (hlinks p).1, (g4 p).2.trans (hlinks p).2⟩
    · rw [g5, ← hs2]
    · rw [g6, ← hs2]

theorem rename_steps_spec (m : Nat) (l : List NodePtr) (s : IRState) (a : NodePtr)
    (t t1 : RenameVars) (outs : List IRNode)
    (hb : BwdLinked s a l) (hnd : l.Nodup)
    (hcell : ∀ p ∈ l, p ≠ node_head ∧ p ≠ NodePtr.null) (hm : m ≤ l.length)
    (hw : rename_walk ((l.take m).reverse.map s.nodes) t = some (outs, t1)) :
    ∃ s1 p1, rename_steps m s (s.nodes a).prev t = some (s1, p1, t1) := by
  induction m generalizing l s a t outs with
  | zero =>
    simp only [List.take_zero, List.reverse_nil, List.map_nil, rename_walk, Option.some.injEq,
      Prod.mk.injEq] at hw
    obtain ⟨-, rfl⟩ := hw
    exact ⟨s, _, rfl⟩
  | succ m ih =>
    cases l with
    | nil => simp at hm
    | cons b rest =>
      obtain ⟨h1, h2⟩ := hb
      obtain ⟨hb1, hb2⟩ := hcell b (by simp)
      obtain ⟨hbr, hndr⟩ := List.nodup_cons.mp hnd
      have hsplit : ((b :: rest).take (m + 1)).reverse.map s.nodes =
          (rest.take m).reverse.map s.nodes ++ [s.nodes b] := by simp
      rw [hsplit, rename_walk_snoc] at hw
      obtain ⟨⟨nb, t2⟩, hbody, hw2⟩ := Option.bind_eq_some.mp hw
      obtain ⟨⟨outs1, t3⟩, hrest, hw3⟩ := Option.bind_eq_some.mp hw2
      simp only [Option.some.injEq, Prod.mk.injEq] at hw3
      obtain ⟨-, rfl⟩ := hw3
      obtain ⟨-, -, f3, f4, -, -, -, -⟩ := rename_body_frame _ _ _ _ hbody
      generalize hs2 : ({ s with nodes := Function.update s.nodes b nb } : IRState) = s2
      have hn2 : ∀ p, s2.nodes p = if p = b then nb else s.nodes p := by
        intro p; rw [← hs2]; simp [Function.update_apply]
      have hlinks : ∀ p, (s2.nodes p).prev = (s.nodes p).prev := by
        intro p
        rw [hn2]
        split_ifs with hp
        · subst hp; exact f3
        · rfl
      have hmap : (rest.take m).reverse.map s2.nodes = (rest.take m).reverse.map s.nodes := by
        apply List.map_congr_left
        intro p hp
        rw [hn2, if_neg]
        intro hpb
        exact hbr (hpb ▸ List.mem_of_mem_take (List.mem_reverse.mp hp))
      obtain ⟨s3, p3, g1⟩ := ih rest s2 b t2 outs1
        (BwdLinked_congr s s2 b rest (fun x _ => hlinks x) h2) hndr
        (fun p hp => hcell p (List.mem_cons_of_mem _ hp)) (by simp at hm; omega)
        (by rw [hmap]; exact hrest)
      refine ⟨s3, p3, ?_⟩
      rw [h1]
      simp only [rename_steps, hb1, if_false, rename_iter, hb2, hbody, Option.some_bind, hs2]
      rw [f3, ← hlinks b]
      exact g1

/-! ## Table sizing -/

theorem scan_step_ge (n : IRNode) (m : Int) :
    m ≤ scan_step n m ∧ ∀ sl, (n.get sl).sr ≤ scan_step n m := by
  unfold scan_step
  refine ⟨?_, ?_⟩
  · simp only []
    split_ifs <;> omega
  · intro sl
    cases sl <;> simp only [IRNode.get] <;> split_ifs <;> omega

theorem scan_step_lt (n : IRNode) (m b : Int) (hm : m < b) (hn : ∀ sl, (n.get sl).sr < b) :
    scan_step n m < b := by
  have h1 := hn Slot.s1
  have h2 := hn Slot.s2
  have h3 := hn Slot.s3
  simp only [IRNode.get] at h1 h2 h3
  unfold scan_step
  simp only []
  split_ifs <;> omega

theorem scan_max_ge (l : List IRNode) (m : Int) :
    m ≤ scan_max m l ∧ ∀ n ∈ l, ∀ sl, (n.get sl).sr ≤ scan_max m l := by
  induction l generalizing m with
  | nil => simp [scan_max]
  | cons x xs ih =>
    obtain ⟨a1, a2⟩ := scan_step_ge x m
    obtain ⟨b1, b2⟩ := ih (scan_step x m)
    refine ⟨by simp only [scan_max]; omega, ?_⟩
    intro n hn sl
    simp only [scan_max]
    rcases List.mem_cons.mp hn with rfl | hn
    · have := a2 sl; omega
    · exact b2 n hn sl

theorem scan_max_lt (l : List IRNode) (m b : Int) (hm : m < b)
    (hl : ∀ n ∈ l, ∀ sl, (n.get sl).sr < b) : scan_max m l < b := by
  induction l generalizing m with
  | nil => simpa [scan_max] using hm
  | cons x xs ih =>
    simp only [scan_max]
    exact ih _ (scan_step_lt x m b hm (hl x (by simp)))
      (fun n hn => hl n (List.mem_cons_of_mem _ hn))

theorem entry_vars_nSR (pre : List IRNode) :
    ∀ n ∈ pre, ∀ sl, (n.get sl).sr < (entry_vars pre).nSR := by
  intro n hn sl
  have := (scan_max_ge pre (-1)).2 n hn sl
  simp only [entry_vars]
  split_ifs <;> omega

theorem valid_sr (c : BuildCall) (hv : c.valid) :
    (∀ sl, c.sr sl < INT_MAX) ∧ (∀ sl ∈ stamped_slots c.op, 0 ≤ c.sr sl) := by
  obtain ⟨hnops, hlen, hargs, hdef, huse⟩ := hv
  refine ⟨?_, ?_⟩
  · intro sl
    rcases arity_cases c.op with ha | ha | ha | ha <;> rw [ha] at hnops hlen
    · cases sl <;> simp [BuildCall.sr, hnops, INT_MAX]
    · obtain ⟨a, h⟩ := List.length_eq_one.mp hlen
      rw [h] at hargs
      have := hargs a (by simp)
      cases sl <;> simp [BuildCall.sr, hnops, h, this] <;> simp [INT_MAX]
    · obtain ⟨a, b, h⟩ := List.length_eq_two.mp hlen
      rw [h] at hargs
      have h1 := hargs a (by simp)
      have h2 := hargs b (by simp)
      cases sl <;> simp [BuildCall.sr, hnops, h, h1, h2]
      simp [INT_MAX]
    · obtain ⟨a, b, d, h⟩ := List.length_eq_three.mp hlen
      rw [h] at hargs
      have h1 := hargs a (by simp)
      have h2 := hargs b (by simp)
      have h3 := hargs d (by simp)
      cases sl <;> simp [BuildCall.sr, hnops, h, h1, h2, h3]
  · intro sl hsl
    unfold stamped_slots at hsl
    rcases List.mem_append.mp hsl with h | h
    · split_ifs at h with hd
      · simp at h
        subst h
        exact hdef hd
      · simp at h
    · exact huse sl h

/-! ## The walk over the list of nodes -/

theorem rename_walk_frame (pre : List IRNode) (t : RenameVars) (out : List IRNode)
    (t1 : RenameVars) (h : rename_walk pre t = some (out, t1)) :
    out.length = pre.length ∧ t1.nSR = t.nSR ∧ t1.index = t.index - (pre.length : Int) := by
  induction pre generalizing out t1 with
  | nil =>
    simp only [rename_walk, Option.some.injEq, Prod.mk.injEq] at h
    obtain ⟨rfl, rfl⟩ := h
    simp
  | cons x xs ih =>
    simp only [rename_walk] at h
    obtain ⟨⟨o1, t2⟩, h1, h2⟩ := Option.bind_eq_some.mp h
    obtain ⟨⟨x1, t3⟩, h3, h4⟩ := Option.bind_eq_some.mp h2
    simp only [Option.some.injEq, Prod.mk.injEq] at h4
    obtain ⟨rfl, rfl⟩ := h4
    obtain ⟨a1, a2, a3⟩ := ih o1 t2 h1
    obtain ⟨-, -, -, -, -, -, b7, b8⟩ := rename_body_frame _ _ _ _ h3
    refine ⟨by simp [a1], by rw [b7, a2], ?_⟩
    rw [b8, a3]
    simp only [List.length_cons, Nat.cast_add, Nat.cast_one]
    ring

theorem rename_walk_total (pre : List IRNode) (t : RenameVars)
    (h : ∀ n ∈ pre, ∀ sl ∈ stamped_slots n.opcode, 0 ≤ (n.get sl).sr ∧ (n.get sl).sr < t.nSR) :
    ∃ out t1, rename_walk pre t = some (out, t1) := by
  induction pre with
  | nil => exact ⟨[], t, rfl⟩
  | cons x xs ih =>
    obtain ⟨o1, t2, h1⟩ := ih (fun n hn => h n (List.mem_cons_of_mem _ hn))
    obtain ⟨-, a2, -⟩ := rename_walk_frame _ _ _ _ h1
    obtain ⟨⟨x1, t3⟩, h3⟩ := rename_body_total x t2 (by rw [a2]; exact h x (by simp))
    exact ⟨x1 :: o1, t3, by simp [rename_walk, h1, h3]⟩

theorem Built_pre (s : IRState) (ptrs : List NodePtr) (calls : List BuildCall)
    (hb : Built s ptrs calls) : List.Forall₂ Matches calls (ptrs.map s.nodes) := by
  rw [List.forall₂_map_right_iff]
  exact hb.2.2

/-- Every tagged slot of a block built from valid calls holds a valid index of
the tables sized by ir_rename. -/
theorem Matches_in_range (calls : List BuildCall) (pre : List IRNode)
    (hv : ∀ c ∈ calls, c.valid) (hm : List.Forall₂ Matches calls pre) :
    (∀ n ∈ pre, ∀ sl, (n.get sl).sr < INT_MAX) ∧
    (∀ n ∈ pre, ∀ sl ∈ stamped_slots n.opcode,
      0 ≤ (n.get sl).sr ∧ (n.get sl).sr < (entry_vars pre).nSR) := by
  have h1 : ∀ n ∈ pre, ∃ c ∈ calls, Matches c n := by
    intro n hn
    obtain ⟨i, hi, rfl⟩ := List.mem_iff_getElem.mp hn
    have hlen := hm.length_eq
    exact ⟨calls[i], List.getElem_mem _, List.Forall₂.get hm (by omega) hi⟩
  refine ⟨?_, ?_⟩
  · intro n hn sl
    obtain ⟨c, hc, -, -, hsl⟩ := h1 n hn
    rw [hsl sl]
    exact (valid_sr c (hv c hc)).1 sl
  · intro n hn sl hsl
    obtain ⟨c, hc, hop, -, hget⟩ := h1 n hn
    refine ⟨?_, entry_vars_nSR pre n hn sl⟩
    rw [hget sl]
    rw [hop] at hsl
    exact (valid_sr c (hv c hc)).2 sl hsl

/-! ## ir_rename on a built block -/

theorem Chain_cells (s : IRState) (ptrs : List NodePtr) (hc : Chain s ptrs) :
    ∀ p ∈ ptrs, p ≠ node_head ∧ p ≠ NodePtr.null := by
  intro p hp
  obtain ⟨k, i, rfl⟩ := hc.2.2.2 p hp
  simp

/-- The refinement step: on a state holding a built block, ir_rename with
enough fuel computes what the walk over the list of nodes computes. -/
theorem ir_rename_spec (s : IRState) (ptrs : List NodePtr) (hc : Chain s ptrs)
    (fuel : Nat) (hfuel : ptrs.length < fuel)
    (hmax : ∀ n ∈ ptrs.map s.nodes, ∀ sl, (n.get sl).sr < INT_MAX)
    (out : List IRNode) (t : RenameVars)
    (hw : rename_walk (ptrs.map s.nodes) (entry_vars (ptrs.map s.nodes)) = some (out, t)) :
    rename_entry fuel s = some (entry_vars (ptrs.map s.nodes)) ∧
    node_seq fuel s = some (ptrs.map s.nodes) ∧
    ∃ s1, ir_rename fuel s = some (s1, t.maxlive) ∧ s1.vrname = t.vrname ∧
      node_seq fuel s1 = some out ∧ Chain s1 ptrs ∧ s1.pools = s.pools ∧
      s1.npools = s.npools := by
  have hcells := Chain_cells s ptrs hc
  have hentry : rename_entry fuel s = some (entry_vars (ptrs.map s.nodes)) := by
    unfold rename_entry
    rw [scan_loop_spec s ptrs node_head hc.1 hcells fuel hfuel 0 (-1)]
    have hlt : scan_max (-1) (ptrs.map s.nodes) < INT_MAX :=
      scan_max_lt _ _ _ (by decide) hmax
    simp only [Option.some_bind, entry_vars, List.length_map, zero_add]
    rw [if_neg (by omega)]
  refine ⟨hentry, node_list_spec s ptrs node_head hc.1 hcells fuel hfuel, ?_⟩
  have hrev : ptrs.reverse.reverse.map s.nodes = ptrs.map s.nodes := by simp
  obtain ⟨s1, g1, g2, g3, g4, g5, g6⟩ :=
    rename_loop_spec ptrs.reverse s node_head (entry_vars (ptrs.map s.nodes)) t out hc.2.1
      (List.nodup_reverse.mpr hc.2.2.1)
      (fun p hp => hcells p (List.mem_reverse.mp hp)) (by rw [hrev]; exact hw) fuel
      (by simpa using hfuel)
  have hc1 : Chain s1 ptrs := Chain_congr s s1 ptrs (fun x => ⟨(g4 x).2, (g4 x).1⟩) hc
  refine ⟨{ s1 with vrname := t.vrname }, ?_, rfl, ?_, ?_, g5, g6⟩
  · unfold ir_rename
    rw [hentry]
    simp only [Option.some_bind]
    rw [g1]
    simp
  · have := node_list_spec s1 ptrs node_head hc1.1 hcells fuel hfuel
    rw [List.reverse_reverse] at g2
    rw [g2] at this
    have hns : ∀ (f : Nat) (a b : IRState) (p : NodePtr), a.nodes = b.nodes →
        node_list f a p = node_list f b p := by
      intro f a b p hab
      induction f generalizing p with
      | zero => rfl
      | succ f ih => simp only [node_list, hab, ih]
    unfold node_seq
    exact (hns fuel { s1 with vrname := t.vrname } s1 (s1.nodes node_head).next rfl).trans this
  · exact Chain_congr s1 _ ptrs (fun x => ⟨rfl, rfl⟩) hc1

/-- Building a block from valid calls and renaming it succeeds, and the result
is the one of the walk over the list of built nodes. -/
theorem build_and_rename_spec (s0 : IRState) (calls : List BuildCall)
    (hv : ∀ c ∈ calls, c.valid)
    (fuel : Nat) (hfuel : calls.length < fuel) :
    ∃ pre out t s1, List.Forall₂ Matches calls pre ∧
      rename_walk pre (entry_vars pre) = some (out, t) ∧
      build_and_rename fuel s0 calls = some (s1, t.maxlive) ∧
      s1.vrname = t.vrname ∧ node_seq fuel s1 = some out := by
  obtain ⟨s, ptrs, hbuild, hb⟩ := build_block_spec s0 calls hv
  have hpre := Built_pre s ptrs calls hb
  have hlen : ptrs.length = calls.length := by
    have := hpre.length_eq
    simpa using this.symm
  obtain ⟨hmax, hrange⟩ := Matches_in_range calls _ hv hpre
  obtain ⟨out, t, hw⟩ := rename_walk_total (ptrs.map s.nodes) (entry_vars (ptrs.map s.nodes)) hrange
  obtain ⟨-, -, s1, h1, h2, h3, -⟩ :=
    ir_rename_spec s ptrs hb.1 fuel (by omega) hmax out t hw
  exact ⟨ptrs.map s.nodes, out, t, s1, hpre, hw, by simp [build_and_rename, hbuild, h1], h2, h3⟩

/-- The tables after `m` iterations of the backward loop on a built block are
those of the walk over the last `m` nodes. -/
theorem vars_after_steps_spec (s0 : IRState) (calls : List BuildCall)
    (hv : ∀ c ∈ calls, c.valid)
    (fuel : Nat) (hfuel : calls.length < fuel) (m : Nat) (hm : m ≤ calls.length) :
    ∃ pre outs tm, List.Forall₂ Matches calls pre ∧
      (∃ out t, rename_walk pre (entry_vars pre) = some (out, t) ∧
        ∃ s1, build_and_rename fuel s0 calls = some (s1, t.maxlive) ∧ node_seq fuel s1 = some out) ∧
      rename_walk (pre.drop (calls.length - m)) (entry_vars pre) = some (outs, tm) ∧
      vars_after_steps fuel m s0 calls = some tm := by
  obtain ⟨s, ptrs, hbuild, hb⟩ := build_block_spec s0 calls hv
  have hpre := Built_pre s ptrs calls hb
  have hlen : ptrs.length = calls.length := by
    have := hpre.length_eq
    simpa using this.symm
  obtain ⟨hmax, hrange⟩ := Matches_in_range calls _ hv hpre
  obtain ⟨out, t, hw⟩ := rename_walk_total (ptrs.map s.nodes) (entry_vars (ptrs.map s.nodes)) hrange
  obtain ⟨hentry, -, s1, h1, h2, h3, -⟩ :=
    ir_rename_spec s ptrs hb.1 fuel (by omega) hmax out t hw
  obtain ⟨outs, tm, hwm⟩ := rename_walk_total ((ptrs.map s.nodes).drop (calls.length - m))
    (entry_vars (ptrs.map s.nodes)) (fun n hn => hrange n (List.mem_of_mem_drop hn))
  have hcells := Chain_cells s ptrs hb.1
  have hdrop : ((ptrs.reverse.take m).reverse).map s.nodes =
      (ptrs.map s.nodes).drop (calls.length - m) := by
    rw [List.reverse_take, List.reverse_reverse, List.map_drop, List.length_reverse, hlen]
  obtain ⟨s2, p2, hsteps⟩ :=
    rename_steps_spec m ptrs.reverse s node_head (entry_vars (ptrs.map s.nodes)) tm outs hb.1.2.1
      (List.nodup_reverse.mpr hb.1.2.2.1)
      (fun p hp => hcells p (List.mem_reverse.mp hp)) (by simp; omega)
      (by rw [hdrop]; exact hwm)
  refine ⟨ptrs.map s.nodes, outs, tm, hpre,
    ⟨out, t, hw, s1, by simp [build_and_rename, hbuild, h1], h3⟩, hwm, ?_⟩
  simp [vars_after_steps, hbuild, hentry, hsteps]

/-! ## One tag step -/

theorem mint_spec (t : RenameVars) (r : Int) (hT : TInv t) :
    TInv (mint t r) ∧ 0 ≤ (mint t r).SRToVR r ∧
    (∀ r1, r1 ≠ r → (mint t r).SRToVR r1 = t.SRToVR r1) ∧
    (0 ≤ t.SRToVR r → mint t r = t) ∧
    (t.SRToVR r < 0 → (mint t r).SRToVR r = t.vrname ∧ (mint t r).vrname = t.vrname + 1) ∧
    t.vrname ≤ (mint t r).vrname ∧
    (mint t r).LU = t.LU ∧ (mint t r).nSR = t.nSR := by
  obtain ⟨h0, hlt, hinj⟩ := hT
  by_cases hneg : t.SRToVR r < 0
  · have hm : mint t r =
        { t with SRToVR := Function.update t.SRToVR r t.vrname, vrname := t.vrname + 1 } := by
      unfold mint; rw [if_pos hneg]
    rw [hm]
    refine ⟨⟨by simp only []; omega, ?_, ?_⟩, by simp [h0], ?_, fun h => by omega,
      fun _ => by simp, by simp, rfl, rfl⟩
    · intro r1
      simp only [Function.update_apply]
      split_ifs
      · omega
      · have := hlt r1; omega
    · intro r1 r2 hr1 heq
      simp only [Function.update_apply] at hr1 heq
      by_cases h1 : r1 = r <;> by_cases h2 : r2 = r
      · rw [h1, h2]
      · rw [if_pos h1, if_neg h2] at heq
        have := hlt r2; omega
      · rw [if_neg h1, if_pos h2] at heq
        have := hlt r1; omega
      · rw [if_neg h1] at hr1
        rw [if_neg h1, if_neg h2] at heq
        exact hinj r1 r2 hr1 heq
    · intro r1 hr1
      simp [Function.update_apply, hr1]
  · have hm : mint t r = t := by
      unfold mint; rw [if_neg hneg]
    rw [hm]
    exact ⟨⟨h0, hlt, hinj⟩, by omega, fun _ _ => rfl, fun _ => rfl, fun h => absurd h hneg,
      le_refl _, rfl, rfl⟩

theorem tag_use_some (o o1 : IROperand) (t t1 : RenameVars)
    (h : tag_use o t = some (o1, t1)) :
    t1 = mint t o.sr ∧ o1.sr = o.sr ∧ o1.vr = t1.SRToVR o.sr := by
  rw [tag_use_eq] at h
  split_ifs at h
  simp only [Option.some.injEq, Prod.mk.injEq] at h
  obtain ⟨rfl, rfl⟩ := h
  exact ⟨rfl, rfl, rfl⟩

theorem tag_def_some (o o1 : IROperand) (t t1 : RenameVars)
    (h : tag_def o t = some (o1, t1)) :
    t1.SRToVR = Function.update (mint t o.sr).SRToVR o.sr (-1) ∧
    t1.vrname = (mint t o.sr).vrname ∧ o1.sr = o.sr ∧ o1.vr = (mint t o.sr).SRToVR o.sr := by
  rw [tag_def_eq] at h
  split_ifs at h
  simp only [Option.some.injEq, Prod.mk.injEq] at h
  obtain ⟨rfl, rfl⟩ := h
  exact ⟨rfl, rfl, rfl, rfl⟩

theorem tag_def_TInv (o o1 : IROperand) (t t1 : RenameVars)
    (h : tag_def o t = some (o1, t1)) (hT : TInv t) :
    TInv t1 ∧ Retired o1.vr t1 ∧ t1.SRToVR o.sr = -1 ∧
    (∀ r, r ≠ o.sr → t1.SRToVR r = t.SRToVR r) ∧ t.vrname ≤ t1.vrname ∧
    (0 ≤ t.SRToVR o.sr → o1.vr = t.SRToVR o.sr) ∧
    (t.SRToVR o.sr < 0 → o1.vr = t.vrname ∧ t1.vrname = t.vrname + 1) ∧
    (0 ≤ t.SRToVR o.sr → t1.vrname = t.vrname) := by
  obtain ⟨e1, e2, e3, e4⟩ := tag_def_some o o1 t t1 h
  obtain ⟨⟨m0, mlt, minj⟩, m2, m3, m4, m5, m6, -, -⟩ := mint_spec t o.sr hT
  have hsr : ∀ r, t1.SRToVR r = if r = o.sr then -1 else (mint t o.sr).SRToVR r := by
    intro r; rw [e1]; simp [Function.update_apply]
  refine ⟨⟨by rw [e2]; exact m0, ?_, ?_⟩, ⟨by rw [e4]; exact m2, by rw [e4, e2]; exact mlt _, ?_⟩,
    by rw [hsr]; simp, ?_, by rw [e2]; exact m6, ?_, ?_, ?_⟩
  · intro r
    rw [hsr, e2]
    split_ifs
    · omega
    · exact mlt r
  · intro r r1 hr heq
    rw [hsr] at hr heq
    rw [hsr] at heq
    by_cases h1 : r = o.sr
    · simp [h1] at hr
    · simp only [h1, if_false] at hr heq
      by_cases h2 : r1 = o.sr
      · simp only [h2, if_true] at heq; omega
      · simp only [h2, if_false] at heq
        exact minj r r1 hr heq
  · intro r
    rw [hsr, e4]
    split_ifs with h1
    · omega
    · intro heq
      exact h1 (minj r o.sr (by rw [heq]; exact m2) heq)
  · intro r hr
    rw [hsr, if_neg hr, m3 r hr]
  · intro h0
    rw [e4, m4 h0]
  · intro hneg
    rw [e4, e2]
    exact m5 hneg
  · intro h0
    rw [e2, m4 h0]

theorem tag_use_TInv (o o1 : IROperand) (t t1 : RenameVars)
    (h : tag_use o t = some (o1, t1)) (hT : TInv t) :
    TInv t1 ∧ t1.SRToVR o.sr = o1.vr ∧ 0 ≤ o1.vr ∧
    (∀ r, r ≠ o.sr → t1.SRToVR r = t.SRToVR r) ∧ t.vrname ≤ t1.vrname ∧
    (0 ≤ t.SRToVR o.sr → t1 = t) ∧
    (t.SRToVR o.sr < 0 → o1.vr = t.vrname ∧ t1.vrname = t.vrname + 1) := by
  obtain ⟨rfl, e2, e3⟩ := tag_use_some o o1 t t1 h
  obtain ⟨m1, m2, m3, m4, m5, m6, -, -⟩ := mint_spec t o.sr hT
  exact ⟨m1, e3.symm, by rw [e3]; exact m2, m3, m6, m4, fun hn => by rw [e3]; exact m5 hn⟩

/-! ## Lifting a property of the tag steps to the body and to the walk -/

theorem get_set_same (n : IRNode) (sl : Slot) (o : IROperand) : (n.set sl o).get sl = o := by
  cases sl <;> rfl

theorem events_nodup (op : IROpcode) : ((events op).map fun e => e.2).Nodup := by
  cases op <;> decide

theorem tag_slots_induct (P : RenameVars → List (Bool × IROperand) → Prop)
    (ok : Bool → Int → Prop)
    (hdef : ∀ o o1 t t1 S, ok true o.sr → tag_def o t = some (o1, t1) → P t S →
      P t1 (S ++ [(true, o1)]))
    (huse : ∀ o o1 t t1 S, ok false o.sr → tag_use o t = some (o1, t1) → P t S →
      P t1 (S ++ [(false, o1)]))
    (es : List (Bool × Slot)) (n n1 : IRNode) (t t1 : RenameVars) (S : List (Bool × IROperand))
    (hnd : (es.map fun e => e.2).Nodup) (hok : ∀ e ∈ es, ok e.1 (n.get e.2).sr)
    (h : tag_slots es n t = some (n1, t1)) (hP : P t S) :
    P t1 (S ++ es.map fun e => (e.1, n1.get e.2)) := by
  induction es generalizing n t S with
  | nil =>
    simp only [tag_slots, Option.some.injEq, Prod.mk.injEq] at h
    obtain ⟨rfl, rfl⟩ := h
    simpa using hP
  | cons e es ih =>
    simp only [tag_slots] at h
    obtain ⟨⟨n2, t2⟩, h1, h2⟩ := Option.bind_eq_some.mp h
    simp only [List.map_cons, List.nodup_cons] at hnd
    obtain ⟨hne, hnd2⟩ := hnd
    obtain ⟨-, -, -, -, a5, -, -, -, -, -, -⟩ := tag_slot_frame e n n2 t t2 h1
    obtain ⟨-, -, -, -, -, b6, -, -, -, -⟩ := tag_slots_frame es n2 n1 t2 t1 h2
    have hget : n1.get e.2 = n2.get e.2 := by
      apply b6
      intro e1 he1 heq
      exact hne (List.mem_map.mpr ⟨e1, he1, heq.symm⟩)
    have hstep : P t2 (S ++ [(e.1, n2.get e.2)]) := by
      obtain ⟨d, sl⟩ := e
      have hok1 := hok (d, sl) (by simp)
      simp only [tag_slot] at h1
      cases d
      · simp only [Bool.false_eq_true, if_false] at h1
        obtain ⟨⟨o1, t3⟩, h3, h4⟩ := Option.map_eq_some'.mp h1
        simp only [Prod.mk.injEq] at h4
        obtain ⟨rfl, rfl⟩ := h4
        rw [get_set_same]
        exact huse _ _ _ _ _ hok1 h3 hP
      · simp only [if_true] at h1
        obtain ⟨⟨o1, t3⟩, h3, h4⟩ := Option.map_eq_some'.mp h1
        simp only [Prod.mk.injEq] at h4
        obtain ⟨rfl, rfl⟩ := h4
        rw [get_set_same]
        exact hdef _ _ _ _ _ hok1 h3 hP
    have := ih n2 t2 (S ++ [(e.1, n2.get e.2)]) hnd2
      (fun e1 he1 => by rw [(a5 e1.2).1]; exact hok e1 (List.mem_cons_of_mem _ he1)) h2 hstep
    simpa [hget] using this

theorem rename_body_induct (P : RenameVars → List (Bool × IROperand) → Prop)
    (ok : Bool → Int → Prop)
    (hdef : ∀ o o1 t t1 S, ok true o.sr → tag_def o t = some (o1, t1) → P t S →
      P t1 (S ++ [(true, o1)]))
    (huse : ∀ o o1 t t1 S, ok false o.sr → tag_use o t = some (o1, t1) → P t S →
      P t1 (S ++ [(false, o1)]))
    (hframe : ∀ t t1 S, t1.SRToVR = t.SRToVR → t1.vrname = t.vrname → P t S → P t1 S)
    (n n1 : IRNode) (t t1 : RenameVars) (S : List (Bool × IROperand))
    (hok : ∀ e ∈ events n.opcode, ok e.1 (n.get e.2).sr)
    (h : rename_body n t = some (n1, t1)) (hP : P t S) :
    P t1 (S ++ stamped_events n1) := by
  obtain ⟨t2, t3, h2, h3, rfl⟩ := rename_body_some n n1 t t1 h
  obtain ⟨a1, -⟩ := tag_slots_frame _ _ _ _ _ h2
  obtain ⟨b1, b2, -⟩ := rename_last_use_frame _ _ _ h3
  obtain ⟨c1, c2, -⟩ := finish_body_frame t3
  have := tag_slots_induct P ok hdef huse (events n.opcode) n n1 t t2 S (events_nodup _) hok h2 hP
  unfold stamped_events
  rw [a1]
  exact hframe t2 _ _ (c1.trans b1) (c2.trans b2) this

theorem stamp_events_cons (x : IRNode) (xs : List IRNode) :
    stamp_events (x :: xs) = stamp_events xs ++ stamped_events x := by
  simp [stamp_events, List.flatMap_append]

theorem rename_walk_induct (P : RenameVars → List (Bool × IROperand) → Prop)
    (ok : Bool → Int → Prop)
    (hdef : ∀ o o1 t t1 S, ok true o.sr → tag_def o t = some (o1, t1) → P t S →
      P t1 (S ++ [(true, o1)]))
    (huse : ∀ o o1 t t1 S, ok false o.sr → tag_use o t = some (o1, t1) → P t S →
      P t1 (S ++ [(false, o1)]))
    (hframe : ∀ t t1 S, t1.SRToVR = t.SRToVR → t1.vrname = t.vrname → P t S → P t1 S)
    (pre out : List IRNode) (t t1 : RenameVars) (S : List (Bool × IROperand))
    (hok : ∀ n ∈ pre, ∀ e ∈ events n.opcode, ok e.1 (n.get e.2).sr)
    (h : rename_walk pre t = some (out, t1)) (hP : P t S) :
    P t1 (S ++ stamp_events out) := by
  induction pre generalizing out t1 with
  | nil =>
    simp only [rename_walk, Option.some.injEq, Prod.mk.injEq] at h
    obtain ⟨rfl, rfl⟩ := h
    simpa [stamp_events] using hP
  | cons x xs ih =>
    simp only [rename_walk] at h
    obtain ⟨⟨o1, t2⟩, h1, h2⟩ := Option.bind_eq_some.mp h
    obtain ⟨⟨x1, t3⟩, h3, h4⟩ := Option.bind_eq_some.mp h2
    simp only [Option.some.injEq, Prod.mk.injEq] at h4
    obtain ⟨rfl, rfl⟩ := h4
    have h5 := ih o1 t2 (fun n hn => hok n (List.mem_cons_of_mem _ hn)) h1
    have := rename_body_induct P ok hdef huse hframe x x1 t2 t3 _ (hok x (by simp)) h3 h5
    rw [stamp_events_cons, ← List.append_assoc]
    exact this

/-! ## First occurrences -/

theorem first_occurrences_snoc (l : List Int) (v : Int) :
    first_occurrences (l ++ [v]) =
      if v ∈ l then first_occurrences l else first_occurrences l ++ [v] := by
  induction l with
  | nil => simp [first_occurrences]
  | cons x xs ih =>
    show first_occurrences (x :: (xs ++ [v])) = _
    simp only [first_occurrences]
    rw [ih]
    by_cases hx : v = x
    · subst hx
      by_cases hv : v ∈ xs
      · simp [hv]
      · simp [hv, List.filter_append]
    · by_cases hv : v ∈ xs
      · simp [hv]
      · simp [hv, hx, List.filter_append]

theorem mem_first_occurrences (l : List Int) (v : Int) : v ∈ first_occurrences l ↔ v ∈ l := by
  induction l with
  | nil => simp [first_occurrences]
  | cons x xs ih =>
    simp only [first_occurrences, List.mem_cons, List.mem_filter, ih, decide_eq_true_eq]
    constructor
    · rintro (h | ⟨h, -⟩)
      · exact Or.inl h
      · exact Or.inr h
    · rintro (h | h)
      · exact Or.inl h
      · by_cases hx : v = x
        · exact Or.inl hx
        · exact Or.inr ⟨h, hx⟩

theorem ids_below_succ (k : Int) (hk : 0 ≤ k) : ids_below (k + 1) = ids_below k ++ [k] := by
  unfold ids_below
  have h1 : (k + 1).toNat = k.toNat + 1 := by omega
  rw [h1, List.range_succ, List.map_append]
  simp [Int.toNat_of_nonneg hk]

theorem mem_ids_below (k v : Int) : v ∈ ids_below k ↔ 0 ≤ v ∧ v < k := by
  unfold ids_below
  simp only [List.mem_map, List.mem_range]
  constructor
  · rintro ⟨i, hi, rfl⟩
    omega
  · rintro ⟨h0, h1⟩
    exact ⟨v.toNat, by omega, by omega⟩

/-! ## The walk invariant -/

theorem SInv_init (t : RenameVars) (h0 : t.vrname = 0) (h1 : ∀ r, t.SRToVR r = -1) :
    SInv t [] := by
  refine ⟨⟨by omega, fun r => by rw [h1, h0]; decide, fun r r1 hr => ?_⟩, by simp, by simp,
    by simp, fun r hr => ?_, by simp [first_occurrences, ids_below, h0]⟩
  · rw [h1] at hr; omega
  · rw [h1] at hr; omega

/-- The shared part of tag_def and tag_use: after the mint and the stamp the
invariant holds, except that register `r` may lack a use stamp. -/
theorem mint_SInv (t : RenameVars) (S : List (Bool × IROperand)) (d : Bool) (o1 : IROperand)
    (hS : SInv t S) (hv : o1.vr = (mint t o1.sr).SRToVR o1.sr) :
    (∀ e ∈ S ++ [(d, o1)], 0 ≤ e.2.vr ∧ e.2.vr < (mint t o1.sr).vrname) ∧
    (∀ e ∈ S ++ [(d, o1)], ∀ r, (mint t o1.sr).SRToVR r = e.2.vr → e.2.sr = r) ∧
    (∀ e ∈ S ++ [(d, o1)], ∀ e1 ∈ S ++ [(d, o1)], e.2.vr = e1.2.vr → e.2.sr = e1.2.sr) ∧
    (∀ r, r ≠ o1.sr → 0 ≤ (mint t o1.sr).SRToVR r →
      ∃ e ∈ S ++ [(d, o1)], e.1 = false ∧ e.2.sr = r ∧ e.2.vr = (mint t o1.sr).SRToVR r) ∧
    first_occurrences ((S ++ [(d, o1)]).map fun e => e.2.vr) =
      ids_below (mint t o1.sr).vrname := by
  obtain ⟨hT, i4, i5, i6, i7, i8⟩ := hS
  obtain ⟨⟨m0, mlt, minj⟩, m2, m3, m4, m5, m6, -, -⟩ := mint_spec t o1.sr hT
  obtain ⟨t0, tlt, tinj⟩ := hT
  by_cases hneg : t.SRToVR o1.sr < 0
  · -- a fresh id is minted
    obtain ⟨n1, n2⟩ := m5 hneg
    rw [n1] at hv
    have hnew : ∀ e ∈ S, e.2.vr ≠ o1.vr := by
      intro e he
      have := (i4 e he).2
      omega
    refine ⟨?_, ?_, ?_, ?_, ?_⟩
    · intro e he
      rw [n2]
      rcases List.mem_append.mp he with he | he
      · have := i4 e he; omega
      · simp at he; subst he; simp only []; omega
    · intro e he r hr
      rcases List.mem_append.mp he with he | he
      · by_cases hreq : r = o1.sr
        · rw [hreq, n1] at hr
          have := (i4 e he).2
          omega
        · rw [m3 r hreq] at hr
          exact i5 e he r hr
      · simp at he; subst he
        simp only [] at hr ⊢
        by_contra hne
        rw [m3 r (fun h => hne h.symm), hv] at hr
        have := tlt r
        omega
    · intro e he e1 he1 heq
      rcases List.mem_append.mp he with he | he <;> rcases List.mem_append.mp he1 with he1 | he1
      · exact i6 e he e1 he1 heq
      · simp at he1; subst he1
        exact absurd heq (hnew e he)
      · simp at he; subst he
        exact absurd heq.symm (hnew e1 he1)
      · simp at he he1; subst he; subst he1; rfl
    · intro r hr hr0
      rw [m3 r hr] at hr0 ⊢
      obtain ⟨e, he, h1, h2, h3⟩ := i7 r hr0
      exact ⟨e, List.mem_append_left _ he, h1, h2, h3⟩
    · rw [List.map_append, List.map_cons, List.map_nil, first_occurrences_snoc, if_neg, i8, n2, hv,
        ids_below_succ _ t0]
      intro hmem
      obtain ⟨e, he, heq⟩ := List.mem_map.mp hmem
      exact hnew e he heq
  · -- the register already has an id
    push_neg at hneg
    have hmt := m4 hneg
    rw [hmt] at hv ⊢
    obtain ⟨e0, he0, -, f2, f3⟩ := i7 o1.sr hneg
    refine ⟨?_, ?_, ?_, ?_, ?_⟩
    · intro e he
      rcases List.mem_append.mp he with he | he
      · exact i4 e he
      · simp at he; subst he
        simp only []
        rw [hv]
        exact ⟨hneg, tlt _⟩
    · intro e he r hr
      rcases List.mem_append.mp he with he | he
      · exact i5 e he r hr
      · simp at he; subst he
        simp only [] at hr ⊢
        rw [hv] at hr
        exact tinj _ _ hneg hr.symm
    · intro e he e1 he1 heq
      rcases List.mem_append.mp he with he | he <;> rcases List.mem_append.mp he1 with he1 | he1
      · exact i6 e he e1 he1 heq
      · simp at he1; subst he1
        simp only [] at heq ⊢
        exact i5 e he _ (by rw [heq, hv])
      · simp at he; subst he
        simp only [] at heq ⊢
        exact (i5 e1 he1 _ (by rw [← heq, hv])).symm
      · simp at he he1; subst he; subst he1; rfl
    · intro r _ hr0
      obtain ⟨e, he, h1, h2, h3⟩ := i7 r hr0
      exact ⟨e, List.mem_append_left _ he, h1, h2, h3⟩
    · rw [List.map_append, List.map_cons, List.map_nil, first_occurrences_snoc, if_pos, i8]
      exact List.mem_map.mpr ⟨e0, he0, by rw [f3, hv]⟩

theorem tag_use_SInv (o o1 : IROperand) (t t1 : RenameVars) (S : List (Bool × IROperand))
    (h : tag_use o t = some (o1, t1)) (hS : SInv t S) : SInv t1 (S ++ [(false, o1)]) := by
  obtain ⟨rfl, e2, e3⟩ := tag_use_some o o1 t t1 h
  rw [← e2] at e3 ⊢
  obtain ⟨i4, i5, i6, i7, i8⟩ := mint_SInv t S false o1 hS e3
  refine ⟨(mint_spec t o1.sr hS.1).1, i4, i5, i6, ?_, i8⟩
  intro r hr0
  by_cases hr : r = o1.sr
  · exact ⟨(false, o1), by simp, rfl, hr.symm, by rw [hr, e3]⟩
  · exact i7 r hr hr0

theorem tag_def_SInv (o o1 : IROperand) (t t1 : RenameVars) (S : List (Bool × IROperand))
    (h : tag_def o t = some (o1, t1)) (hS : SInv t S) : SInv t1 (S ++ [(true, o1)]) := by
  obtain ⟨hT1, -, c1, -⟩ := tag_def_TInv o o1 t t1 h hS.1
  obtain ⟨e1, e2, e3, e4⟩ := tag_def_some o o1 t t1 h
  rw [← e3] at e1 e2 e4 c1
  obtain ⟨i4, i5, i6, i7, i8⟩ := mint_SInv t S true o1 hS e4
  have hsr : ∀ r, r ≠ o1.sr → t1.SRToVR r = (mint t o1.sr).SRToVR r := by
    intro r hr; rw [e1]; simp [Function.update_apply, hr]
  refine ⟨hT1, by rw [e2]; exact i4, ?_, i6, ?_, by rw [e2]; exact i8⟩
  · intro e he r hr
    by_cases hreq : r = o1.sr
    · rw [hreq, c1] at hr
      have := (i4 e he).1
      omega
    · rw [hsr r hreq] at hr
      exact i5 e he r hr
  · intro r hr0
    by_cases hreq : r = o1.sr
    · rw [hreq, c1] at hr0; omega
    · rw [hsr r hreq] at hr0 ⊢
      exact i7 r hreq hr0

theorem SInv_frame (t t1 : RenameVars) (S : List (Bool × IROperand))
    (h1 : t1.SRToVR = t.SRToVR) (h2 : t1.vrname = t.vrname) (hS : SInv t S) : SInv t1 S := by
  unfold SInv TInv at *
  rw [h1, h2]
  exact hS

/-- The invariant holds after the walk over any block. -/
theorem rename_walk_SInv (pre out : List IRNode) (t t1 : RenameVars)
    (S : List (Bool × IROperand)) (h : rename_walk pre t = some (out, t1)) (hS : SInv t S) :
    SInv t1 (S ++ stamp_events out) :=
  rename_walk_induct SInv (fun _ _ => True)
    (fun o o1 t t1 S _ h hS => tag_def_SInv o o1 t t1 S h hS)
    (fun o o1 t t1 S _ h hS => tag_use_SInv o o1 t t1 S h hS)
    SInv_frame pre out t t1 S (fun _ _ _ _ => trivial) h hS

/-! ## The loop body, split into its definition and its uses -/

theorem has_def_s3_not_use (op : IROpcode) (h : has_def op = true) :
    Slot.s3 ∉ tagged_use_slots op := by
  cases op <;> simp [has_def] at h <;> simp [tagged_use_slots]

theorem TInv_frame (t t1 : RenameVars) (h1 : t1.SRToVR = t.SRToVR) (h2 : t1.vrname = t.vrname)
    (hT : TInv t) : TInv t1 := by
  unfold TInv at *
  rw [h1, h2]
  exact hT

/-- The body first tags the defined slot (if any), then the use slots; the
later steps of the body change neither `SRToVR` nor `vrname`. -/
theorem rename_body_split (n n1 : IRNode) (t t1 : RenameVars)
    (h : rename_body n t = some (n1, t1)) :
    ∃ nm tm t2,
      tag_slots (if has_def n.opcode then [(true, Slot.s3)] else []) n t = some (nm, tm) ∧
      tag_slots ((tagged_use_slots n.opcode).map fun sl => (false, sl)) nm tm = some (n1, t2) ∧
      t1.SRToVR = t2.SRToVR ∧ t1.vrname = t2.vrname ∧
      (∀ sl, (nm.get sl).sr = (n.get sl).sr) ∧
      (has_def n.opcode = true → n1.get Slot.s3 = nm.get Slot.s3) := by
  obtain ⟨t2, t3, h2, h3, rfl⟩ := rename_body_some n n1 t t1 h
  unfold events at h2
  rw [tag_slots_append] at h2
  obtain ⟨⟨nm, tm⟩, g1, g2⟩ := Option.bind_eq_some.mp h2
  obtain ⟨-, -, -, -, a5, -⟩ := tag_slots_frame _ _ _ _ _ g1
  obtain ⟨-, -, -, -, -, b6, -⟩ := tag_slots_frame _ _ _ _ _ g2
  obtain ⟨c1, c2, -⟩ := rename_last_use_frame _ _ _ h3
  obtain ⟨d1, d2, -⟩ := finish_body_frame t3
  refine ⟨nm, tm, t2, g1, g2, d1.trans c1, d2.trans c2, fun sl => (a5 sl).1, ?_⟩
  intro hd
  apply b6
  intro e he heq
  obtain ⟨sl, hsl, rfl⟩ := List.mem_map.mp he
  exact has_def_s3_not_use _ hd (heq ▸ hsl)

/-- The definition step of the body, when the opcode has one. -/
theorem def_part_some (n nm : IRNode) (t tm : RenameVars) (hd : has_def n.opcode = true)
    (h : tag_slots (if has_def n.opcode then [(true, Slot.s3)] else []) n t = some (nm, tm)) :
    tag_def (n.get Slot.s3) t = some (nm.get Slot.s3, tm) := by
  rw [if_pos hd] at h
  simp only [tag_slots, tag_slot, if_true] at h
  obtain ⟨⟨n2, t2⟩, h1, h2⟩ := Option.bind_eq_some.mp h
  obtain ⟨⟨o1, t3⟩, h3, h4⟩ := Option.map_eq_some'.mp h1
  simp only [Prod.mk.injEq, Option.some.injEq] at h4 h2
  obtain ⟨rfl, rfl⟩ := h4
  obtain ⟨rfl, rfl⟩ := h2
  rw [get_set_same]
  exact h3

theorem def_part_none (n nm : IRNode) (t tm : RenameVars) (hd : ¬ has_def n.opcode = true)
    (h : tag_slots (if has_def n.opcode then [(true, Slot.s3)] else []) n t = some (nm, tm)) :
    nm = n ∧ tm = t := by
  rw [if_neg hd] at h
  simp only [tag_slots, Option.some.injEq, Prod.mk.injEq] at h
  exact ⟨h.1.symm, h.2.symm⟩

theorem use_slots_nodup (op : IROpcode) :
    ((tagged_use_slots op).map fun sl => ((false, sl) : Bool × Slot)).map (fun e => e.2) |>.Nodup := by
  cases op <;> decide

/-- The use steps of the body keep every id already in the table, and each
stamps the id that the table holds afterwards. -/
theorem use_part_spec (es : List (Bool × Slot)) (hes : ∀ e ∈ es, e.1 = false)
    (hnd : (es.map fun e => e.2).Nodup) (n n1 : IRNode) (t t1 : RenameVars)
    (h : tag_slots es n t = some (n1, t1)) (hT : TInv t) :
    TInv t1 ∧ (∀ r, 0 ≤ t.SRToVR r → t1.SRToVR r = t.SRToVR r) ∧
    (∀ e ∈ es, t1.SRToVR (n.get e.2).sr = (n1.get e.2).vr ∧ 0 ≤ (n1.get e.2).vr) := by
  have key := tag_slots_induct
    (fun t1 S => TInv t1 ∧ (∀ r, 0 ≤ t.SRToVR r → t1.SRToVR r = t.SRToVR r) ∧
      ∀ e ∈ S, t1.SRToVR e.2.sr = e.2.vr ∧ 0 ≤ e.2.vr)
    (fun d _ => d = false)
    (fun o o1 t2 t3 S hok _ _ => by simp at hok)
    (fun o o1 t2 t3 S _ hu hP => by
      obtain ⟨p1, p2, p3⟩ := hP
      obtain ⟨q1, q2, q3, q4, -, q6, -⟩ := tag_use_TInv o o1 t2 t3 hu p1
      have e2 := (tag_use_some o o1 t2 t3 hu).2.1
      have keep : ∀ r, 0 ≤ t2.SRToVR r → t3.SRToVR r = t2.SRToVR r := by
        intro r hr
        by_cases hreq : r = o.sr
        · rw [hreq] at hr ⊢; rw [q6 hr]
        · exact q4 r hreq
      refine ⟨q1, ?_, ?_⟩
      · intro r hr
        have := p2 r hr
        rw [keep r (by omega), this]
      · intro e he
        rcases List.mem_append.mp he with he | he
        · obtain ⟨x1, x2⟩ := p3 e he
          exact ⟨by rw [keep _ (by omega), x1], x2⟩
        · simp at he; subst he
          simp only []
          rw [e2]
          exact ⟨q2, q3⟩)
    es n n1 t t1 [] hnd (fun e he => hes e he) h ⟨hT, fun _ _ => rfl, by simp⟩
  obtain ⟨k1, k2, k3⟩ := key
  obtain ⟨-, -, -, -, a5, -⟩ := tag_slots_frame _ _ _ _ _ h
  refine ⟨k1, k2, ?_⟩
  intro e he
  have := k3 (e.1, n1.get e.2) (by
    simp only [List.nil_append, List.mem_map]
    exact ⟨e, he, rfl⟩)
  simp only [] at this
  rw [(a5 e.2).1] at this
  exact this

/-- What one run of the loop body does to the table and to the stamps. -/
theorem rename_body_spec (n n1 : IRNode) (t t1 : RenameVars)
    (h : rename_body n t = some (n1, t1)) (hT : TInv t) :
    TInv t1 ∧
    (∀ sl ∈ tagged_use_slots n.opcode,
      t1.SRToVR (n.get sl).sr = (n1.get sl).vr ∧ 0 ≤ (n1.get sl).vr) ∧
    (∀ r, ¬ (has_def n.opcode = true ∧ (n.get Slot.s3).sr = r) → 0 ≤ t.SRToVR r →
      t1.SRToVR r = t.SRToVR r) ∧
    (has_def n.opcode = true → 0 ≤ t.SRToVR (n.get Slot.s3).sr →
      (n1.get Slot.s3).vr = t.SRToVR (n.get Slot.s3).sr) ∧
    (has_def n.opcode = true → Retired (n1.get Slot.s3).vr t1) := by
  obtain ⟨nm, tm, t2, g1, g2, e1, e2, hsr, hs3⟩ := rename_body_split n n1 t t1 h
  have huse : ∀ e ∈ (tagged_use_slots n.opcode).map fun sl => ((false, sl) : Bool × Slot),
      e.1 = false := by
    intro e he
    obtain ⟨sl, -, rfl⟩ := List.mem_map.mp he
    rfl
  by_cases hd : has_def n.opcode = true
  · have hdef := def_part_some n nm t tm hd g1
    obtain ⟨d1, d2, d3, d4, d5, d6, -, -⟩ := tag_def_TInv _ _ _ _ hdef hT
    obtain ⟨u1, u2, u3⟩ := use_part_spec _ huse (use_slots_nodup _) nm n1 tm t2 g2 d1
    refine ⟨TInv_frame t2 t1 e1 e2 u1, ?_, ?_, ?_, ?_⟩
    · intro sl hsl
      have := u3 (false, sl) (List.mem_map.mpr ⟨sl, hsl, rfl⟩)
      simp only [] at this
      rw [hsr sl] at this
      rw [e1]
      exact this
    · intro r hr hr0
      have hne : r ≠ (n.get Slot.s3).sr := fun heq => hr ⟨hd, heq.symm⟩
      rw [e1, u2 r (by rw [d4 r hne]; exact hr0), d4 r hne]
    · intro _ h0
      rw [hs3 hd]
      exact d6 h0
    · intro _
      rw [hs3 hd]
      obtain ⟨r1, r2, r3⟩ := d2
      have hmono : tm.vrname ≤ t2.vrname := by
        have := tag_slots_induct (fun t3 _ => TInv t3 ∧ tm.vrname ≤ t3.vrname) (fun _ _ => True)
          (fun o o1 t3 t4 S _ hdf hP => by
            obtain ⟨x1, -, -, -, x5, -⟩ := tag_def_TInv o o1 t3 t4 hdf hP.1
            exact ⟨x1, by have := hP.2; omega⟩)
          (fun o o1 t3 t4 S _ hu hP => by
            obtain ⟨x1, -, -, -, x5, -⟩ := tag_use_TInv o o1 t3 t4 hu hP.1
            exact ⟨x1, by have := hP.2; omega⟩)
          _ nm n1 tm t2 [] (use_slots_nodup _) (fun _ _ => trivial) g2 ⟨d1, le_refl _⟩
        exact this.2
      refine ⟨r1, by rw [e2]; omega, ?_⟩
      intro r heq
      rw [e1] at heq
      by_cases hr0 : 0 ≤ tm.SRToVR r
      · rw [u2 r hr0] at heq
        exact r3 r heq
      · -- the entry was empty after the definition: any id it got since is new
        have hle : ∀ r, tm.SRToVR r < 0 → 0 ≤ t2.SRToVR r → tm.vrname ≤ t2.SRToVR r := by
          have := tag_slots_induct
            (fun t3 _ => TInv t3 ∧ tm.vrname ≤ t3.vrname ∧
              ∀ r, tm.SRToVR r < 0 → 0 ≤ t3.SRToVR r → tm.vrname ≤ t3.SRToVR r)
            (fun d _ => d = false)
            (fun o o1 t3 t4 S hok _ _ => by simp at hok)
            (fun o o1 t3 t4 S _ hu hP => by
              obtain ⟨p1, p2, p3⟩ := hP
              obtain ⟨x1, x2, x3, x4, x5, x6, x7⟩ := tag_use_TInv o o1 t3 t4 hu p1
              refine ⟨x1, by omega, ?_⟩
              intro r hneg h0
              by_cases hreq : r = o.sr
              · by_cases hcur : 0 ≤ t3.SRToVR o.sr
                · rw [x6 hcur] at h0 ⊢
                  exact p3 r hneg h0
                · push_neg at hcur
                  rw [hreq, x2, (x7 hcur).1]
                  exact p2
              · rw [x4 r hreq] at h0 ⊢
                exact p3 r hneg h0)
            _ nm n1 tm t2 [] (use_slots_nodup _) (fun e he => huse e he) g2
            ⟨d1, le_refl _, fun r h1 h2 => by omega⟩
          exact this.2.2
        push_neg at hr0
        have := hle r hr0 (by rw [heq]; exact r1)
        omega
  · obtain ⟨rfl, rfl⟩ := def_part_none n nm t tm hd g1
    obtain ⟨u1, u2, u3⟩ := use_part_spec _ huse (use_slots_nodup _) nm n1 tm t2 g2 hT
    refine ⟨TInv_frame t2 t1 e1 e2 u1, ?_, ?_, fun h => absurd h hd, fun h => absurd h hd⟩
    · intro sl hsl
      have := u3 (false, sl) (List.mem_map.mpr ⟨sl, hsl, rfl⟩)
      simp only [] at this
      rw [e1]
      exact this
    · intro r _ hr0
      rw [e1, u2 r hr0]

/-! ## The walk, node by node -/

theorem rename_walk_cons (x : IRNode) (xs out : List IRNode) (t T : RenameVars)
    (h : rename_walk (x :: xs) t = some (out, T)) :
    ∃ o1 t2 x1, rename_walk xs t = some (o1, t2) ∧ rename_body x t2 = some (x1, T) ∧
      out = x1 :: o1 := by
  simp only [rename_walk] at h
  obtain ⟨⟨o1, t2⟩, h1, h2⟩ := Option.bind_eq_some.mp h
  obtain ⟨⟨x1, t3⟩, h3, h4⟩ := Option.bind_eq_some.mp h2
  simp only [Option.some.injEq, Prod.mk.injEq] at h4
  obtain ⟨rfl, rfl⟩ := h4
  exact ⟨o1, t2, x1, h1, h3, rfl⟩

theorem rename_walk_TInv (pre out : List IRNode) (t T : RenameVars)
    (h : rename_walk pre t = some (out, T)) (hT : TInv t) : TInv T := by
  induction pre generalizing out T with
  | nil =>
    simp only [rename_walk, Option.some.injEq, Prod.mk.injEq] at h
    obtain ⟨-, rfl⟩ := h
    exact hT
  | cons x xs ih =>
    obtain ⟨o1, t2, x1, h1, h2, -⟩ := rename_walk_cons x xs out t T h
    exact (rename_body_spec x x1 t2 T h2 (ih o1 t2 h1)).1

/-- A use that no earlier instruction of the block redefines: its id is still
in the table when the walk reaches the top. -/
theorem walk_use_top (pre : List IRNode) (out : List IRNode) (t T : RenameVars)
    (h : rename_walk pre t = some (out, T)) (hT : TInv t)
    (j : Nat) (nj oj : IRNode) (sl : Slot)
    (hj : pre[j]? = some nj) (hoj : out[j]? = some oj)
    (hsl : sl ∈ tagged_use_slots nj.opcode)
    (hno : ∀ k nk, k < j → pre[k]? = some nk →
      ¬ (has_def nk.opcode = true ∧ (nk.get Slot.s3).sr = (nj.get sl).sr)) :
    T.SRToVR (nj.get sl).sr = (oj.get sl).vr ∧ 0 ≤ (oj.get sl).vr := by
  induction pre generalizing out T j with
  | nil => simp at hj
  | cons x xs ih =>
    obtain ⟨o1, t2, x1, h1, h2, rfl⟩ := rename_walk_cons x xs out t T h
    have hT2 := rename_walk_TInv xs o1 t t2 h1 hT
    obtain ⟨b1, b2, b3, -, -⟩ := rename_body_spec x x1 t2 T h2 hT2
    cases j with
    | zero =>
      simp only [List.getElem?_cons_zero, Option.some.injEq] at hj hoj
      subst hj; subst hoj
      exact b2 sl hsl
    | succ j =>
      simp only [List.getElem?_cons_succ] at hj hoj
      obtain ⟨c1, c2⟩ := ih o1 t2 h1 j hj hoj
        (fun k nk hk hnk => hno (k + 1) nk (by omega) (by simpa using hnk))
      have := b3 (nj.get sl).sr (hno 0 x (by omega) (by simp)) (by rw [c1]; exact c2)
      exact ⟨by rw [this, c1], c2⟩

/-- A use is renamed to the virtual register of its reaching definition. -/
theorem walk_def_use (pre : List IRNode) (out : List IRNode) (t T : RenameVars)
    (h : rename_walk pre t = some (out, T)) (hT : TInv t)
    (i j : Nat) (ni nj oi oj : IRNode) (sl : Slot) (hij : i < j)
    (hi : pre[i]? = some ni) (hj : pre[j]? = some nj)
    (hoi : out[i]? = some oi) (hoj : out[j]? = some oj)
    (hdef : has_def ni.opcode = true) (hr : (ni.get Slot.s3).sr = (nj.get sl).sr)
    (hsl : sl ∈ tagged_use_slots nj.opcode)
    (hno : ∀ k nk, i < k → k < j → pre[k]? = some nk →
      ¬ (has_def nk.opcode = true ∧ (nk.get Slot.s3).sr = (nj.get sl).sr)) :
    (oj.get sl).vr = (oi.get Slot.s3).vr := by
  induction pre generalizing out T i j with
  | nil => simp at hj
  | cons x xs ih =>
    obtain ⟨o1, t2, x1, h1, h2, rfl⟩ := rename_walk_cons x xs out t T h
    cases j with
    | zero => omega
    | succ j =>
      simp only [List.getElem?_cons_succ] at hj hoj
      cases i with
      | zero =>
        simp only [List.getElem?_cons_zero, Option.some.injEq] at hi hoi
        subst hi; subst hoi
        have hT2 := rename_walk_TInv xs o1 t t2 h1 hT
        obtain ⟨c1, c2⟩ := walk_use_top xs o1 t t2 h1 hT j nj oj sl hj hoj hsl
          (fun k nk hk hnk => hno (k + 1) nk (by omega) (by omega) (by simpa using hnk))
        obtain ⟨-, -, -, b4, -⟩ := rename_body_spec _ _ t2 T h2 hT2
        rw [b4 hdef (by rw [hr, c1]; exact c2), hr, c1]
      | succ i =>
        simp only [List.getElem?_cons_succ] at hi hoi
        exact ih o1 t2 h1 i j (by omega) hi hj hoi hoj
          (fun k nk hk1 hk2 hnk => hno (k + 1) nk (by omega) (by omega) (by simpa using hnk))

/-! ## Retired ids -/

theorem Retired_frame (v : Int) (t t1 : RenameVars) (h1 : t1.SRToVR = t.SRToVR)
    (h2 : t1.vrname = t.vrname) (hR : Retired v t) : Retired v t1 := by
  unfold Retired at *
  rw [h1, h2]
  exact hR

/-- Once an id is retired it stays retired, and no later stamp carries it. -/
theorem rename_body_retired (v : Int) (n n1 : IRNode) (t t1 : RenameVars)
    (h : rename_body n t = some (n1, t1)) (hT : TInv t) (hR : Retired v t) :
    Retired v t1 ∧ ∀ sl ∈ stamped_slots n.opcode, (n1.get sl).vr ≠ v := by
  have key := rename_body_induct
    (fun t S => TInv t ∧ Retired v t ∧ ∀ e ∈ S, e.2.vr ≠ v) (fun _ _ => True)
    (fun o o1 t2 t3 S _ hd hP => by
      obtain ⟨p1, ⟨r1, r2, r3⟩, p3⟩ := hP
      obtain ⟨x1, -, x3, x4, x5, x6, x7, -⟩ := tag_def_TInv o o1 t2 t3 hd p1
      have hne : o1.vr ≠ v := by
        by_cases hcur : 0 ≤ t2.SRToVR o.sr
        · rw [x6 hcur]; exact r3 _
        · push_neg at hcur
          rw [(x7 hcur).1]; omega
      refine ⟨x1, ⟨r1, by omega, ?_⟩, ?_⟩
      · intro r
        by_cases hreq : r = o.sr
        · rw [hreq, x3]; omega
        · rw [x4 r hreq]; exact r3 r
      · intro e he
        rcases List.mem_append.mp he with he | he
        · exact p3 e he
        · simp at he; subst he; exact hne)
    (fun o o1 t2 t3 S _ hu hP => by
      obtain ⟨p1, ⟨r1, r2, r3⟩, p3⟩ := hP
      obtain ⟨x1, x2, -, x4, x5, x6, x7⟩ := tag_use_TInv o o1 t2 t3 hu p1
      have hne : o1.vr ≠ v := by
        by_cases hcur : 0 ≤ t2.SRToVR o.sr
        · rw [← x2, x6 hcur]; exact r3 _
        · push_neg at hcur
          rw [(x7 hcur).1]; omega
      refine ⟨x1, ⟨r1, by omega, ?_⟩, ?_⟩
      · intro r
        by_cases hreq : r = o.sr
        · rw [hreq, x2]; exact hne
        · rw [x4 r hreq]; exact r3 r
      · intro e he
        rcases List.mem_append.mp he with he | he
        · exact p3 e he
        · simp at he; subst he; exact hne)
    (fun t t1 S h1 h2 hP =>
      ⟨TInv_frame t t1 h1 h2 hP.1, Retired_frame v t t1 h1 h2 hP.2.1, hP.2.2⟩)
    n n1 t t1 [] (fun _ _ => trivial) h ⟨hT, hR, by simp⟩
  obtain ⟨-, k2, k3⟩ := key
  refine ⟨k2, ?_⟩
  intro sl hsl
  have hop := (rename_body_frame n n1 t t1 h).1
  rw [← events_slots] at hsl
  obtain ⟨e, he, rfl⟩ := List.mem_map.mp hsl
  exact k3 (e.1, n1.get e.2) (by
    simp only [List.nil_append, stamped_events, List.mem_map, hop]
    exact ⟨e, he, rfl⟩)

/-- The id stamped on a definition is retired when the walk reaches the top. -/
theorem walk_def_retired (pre : List IRNode) (out : List IRNode) (t T : RenameVars)
    (h : rename_walk pre t = some (out, T)) (hT : TInv t)
    (j : Nat) (nj oj : IRNode) (hj : pre[j]? = some nj) (hoj : out[j]? = some oj)
    (hdef : has_def nj.opcode = true) : Retired (oj.get Slot.s3).vr T := by
  induction pre generalizing out T j with
  | nil => simp at hj
  | cons x xs ih =>
    obtain ⟨o1, t2, x1, h1, h2, rfl⟩ := rename_walk_cons x xs out t T h
    have hT2 := rename_walk_TInv xs o1 t t2 h1 hT
    cases j with
    | zero =>
      simp only [List.getElem?_cons_zero, Option.some.injEq] at hj hoj
      subst hj; subst hoj
      exact (rename_body_spec _ _ t2 T h2 hT2).2.2.2.2 hdef
    | succ j =>
      simp only [List.getElem?_cons_succ] at hj hoj
      exact (rename_body_retired _ x x1 t2 T h2 hT2 (ih o1 t2 h1 j hj hoj)).1

/-- Two definitions at different positions get different virtual registers. -/
theorem walk_defs_distinct (pre : List IRNode) (out : List IRNode) (t T : RenameVars)
    (h : rename_walk pre t = some (out, T)) (hT : TInv t)
    (i j : Nat) (ni nj oi oj : IRNode) (hij : i < j)
    (hi : pre[i]? = some ni) (hj : pre[j]? = some nj)
    (hoi : out[i]? = some oi) (hoj : out[j]? = some oj)
    (hdi : has_def ni.opcode = true) (hdj : has_def nj.opcode = true) :
    (oi.get Slot.s3).vr ≠ (oj.get Slot.s3).vr := by
  induction pre generalizing out T i j with
  | nil => simp at hj
  | cons x xs ih =>
    obtain ⟨o1, t2, x1, h1, h2, rfl⟩ := rename_walk_cons x xs out t T h
    cases j with
    | zero => omega
    | succ j =>
      simp only [List.getElem?_cons_succ] at hj hoj
      cases i with
      | zero =>
        simp only [List.getElem?_cons_zero, Option.some.injEq] at hi hoi
        subst hi; subst hoi
        have hT2 := rename_walk_TInv xs o1 t t2 h1 hT
        have hret := walk_def_retired xs o1 t t2 h1 hT j nj oj hj hoj hdj
        refine (rename_body_retired _ _ _ t2 T h2 hT2 hret).2 Slot.s3 ?_
        unfold stamped_slots
        rw [if_pos hdi]
        simp
      | succ i =>
        simp only [List.getElem?_cons_succ] at hi hoi
        exact ih o1 t2 h1 i j (by omega) hi hj hoi hoj

/-! ## From the calls to the nodes -/

theorem Forall₂_getElem?_left {α β : Type} {R : α → β → Prop} {l1 : List α} {l2 : List β}
    (h : List.Forall₂ R l1 l2) (i : Nat) (a : α) (ha : l1[i]? = some a) :
    ∃ b, l2[i]? = some b ∧ R a b := by
  induction h generalizing i with
  | nil => simp at ha
  | cons hab _ ih =>
    cases i with
    | zero =>
      simp only [List.getElem?_cons_zero, Option.some.injEq] at ha
      subst ha
      exact ⟨_, by simp, hab⟩
    | succ i =>
      simp only [List.getElem?_cons_succ] at ha ⊢
      exact ih i ha

theorem Forall₂_getElem?_right {α β : Type} {R : α → β → Prop} {l1 : List α} {l2 : List β}
    (h : List.Forall₂ R l1 l2) (i : Nat) (b : β) (hb : l2[i]? = some b) :
    ∃ a, l1[i]? = some a ∧ R a b := by
  induction h generalizing i with
  | nil => simp at hb
  | cons hab _ ih =>
    cases i with
    | zero =>
      simp only [List.getElem?_cons_zero, Option.some.injEq] at hb
      subst hb
      exact ⟨_, by simp, hab⟩
    | succ i =>
      simp only [List.getElem?_cons_succ] at hb ⊢
      exact ih i hb

theorem getElem?_of_length_eq {α β : Type} (l1 : List α) (l2 : List β)
    (h : l1.length = l2.length) (i : Nat) (a : α) (ha : l1[i]? = some a) :
    ∃ b, l2[i]? = some b := by
  have hi : i < l1.length := by
    by_contra hc
    rw [List.getElem?_eq_none (by omega)] at ha
    simp at ha
  exact ⟨l2[i], List.getElem?_eq_getElem (by omega)⟩

theorem reg_use_sub_tagged (op : IROpcode) (sl : Slot) (h : sl ∈ reg_use_slots op) :
    sl ∈ tagged_use_slots op := by
  cases op <;> simp [reg_use_slots] at h <;> simp [tagged_use_slots, h]

theorem reg_use_eq_tagged (op : IROpcode) (h : op ≠ IROpcode.IR_OUTPUT) :
    tagged_use_slots op = reg_use_slots op := by
  cases op <;> simp [reg_use_slots, tagged_use_slots] at h ⊢

/-- What the walk leaves alone in every node. -/
theorem rename_walk_frame_at (pre out : List IRNode) (t T : RenameVars)
    (h : rename_walk pre t = some (out, T)) (k : Nat) (nk ok : IRNode)
    (hk : pre[k]? = some nk) (hok : out[k]? = some ok) :
    ok.opcode = nk.opcode ∧ ok.line = nk.line ∧
    (∀ sl, (ok.get sl).sr = (nk.get sl).sr ∧ (ok.get sl).pr = (nk.get sl).pr) ∧
    (∀ sl, sl ∉ stamped_slots nk.opcode → ok.get sl = nk.get sl) := by
  induction pre generalizing out T k with
  | nil => simp at hk
  | cons x xs ih =>
    obtain ⟨o1, t2, x1, h1, h2, rfl⟩ := rename_walk_cons x xs out t T h
    cases k with
    | zero =>
      simp only [List.getElem?_cons_zero, Option.some.injEq] at hk hok
      subst hk; subst hok
      obtain ⟨a1, a2, -, -, a5, a6, -⟩ := rename_body_frame _ _ _ _ h2
      exact ⟨a1, a2, a5, a6⟩
    | succ k =>
      simp only [List.getElem?_cons_succ] at hk hok
      exact ih o1 t2 h1 k hk hok

theorem mem_stamp_events (out : List IRNode) (k : Nat) (ok : IRNode) (sl : Slot)
    (hok : out[k]? = some ok) (hsl : sl ∈ stamped_slots ok.opcode) :
    ∃ d, (d, ok.get sl) ∈ stamp_events out := by
  rw [← events_slots] at hsl
  obtain ⟨e, he, rfl⟩ := List.mem_map.mp hsl
  refine ⟨e.1, ?_⟩
  unfold stamp_events
  rw [List.mem_flatMap]
  refine ⟨ok, List.mem_reverse.mpr (List.getElem?_mem hok), ?_⟩
  unfold stamped_events
  exact List.mem_map.mpr ⟨e, he, rfl⟩

theorem stamp_events_snd (out : List IRNode) :
    (stamp_events out).map (fun e => e.2) = stamps out := by
  unfold stamp_events stamps
  rw [List.map_flatMap]
  congr 1
  funext n
  unfold stamped_events stamped_ops
  rw [List.map_map, ← events_slots, List.map_map]
  rfl

/-- The setting of every claim about ir_rename on a built block: building and
renaming succeeds, and the result is described by the walk over the list of
built nodes. -/
theorem renamed_setup (s0 : IRState) (calls : List BuildCall) (hv : ∀ c ∈ calls, c.valid)
    (fuel : Nat) (hfuel : calls.length < fuel) :
    ∃ pre out t s1, List.Forall₂ Matches calls pre ∧
      rename_walk pre (entry_vars pre) = some (out, t) ∧
      build_and_rename fuel s0 calls = some (s1, t.maxlive) ∧
      s1.vrname = t.vrname ∧ node_seq fuel s1 = some out ∧
      pre.length = calls.length ∧ out.length = calls.length ∧
      TInv (entry_vars pre) ∧ SInv t (stamp_events out) := by
  obtain ⟨pre, out, t, s1, h1, h2, h3, h4, h5⟩ := build_and_rename_spec s0 calls hv fuel hfuel
  have hinit : SInv (entry_vars pre) [] := SInv_init _ rfl (fun _ => rfl)
  have hS := rename_walk_SInv pre out _ t [] h2 hinit
  simp only [List.nil_append] at hS
  have hl1 := h1.length_eq
  have hl2 := (rename_walk_frame pre _ out t h2).1
  exact ⟨pre, out, t, s1, h1, h2, h3, h4, h5, hl1.symm, by omega, hinit.1, hS⟩

/-! ## The live count -/

theorem count_live_le (t : RenameVars) (U : List Int)
    (h : ∀ r, 0 ≤ t.SRToVR r → r ∈ U) : count_live t ≤ (U.dedup.length : Int) := by
  unfold count_live
  have hnd : ((List.range t.nSR.toNat).filter
      (fun i : Nat => decide (0 ≤ t.SRToVR (i : Int)))).Nodup :=
    (List.nodup_range _).filter _
  have hnd2 : (((List.range t.nSR.toNat).filter
      (fun i : Nat => decide (0 ≤ t.SRToVR (i : Int)))).map (fun i : Nat => (i : Int))).Nodup :=
    hnd.map (fun a b hab => by simpa using hab)
  have hsub : ((List.range t.nSR.toNat).filter
      (fun i : Nat => decide (0 ≤ t.SRToVR (i : Int)))).map (fun i : Nat => (i : Int)) ⊆ U.dedup := by
    intro x hx
    obtain ⟨i, hi, rfl⟩ := List.mem_map.mp hx
    rw [List.mem_filter] at hi
    exact List.mem_dedup.mpr (h _ (by simpa using hi.2))
  have := (List.subperm_of_subset hnd2 hsub).length_le
  rw [List.length_map] at this
  exact_mod_cast this

theorem dedup_length_mono (l1 l2 : List Int) (h : l1 ⊆ l2) : l1.dedup.length ≤ l2.dedup.length := by
  apply (List.subperm_of_subset (List.nodup_dedup l1) _).length_le
  intro x hx
  exact List.mem_dedup.mpr (h (List.mem_dedup.mp hx))

theorem count_live_congr (t t1 : RenameVars) (h1 : t1.SRToVR = t.SRToVR) (h2 : t1.nSR = t.nSR) :
    count_live t1 = count_live t := by
  unfold count_live
  rw [h1, h2]

/-- The maxlive update of one run of the loop body. -/
theorem rename_body_maxlive (n n1 : IRNode) (t t1 : RenameVars)
    (h : rename_body n t = some (n1, t1)) :
    t.maxlive ≤ t1.maxlive ∧ (t1.maxlive = t.maxlive ∨ t1.maxlive = count_live t1) := by
  obtain ⟨t2, t3, h2, h3, rfl⟩ := rename_body_some n n1 t t1 h
  obtain ⟨-, -, -, -, -, -, -, -, a9, -⟩ := tag_slots_frame _ _ _ _ _ h2
  obtain ⟨-, -, -, -, b5⟩ := rename_last_use_frame _ _ _ h3
  have hm : t3.maxlive = t.maxlive := b5.trans a9
  have hc : count_live (finish_body t3) = count_live { t3 with index := t3.index - 1 } := by
    apply count_live_congr
    · exact (finish_body_frame t3).1
    · exact (finish_body_frame t3).2.2.1
  rw [hc]
  unfold finish_body
  split_ifs with hgt
  · exact ⟨by simp only []; omega, Or.inr rfl⟩
  · exact ⟨by simp only []; omega, Or.inl hm⟩

theorem use_regs_cons (x : IRNode) (xs : List IRNode) :
    use_regs (x :: xs) =
      ((tagged_use_slots x.opcode).map fun sl => (x.get sl).sr) ++ use_regs xs := by
  simp [use_regs]

/-- Every use stamp of the walk is on a register of a tagged use slot. -/
theorem stamp_events_use_regs (pre out : List IRNode) (t T : RenameVars)
    (h : rename_walk pre t = some (out, T)) :
    ∀ e ∈ stamp_events out, e.1 = false → e.2.sr ∈ use_regs pre := by
  induction pre generalizing out T with
  | nil =>
    simp only [rename_walk, Option.some.injEq, Prod.mk.injEq] at h
    obtain ⟨rfl, rfl⟩ := h
    simp [stamp_events]
  | cons x xs ih =>
    obtain ⟨o1, t2, x1, h1, h2, rfl⟩ := rename_walk_cons x xs out t T h
    intro e he hfl
    rw [stamp_events_cons, List.mem_append] at he
    rw [use_regs_cons, List.mem_append]
    rcases he with he | he
    · exact Or.inr (ih o1 t2 h1 e he hfl)
    · left
      obtain ⟨a1, -, -, -, a5, -⟩ := rename_body_frame _ _ _ _ h2
      unfold stamped_events at he
      obtain ⟨ev, hev, rfl⟩ := List.mem_map.mp he
      simp only [] at hfl ⊢
      rw [a1] at hev
      unfold events at hev
      rcases List.mem_append.mp hev with hd | hu
      · split_ifs at hd
        · simp at hd; rw [hd] at hfl; simp at hfl
        · simp at hd
      · obtain ⟨sl, hsl, rfl⟩ := List.mem_map.mp hu
        simp only []
        rw [(a5 sl).1]
        exact List.mem_map.mpr ⟨sl, hsl, rfl⟩

/-- MAXLIVE never exceeds the number of distinct registers in tagged use
slots. -/
theorem walk_maxlive_le (pre out : List IRNode) (t T : RenameVars)
    (h : rename_walk pre t = some (out, T)) (hS : SInv t [])
    (B : Int) (hB : ((use_regs pre).dedup.length : Int) ≤ B) (h0 : t.maxlive ≤ B) :
    t.maxlive ≤ T.maxlive ∧ T.maxlive ≤ B := by
  induction pre generalizing out T with
  | nil =>
    simp only [rename_walk, Option.some.injEq, Prod.mk.injEq] at h
    obtain ⟨-, rfl⟩ := h
    exact ⟨le_refl _, h0⟩
  | cons x xs ih =>
    have hSf := rename_walk_SInv _ _ _ _ [] h hS
    have huse := stamp_events_use_regs _ _ _ _ h
    obtain ⟨o1, t2, x1, h1, h2, rfl⟩ := rename_walk_cons x xs out t T h
    have hmono : ((use_regs xs).dedup.length : Int) ≤ B := by
      have := dedup_length_mono (use_regs xs) (use_regs (x :: xs))
        (by rw [use_regs_cons]; exact List.subset_append_right _ _)
      omega
    obtain ⟨i1, i2⟩ := ih o1 t2 h1 hmono
    obtain ⟨m1, m2⟩ := rename_body_maxlive _ _ _ _ h2
    refine ⟨by omega, ?_⟩
    rcases m2 with m2 | m2
    · omega
    · rw [m2]
      have := count_live_le T (use_regs (x :: xs)) (fun r hr => by
        obtain ⟨e, he, hfl, hsr, -⟩ := hSf.2.2.2.2.1 r hr
        rw [List.nil_append] at he
        rw [← hsr]
        exact huse e he hfl)
      omega

theorem use_regs_length (pre : List IRNode) : (use_regs pre).length ≤ 2 * pre.length := by
  induction pre with
  | nil => simp [use_regs]
  | cons x xs ih =>
    rw [use_regs_cons, List.length_append, List.length_map, List.length_cons]
    have : (tagged_use_slots x.opcode).length ≤ 2 := by
      cases x.opcode <;> simp [tagged_use_slots]
    omega

/-- In a block without Output, the registers in tagged use slots are among
the referenced registers. -/
theorem use_regs_sub_referenced (calls : List BuildCall) (pre : List IRNode)
    (hm : List.Forall₂ Matches calls pre) (hno : ∀ c ∈ calls, c.op ≠ IROpcode.IR_OUTPUT) :
    use_regs pre ⊆ referenced_regs calls := by
  induction hm with
  | nil => simp [use_regs]
  | cons hab _ ih =>
    rename_i c n cs ns _
    obtain ⟨m1, -, m3⟩ := hab
    intro r hr
    rw [use_regs_cons, List.mem_append] at hr
    unfold referenced_regs
    rw [List.flatMap_cons, List.mem_append]
    rcases hr with hr | hr
    · left
      obtain ⟨sl, hsl, rfl⟩ := List.mem_map.mp hr
      rw [m1, reg_use_eq_tagged _ (hno c (by simp))] at hsl
      rw [m3 sl]
      exact List.mem_append_right _ (List.mem_map.mpr ⟨sl, hsl, rfl⟩)
    · right
      exact ih (fun c1 hc1 => hno c1 (List.mem_cons_of_mem _ hc1)) hr

/-! ## Which registers are in the table: liveness -/

/-- The use steps of the body leave the entries of all other registers
alone. -/
theorem use_part_unused (es : List (Bool × Slot)) (hes : ∀ e ∈ es, e.1 = false)
    (hnd : (es.map fun e => e.2).Nodup) (n n1 : IRNode) (t t1 : RenameVars)
    (h : tag_slots es n t = some (n1, t1)) (hT : TInv t) :
    ∀ r, (∀ e ∈ es, (n.get e.2).sr ≠ r) → t1.SRToVR r = t.SRToVR r := by
  have key := tag_slots_induct
    (fun t1 S => TInv t1 ∧ ∀ r, (∀ e ∈ S, e.2.sr ≠ r) → t1.SRToVR r = t.SRToVR r)
    (fun d _ => d = false)
    (fun o o1 t2 t3 S hok _ _ => by simp at hok)
    (fun o o1 t2 t3 S _ hu hP => by
      obtain ⟨p1, p2⟩ := hP
      obtain ⟨q1, -, -, q4, -⟩ := tag_use_TInv o o1 t2 t3 hu p1
      have e2 := (tag_use_some o o1 t2 t3 hu).2.1
      refine ⟨q1, ?_⟩
      intro r hr
      have hne : r ≠ o.sr := by
        have := hr (false, o1) (by simp)
        simp only [] at this
        rw [e2] at this
        exact fun h => this h.symm
      rw [q4 r hne]
      exact p2 r (fun e he => hr e (List.mem_append_left _ he)))
    es n n1 t t1 [] hnd (fun e he => hes e he) h ⟨hT, fun _ _ => rfl⟩
  obtain ⟨-, a5⟩ := (tag_slots_frame _ _ _ _ _ h).2.2.2.2
  intro r hr
  apply key.2 r
  intro e he
  simp only [List.nil_append, List.mem_map] at he
  obtain ⟨e0, he0, rfl⟩ := he
  simp only []
  rw [((tag_slots_frame _ _ _ _ _ h).2.2.2.2.1 e0.2).1]
  exact hr e0 he0

/-- After the body, a register is in the table exactly when the node uses it,
or it was in the table and the node does not define it. -/
theorem rename_body_live (n n1 : IRNode) (t t1 : RenameVars)
    (h : rename_body n t = some (n1, t1)) (hT : TInv t) (r : Int) :
    0 ≤ t1.SRToVR r ↔ node_uses n r ∨ (¬ node_defines n r ∧ 0 ≤ t.SRToVR r) := by
  obtain ⟨b1, b2, b3, -, -⟩ := rename_body_spec n n1 t t1 h hT
  constructor
  · intro h0
    by_cases hu : node_uses n r
    · exact Or.inl hu
    · right
      obtain ⟨nm, tm, t2, g1, g2, e1, e2, hsr, -⟩ := rename_body_split n n1 t t1 h
      have huse : ∀ e ∈ (tagged_use_slots n.opcode).map fun sl => ((false, sl) : Bool × Slot),
          e.1 = false := by
        intro e he
        obtain ⟨sl, -, rfl⟩ := List.mem_map.mp he
        rfl
      have hnot : ∀ e ∈ (tagged_use_slots n.opcode).map fun sl => ((false, sl) : Bool × Slot),
          (nm.get e.2).sr ≠ r := by
        intro e he heq
        obtain ⟨sl, hsl, rfl⟩ := List.mem_map.mp he
        simp only [] at heq
        rw [hsr sl] at heq
        exact hu ⟨sl, hsl, heq⟩
      by_cases hd : has_def n.opcode = true
      · have hdef := def_part_some n nm t tm hd g1
        obtain ⟨d1, -, d3, d4, -⟩ := tag_def_TInv _ _ _ _ hdef hT
        have := use_part_unused _ huse (use_slots_nodup _) nm n1 tm t2 g2 d1 r hnot
        rw [e1, this] at h0
        by_cases hreq : r = (n.get Slot.s3).sr
        · rw [hreq, d3] at h0; omega
        · rw [d4 r hreq] at h0
          exact ⟨fun hc => hreq hc.2.symm, h0⟩
      · obtain ⟨rfl, rfl⟩ := def_part_none n nm t tm hd g1
        have := use_part_unused _ huse (use_slots_nodup _) nm n1 tm t2 g2 hT r hnot
        rw [e1, this] at h0
        exact ⟨fun hc => hd hc.1, h0⟩
  · rintro (⟨sl, hsl, hsr⟩ | ⟨hnd, h0⟩)
    · have := b2 sl hsl
      rw [hsr] at this
      rw [this.1]; exact this.2
    · rw [b3 r hnd h0]; exact h0

/-- After the walk over a block, started with an empty table, a register is in
the table exactly when it is live at the top of the block. -/
theorem walk_live (pre out : List IRNode) (t T : RenameVars)
    (h : rename_walk pre t = some (out, T)) (hT : TInv t) (h0 : ∀ r, t.SRToVR r < 0) (r : Int) :
    0 ≤ T.SRToVR r ↔ live_nodes pre r := by
  induction pre generalizing out T with
  | nil =>
    simp only [rename_walk, Option.some.injEq, Prod.mk.injEq] at h
    obtain ⟨-, rfl⟩ := h
    simp only [live_nodes, iff_false, not_le]
    exact h0 r
  | cons x xs ih =>
    obtain ⟨o1, t2, x1, h1, h2, rfl⟩ := rename_walk_cons x xs out t T h
    have hT2 := rename_walk_TInv xs o1 t t2 h1 hT
    rw [rename_body_live x x1 t2 T h2 hT2 r, ih o1 t2 h1]
    rfl

theorem live_nodes_use (pre : List IRNode) (r : Int) (h : live_nodes pre r) :
    r ∈ use_regs pre := by
  induction pre with
  | nil => exact absurd h (by simp [live_nodes])
  | cons x xs ih =>
    rw [use_regs_cons, List.mem_append]
    rcases h with ⟨sl, hsl, hsr⟩ | ⟨-, h⟩
    · exact Or.inl (List.mem_map.mpr ⟨sl, hsl, hsr⟩)
    · exact Or.inr (ih h)

/-! ## From nodes to calls, in blocks without Output -/

theorem Matches_uses (c : BuildCall) (n : IRNode) (hm : Matches c n)
    (hno : c.op ≠ IROpcode.IR_OUTPUT) (r : Int) : node_uses n r ↔ c.uses r := by
  obtain ⟨m1, -, m3⟩ := hm
  unfold node_uses BuildCall.uses
  rw [m1, reg_use_eq_tagged _ hno]
  constructor
  · rintro ⟨sl, hsl, hsr⟩
    exact ⟨sl, hsl, by rw [m3 sl] at hsr; exact hsr⟩
  · rintro ⟨sl, hsl, hsr⟩
    exact ⟨sl, hsl, by rw [m3 sl]; exact hsr⟩

theorem Matches_defines (c : BuildCall) (n : IRNode) (hm : Matches c n) (r : Int) :
    node_defines n r ↔ c.defines r := by
  obtain ⟨m1, -, m3⟩ := hm
  unfold node_defines BuildCall.defines
  rw [m1, m3 Slot.s3]

theorem Matches_live (calls : List BuildCall) (pre : List IRNode)
    (hm : List.Forall₂ Matches calls pre) (hno : ∀ c ∈ calls, c.op ≠ IROpcode.IR_OUTPUT)
    (r : Int) : live_nodes pre r ↔ live_in calls r := by
  induction hm with
  | nil => simp [live_nodes, live_in]
  | cons hab _ ih =>
    rename_i c n cs ns _
    simp only [live_nodes, live_in]
    rw [Matches_uses c n hab (hno c (by simp)), Matches_defines c n hab,
      ih (fun c1 hc1 => hno c1 (List.mem_cons_of_mem _ hc1))]

theorem Matches_use_regs (calls : List BuildCall) (pre : List IRNode)
    (hm : List.Forall₂ Matches calls pre) (hno : ∀ c ∈ calls, c.op ≠ IROpcode.IR_OUTPUT) :
    use_regs pre = used_regs calls := by
  induction hm with
  | nil => simp [use_regs, used_regs]
  | cons hab _ ih =>
    rename_i c n cs ns _
    obtain ⟨m1, -, m3⟩ := hab
    rw [use_regs_cons, ih (fun c1 hc1 => hno c1 (List.mem_cons_of_mem _ hc1))]
    unfold used_regs
    rw [List.flatMap_cons, m1, reg_use_eq_tagged _ (hno c (by simp))]
    congr 1
    apply List.map_congr_left
    intro sl _
    rw [m3 sl]

/-! ## MAXLIVE as the largest number of live registers -/

theorem rename_body_maxlive_eq (n n1 : IRNode) (t t1 : RenameVars)
    (h : rename_body n t = some (n1, t1)) : t1.maxlive = max t.maxlive (count_live t1) := by
  obtain ⟨t2, t3, h2, h3, rfl⟩ := rename_body_some n n1 t t1 h
  obtain ⟨-, -, -, -, -, -, -, -, a9, -⟩ := tag_slots_frame _ _ _ _ _ h2
  obtain ⟨-, -, -, -, b5⟩ := rename_last_use_frame _ _ _ h3
  have hm : t3.maxlive = t.maxlive := b5.trans a9
  have hc : count_live (finish_body t3) = count_live { t3 with index := t3.index - 1 } := by
    apply count_live_congr
    · exact (finish_body_frame t3).1
    · exact (finish_body_frame t3).2.2.1
  rw [hc]
  unfold finish_body
  split_ifs with hgt
  · simp only []
    rw [max_eq_right (by omega)]
  · simp only []
    rw [max_eq_left (by omega)]
    exact hm

theorem count_live_eq (t : RenameVars) (U : List Int) (L : Int → Prop) [DecidablePred L]
    (h1 : ∀ r, 0 ≤ t.SRToVR r ↔ L r) (h2 : ∀ r, L r → r ∈ U ∧ 0 ≤ r ∧ r < t.nSR) :
    count_live t = (((U.dedup).filter fun r => decide (L r)).length : Int) := by
  unfold count_live
  have hnd1 : (((List.range t.nSR.toNat).filter
      (fun i : Nat => decide (0 ≤ t.SRToVR (i : Int)))).map (fun i : Nat => (i : Int))).Nodup :=
    ((List.nodup_range _).filter _).map (fun a b hab => by simpa using hab)
  have hnd2 : ((U.dedup).filter fun r => decide (L r)).Nodup := (List.nodup_dedup U).filter _
  have hperm : List.Perm (((List.range t.nSR.toNat).filter
      (fun i : Nat => decide (0 ≤ t.SRToVR (i : Int)))).map (fun i : Nat => (i : Int)))
      ((U.dedup).filter fun r => decide (L r)) := by
    rw [List.perm_ext_iff_of_nodup hnd1 hnd2]
    intro x
    simp only [List.mem_map, List.mem_filter, List.mem_range, decide_eq_true_eq, List.mem_dedup]
    constructor
    · rintro ⟨i, ⟨-, hi⟩, rfl⟩
      have hl := (h1 _).mp hi
      exact ⟨(h2 _ hl).1, hl⟩
    · rintro ⟨-, hl⟩
      obtain ⟨-, a, b⟩ := h2 x hl
      exact ⟨x.toNat, ⟨by omega, by rw [Int.toNat_of_nonneg a]; exact (h1 x).mpr hl⟩,
        Int.toNat_of_nonneg a⟩
  have := hperm.length_eq
  rw [List.length_map] at this
  exact_mod_cast this

theorem live_count_succ (c : BuildCall) (cs : List BuildCall) (i : Nat) :
    live_count (c :: cs) (i + 1) = live_count cs i := by
  simp [live_count]

theorem max_live_count_cons (c : BuildCall) (cs : List BuildCall) :
    max_live_count (c :: cs) = max (live_count (c :: cs) 0) (max_live_count cs) := by
  unfold max_live_count
  rw [List.length_cons, List.range_succ_eq_map, List.foldr_cons, List.foldr_map]
  simp only [live_count_succ]

/-- In a block without Output, the walk leaves in `maxlive` the largest
number of registers live before any instruction. -/
theorem walk_maxlive_eq (calls : List BuildCall) (pre : List IRNode)
    (hm : List.Forall₂ Matches calls pre) (hno : ∀ c ∈ calls, c.op ≠ IROpcode.IR_OUTPUT)
    (t : RenameVars) (hT : TInv t) (h0 : ∀ r, t.SRToVR r < 0) (hml : t.maxlive = 0)
    (hr : ∀ n ∈ pre, ∀ sl ∈ tagged_use_slots n.opcode,
      0 ≤ (n.get sl).sr ∧ (n.get sl).sr < t.nSR)
    (out : List IRNode) (T : RenameVars) (hw : rename_walk pre t = some (out, T)) :
    T.maxlive = (max_live_count calls : Int) := by
  induction hm generalizing out T with
  | nil =>
    simp only [rename_walk, Option.some.injEq, Prod.mk.injEq] at hw
    obtain ⟨-, rfl⟩ := hw
    simp [hml, max_live_count]
  | cons hab htl ih =>
    rename_i c n cs ns
    obtain ⟨o1, t2, x1, h1, h2, rfl⟩ := rename_walk_cons n ns out t T hw
    have ih1 := ih (fun c1 hc1 => hno c1 (List.mem_cons_of_mem _ hc1))
      (fun n1 hn1 => hr n1 (List.mem_cons_of_mem _ hn1)) o1 t2 h1
    have hnSR : T.nSR = t.nSR := (rename_walk_frame _ _ _ _ hw).2.1
    have hlive : ∀ r, 0 ≤ T.SRToVR r ↔ live_in (c :: cs) r := by
      intro r
      rw [walk_live _ _ _ _ hw hT h0 r, Matches_live _ _ (List.Forall₂.cons hab htl) hno r]
    have hcount := count_live_eq T (used_regs (c :: cs)) (fun r => live_in (c :: cs) r) hlive
      (by
        intro r hl
        have hl2 := (Matches_live _ _ (List.Forall₂.cons hab htl) hno r).mpr hl
        have hu := live_nodes_use _ r hl2
        refine ⟨by rw [← Matches_use_regs _ _ (List.Forall₂.cons hab htl) hno]; exact hu, ?_⟩
        unfold use_regs at hu
        obtain ⟨n1, hn1, hsl⟩ := List.mem_flatMap.mp hu
        obtain ⟨sl, hsl1, rfl⟩ := List.mem_map.mp hsl
        rw [hnSR]
        exact hr n1 hn1 sl hsl1)
    rw [rename_body_maxlive_eq _ _ _ _ h2, ih1, hcount, max_live_count_cons]
    have : live_count (c :: cs) 0 =
        (((used_regs (c :: cs)).dedup).filter fun r => decide (live_in (c :: cs) r)).length := by
      simp [live_count]
    rw [this, max_comm]
    push_cast
    rfl

/-- In a block built through ir_build from valid calls, none of them an
Output, the MAXLIVE returned by ir_rename is the maximum, over the positions
`i` of the block, of the number of distinct source registers live immediately
before instruction `i`, and 0 for the empty block. -/
theorem maxlive_without_output (s0 : IRState) (calls : List BuildCall) (fuel : Nat)
    (hv : ∀ c ∈ calls, c.valid) (hfuel : calls.length < fuel)
    (hno : ∀ c ∈ calls, c.op ≠ IROpcode.IR_OUTPUT) :
    ∃ s1, build_and_rename fuel s0 calls = some (s1, (max_live_count calls : Int)) := by
  obtain ⟨pre, out, t, s1, hm, hw, hbr, -, -, -, -, hT, -⟩ :=
    renamed_setup s0 calls hv fuel hfuel
  obtain ⟨-, hrange⟩ := Matches_in_range calls pre hv hm
  have := walk_maxlive_eq calls pre hm hno (entry_vars pre) hT (fun _ => by simp [entry_vars])
    rfl (fun n hn sl hsl => hrange n hn sl (tagged_use_sub_stamped _ _ hsl)) out t hw
  rw [this] at hbr
  exact ⟨s1, hbr⟩

/-! ## Next use: the table `LU` -/

theorem tag_use_LU (o o1 : IROperand) (t t1 : RenameVars) (h : tag_use o t = some (o1, t1)) :
    t1.LU = t.LU ∧ o1.nu = t.LU o.sr ∧ t1.index = t.index := by
  rw [tag_use_eq] at h
  split_ifs at h
  simp only [Option.some.injEq, Prod.mk.injEq] at h
  obtain ⟨rfl, rfl⟩ := h
  have : (mint t o.sr).LU = t.LU ∧ (mint t o.sr).index = t.index := by
    unfold mint; split_ifs <;> exact ⟨rfl, rfl⟩
  exact ⟨this.1, by rw [this.1], this.2⟩

theorem tag_def_LU (o o1 : IROperand) (t t1 : RenameVars) (h : tag_def o t = some (o1, t1)) :
    t1.LU = Function.update t.LU o.sr INT_MAX ∧ o1.nu = t.LU o.sr ∧ t1.index = t.index := by
  rw [tag_def_eq] at h
  split_ifs at h
  simp only [Option.some.injEq, Prod.mk.injEq] at h
  obtain ⟨rfl, rfl⟩ := h
  have : (mint t o.sr).LU = t.LU ∧ (mint t o.sr).index = t.index := by
    unfold mint; split_ifs <;> exact ⟨rfl, rfl⟩
  exact ⟨by simp only [this.1], by rw [this.1], this.2⟩

/-- The use steps of the body read `LU` and leave it alone. -/
theorem use_part_LU (es : List (Bool × Slot)) (hes : ∀ e ∈ es, e.1 = false)
    (hnd : (es.map fun e => e.2).Nodup) (n n1 : IRNode) (t t1 : RenameVars)
    (h : tag_slots es n t = some (n1, t1)) :
    t1.LU = t.LU ∧ t1.index = t.index ∧ ∀ e ∈ es, (n1.get e.2).nu = t.LU (n.get e.2).sr := by
  have key := tag_slots_induct
    (fun t1 S => t1.LU = t.LU ∧ t1.index = t.index ∧ ∀ e ∈ S, e.2.nu = t.LU e.2.sr)
    (fun d _ => d = false)
    (fun o o1 t2 t3 S hok _ _ => by simp at hok)
    (fun o o1 t2 t3 S _ hu hP => by
      obtain ⟨p1, p2, p3⟩ := hP
      obtain ⟨q1, q2, q3⟩ := tag_use_LU o o1 t2 t3 hu
      have e2 := (tag_use_some o o1 t2 t3 hu).2.1
      refine ⟨q1.trans p1, q3.trans p2, ?_⟩
      intro e he
      rcases List.mem_append.mp he with he | he
      · exact p3 e he
      · simp at he; subst he
        simp only []
        rw [q2, p1, e2])
    es n n1 t t1 [] hnd (fun e he => hes e he) h ⟨rfl, rfl, by simp⟩
  obtain ⟨k1, k2, k3⟩ := key
  refine ⟨k1, k2, ?_⟩
  intro e he
  have := k3 (e.1, n1.get e.2) (by
    simp only [List.nil_append, List.mem_map]
    exact ⟨e, he, rfl⟩)
  simp only [] at this
  rw [((tag_slots_frame _ _ _ _ _ h).2.2.2.2.1 e.2).1] at this
  exact this

theorem set_LU_LU (sr : Int) (t t1 : RenameVars) (h : set_LU sr t = some t1) :
    t1.LU = Function.update t.LU sr t.index := by
  unfold set_LU at h
  split_ifs at h
  simp only [Option.some.injEq] at h
  subst h
  rfl

/-- The third switch of the body records the position of the node for every
register in a tagged use slot. -/
theorem rename_last_use_LU (n : IRNode) (t t1 : RenameVars)
    (h : rename_last_use n t = some t1) (r : Int) :
    t1.LU r = if node_uses n r then t.index else t.LU r := by
  have one : ∀ a : Int, set_LU a t = some t1 →
      t1.LU r = if r = a then t.index else t.LU r := by
    intro a ha
    rw [set_LU_LU a t t1 ha]
    simp [Function.update_apply]
  have two : ∀ a b : Int, ((set_LU a t).bind fun t2 => set_LU b t2) = some t1 →
      t1.LU r = if r = a ∨ r = b then t.index else t.LU r := by
    intro a b hab
    obtain ⟨t2, ha, hb⟩ := Option.bind_eq_some.mp hab
    rw [set_LU_LU b t2 t1 hb, set_LU_LU a t t2 ha, (set_LU_some a t t2 ha).2.2.2.1]
    simp only [Function.update_apply]
    by_cases h1 : r = b <;> by_cases h2 : r = a <;> simp [h1, h2]
  have hu : node_uses n r ↔ ∃ sl ∈ tagged_use_slots n.opcode, (n.get sl).sr = r := Iff.rfl
  unfold rename_last_use at h
  by_cases hc : node_uses n r
  · rw [if_pos hc]
    rw [hu] at hc
    cases hop : n.opcode <;> simp only [hop, tagged_use_slots] at h hc <;>
      first
        | (rw [one _ h]; simp [IRNode.get] at hc; simp [hc])
        | (rw [two _ _ h]; simp [IRNode.get] at hc; rw [if_pos (by
            rcases hc with e | e
            · exact Or.inl e.symm
            · exact Or.inr e.symm)])
        | (simp at hc)
  · rw [if_neg hc]
    rw [hu] at hc
    cases hop : n.opcode <;> simp only [hop, tagged_use_slots] at h hc <;>
      first
        | (rw [one _ h]; simp [IRNode.get] at hc; rw [if_neg (fun e => hc e.symm)])
        | (rw [two _ _ h]; simp [IRNode.get] at hc; rw [if_neg (fun e => by
            rcases e with e | e
            · exact hc.1 e.symm
            · exact hc.2 e.symm)])
        | (simp only [Option.some.injEq] at h; subst h; rfl)

/-- What one run of the loop body does to `LU` and which next_use it stamps. -/
theorem rename_body_LU (n n1 : IRNode) (t t1 : RenameVars)
    (h : rename_body n t = some (n1, t1)) :
    (∀ r, t1.LU r =
      if node_uses n r then t.index else if node_defines n r then INT_MAX else t.LU r) ∧
    (has_def n.opcode = true → (n1.get Slot.s3).nu = t.LU (n.get Slot.s3).sr) ∧
    (∀ sl ∈ tagged_use_slots n.opcode, (n1.get sl).nu =
      if node_defines n (n.get sl).sr then INT_MAX else t.LU (n.get sl).sr) := by
  obtain ⟨t2, t3, h2, h3, rfl⟩ := rename_body_some n n1 t t1 h
  unfold events at h2
  rw [tag_slots_append] at h2
  obtain ⟨⟨nm, tm⟩, g1, g2⟩ := Option.bind_eq_some.mp h2
  have huse : ∀ e ∈ (tagged_use_slots n.opcode).map fun sl => ((false, sl) : Bool × Slot),
      e.1 = false := by
    intro e he
    obtain ⟨sl, -, rfl⟩ := List.mem_map.mp he
    rfl
  obtain ⟨u1, u2, u3⟩ := use_part_LU _ huse (use_slots_nodup _) nm n1 tm t2 g2
  obtain ⟨fa1, -, -, -, fa5, -⟩ := tag_slots_frame _ _ _ _ _ g1
  obtain ⟨fb1, -, -, -, fb5, fb6, -⟩ := tag_slots_frame _ _ _ _ _ g2
  have hfin : (finish_body t3).LU = t3.LU := (finish_body_frame t3).2.2.2.2
  have hlast := rename_last_use_LU n1 t2 t3 h3
  have huses : ∀ r, node_uses n1 r ↔ node_uses n r := by
    intro r
    unfold node_uses
    rw [fb1, fa1]
    constructor
    · rintro ⟨sl, hsl, hsr⟩
      exact ⟨sl, hsl, by rw [← (fa5 sl).1, ← (fb5 sl).1]; exact hsr⟩
    · rintro ⟨sl, hsl, hsr⟩
      exact ⟨sl, hsl, by rw [(fb5 sl).1, (fa5 sl).1]; exact hsr⟩
  by_cases hd : has_def n.opcode = true
  · have hdef := def_part_some n nm t tm hd g1
    obtain ⟨d1, d2, d3⟩ := tag_def_LU _ _ _ _ hdef
    have hs3 : n1.get Slot.s3 = nm.get Slot.s3 := by
      apply fb6
      intro e he heq
      obtain ⟨sl, hsl, rfl⟩ := List.mem_map.mp he
      exact has_def_s3_not_use _ hd (heq ▸ hsl)
    refine ⟨?_, fun _ => by rw [hs3]; exact d2, ?_⟩
    · intro r
      rw [hfin, hlast r, u1, u2, d1, d3]
      simp only [huses r, Function.update_apply, node_defines, hd, true_and]
      by_cases hu : node_uses n r
      · simp [hu]
      · simp only [hu, if_false]
        by_cases hreq : r = (n.get Slot.s3).sr
        · simp [hreq]
        · rw [if_neg hreq, if_neg (fun hc => hreq hc.symm)]
    · intro sl hsl
      have := u3 (false, sl) (List.mem_map.mpr ⟨sl, hsl, rfl⟩)
      simp only [] at this
      rw [this, d1, (fa5 sl).1]
      simp only [Function.update_apply, node_defines, hd, true_and]
      by_cases hreq : (n.get sl).sr = (n.get Slot.s3).sr
      · simp [hreq]
      · rw [if_neg hreq, if_neg (fun hc => hreq hc.symm)]
  · obtain ⟨rfl, rfl⟩ := def_part_none n nm t tm hd g1
    refine ⟨?_, fun hc => absurd hc hd, ?_⟩
    · intro r
      rw [hfin, hlast r, u1, u2]
      simp [huses r, node_defines, hd]
    · intro sl hsl
      have := u3 (false, sl) (List.mem_map.mpr ⟨sl, hsl, rfl⟩)
      simp only [] at this
      rw [this]
      simp [node_defines, hd]

/-- After the walk over a block whose first instruction has position `p`,
started with `LU` all INT_MAX, `LU[r]` is the position of the next use of `r`
from the top of the block. -/
theorem walk_LU (pre out : List IRNode) (t T : RenameVars) (p : Int)
    (h : rename_walk pre t = some (out, T)) (h0 : ∀ r, t.LU r = INT_MAX)
    (hidx : t.index = p + (pre.length : Int) - 1) (r : Int) :
    T.LU r = next_use_nodes pre p r := by
  induction pre generalizing out T p with
  | nil =>
    simp only [rename_walk, Option.some.injEq, Prod.mk.injEq] at h
    obtain ⟨-, rfl⟩ := h
    simp [next_use_nodes, h0]
  | cons x xs ih =>
    obtain ⟨o1, t2, x1, h1, h2, rfl⟩ := rename_walk_cons x xs out t T h
    have hi2 : t2.index = p := by
      have := (rename_walk_frame _ _ _ _ h1).2.2
      simp only [List.length_cons, Nat.cast_add, Nat.cast_one] at hidx
      omega
    have ih1 := ih o1 t2 (p + 1) h1 (by
      simp only [List.length_cons, Nat.cast_add, Nat.cast_one] at hidx
      omega)
    rw [(rename_body_LU x x1 t2 T h2).1 r, hi2, ih1]
    rfl

/-- The next_use that the walk stamps on the operands of instruction `i`. -/
theorem walk_next_use (pre out : List IRNode) (t T : RenameVars) (p : Int)
    (h : rename_walk pre t = some (out, T)) (h0 : ∀ r, t.LU r = INT_MAX)
    (hidx : t.index = p + (pre.length : Int) - 1)
    (i : Nat) (ni oi : IRNode) (hi : pre[i]? = some ni) (hoi : out[i]? = some oi) :
    (has_def ni.opcode = true → (oi.get Slot.s3).nu =
      next_use_nodes (pre.drop (i + 1)) (p + i + 1) (ni.get Slot.s3).sr) ∧
    (∀ sl ∈ tagged_use_slots ni.opcode, (oi.get sl).nu =
      if node_defines ni (ni.get sl).sr then INT_MAX
      else next_use_nodes (pre.drop (i + 1)) (p + i + 1) (ni.get sl).sr) := by
  induction pre generalizing out T p i with
  | nil => simp at hi
  | cons x xs ih =>
    obtain ⟨o1, t2, x1, h1, h2, rfl⟩ := rename_walk_cons x xs out t T h
    have hidx2 : t.index = (p + 1) + (xs.length : Int) - 1 := by
      simp only [List.length_cons, Nat.cast_add, Nat.cast_one] at hidx
      omega
    cases i with
    | zero =>
      simp only [List.getElem?_cons_zero, Option.some.injEq] at hi hoi
      subst hi; subst hoi
      obtain ⟨-, b2, b3⟩ := rename_body_LU _ _ t2 T h2
      have hLU := walk_LU xs o1 t t2 (p + 1) h1 h0 hidx2
      simp only [Nat.cast_zero, add_zero, zero_add, List.drop_succ_cons, List.drop_zero]
      refine ⟨fun hd => by rw [b2 hd, hLU], ?_⟩
      intro sl hsl
      rw [b3 sl hsl, hLU]
    | succ i =>
      simp only [List.getElem?_cons_succ] at hi hoi
      have := ih o1 t2 (p + 1) h1 hidx2 i hi hoi
      simp only [List.drop_succ_cons, Nat.cast_add, Nat.cast_one]
      have e : p + 1 + (i : Int) + 1 = p + ((i : Int) + 1) + 1 := by ring
      rw [e] at this
      exact this

/-! ## Dead definitions -/

/-- A definition of a register that is not in the table gets the id the
counter holds. -/
theorem rename_body_fresh (n n1 : IRNode) (t t1 : RenameVars)
    (h : rename_body n t = some (n1, t1)) (hT : TInv t) (hd : has_def n.opcode = true)
    (hneg : t.SRToVR (n.get Slot.s3).sr < 0) : (n1.get Slot.s3).vr = t.vrname := by
  obtain ⟨nm, tm, t2, g1, -, -, -, -, hs3⟩ := rename_body_split n n1 t t1 h
  have hdef := def_part_some n nm t tm hd g1
  rw [hs3 hd, (tag_def_some _ _ _ _ hdef).2.2.2]
  exact ((mint_spec t _ hT).2.2.2.2.1 hneg).1

theorem next_use_nodes_dead (l : List IRNode) (p r : Int) (h : ¬ live_nodes l r) :
    next_use_nodes l p r = INT_MAX := by
  induction l generalizing p with
  | nil => rfl
  | cons x xs ih =>
    simp only [live_nodes, not_or, not_and, not_not] at h
    simp only [next_use_nodes, if_neg h.1]
    by_cases hd : node_defines x r
    · rw [if_pos hd]
    · rw [if_neg hd]
      exact ih (p + 1) (h.2 hd)

theorem Matches_next_use (calls : List BuildCall) (pre : List IRNode)
    (hm : List.Forall₂ Matches calls pre) (hno : ∀ c ∈ calls, c.op ≠ IROpcode.IR_OUTPUT)
    (p r : Int) : next_use_nodes pre p r = next_use_in calls p r := by
  induction hm generalizing p with
  | nil => rfl
  | cons hab _ ih =>
    rename_i c n cs ns _
    simp only [next_use_nodes, next_use_in]
    rw [ih (fun c1 hc1 => hno c1 (List.mem_cons_of_mem _ hc1))]
    simp only [Matches_uses c n hab (hno c (by simp)), Matches_defines c n hab]

/-- A definition whose register is not live after it gets a fresh id, which
no other stamped operand of the block carries. -/
theorem walk_dead_def (pre out : List IRNode) (t T : RenameVars)
    (h : rename_walk pre t = some (out, T)) (hS : SInv t []) (h0 : ∀ r, t.SRToVR r < 0)
    (i : Nat) (ni oi : IRNode) (hi : pre[i]? = some ni) (hoi : out[i]? = some oi)
    (hd : has_def ni.opcode = true)
    (hdead : ¬ live_nodes (pre.drop (i + 1)) (ni.get Slot.s3).sr) :
    0 ≤ (oi.get Slot.s3).vr ∧
    ∀ (k : Nat) (ok : IRNode) (sl : Slot), out[k]? = some ok → sl ∈ stamped_slots ok.opcode →
      ¬ (k = i ∧ sl = Slot.s3) → (ok.get sl).vr ≠ (oi.get Slot.s3).vr := by
  induction pre generalizing out T i with
  | nil => simp at hi
  | cons x xs ih =>
    obtain ⟨o1, t2, x1, h1, h2, rfl⟩ := rename_walk_cons x xs out t T h
    have hT2 : TInv t2 := rename_walk_TInv xs o1 t t2 h1 hS.1
    have hop : x1.opcode = x.opcode := (rename_body_frame x x1 t2 T h2).1
    cases i with
    | zero =>
      simp only [List.getElem?_cons_zero, Option.some.injEq] at hi hoi
      subst hi; subst hoi
      simp only [zero_add, List.drop_succ_cons, List.drop_zero] at hdead
      have hneg : t2.SRToVR (x.get Slot.s3).sr < 0 := by
        have := walk_live xs o1 t t2 h1 hS.1 h0 (x.get Slot.s3).sr
        by_contra hc
        exact hdead (this.mp (by omega))
      have hv := rename_body_fresh x x1 t2 T h2 hT2 hd hneg
      have hS2 := rename_walk_SInv xs o1 t t2 [] h1 hS
      simp only [List.nil_append] at hS2
      obtain ⟨-, b2, -, -, b5⟩ := rename_body_spec x x1 t2 T h2 hT2
      refine ⟨by rw [hv]; exact hT2.1, ?_⟩
      intro k ok sl hok hsl hne
      cases k with
      | zero =>
        simp only [List.getElem?_cons_zero, Option.some.injEq] at hok
        subst hok
        have hsl3 : sl ≠ Slot.s3 := fun e => hne ⟨rfl, e⟩
        have huse : sl ∈ tagged_use_slots x.opcode := by
          rw [hop] at hsl
          unfold stamped_slots at hsl
          rcases List.mem_append.mp hsl with hh | hh
          · split_ifs at hh
            exact absurd (by simpa using hh) hsl3
          · exact hh
        rw [← (b2 sl huse).1]
        exact (b5 hd).2.2 _
      | succ k =>
        simp only [List.getElem?_cons_succ] at hok
        obtain ⟨d, hmem⟩ := mem_stamp_events o1 k ok sl hok hsl
        have := (hS2.2.1 _ hmem).2
        simp only [] at this
        rw [hv]
        omega
    | succ i =>
      simp only [List.getElem?_cons_succ] at hi hoi
      simp only [List.drop_succ_cons] at hdead
      obtain ⟨v0, hrest⟩ := ih o1 t2 h1 i hi hoi hdead
      refine ⟨v0, ?_⟩
      intro k ok sl hok hsl hne
      cases k with
      | zero =>
        simp only [List.getElem?_cons_zero, Option.some.injEq] at hok
        subst hok
        have hR := walk_def_retired xs o1 t t2 h1 hS.1 i ni oi hi hoi hd
        exact (rename_body_retired _ x x1 t2 T h2 hT2 hR).2 sl (by rw [← hop]; exact hsl)
      | succ k =>
        simp only [List.getElem?_cons_succ] at hok
        exact hrest k ok sl hok hsl (fun hc => hne ⟨by omega, hc.2⟩)

/-! ## The liveness and next-use predicates in words -/

/-- Register `r` is live before the first instruction of a list exactly when
some instruction `j` of the list uses `r` in a register-role use slot and no
instruction before `j` defines `r`. -/
theorem live_in_iff (l : List BuildCall) (r : Int) :
    live_in l r ↔ ∃ (j : Nat) (cj : BuildCall), l[j]? = some cj ∧ cj.uses r ∧
      ∀ (k : Nat) (ck : BuildCall), k < j → l[k]? = some ck → ¬ ck.defines r := by
  induction l with
  | nil => simp [live_in]
  | cons c cs ih =>
    simp only [live_in]
    constructor
    · rintro (hu | ⟨hnd, hl⟩)
      · exact ⟨0, c, by simp, hu, fun k ck hk => by omega⟩
      · obtain ⟨j, cj, hj, hu, hno⟩ := ih.mp hl
        refine ⟨j + 1, cj, by simpa using hj, hu, ?_⟩
        intro k ck hk hck
        cases k with
        | zero =>
          simp only [List.getElem?_cons_zero, Option.some.injEq] at hck
          subst hck
          exact hnd
        | succ k =>
          simp only [List.getElem?_cons_succ] at hck
          exact hno k ck (by omega) hck
    · rintro ⟨j, cj, hj, hu, hno⟩
      cases j with
      | zero =>
        simp only [List.getElem?_cons_zero, Option.some.injEq] at hj
        subst hj
        exact Or.inl hu
      | succ j =>
        simp only [List.getElem?_cons_succ] at hj
        refine Or.inr ⟨hno 0 c (by omega) (by simp), ih.mpr ⟨j, cj, hj, hu, ?_⟩⟩
        intro k ck hk hck
        exact hno (k + 1) ck (by omega) (by simpa using hck)

/-- When `j` is the nearest instruction of the list that uses `r` with no
definition of `r` before it, `next_use_in` from position `p` is `p + j`. -/
theorem next_use_in_nearest (l : List BuildCall) (p r : Int) (j : Nat) (cj : BuildCall)
    (hj : l[j]? = some cj) (hu : cj.uses r)
    (hno : ∀ (k : Nat) (ck : BuildCall), k < j → l[k]? = some ck → ¬ ck.defines r)
    (hmin : ∀ (k : Nat) (ck : BuildCall), k < j → l[k]? = some ck → ¬ ck.uses r) :
    next_use_in l p r = p + j := by
  induction l generalizing p j with
  | nil => simp at hj
  | cons c cs ih =>
    cases j with
    | zero =>
      simp only [List.getElem?_cons_zero, Option.some.injEq] at hj
      subst hj
      simp [next_use_in, hu]
    | succ j =>
      simp only [List.getElem?_cons_succ] at hj
      have h1 : ¬ c.uses r := hmin 0 c (by omega) (by simp)
      have h2 : ¬ c.defines r := hno 0 c (by omega) (by simp)
      simp only [next_use_in, if_neg h1, if_neg h2]
      rw [ih (p + 1) j hj
        (fun k ck hk hck => hno (k + 1) ck (by omega) (by simpa using hck))
        (fun k ck hk hck => hmin (k + 1) ck (by omega) (by simpa using hck))]
      push_cast
      ring

/-- When the register is not live at the head of the list, `next_use_in` is
the sentinel INT_MAX. -/
theorem next_use_in_dead (l : List BuildCall) (p r : Int) (h : ¬ live_in l r) :
    next_use_in l p r = INT_MAX := by
  induction l generalizing p with
  | nil => rfl
  | cons c cs ih =>
    simp only [live_in, not_or, not_and, not_not] at h
    simp only [next_use_in, if_neg h.1]
    by_cases hd : c.defines r
    · rw [if_pos hd]
    · rw [if_neg hd]
      exact ih (p + 1) (h.2 hd)

/-! ## Blocks without Output: next use and dead definitions -/

/-- In a block built from valid calls none of which is an Output, ir_rename
stamps on the definition operand of instruction `i` the next use of its
register after `i`, and on a use operand of instruction `i` the same, or
INT_MAX when instruction `i` itself redefines the register. -/
theorem next_use_without_output (s0 : IRState) (calls : List BuildCall) (fuel : Nat)
    (hv : ∀ c ∈ calls, c.valid) (hfuel : calls.length < fuel)
    (hno : ∀ c ∈ calls, c.op ≠ IROpcode.IR_OUTPUT) :
    ∃ s1 maxlive out, build_and_rename fuel s0 calls = some (s1, maxlive) ∧
      node_seq fuel s1 = some out ∧ out.length = calls.length ∧
      ∀ (i : Nat) (ci : BuildCall) (oi : IRNode), calls[i]? = some ci → out[i]? = some oi →
        (has_def ci.op = true → (oi.get Slot.s3).nu =
          next_use_in (calls.drop (i + 1)) ((i : Int) + 1) (ci.sr Slot.s3)) ∧
        (∀ sl ∈ reg_use_slots ci.op, (oi.get sl).nu =
          if ci.defines (ci.sr sl) then INT_MAX
          else next_use_in (calls.drop (i + 1)) ((i : Int) + 1) (ci.sr sl)) := by
  obtain ⟨pre, out, t, s1, hm, hw, hbr, -, hseq, hl1, hl2, hT, -⟩ :=
    renamed_setup s0 calls hv fuel hfuel
  refine ⟨s1, t.maxlive, out, hbr, hseq, hl2, ?_⟩
  intro i ci oi hi hoi
  obtain ⟨pi, hpi, hmi⟩ := Forall₂_getElem?_left hm i ci hi
  obtain ⟨w1, w2⟩ := walk_next_use pre out (entry_vars pre) t 0 hw (fun _ => rfl)
    (by simp [entry_vars]) i pi oi hpi hoi
  have hdrop := Matches_next_use (calls.drop (i + 1)) (pre.drop (i + 1))
    (List.forall₂_drop (i + 1) hm) (fun c hc => hno c (List.mem_of_mem_drop hc))
  have hsr : ∀ sl, (pi.get sl).sr = ci.sr sl := fun sl => by rw [hmi.2.2 sl]
  simp only [zero_add] at w1 w2
  refine ⟨fun hd => ?_, fun sl hsl => ?_⟩
  · rw [w1 (by rw [hmi.1]; exact hd), hdrop, hsr]
  · rw [w2 sl (reg_use_sub_tagged _ _ (by rw [hmi.1]; exact hsl)), hdrop, hsr]
    simp only [Matches_defines ci pi hmi]

/-- In a block built from valid calls none of which is an Output, a
definition whose register is not used after it before the next definition of
the register or the end of the block gets next_use INT_MAX and a virtual_id
that no other operand of the block carries. -/
theorem dead_definition_without_output (s0 : IRState) (calls : List BuildCall) (fuel i : Nat)
    (ci : BuildCall) (hv : ∀ c ∈ calls, c.valid) (hfuel : calls.length < fuel)
    (hno : ∀ c ∈ calls, c.op ≠ IROpcode.IR_OUTPUT)
    (hi : calls[i]? = some ci) (hd : has_def ci.op = true)
    (hdead : ¬ live_in (calls.drop (i + 1)) (ci.sr Slot.s3)) :
    ∃ s1 maxlive out oi, build_and_rename fuel s0 calls = some (s1, maxlive) ∧
      node_seq fuel s1 = some out ∧ out[i]? = some oi ∧
      (oi.get Slot.s3).sr = ci.sr Slot.s3 ∧ (oi.get Slot.s3).nu = INT_MAX ∧
      0 ≤ (oi.get Slot.s3).vr ∧
      ∀ (k : Nat) (ok : IRNode) (sl : Slot), out[k]? = some ok → ¬ (k = i ∧ sl = Slot.s3) →
        (ok.get sl).vr ≠ (oi.get Slot.s3).vr := by
  obtain ⟨pre, out, t, s1, hm, hw, hbr, -, hseq, hl1, hl2, hT, -⟩ :=
    renamed_setup s0 calls hv fuel hfuel
  obtain ⟨pi, hpi, hmi⟩ := Forall₂_getElem?_left hm i ci hi
  obtain ⟨oi, hoi⟩ := getElem?_of_length_eq pre out (by omega) i pi hpi
  have hsr : ∀ sl, (pi.get sl).sr = ci.sr sl := fun sl => by rw [hmi.2.2 sl]
  have hdp : has_def pi.opcode = true := by rw [hmi.1]; exact hd
  have hdeadn : ¬ live_nodes (pre.drop (i + 1)) (pi.get Slot.s3).sr := by
    rw [Matches_live (calls.drop (i + 1)) (pre.drop (i + 1)) (List.forall₂_drop (i + 1) hm)
      (fun c hc => hno c (List.mem_of_mem_drop hc)), hsr]
    exact hdead
  obtain ⟨w1, -⟩ := walk_next_use pre out (entry_vars pre) t 0 hw (fun _ => rfl)
    (by simp [entry_vars]) i pi oi hpi hoi
  obtain ⟨v0, hrest⟩ := walk_dead_def pre out (entry_vars pre) t hw
    (SInv_init _ rfl (fun _ => rfl)) (fun _ => by simp [entry_vars]) i pi oi hpi hoi hdp hdeadn
  obtain ⟨-, -, fi, -⟩ := rename_walk_frame_at pre out _ t hw i pi oi hpi hoi
  refine ⟨s1, t.maxlive, out, oi, hbr, hseq, hoi, by rw [(fi _).1, hsr], ?_, v0, ?_⟩
  · rw [w1 hdp]
    exact next_use_nodes_dead _ _ _ hdeadn
  · intro k ok sl hok hne
    by_cases hst : sl ∈ stamped_slots ok.opcode
    · exact hrest k ok sl hok hst hne
    · obtain ⟨pk, hpk⟩ := getElem?_of_length_eq out pre (by omega) k ok hok
      obtain ⟨f1, -, -, f4⟩ := rename_walk_frame_at pre out _ t hw k pk ok hpk hok
      obtain ⟨ck, -, hmk⟩ := Forall₂_getElem?_right hm k pk hpk
      rw [f4 sl (by rw [← f1]; exact hst), hmk.2.2 sl]
      simp only []
      omega

/-- The block `load r1 => r2 ; store r2 => r1 ; add r1, r4 => r5` has no
Output: the next uses stamped on it are those of `next_use_in`. -/
theorem next_use_live_in_block :
    ∃ s1 maxlive out, build_and_rename 4 start_state live_in_block = some (s1, maxlive) ∧
      node_seq 4 s1 = some out ∧ out.length = live_in_block.length ∧
      ∀ (i : Nat) (ci : BuildCall) (oi : IRNode), live_in_block[i]? = some ci →
        out[i]? = some oi →
        (has_def ci.op = true → (oi.get Slot.s3).nu =
          next_use_in (live_in_block.drop (i + 1)) ((i : Int) + 1) (ci.sr Slot.s3)) ∧
        (∀ sl ∈ reg_use_slots ci.op, (oi.get sl).nu =
          if ci.defines (ci.sr sl) then INT_MAX
          else next_use_in (live_in_block.drop (i + 1)) ((i : Int) + 1) (ci.sr sl)) :=
  next_use_without_output start_state live_in_block 4 (by decide) (by decide) (by decide)

/-- In the block `load r1 => r2 ; store r2 => r1 ; add r1, r4 => r5` the
definition of `r5` at position 2 is dead. -/
theorem dead_definition_live_in_block :
    ∃ s1 maxlive out oi, build_and_rename 4 start_state live_in_block = some (s1, maxlive) ∧
      node_seq 4 s1 = some out ∧ out[2]? = some oi ∧
      (oi.get Slot.s3).sr = 5 ∧ (oi.get Slot.s3).nu = INT_MAX ∧
      0 ≤ (oi.get Slot.s3).vr ∧
      ∀ (k : Nat) (ok : IRNode) (sl : Slot), out[k]? = some ok → ¬ (k = 2 ∧ sl = Slot.s3) →
        (ok.get sl).vr ≠ (oi.get Slot.s3).vr :=
  dead_definition_without_output start_state live_in_block 4 2
    { op := IROpcode.IR_ADD, line := 3, nops := 3, args := [1, 4, 5] }
    (by decide) (by decide) (by decide) rfl rfl (by decide)

/-- The block `load r1 => r2 ; store r2 => r1 ; add r1, r4 => r5` has MAXLIVE
3: `r1`, `r2` and `r4` are live before the store. -/
theorem maxlive_live_in_block :
    ∃ s1, build_and_rename 4 start_state live_in_block = some (s1, 3) :=
  maxlive_without_output start_state live_in_block 4 (by decide) (by decide) (by decide)

/-! ## The claims -/

/-- C1: on the block `loadI 5 => r1 ; add r1, r1 => r2 ; store r2 => r3`
built through ir_build, ir_rename stamps loadI slot 3 with vr 2 and nu 1, add
slots 1 and 2 with vr 2 and nu INT_MAX each, add slot 3 with vr 0 and nu 2,
store slot 1 with vr 0 and nu INT_MAX, store slot 3 with vr 1 and nu INT_MAX,
and returns MAXLIVE 2. -/
theorem C1_worked_scenario :
    renamed_block 4 start_state worked_block = some (
      [ (IROpcode.IR_LOADI, ⟨5, -1, -1, -1⟩, ⟨-1, -1, -1, -1⟩, ⟨1, 2, -1, 1⟩),
        (IROpcode.IR_ADD, ⟨1, 2, -1, INT_MAX⟩, ⟨1, 2, -1, INT_MAX⟩, ⟨2, 0, -1, 2⟩),
        (IROpcode.IR_STORE, ⟨2, 0, -1, INT_MAX⟩, ⟨-1, -1, -1, -1⟩, ⟨3, 1, -1, INT_MAX⟩) ],
      2) := by
  decide

/-- C2: in a block built through ir_build from valid calls, whatever the
memory held before, if instruction `i` defines source register `r`, instruction `j > i` uses `r` in a register-role
use slot, and no instruction strictly between them defines `r`, then after
ir_rename the use operand at `j` carries the virtual_id of the definition
operand at `i`, and that virtual_id is one of the ids ir_rename has minted:
it is non-negative (the builder leaves -1) and below the final value of the
counter `vrname`. -/
theorem C2_use_renamed_to_reaching_def (s0 : IRState) (calls : List BuildCall) (fuel i j : Nat)
    (ci cj : BuildCall) (r : Int) (sl : Slot)
    (hv : ∀ c ∈ calls, c.valid) (hfuel : calls.length < fuel)
    (hi : calls[i]? = some ci) (hj : calls[j]? = some cj) (hij : i < j)
    (hdef : ci.defines r) (hsl : sl ∈ reg_use_slots cj.op) (hsr : cj.sr sl = r)
    (hno : ∀ k ck, i < k → k < j → calls[k]? = some ck → ¬ ck.defines r) :
    ∃ s1 maxlive out ni nj, build_and_rename fuel s0 calls = some (s1, maxlive) ∧
      node_seq fuel s1 = some out ∧ out[i]? = some ni ∧ out[j]? = some nj ∧
      (ni.get Slot.s3).sr = r ∧ (nj.get sl).sr = r ∧
      (nj.get sl).vr = (ni.get Slot.s3).vr ∧
      0 ≤ (ni.get Slot.s3).vr ∧ (ni.get Slot.s3).vr < s1.vrname := by
  obtain ⟨pre, out, t, s1, hm, hw, hbr, hvrn, hseq, hl1, hl2, hT, hS⟩ :=
    renamed_setup s0 calls hv fuel hfuel
  obtain ⟨pi, hpi, mi1, -, mi3⟩ := Forall₂_getElem?_left hm i ci hi
  obtain ⟨pj, hpj, mj1, -, mj3⟩ := Forall₂_getElem?_left hm j cj hj
  obtain ⟨oi, hoi⟩ := getElem?_of_length_eq pre out (by omega) i pi hpi
  obtain ⟨oj, hoj⟩ := getElem?_of_length_eq pre out (by omega) j pj hpj
  obtain ⟨hd1, hd2⟩ := hdef
  have hsri : (pi.get Slot.s3).sr = r := by rw [mi3]; exact hd2
  have hsrj : (pj.get sl).sr = r := by rw [mj3]; exact hsr
  have key := walk_def_use pre out _ t hw hT i j pi pj oi oj sl hij hpi hpj hoi hoj
    (by rw [mi1]; exact hd1) (by rw [hsri, hsrj])
    (reg_use_sub_tagged _ _ (by rw [mj1]; exact hsl))
    (by
      intro k nk hk1 hk2 hnk hc
      obtain ⟨ck, hck, mk1, -, mk3⟩ := Forall₂_getElem?_right hm k nk hnk
      refine hno k ck hk1 hk2 hck ⟨by rw [← mk1]; exact hc.1, ?_⟩
      rw [← hsrj, ← hc.2, mk3])
  obtain ⟨-, -, fi, -⟩ := rename_walk_frame_at pre out _ t hw i pi oi hpi hoi
  obtain ⟨-, -, fj, -⟩ := rename_walk_frame_at pre out _ t hw j pj oj hpj hoj
  obtain ⟨fi1, -⟩ := rename_walk_frame_at pre out _ t hw i pi oi hpi hoi
  obtain ⟨d, hd⟩ := mem_stamp_events out i oi Slot.s3 hoi (by
    unfold stamped_slots
    rw [fi1, mi1, hd1]
    simp)
  have hrange := hS.2.1 _ hd
  exact ⟨s1, t.maxlive, out, oi, oj, hbr, hseq, hoi, hoj, by rw [(fi _).1, hsri],
    by rw [(fj _).1, hsrj], key, hrange.1, by rw [hvrn]; exact hrange.2⟩

/-- C2 at the worked block: `add r1, r1 => r2` at position 1 uses the `r1`
that `loadI 5 => r1` defines at position 0. -/
theorem C2_witness :
    ∃ s1 maxlive out ni nj, build_and_rename 4 start_state worked_block = some (s1, maxlive) ∧
      node_seq 4 s1 = some out ∧ out[0]? = some ni ∧ out[1]? = some nj ∧
      (ni.get Slot.s3).sr = 1 ∧ (nj.get Slot.s1).sr = 1 ∧
      (nj.get Slot.s1).vr = (ni.get Slot.s3).vr ∧
      0 ≤ (ni.get Slot.s3).vr ∧ (ni.get Slot.s3).vr < s1.vrname :=
  C2_use_renamed_to_reaching_def start_state worked_block 4 0 1
    { op := IROpcode.IR_LOADI, line := 1, nops := 2, args := [5, 1] }
    { op := IROpcode.IR_ADD, line := 2, nops := 3, args := [1, 1, 2] } 1 Slot.s1
    (by decide) (by decide) rfl rfl (by decide) (by decide) (by decide) (by decide)
    (fun k _ h1 h2 _ => by omega)

/-- C3: in a block built through ir_build from valid calls, whatever the
memory held before, after ir_rename any two definition operands at different positions carry different
virtual_id values, and two stamped operands whose source_id values differ
never carry the same virtual_id. -/
theorem C3_live_ranges_do_not_share_ids (s0 : IRState) (calls : List BuildCall) (fuel : Nat)
    (hv : ∀ c ∈ calls, c.valid) (hfuel : calls.length < fuel) :
    ∃ s1 maxlive out, build_and_rename fuel s0 calls = some (s1, maxlive) ∧
      node_seq fuel s1 = some out ∧ out.length = calls.length ∧
      (∀ (i j : Nat) (ni nj : IRNode), i ≠ j → out[i]? = some ni → out[j]? = some nj →
        has_def ni.opcode = true → has_def nj.opcode = true →
        (ni.get Slot.s3).vr ≠ (nj.get Slot.s3).vr) ∧
      (∀ (i j : Nat) (ni nj : IRNode) (sli slj : Slot), out[i]? = some ni → out[j]? = some nj →
        sli ∈ stamped_slots ni.opcode → slj ∈ stamped_slots nj.opcode →
        (ni.get sli).sr ≠ (nj.get slj).sr → (ni.get sli).vr ≠ (nj.get slj).vr) := by
  obtain ⟨pre, out, t, s1, hm, hw, hbr, -, hseq, hl1, hl2, hT, hS⟩ :=
    renamed_setup s0 calls hv fuel hfuel
  refine ⟨s1, t.maxlive, out, hbr, hseq, hl2, ?_, ?_⟩
  · have main : ∀ (i j : Nat) (ni nj : IRNode), i < j → out[i]? = some ni → out[j]? = some nj →
        has_def ni.opcode = true → has_def nj.opcode = true →
        (ni.get Slot.s3).vr ≠ (nj.get Slot.s3).vr := by
      intro i j oi oj hij hoi hoj hdi hdj
      obtain ⟨pi, hpi⟩ := getElem?_of_length_eq out pre (by omega) i oi hoi
      obtain ⟨pj, hpj⟩ := getElem?_of_length_eq out pre (by omega) j oj hoj
      obtain ⟨fi, -⟩ := rename_walk_frame_at pre out _ t hw i pi oi hpi hoi
      obtain ⟨fj, -⟩ := rename_walk_frame_at pre out _ t hw j pj oj hpj hoj
      exact walk_defs_distinct pre out _ t hw hT i j pi pj oi oj hij hpi hpj hoi hoj
        (by rw [← fi]; exact hdi) (by rw [← fj]; exact hdj)
    intro i j ni nj hne hoi hoj hdi hdj
    rcases Nat.lt_or_gt_of_ne hne with h | h
    · exact main i j ni nj h hoi hoj hdi hdj
    · exact fun heq => main j i nj ni h hoj hoi hdj hdi heq.symm
  · intro i j ni nj sli slj hoi hoj hsli hslj hsr heq
    obtain ⟨di, hdi⟩ := mem_stamp_events out i ni sli hoi hsli
    obtain ⟨dj, hdj⟩ := mem_stamp_events out j nj slj hoj hslj
    exact hsr (hS.2.2.2.1 _ hdi _ hdj heq)

/-- C3 at the worked block. -/
theorem C3_witness :
    ∃ s1 maxlive out, build_and_rename 4 start_state worked_block = some (s1, maxlive) ∧
      node_seq 4 s1 = some out ∧ out.length = worked_block.length ∧
      (∀ (i j : Nat) (ni nj : IRNode), i ≠ j → out[i]? = some ni → out[j]? = some nj →
        has_def ni.opcode = true → has_def nj.opcode = true →
        (ni.get Slot.s3).vr ≠ (nj.get Slot.s3).vr) ∧
      (∀ (i j : Nat) (ni nj : IRNode) (sli slj : Slot), out[i]? = some ni → out[j]? = some nj →
        sli ∈ stamped_slots ni.opcode → slj ∈ stamped_slots nj.opcode →
        (ni.get sli).sr ≠ (nj.get slj).sr → (ni.get sli).vr ≠ (nj.get slj).vr) :=
  C3_live_ranges_do_not_share_ids start_state worked_block 4 (by decide) (by decide)

/-- In a block built through ir_build from valid calls, whatever the memory
held before, the virtual_id values ir_rename stamps (on definition slots and
on the slots it tags as uses, the literal of an Output included) are exactly
`0, ..., K-1`, where `K` is the final
value of the counter `vrname` (reset to 0 at entry and incremented once per
minted id); visiting the stamped operands in backward-walk order, the first
occurrences of the ids appear in the order `0, 1, ..., K-1`. -/
theorem stamped_ids_dense_and_in_discovery_order (s0 : IRState) (calls : List BuildCall) (fuel : Nat)
    (hv : ∀ c ∈ calls, c.valid) (hfuel : calls.length < fuel) :
    ∃ s1 maxlive out, build_and_rename fuel s0 calls = some (s1, maxlive) ∧
      node_seq fuel s1 = some out ∧ 0 ≤ s1.vrname ∧
      (∀ v, v ∈ (stamps out).map (fun o => o.vr) ↔ 0 ≤ v ∧ v < s1.vrname) ∧
      first_occurrences ((stamps out).map fun o => o.vr) = ids_below s1.vrname := by
  obtain ⟨pre, out, t, s1, hm, hw, hbr, hvr, hseq, hl1, hl2, hT, hS⟩ :=
    renamed_setup s0 calls hv fuel hfuel
  have hfo : first_occurrences ((stamps out).map fun o => o.vr) = ids_below s1.vrname := by
    rw [hvr, ← hS.2.2.2.2.2, ← stamp_events_snd, List.map_map]
    rfl
  refine ⟨s1, t.maxlive, out, hbr, hseq, by rw [hvr]; exact hS.1.1, ?_, hfo⟩
  intro v
  rw [← mem_first_occurrences, hfo, mem_ids_below]

/-- The stamped ids of the worked block. -/
theorem stamped_ids_worked_block :
    ∃ s1 maxlive out, build_and_rename 4 start_state worked_block = some (s1, maxlive) ∧
      node_seq 4 s1 = some out ∧ 0 ≤ s1.vrname ∧
      (∀ v, v ∈ (stamps out).map (fun o => o.vr) ↔ 0 ≤ v ∧ v < s1.vrname) ∧
      first_occurrences ((stamps out).map fun o => o.vr) = ids_below s1.vrname :=
  stamped_ids_dense_and_in_discovery_order start_state worked_block 4 (by decide) (by decide)

/-- C10: on the empty node sequence (init_node_list, no ir_build), whatever
the rest of the memory holds, ir_rename returns MAXLIVE 0 and leaves the node
heap as it was: the sequence is still empty and the sentinel still links to
itself. -/
theorem C10_empty_block (s : IRState) (fuel : Nat) :
    ∃ s1, ir_rename (fuel + 1) (init_node_list s) = some (s1, 0) ∧
      s1.nodes = (init_node_list s).nodes ∧ s1.pools = (init_node_list s).pools ∧
      node_seq (fuel + 1) (init_node_list s) = some [] ∧
      node_seq (fuel + 1) s1 = some [] ∧
      (s1.nodes node_head).next = node_head ∧ (s1.nodes node_head).prev = node_head := by
  refine ⟨{ init_node_list s with vrname := 0 }, ?_, rfl, rfl, ?_, ?_, ?_, ?_⟩ <;>
    simp [ir_rename, rename_entry, scan_loop, rename_loop, init_node_list, node_seq, node_list,
      INT_MAX]

/-- C7 fails as stated: the one-instruction block `add r1, r2 => r3` has
MAXLIVE 2, above its block length 1. -/
theorem C7_counterexample :
    (build_and_rename 2 start_state add_block).map (fun r => r.2) = some 2 ∧
    ¬ ((2 : Int) ≤ min (add_block.length : Int) ((referenced_regs add_block).dedup.length : Int)) := by
  decide

/-- C7, amended: in a block built through ir_build from valid calls, none of
them an Output, whatever the memory held before, the MAXLIVE returned by ir_rename satisfies
`0 ≤ MAXLIVE ≤ min (2 * block_length) (number of distinct source registers
referenced in the block)`. -/
theorem C7_maxlive_bound (s0 : IRState) (calls : List BuildCall) (fuel : Nat)
    (hv : ∀ c ∈ calls, c.valid) (hfuel : calls.length < fuel)
    (hno : ∀ c ∈ calls, c.op ≠ IROpcode.IR_OUTPUT) :
    ∃ s1 maxlive, build_and_rename fuel s0 calls = some (s1, maxlive) ∧ 0 ≤ maxlive ∧
      maxlive ≤ min (2 * (calls.length : Int)) ((referenced_regs calls).dedup.length : Int) := by
  obtain ⟨pre, out, t, s1, hm, hw, hbr, -, -, hl1, -, -, -⟩ :=
    renamed_setup s0 calls hv fuel hfuel
  have hinit : SInv (entry_vars pre) [] := SInv_init _ rfl (fun _ => rfl)
  have h1 : (use_regs pre).dedup.length ≤ 2 * calls.length := by
    have := use_regs_length pre
    have := List.Sublist.length_le (List.dedup_sublist (use_regs pre))
    omega
  have h2 : (use_regs pre).dedup.length ≤ (referenced_regs calls).dedup.length :=
    dedup_length_mono _ _ (use_regs_sub_referenced calls pre hm hno)
  obtain ⟨b1, b2⟩ := walk_maxlive_le pre out _ t hw hinit ((use_regs pre).dedup.length : Int)
    (le_refl _) (by simp [entry_vars])
  refine ⟨s1, t.maxlive, hbr, by simpa [entry_vars] using b1, ?_⟩
  rw [le_min_iff]
  constructor <;> omega

/-- C7, amended, at the worked block. -/
theorem C7_witness :
    ∃ s1 maxlive, build_and_rename 4 start_state worked_block = some (s1, maxlive) ∧ 0 ≤ maxlive ∧
      maxlive ≤ min (2 * (worked_block.length : Int))
        ((referenced_regs worked_block).dedup.length : Int) :=
  C7_maxlive_bound start_state worked_block 4 (by decide) (by decide) (by decide)

theorem filter_length_succ (l : List Nat) (hnd : l.Nodup) (k : Nat) (hk : k ∈ l)
    (p q : Nat → Bool) (hp : p k = true) (hq : q k = false) (hpq : ∀ i, i ≠ k → q i = p i) :
    (l.filter p).length = (l.filter q).length + 1 := by
  induction l with
  | nil => exact absurd hk (List.not_mem_nil _)
  | cons a l ih =>
    obtain ⟨hnot, hnd1⟩ := List.nodup_cons.mp hnd
    by_cases hak : a = k
    · subst hak
      have hsame : l.filter p = l.filter q := by
        apply List.filter_congr
        intro x hx
        exact (hpq x (fun h => hnot (h ▸ hx))).symm
      rw [List.filter_cons_of_pos hp, List.filter_cons_of_neg (by rw [hq]; simp), hsame]
      simp
    · have hkl : k ∈ l := by
        rcases List.mem_cons.mp hk with h | h
        · exact absurd h.symm hak
        · exact h
      have := ih hnd1 hkl
      have hqa := hpq a hak
      cases hpa : p a
      · rw [List.filter_cons_of_neg (by rw [hpa]; simp),
          List.filter_cons_of_neg (by rw [hqa, hpa]; simp)]
        exact this
      · rw [List.filter_cons_of_pos hpa, List.filter_cons_of_pos (by rw [hqa, hpa])]
        simp only [List.length_cons]
        omega

/-- A register with a non-negative entry in `SRToVR` adds one to the count
`live` of the loop body. -/
theorem count_live_split (t : RenameVars) (r : Int) (h0 : 0 ≤ r) (h1 : r < t.nSR)
    (h2 : 0 ≤ t.SRToVR r) :
    count_live t = count_live { t with SRToVR := Function.update t.SRToVR r (-1) } + 1 := by
  unfold count_live
  have hr : ((r.toNat : Nat) : Int) = r := Int.toNat_of_nonneg h0
  have key := filter_length_succ (List.range t.nSR.toNat) (List.nodup_range _) r.toNat
    (List.mem_range.mpr (by omega))
    (fun i : Nat => decide (0 ≤ t.SRToVR (i : Int)))
    (fun i : Nat => decide (0 ≤ Function.update t.SRToVR r (-1) (i : Int)))
    (by simp only [hr, decide_eq_true_eq]; exact h2)
    (by
      show decide (0 ≤ Function.update t.SRToVR r (-1) ((r.toNat : Nat) : Int)) = false
      rw [hr, Function.update_same]
      decide)
    (fun i hi => by
      have hne : (i : Int) ≠ r := fun h => hi (by omega)
      simp only [Function.update_noteq hne])
  simp only [key]
  push_cast
  rfl

/-- After an iteration of the backward loop the count `live` it computed is
at most `maxlive`. -/
theorem walk_count_le_maxlive (pre : List IRNode) (t : RenameVars) (out : List IRNode)
    (T : RenameVars) (h : rename_walk pre t = some (out, T)) (hne : pre ≠ []) :
    count_live T ≤ T.maxlive := by
  cases pre with
  | nil => exact absurd rfl hne
  | cons x xs =>
    obtain ⟨o1, t2, x1, -, h2, -⟩ := rename_walk_cons x xs out t T h
    rw [rename_body_maxlive_eq x x1 t2 T h2]
    exact le_max_right _ _

/-- C8: in a block built through ir_build from valid calls, whatever the
memory held before, let `r` be a source register used in a register-role slot of instruction `j` and defined
nowhere in the block. Then ir_rename gives every use operand of `r` one and
the same virtual_id `v`, no operand of another source register carries `v`,
and `r` is counted as live after every iteration of the backward loop from
the one that processes instruction `j` up to the top of the block: `r` is a
table index with a non-negative `SRToVR` entry, it adds one to the count
`live` that the iteration computes (`count_live`; the count would be one less
with the entry of `r` cleared), and that count has gone into `maxlive`. -/
theorem C8_live_in_register (s0 : IRState) (calls : List BuildCall) (fuel j : Nat) (cj : BuildCall) (r : Int)
    (hv : ∀ c ∈ calls, c.valid) (hfuel : calls.length < fuel)
    (hj : calls[j]? = some cj) (huse : cj.uses r) (hnodef : ∀ c ∈ calls, ¬ c.defines r) :
    ∃ s1 maxlive out v, build_and_rename fuel s0 calls = some (s1, maxlive) ∧
      node_seq fuel s1 = some out ∧ 0 ≤ v ∧
      (∀ (k : Nat) (nk : IRNode) (sl : Slot), out[k]? = some nk →
        sl ∈ reg_use_slots nk.opcode → (nk.get sl).sr = r → (nk.get sl).vr = v) ∧
      (∀ (k : Nat) (nk : IRNode) (sl : Slot), out[k]? = some nk →
        (nk.get sl).vr = v → (nk.get sl).sr = r) ∧
      (∀ m, calls.length - j ≤ m → m ≤ calls.length →
        ∃ tm, vars_after_steps fuel m s0 calls = some tm ∧
          0 ≤ r ∧ r < tm.nSR ∧ 0 ≤ tm.SRToVR r ∧
          count_live tm =
            count_live { tm with SRToVR := Function.update tm.SRToVR r (-1) } + 1 ∧
          count_live tm ≤ tm.maxlive) := by
  obtain ⟨pre, out, t, s1, hm, hw, hbr, -, hseq, hl1, hl2, hT, hS⟩ :=
    renamed_setup s0 calls hv fuel hfuel
  have hjlt : j < calls.length := by
    by_contra hc
    rw [List.getElem?_eq_none (by omega)] at hj
    simp at hj
  -- no node of any block matching the calls defines `r`
  have nodef : ∀ (p : List IRNode), List.Forall₂ Matches calls p → ∀ (k : Nat) (nk : IRNode),
      p[k]? = some nk → ¬ (has_def nk.opcode = true ∧ (nk.get Slot.s3).sr = r) := by
    intro p hp k nk hnk hc
    obtain ⟨ck, hck, mk1, -, mk3⟩ := Forall₂_getElem?_right hp k nk hnk
    have h3 : (nk.get Slot.s3).sr = ck.sr Slot.s3 := by rw [mk3]
    exact hnodef ck (List.getElem?_mem hck) ⟨by rw [← mk1]; exact hc.1, by rw [← h3]; exact hc.2⟩
  -- every use of `r` carries the id that is in the table at the end
  have uses : ∀ (k : Nat) (nk : IRNode) (sl : Slot), out[k]? = some nk →
      sl ∈ reg_use_slots nk.opcode → (nk.get sl).sr = r →
      t.SRToVR r = (nk.get sl).vr ∧ 0 ≤ (nk.get sl).vr := by
    intro k ok sl hok hsl hsr
    obtain ⟨pk, hpk⟩ := getElem?_of_length_eq out pre (by omega) k ok hok
    obtain ⟨f1, -, f3, -⟩ := rename_walk_frame_at pre out _ t hw k pk ok hpk hok
    have hsrp : (pk.get sl).sr = r := by rw [← (f3 sl).1]; exact hsr
    have := walk_use_top pre out _ t hw hT k pk ok sl hpk hok
      (reg_use_sub_tagged _ _ (by rw [← f1]; exact hsl))
      (fun k1 nk1 _ hnk1 => by rw [hsrp]; exact nodef pre hm k1 nk1 hnk1)
    rw [hsrp] at this
    exact this
  obtain ⟨sl, hsl, hsr⟩ := huse
  obtain ⟨pj, hpj, mj1, -, mj3⟩ := Forall₂_getElem?_left hm j cj hj
  obtain ⟨oj, hoj⟩ := getElem?_of_length_eq pre out (by omega) j pj hpj
  obtain ⟨fj1, -, fj3, -⟩ := rename_walk_frame_at pre out _ t hw j pj oj hpj hoj
  have hv0 : 0 ≤ t.SRToVR r := by
    obtain ⟨u1, u2⟩ := uses j oj sl hoj (by rw [fj1, mj1]; exact hsl)
      (by rw [(fj3 sl).1, mj3]; exact hsr)
    rw [u1]; exact u2
  have hr0 : 0 ≤ r := by
    rw [← hsr]
    exact (hv cj (List.getElem?_mem hj)).2.2.2.2 sl (reg_use_sub_tagged _ _ hsl)
  refine ⟨s1, t.maxlive, out, t.SRToVR r, hbr, hseq, hv0, ?_, ?_, ?_⟩
  · intro k nk sl1 hok hsl1 hsr1
    exact (uses k nk sl1 hok hsl1 hsr1).1.symm
  · intro k ok sl1 hok hvr
    by_cases hst : sl1 ∈ stamped_slots ok.opcode
    · obtain ⟨d, hd⟩ := mem_stamp_events out k ok sl1 hok hst
      exact hS.2.2.1 _ hd r hvr.symm
    · obtain ⟨pk, hpk⟩ := getElem?_of_length_eq out pre (by omega) k ok hok
      obtain ⟨f1, -, -, f4⟩ := rename_walk_frame_at pre out _ t hw k pk ok hpk hok
      obtain ⟨ck, hck, -, -, mk3⟩ := Forall₂_getElem?_right hm k pk hpk
      rw [f4 sl1 (by rw [← f1]; exact hst), mk3 sl1] at hvr
      simp only [] at hvr
      omega
  · intro m hm1 hm2
    obtain ⟨pre2, outs, tm, hmm, -, hwm, hsteps⟩ :=
      vars_after_steps_spec s0 calls hv fuel hfuel m hm2
    have hl3 := hmm.length_eq
    obtain ⟨qj, hqj, nj1, -, nj3⟩ := Forall₂_getElem?_left hmm j cj hj
    have hidx : (pre2.drop (calls.length - m))[j - (calls.length - m)]? = some qj := by
      rw [List.getElem?_drop]
      rw [← hqj]
      congr 1
      omega
    obtain ⟨a1, a2, -⟩ := rename_walk_frame _ _ _ _ hwm
    obtain ⟨oq, hoq⟩ := getElem?_of_length_eq _ outs a1.symm _ qj hidx
    have hsrq : (qj.get sl).sr = r := by rw [nj3]; exact hsr
    have htop := walk_use_top _ outs _ tm hwm (SInv_init _ rfl (fun _ => rfl)).1 _ qj oq sl
      hidx hoq (reg_use_sub_tagged _ _ (by rw [nj1]; exact hsl))
      (fun k1 nk1 _ hnk1 => by
        rw [hsrq]
        rw [List.getElem?_drop] at hnk1
        exact nodef pre2 hmm _ nk1 hnk1)
    rw [hsrq] at htop
    have hnsr : r < tm.nSR := by
      rw [a2, ← hsrq]
      exact entry_vars_nSR pre2 qj (List.getElem?_mem hqj) sl
    have hlive : 0 ≤ tm.SRToVR r := by rw [htop.1]; exact htop.2
    refine ⟨tm, hsteps, hr0, hnsr, hlive, count_live_split tm r hr0 hnsr hlive, ?_⟩
    apply walk_count_le_maxlive _ _ outs tm hwm
    intro hnil
    have hlen0 := congrArg List.length hnil
    simp only [List.length_drop, List.length_nil] at hlen0
    omega

/-- C8 at the block `load r1 => r2 ; store r2 => r1 ; add r1, r4 => r5`, for
the register `r1` used at position 1 and never defined. -/
theorem C8_witness :
    ∃ s1 maxlive out v, build_and_rename 4 start_state live_in_block = some (s1, maxlive) ∧
      node_seq 4 s1 = some out ∧ 0 ≤ v ∧
      (∀ (k : Nat) (nk : IRNode) (sl : Slot), out[k]? = some nk →
        sl ∈ reg_use_slots nk.opcode → (nk.get sl).sr = 1 → (nk.get sl).vr = v) ∧
      (∀ (k : Nat) (nk : IRNode) (sl : Slot), out[k]? = some nk →
        (nk.get sl).vr = v → (nk.get sl).sr = 1) ∧
      (∀ m, live_in_block.length - 1 ≤ m → m ≤ live_in_block.length →
        ∃ tm, vars_after_steps 4 m start_state live_in_block = some tm ∧
          0 ≤ (1 : Int) ∧ 1 < tm.nSR ∧ 0 ≤ tm.SRToVR 1 ∧
          count_live tm =
            count_live { tm with SRToVR := Function.update tm.SRToVR 1 (-1) } + 1 ∧
          count_live tm ≤ tm.maxlive) :=
  C8_live_in_register start_state live_in_block 4 1
    { op := IROpcode.IR_STORE, line := 2, nops := 2, args := [2, 1] } 1
    (by decide) (by decide) rfl (by decide) (by decide)

/-- C4, the code at the failing input `loadI 5 => r1 ; output 1`: the
definition operand of `r1` at position 0 gets next_use 1, the position of the
Output, although no later instruction uses `r1` in a register-role slot, for
which the claim requires INT_MAX (the value of `next_use_in`). On blocks
without Output the claim holds: `next_use_without_output`. -/
theorem C4_output_sets_next_use :
    renamed_block 3 start_state loadI_output_block = some (
      [ (IROpcode.IR_LOADI, ⟨5, -1, -1, -1⟩, ⟨-1, -1, -1, -1⟩, ⟨1, 0, -1, 1⟩),
        (IROpcode.IR_OUTPUT, ⟨1, 0, -1, INT_MAX⟩, ⟨-1, -1, -1, -1⟩, ⟨-1, -1, -1, -1⟩) ],
      1) ∧
    (∀ c ∈ loadI_output_block, c.valid) ∧
    (∀ c ∈ loadI_output_block, ¬ c.uses 1) ∧
    next_use_in (loadI_output_block.drop 1) 1 1 = INT_MAX := by
  decide

/-- C5, the code at the failing input `output 1`: ir_rename returns MAXLIVE
1, although no instruction uses a register, so that no register is ever live
and the claim requires 0 (the value of `max_live_count`). On blocks without
Output the claim holds: `maxlive_without_output`. -/
theorem C5_output_counts_as_live :
    (build_and_rename 2 start_state output_block).map (fun r => r.2) = some 1 ∧
    (∀ c ∈ output_block, c.valid) ∧
    (∀ c ∈ output_block, reg_use_slots c.op = []) ∧
    max_live_count output_block = 0 := by
  decide

/-- C9, the code at the failing input `loadI 7 => r2 ; output 2`: the
definition of `r2` at position 0 is never used by a register-role slot, yet
its operand gets next_use 1 instead of INT_MAX, and its virtual_id 0 is also
carried by the operand of the Output. On blocks without Output the claim
holds: `dead_definition_without_output`. -/
theorem C9_dead_definition_shares_id :
    renamed_block 3 start_state dead_def_block = some (
      [ (IROpcode.IR_LOADI, ⟨7, -1, -1, -1⟩, ⟨-1, -1, -1, -1⟩, ⟨2, 0, -1, 1⟩),
        (IROpcode.IR_OUTPUT, ⟨2, 0, -1, INT_MAX⟩, ⟨-1, -1, -1, -1⟩, ⟨-1, -1, -1, -1⟩) ],
      1) ∧
    (∀ c ∈ dead_def_block, c.valid) ∧
    (∀ c ∈ dead_def_block, ¬ c.uses 2) ∧
    ¬ live_in (dead_def_block.drop 1) 2 := by
  decide

/-! ## The traversals by pointer on a well-linked list -/

theorem fwd_ptrs_spec (s : IRState) (l : List NodePtr) (a : NodePtr)
    (hf : FwdLinked s a l) (hcell : ∀ p ∈ l, p ≠ node_head ∧ p ≠ NodePtr.null)
    (fuel : Nat) (hfuel : l.length < fuel) :
    fwd_ptrs fuel s (s.nodes a).next = some l := by
  induction l generalizing a fuel with
  | nil =>
    obtain ⟨f, rfl⟩ : ∃ f, fuel = f + 1 := ⟨fuel - 1, by simp at hfuel; omega⟩
    simp only [FwdLinked] at hf
    simp [fwd_ptrs, hf]
  | cons b rest ih =>
    obtain ⟨f, rfl⟩ : ∃ f, fuel = f + 1 := ⟨fuel - 1, by simp at hfuel; omega⟩
    obtain ⟨h1, h2⟩ := hf
    obtain ⟨hb1, hb2⟩ := hcell b (by simp)
    rw [h1]
    simp only [fwd_ptrs, hb1, hb2, if_false]
    rw [ih b h2 (fun p hp => hcell p (List.mem_cons_of_mem _ hp)) f (by simp at hfuel; omega)]
    simp

theorem bwd_ptrs_spec (s : IRState) (l : List NodePtr) (a : NodePtr)
    (hf : BwdLinked s a l) (hcell : ∀ p ∈ l, p ≠ node_head ∧ p ≠ NodePtr.null)
    (fuel : Nat) (hfuel : l.length < fuel) :
    bwd_ptrs fuel s (s.nodes a).prev = some l := by
  induction l generalizing a fuel with
  | nil =>
    obtain ⟨f, rfl⟩ : ∃ f, fuel = f + 1 := ⟨fuel - 1, by simp at hfuel; omega⟩
    simp only [BwdLinked] at hf
    simp [bwd_ptrs, hf]
  | cons b rest ih =>
    obtain ⟨f, rfl⟩ : ∃ f, fuel = f + 1 := ⟨fuel - 1, by simp at hfuel; omega⟩
    obtain ⟨h1, h2⟩ := hf
    obtain ⟨hb1, hb2⟩ := hcell b (by simp)
    rw [h1]
    simp only [bwd_ptrs, hb1, hb2, if_false]
    rw [ih b h2 (fun p hp => hcell p (List.mem_cons_of_mem _ hp)) f (by simp at hfuel; omega)]
    simp

/-- On a well-linked list both traversals end, and the backward one visits
the cells of the forward one in reverse order. -/
theorem Chain_traversals (s : IRState) (ptrs : List NodePtr) (hc : Chain s ptrs)
    (fuel : Nat) (hfuel : ptrs.length < fuel) :
    fwd_ptrs fuel s (s.nodes node_head).next = some ptrs ∧
    bwd_ptrs fuel s (s.nodes node_head).prev = some ptrs.reverse := by
  have hcells := Chain_cells s ptrs hc
  exact ⟨fwd_ptrs_spec s ptrs node_head hc.1 hcells fuel hfuel,
    bwd_ptrs_spec s ptrs.reverse node_head hc.2.1
      (fun p hp => hcells p (List.mem_reverse.mp hp)) fuel (by simpa using hfuel)⟩

/-! ## What ir_rename leaves alone -/

/-- On a block built from valid calls ir_rename keeps the cells of the node
sequence and their order, every line and opcode, every `sr` and `pr`, and
every operand outside the slots it stamps; those operands still hold -1 in
`vr` and `nu`. -/
theorem rename_frame (s0 : IRState) (calls : List BuildCall) (fuel : Nat)
    (hv : ∀ c ∈ calls, c.valid) (hfuel : calls.length < fuel) :
    ∃ s s1 maxlive ptrs, build_block s0 calls = some s ∧
      ir_rename fuel s = some (s1, maxlive) ∧ ptrs.length = calls.length ∧
      fwd_ptrs fuel s (s.nodes node_head).next = some ptrs ∧
      fwd_ptrs fuel s1 (s1.nodes node_head).next = some ptrs ∧
      bwd_ptrs fuel s1 (s1.nodes node_head).prev = some ptrs.reverse ∧
      node_seq fuel s = some (ptrs.map s.nodes) ∧
      node_seq fuel s1 = some (ptrs.map s1.nodes) ∧
      ∀ p ∈ ptrs, (s1.nodes p).opcode = (s.nodes p).opcode ∧
        (s1.nodes p).line = (s.nodes p).line ∧
        (∀ sl, ((s1.nodes p).get sl).sr = ((s.nodes p).get sl).sr ∧
          ((s1.nodes p).get sl).pr = ((s.nodes p).get sl).pr) ∧
        (∀ sl, sl ∉ stamped_slots (s.nodes p).opcode →
          (s1.nodes p).get sl = (s.nodes p).get sl ∧
          ((s1.nodes p).get sl).vr = -1 ∧ ((s1.nodes p).get sl).nu = -1) := by
  obtain ⟨s, ptrs, hbuild, hb⟩ := build_block_spec s0 calls hv
  have hpre := Built_pre s ptrs calls hb
  have hlen : ptrs.length = calls.length := by
    have := hpre.length_eq
    simpa using this.symm
  obtain ⟨hmax, hrange⟩ := Matches_in_range calls _ hv hpre
  obtain ⟨out, t, hw⟩ :=
    rename_walk_total (ptrs.map s.nodes) (entry_vars (ptrs.map s.nodes)) hrange
  obtain ⟨-, hseq, s1, h1, -, h3, hc1, -, -⟩ :=
    ir_rename_spec s ptrs hb.1 fuel (by omega) hmax out t hw
  have hcells := Chain_cells s ptrs hb.1
  have hseq1 := node_list_spec s1 ptrs node_head hc1.1 hcells fuel (by omega)
  have hout : out = ptrs.map s1.nodes := by
    have : node_seq fuel s1 = some (ptrs.map s1.nodes) := hseq1
    rw [h3] at this
    exact Option.some.inj this
  refine ⟨s, s1, t.maxlive, ptrs, hbuild, h1, hlen,
    (Chain_traversals s ptrs hb.1 fuel (by omega)).1,
    (Chain_traversals s1 ptrs hc1 fuel (by omega)).1,
    (Chain_traversals s1 ptrs hc1 fuel (by omega)).2, hseq, hseq1, ?_⟩
  intro p hp
  obtain ⟨i, hi, rfl⟩ := List.mem_iff_getElem.mp hp
  have hpi : (ptrs.map s.nodes)[i]? = some (s.nodes ptrs[i]) := by
    simp [List.getElem?_eq_getElem hi]
  have hoi : out[i]? = some (s1.nodes ptrs[i]) := by
    rw [hout]; simp [List.getElem?_eq_getElem hi]
  obtain ⟨f1, f2, f3, f4⟩ :=
    rename_walk_frame_at _ out _ t hw i _ _ hpi hoi
  refine ⟨f1, f2, f3, ?_⟩
  intro sl hsl
  obtain ⟨c, -, hmc⟩ := Forall₂_getElem?_right hpre i _ hpi
  refine ⟨f4 sl hsl, ?_, ?_⟩ <;> rw [f4 sl hsl, hmc.2.2 sl]

/-! ## The claims on Output and on what ir_rename writes -/

set_option maxHeartbeats 1000000 in
/-- C11, the code at the failing input `output 1`: ir_rename stamps slot 1 of
the Output with virtual_id 0 and next_use INT_MAX instead of leaving -1 there,
and returns MAXLIVE 1 instead of 0. The Output also changes what is stamped
elsewhere: the definition in `loadI 5 => r1 ; nop` gets next_use INT_MAX and
the block MAXLIVE 0, in `loadI 5 => r1 ; output 1` the same definition gets
next_use 1 and the block MAXLIVE 1. -/
theorem C11_output_operand_is_tagged :
    renamed_block 2 start_state output_block = some (
      [ (IROpcode.IR_OUTPUT, ⟨1, 0, -1, INT_MAX⟩, ⟨-1, -1, -1, -1⟩, ⟨-1, -1, -1, -1⟩) ], 1) ∧
    (∀ c ∈ output_block, c.valid ∧ c.op = IROpcode.IR_OUTPUT) ∧
    renamed_block 3 start_state loadI_nop_block = some (
      [ (IROpcode.IR_LOADI, ⟨5, -1, -1, -1⟩, ⟨-1, -1, -1, -1⟩, ⟨1, 0, -1, INT_MAX⟩),
        (IROpcode.IR_NOP, ⟨-1, -1, -1, -1⟩, ⟨-1, -1, -1, -1⟩, ⟨-1, -1, -1, -1⟩) ], 0) ∧
    renamed_block 3 start_state loadI_output_block = some (
      [ (IROpcode.IR_LOADI, ⟨5, -1, -1, -1⟩, ⟨-1, -1, -1, -1⟩, ⟨1, 0, -1, 1⟩),
        (IROpcode.IR_OUTPUT, ⟨1, 0, -1, INT_MAX⟩, ⟨-1, -1, -1, -1⟩, ⟨-1, -1, -1, -1⟩) ], 1) := by
  refine ⟨by decide, by decide, by decide, by decide⟩

set_option maxHeartbeats 1000000 in
/-- C12, the code at the failing input `store r1 => r2 ; output 3`: before
ir_rename slot 1 of the Output holds the literal 3 with virtual_id and
next_use -1; after it the slot holds virtual_id 0 and next_use INT_MAX,
although it is not a register-role operand (Output has no register-role use
slot and no definition slot). Everything else the claim lists is unchanged,
on every block: `rename_frame`. -/
theorem C12_output_literal_is_written :
    built_block 3 start_state store_output_block = some
      [ (IROpcode.IR_STORE, ⟨1, -1, -1, -1⟩, ⟨-1, -1, -1, -1⟩, ⟨2, -1, -1, -1⟩),
        (IROpcode.IR_OUTPUT, ⟨3, -1, -1, -1⟩, ⟨-1, -1, -1, -1⟩, ⟨-1, -1, -1, -1⟩) ] ∧
    renamed_block 3 start_state store_output_block = some (
      [ (IROpcode.IR_STORE, ⟨1, 1, -1, INT_MAX⟩, ⟨-1, -1, -1, -1⟩, ⟨2, 2, -1, INT_MAX⟩),
        (IROpcode.IR_OUTPUT, ⟨3, 0, -1, INT_MAX⟩, ⟨-1, -1, -1, -1⟩, ⟨-1, -1, -1, -1⟩) ], 3) ∧
    (∀ c ∈ store_output_block, c.valid) ∧
    reg_use_slots IROpcode.IR_OUTPUT = [] ∧ has_def IROpcode.IR_OUTPUT = false := by
  refine ⟨by decide, by decide, by decide, by decide, by decide⟩

/-- C13 fails as stated: in the worked block `loadI 5 => r1 ; add r1, r1 =>
r2 ; store r2 => r3` the definition of `r2` at position 1 is next used at
position 2, and its next_use is 2, not the distance 2 - 1. -/
theorem C13_counterexample :
    ∃ nodes maxlive n cj, renamed_block 4 start_state worked_block = some (nodes, maxlive) ∧
      nodes[1]? = some n ∧ n.2.2.2.sr = 2 ∧ worked_block[2]? = some cj ∧ cj.uses 2 ∧
      n.2.2.2.nu = 2 ∧ n.2.2.2.nu ≠ 2 - 1 := by
  refine ⟨[ (IROpcode.IR_LOADI, ⟨5, -1, -1, -1⟩, ⟨-1, -1, -1, -1⟩, ⟨1, 2, -1, 1⟩),
        (IROpcode.IR_ADD, ⟨1, 2, -1, INT_MAX⟩, ⟨1, 2, -1, INT_MAX⟩, ⟨2, 0, -1, 2⟩),
        (IROpcode.IR_STORE, ⟨2, 0, -1, INT_MAX⟩, ⟨-1, -1, -1, -1⟩, ⟨3, 1, -1, INT_MAX⟩) ],
      2, _, _, by decide, rfl, rfl, rfl, by decide, rfl, by decide⟩

/-- C13, amended: in a block built through ir_build from valid calls, none of
them an Output, whatever the memory held before: when instruction `j > i` is
the nearest later instruction that uses register `r` in a register-role use
slot, and no instruction strictly between `i` and `j` defines `r`, then the
next_use of the definition operand of `r` at `i`, and of every use operand of
`r` at `i` when instruction `i` does not itself redefine `r`, is the absolute
position `j`. -/
theorem C13_next_use_is_position (s0 : IRState) (calls : List BuildCall) (fuel i j : Nat)
    (ci cj : BuildCall) (r : Int)
    (hv : ∀ c ∈ calls, c.valid) (hfuel : calls.length < fuel)
    (hno : ∀ c ∈ calls, c.op ≠ IROpcode.IR_OUTPUT)
    (hi : calls[i]? = some ci) (hj : calls[j]? = some cj) (hij : i < j) (huse : cj.uses r)
    (hbetween : ∀ (k : Nat) (ck : BuildCall), i < k → k < j → calls[k]? = some ck →
      ¬ ck.uses r ∧ ¬ ck.defines r) :
    ∃ s1 maxlive out oi, build_and_rename fuel s0 calls = some (s1, maxlive) ∧
      node_seq fuel s1 = some out ∧ out[i]? = some oi ∧
      (ci.defines r → (oi.get Slot.s3).sr = r ∧ (oi.get Slot.s3).nu = j) ∧
      (∀ sl ∈ reg_use_slots ci.op, ci.sr sl = r → ¬ ci.defines r →
        (oi.get sl).sr = r ∧ (oi.get sl).nu = j) := by
  obtain ⟨s1, maxlive, out, hbr, hseq, hlen, hall⟩ :=
    next_use_without_output s0 calls fuel hv hfuel hno
  have hilt : i < calls.length := by
    by_contra hc
    rw [List.getElem?_eq_none (by omega)] at hi
    simp at hi
  obtain ⟨oi, hoi⟩ := getElem?_of_length_eq calls out hlen.symm i ci hi
  obtain ⟨a1, a2⟩ := hall i ci oi hi hoi
  have hnear : next_use_in (calls.drop (i + 1)) ((i : Int) + 1) r = j := by
    have := next_use_in_nearest (calls.drop (i + 1)) ((i : Int) + 1) r (j - (i + 1)) cj
      (by rw [List.getElem?_drop]; rw [show i + 1 + (j - (i + 1)) = j by omega]; exact hj) huse
      (fun k ck hk hck => by
        rw [List.getElem?_drop] at hck
        exact (hbetween (i + 1 + k) ck (by omega) (by omega) hck).2)
      (fun k ck hk hck => by
        rw [List.getElem?_drop] at hck
        exact (hbetween (i + 1 + k) ck (by omega) (by omega) hck).1)
    rw [this]
    push_cast [Nat.cast_sub (show i + 1 ≤ j by omega)]
    ring
  -- the `sr` fields of the renamed node are those of the call
  obtain ⟨pre, out2, t, s2, hm, hw, hbr2, -, hseq2, hl1, hl2, -, -⟩ :=
    renamed_setup s0 calls hv fuel hfuel
  have hs : s2 = s1 ∧ out2 = out := by
    rw [hbr] at hbr2
    simp only [Option.some.injEq, Prod.mk.injEq] at hbr2
    obtain ⟨rfl, -⟩ := hbr2
    rw [hseq] at hseq2
    exact ⟨rfl, (Option.some.inj hseq2).symm⟩
  obtain ⟨rfl, rfl⟩ := hs
  obtain ⟨pi, hpi, hmi⟩ := Forall₂_getElem?_left hm i ci hi
  obtain ⟨-, -, fi, -⟩ := rename_walk_frame_at pre out2 _ t hw i pi oi hpi hoi
  have hsr : ∀ sl, (oi.get sl).sr = ci.sr sl := fun sl => by rw [(fi sl).1, hmi.2.2 sl]
  refine ⟨s2, maxlive, out2, oi, hbr, hseq, hoi, ?_, ?_⟩
  · rintro ⟨hd, hr⟩
    refine ⟨by rw [hsr, hr], ?_⟩
    rw [a1 hd, hr, hnear]
  · intro sl hsl hr hnd
    refine ⟨by rw [hsr, hr], ?_⟩
    rw [a2 sl hsl, hr, if_neg hnd, hnear]

/-- C13, amended, at the worked block: the definition of `r2` by the add at
position 1 and its use by the store at position 2. -/
theorem C13_witness :
    ∃ s1 maxlive out oi, build_and_rename 4 start_state worked_block = some (s1, maxlive) ∧
      node_seq 4 s1 = some out ∧ out[1]? = some oi ∧
      (BuildCall.defines { op := IROpcode.IR_ADD, line := 2, nops := 3, args := [1, 1, 2] } 2 →
        (oi.get Slot.s3).sr = 2 ∧ (oi.get Slot.s3).nu = ((2 : Nat) : Int)) ∧
      (∀ sl ∈ reg_use_slots IROpcode.IR_ADD,
        BuildCall.sr { op := IROpcode.IR_ADD, line := 2, nops := 3, args := [1, 1, 2] } sl = 2 →
        ¬ BuildCall.defines { op := IROpcode.IR_ADD, line := 2, nops := 3, args := [1, 1, 2] } 2 →
        (oi.get sl).sr = 2 ∧ (oi.get sl).nu = ((2 : Nat) : Int)) :=
  C13_next_use_is_position start_state worked_block 4 1 2
    { op := IROpcode.IR_ADD, line := 2, nops := 3, args := [1, 1, 2] }
    { op := IROpcode.IR_STORE, line := 3, nops := 2, args := [2, 3] } 2
    (by decide) (by decide) (by decide) rfl rfl (by decide) (by decide)
    (fun k _ h1 h2 _ => by omega)

/-! ## The builder without assumptions on the operand values -/

/-- On a well-linked state ir_build succeeds for every opcode, line, `nops`
and operand values (enough of them for `nops`), appends a fresh cell, and
leaves in it the node described by `Matches`. -/
theorem ir_build_total (s : IRState) (ptrs : List NodePtr) (c : BuildCall)
    (hc : Chain s ptrs) (hp : PoolInv s ptrs) (he : c.enough_args) :
    ∃ s1 k i, ir_build s c.op c.line c.nops c.args = some (s1, NodePtr.cell k i) ∧
      NodePtr.cell k i ∉ ptrs ∧
      Chain s1 (ptrs ++ [NodePtr.cell k i]) ∧ PoolInv s1 (ptrs ++ [NodePtr.cell k i]) ∧
      Matches c (s1.nodes (NodePtr.cell k i)) ∧
      (∀ x ∈ ptrs, SamePayload (s1.nodes x) (s.nodes x)) := by
  obtain ⟨s0, k, i, hnew, hfresh, hc0, hp0, hline, hop, h1, h2, h3, hold⟩ :=
    ir_new_node_spec s ptrs c.op c.line hc hp
  have key : ∀ s1 : IRState, s1.pools = s0.pools → s1.npools = s0.npools →
      (∀ x, x ≠ NodePtr.cell k i → s1.nodes x = s0.nodes x) →
      (s1.nodes (NodePtr.cell k i)).next = (s0.nodes (NodePtr.cell k i)).next →
      (s1.nodes (NodePtr.cell k i)).prev = (s0.nodes (NodePtr.cell k i)).prev →
      Matches c (s1.nodes (NodePtr.cell k i)) →
      NodePtr.cell k i ∉ ptrs ∧
      Chain s1 (ptrs ++ [NodePtr.cell k i]) ∧ PoolInv s1 (ptrs ++ [NodePtr.cell k i]) ∧
      Matches c (s1.nodes (NodePtr.cell k i)) ∧
      (∀ x ∈ ptrs, SamePayload (s1.nodes x) (s.nodes x)) := by
    intro s1 hpl hnp hsame hnx hpv hm
    refine ⟨hfresh, ?_, ?_, hm, ?_⟩
    · apply Chain_congr s0 s1 _ _ hc0
      intro x
      by_cases hx : x = NodePtr.cell k i
      · subst hx; exact ⟨hnx, hpv⟩
      · rw [hsame x hx]; exact ⟨rfl, rfl⟩
    · simpa [PoolInv, hpl, hnp] using hp0
    · intro x hx
      have hne : x ≠ NodePtr.cell k i := fun h => hfresh (h ▸ hx)
      rw [hsame x hne]
      exact hold x hne
  obtain ⟨e1, e2, e3⟩ := he
  by_cases n1 : c.nops = 1
  · obtain ⟨a, rest, hargs⟩ : ∃ a rest, c.args = a :: rest := by
      have := e1 n1
      cases hh : c.args with
      | nil => rw [hh] at this; simp at this
      | cons a rest => exact ⟨a, rest, rfl⟩
    refine ⟨(s0.setNode (NodePtr.cell k i) (fun x => { x with op1 := { x.op1 with sr := a } })),
      k, i, ?_, key _ rfl rfl (fun x hx => by simp [hx]) (by simp) (by simp) ?_⟩
    · simp [ir_build, hnew, n1, hargs, va_arg]
    · refine ⟨by simp [hop], by simp [hline], ?_⟩
      intro sl
      cases sl <;>
        simp [IRNode.get, BuildCall.sr, n1, hargs, h1, h2, h3, unused_operand]
  · by_cases n2 : c.nops = 2
    · obtain ⟨a, b, rest, hargs⟩ : ∃ a b rest, c.args = a :: b :: rest := by
        have := e2 n2
        cases hh : c.args with
        | nil => rw [hh] at this; simp at this
        | cons a rest =>
          cases rest with
          | nil => rw [hh] at this; simp at this
          | cons b rest => exact ⟨a, b, rest, rfl⟩
      refine ⟨((s0.setNode (NodePtr.cell k i)
          (fun x => { x with op1 := { x.op1 with sr := a } })).setNode (NodePtr.cell k i)
          (fun x => { x with op3 := { x.op3 with sr := b } })), k, i, ?_,
        key _ rfl rfl (fun x hx => by simp [hx]) (by simp) (by simp) ?_⟩
      · simp [ir_build, hnew, n2, hargs, va_arg]
      · refine ⟨by simp [hop], by simp [hline], ?_⟩
        intro sl
        cases sl <;>
          simp [IRNode.get, BuildCall.sr, n2, hargs, h1, h2, h3, unused_operand]
    · by_cases n3 : c.nops = 3
      · obtain ⟨a, b, d, rest, hargs⟩ : ∃ a b d rest, c.args = a :: b :: d :: rest := by
          have := e3 n3
          cases hh : c.args with
          | nil => rw [hh] at this; simp at this
          | cons a rest =>
            cases rest with
            | nil => rw [hh] at this; simp at this
            | cons b rest =>
              cases rest with
              | nil => rw [hh] at this; simp at this
              | cons d rest => exact ⟨a, b, d, rest, rfl⟩
        refine ⟨(((s0.setNode (NodePtr.cell k i)
            (fun x => { x with op1 := { x.op1 with sr := a } })).setNode (NodePtr.cell k i)
            (fun x => { x with op2 := { x.op2 with sr := b } })).setNode (NodePtr.cell k i)
            (fun x => { x with op3 := { x.op3 with sr := d } })), k, i, ?_,
          key _ rfl rfl (fun x hx => by simp [hx]) (by simp) (by simp) ?_⟩
        · simp [ir_build, hnew, n3, hargs, va_arg]
        · refine ⟨by simp [hop], by simp [hline], ?_⟩
          intro sl
          cases sl <;>
            simp [IRNode.get, BuildCall.sr, n3, hargs, h1, h2, h3, unused_operand]
      · refine ⟨s0, k, i, ?_, key s0 rfl rfl (fun _ _ => rfl) rfl rfl ?_⟩
        · simp [ir_build, hnew, n1, n2, n3]
        · refine ⟨hop, hline, ?_⟩
          intro sl
          cases sl <;>
            simp [IRNode.get, BuildCall.sr, n1, n2, n3, h1, h2, h3, unused_operand]

/-- A sequence of calls of ir_build on a well-linked state: the handles
returned are fresh cells, appended to the list in call order. -/
theorem build_handles_spec (calls : List BuildCall) (s : IRState) (ptrs : List NodePtr)
    (calls0 : List BuildCall) (hb : Built s ptrs calls0) (he : ∀ c ∈ calls, c.enough_args) :
    ∃ s1 ps, build_handles s calls = some (s1, ps) ∧ build_from s calls = some s1 ∧
      ps.length = calls.length ∧ Built s1 (ptrs ++ ps) (calls0 ++ calls) ∧
      List.Forall₂ (fun c p => Matches c (s1.nodes p)) calls ps ∧
      (∀ x ∈ ptrs, SamePayload (s1.nodes x) (s.nodes x)) := by
  induction calls generalizing s ptrs calls0 with
  | nil =>
    exact ⟨s, [], rfl, rfl, rfl, by simpa using hb, List.Forall₂.nil,
      fun x _ => ⟨rfl, rfl, rfl, rfl, rfl⟩⟩
  | cons c rest ih =>
    obtain ⟨hc, hp, hm⟩ := hb
    obtain ⟨s1, k, i, h1, hfresh, hc1, hp1, hm1, hold⟩ :=
      ir_build_total s ptrs c hc hp (he c (by simp))
    have hb1 : Built s1 (ptrs ++ [NodePtr.cell k i]) (calls0 ++ [c]) := by
      refine ⟨hc1, hp1, List.rel_append ?_ (List.Forall₂.cons hm1 List.Forall₂.nil)⟩
      exact Forall₂_congr_right hm (fun a b hb hab => Matches_congr a _ _ (hold b hb) hab)
    obtain ⟨s2, ps, h2, h2f, hlen, hb2, hm2, hold2⟩ :=
      ih s1 (ptrs ++ [NodePtr.cell k i]) (calls0 ++ [c]) hb1
        (fun c1 hc1 => he c1 (List.mem_cons_of_mem _ hc1))
    refine ⟨s2, NodePtr.cell k i :: ps, ?_, ?_, by simp [hlen], by simpa using hb2, ?_, ?_⟩
    · simp [build_handles, h1, h2]
    · simp [build_from, h1, h2f]
    · refine List.Forall₂.cons ?_ hm2
      exact Matches_congr c _ _ (hold2 _ (by simp)) hm1
    · intro x hx
      obtain ⟨a1, a2, a3, a4, a5⟩ := hold2 x (by simp [hx])
      obtain ⟨b1, b2, b3, b4, b5⟩ := hold x hx
      exact ⟨a1.trans b1, a2.trans b2, a3.trans b3, a4.trans b4, a5.trans b5⟩

/-! ## The claims on the builder -/

theorem ir_build_payload (s : IRState) (ptrs : List NodePtr) (c : BuildCall)
    (hc : Chain s ptrs) (hp : PoolInv s ptrs) (he : c.enough_args) :
    ∃ s1 p, ir_build s c.op c.line c.nops c.args = some (s1, p) ∧
      (s1.nodes p).opcode = c.op ∧ (s1.nodes p).line = c.line ∧
      (s1.nodes p).op1 = ⟨c.sr Slot.s1, -1, -1, -1⟩ ∧
      (s1.nodes p).op2 = ⟨c.sr Slot.s2, -1, -1, -1⟩ ∧
      (s1.nodes p).op3 = ⟨c.sr Slot.s3, -1, -1, -1⟩ := by
  obtain ⟨s1, k, i, h1, -, -, -, ⟨m1, m2, m3⟩, -⟩ := ir_build_total s ptrs c hc hp he
  exact ⟨s1, _, h1, m1, m2, m3 Slot.s1, m3 Slot.s2, m3 Slot.s3⟩

/-- C14: on a state whose node list and pool bookkeeping are well linked,
ir_build returns a node with the given opcode and line, for every opcode and
all operand values `a`, `b`, `c`: with `nops = 0` the three operands are all
-1; with `nops = 1` only `op1.sr` is set, to `a`; with `nops = 2` `op1.sr = a`
and `op3.sr = b`, and `op2.sr` stays -1; with `nops = 3` the three `sr` are
`a`, `b`, `c` in order; `vr`, `pr` and `nu` are -1 in every case. -/
theorem C14_ir_build_fills_slots (s : IRState) (ptrs : List NodePtr) (op : IROpcode)
    (line a b c : Int) (hc : Chain s ptrs) (hp : PoolInv s ptrs) :
    (∃ s1 p, ir_build s op line 0 [] = some (s1, p) ∧
      (s1.nodes p).opcode = op ∧ (s1.nodes p).line = line ∧
      (s1.nodes p).op1 = ⟨-1, -1, -1, -1⟩ ∧ (s1.nodes p).op2 = ⟨-1, -1, -1, -1⟩ ∧
      (s1.nodes p).op3 = ⟨-1, -1, -1, -1⟩) ∧
    (∃ s1 p, ir_build s op line 1 [a] = some (s1, p) ∧
      (s1.nodes p).opcode = op ∧ (s1.nodes p).line = line ∧
      (s1.nodes p).op1 = ⟨a, -1, -1, -1⟩ ∧ (s1.nodes p).op2 = ⟨-1, -1, -1, -1⟩ ∧
      (s1.nodes p).op3 = ⟨-1, -1, -1, -1⟩) ∧
    (∃ s1 p, ir_build s op line 2 [a, b] = some (s1, p) ∧
      (s1.nodes p).opcode = op ∧ (s1.nodes p).line = line ∧
      (s1.nodes p).op1 = ⟨a, -1, -1, -1⟩ ∧ (s1.nodes p).op2 = ⟨-1, -1, -1, -1⟩ ∧
      (s1.nodes p).op3 = ⟨b, -1, -1, -1⟩) ∧
    (∃ s1 p, ir_build s op line 3 [a, b, c] = some (s1, p) ∧
      (s1.nodes p).opcode = op ∧ (s1.nodes p).line = line ∧
      (s1.nodes p).op1 = ⟨a, -1, -1, -1⟩ ∧ (s1.nodes p).op2 = ⟨b, -1, -1, -1⟩ ∧
      (s1.nodes p).op3 = ⟨c, -1, -1, -1⟩) := by
  refine ⟨?_, ?_, ?_, ?_⟩
  · simpa [BuildCall.sr] using
      ir_build_payload s ptrs ⟨op, line, 0, []⟩ hc hp (by simp [BuildCall.enough_args])
  · simpa [BuildCall.sr] using
      ir_build_payload s ptrs ⟨op, line, 1, [a]⟩ hc hp (by simp [BuildCall.enough_args])
  · simpa [BuildCall.sr] using
      ir_build_payload s ptrs ⟨op, line, 2, [a, b]⟩ hc hp (by simp [BuildCall.enough_args])
  · simpa [BuildCall.sr] using
      ir_build_payload s ptrs ⟨op, line, 3, [a, b, c]⟩ hc hp (by simp [BuildCall.enough_args])

/-- C14 on the empty list after `init_pool_list(); init_node_list();`, for the
opcode Add, line 7 and the values -4, 0 and 9 (a negative value is stored like
any other). -/
theorem C14_witness :
    (∃ s1 p, ir_build (init_node_list (init_pool_list start_state)) IROpcode.IR_ADD 7 0 [] =
        some (s1, p) ∧
      (s1.nodes p).opcode = IROpcode.IR_ADD ∧ (s1.nodes p).line = 7 ∧
      (s1.nodes p).op1 = ⟨-1, -1, -1, -1⟩ ∧ (s1.nodes p).op2 = ⟨-1, -1, -1, -1⟩ ∧
      (s1.nodes p).op3 = ⟨-1, -1, -1, -1⟩) ∧
    (∃ s1 p, ir_build (init_node_list (init_pool_list start_state)) IROpcode.IR_ADD 7 1 [-4] =
        some (s1, p) ∧
      (s1.nodes p).opcode = IROpcode.IR_ADD ∧ (s1.nodes p).line = 7 ∧
      (s1.nodes p).op1 = ⟨-4, -1, -1, -1⟩ ∧ (s1.nodes p).op2 = ⟨-1, -1, -1, -1⟩ ∧
      (s1.nodes p).op3 = ⟨-1, -1, -1, -1⟩) ∧
    (∃ s1 p, ir_build (init_node_list (init_pool_list start_state)) IROpcode.IR_ADD 7 2 [-4, 0] =
        some (s1, p) ∧
      (s1.nodes p).opcode = IROpcode.IR_ADD ∧ (s1.nodes p).line = 7 ∧
      (s1.nodes p).op1 = ⟨-4, -1, -1, -1⟩ ∧ (s1.nodes p).op2 = ⟨-1, -1, -1, -1⟩ ∧
      (s1.nodes p).op3 = ⟨0, -1, -1, -1⟩) ∧
    (∃ s1 p, ir_build (init_node_list (init_pool_list start_state)) IROpcode.IR_ADD 7 3
        [-4, 0, 9] = some (s1, p) ∧
      (s1.nodes p).opcode = IROpcode.IR_ADD ∧ (s1.nodes p).line = 7 ∧
      (s1.nodes p).op1 = ⟨-4, -1, -1, -1⟩ ∧ (s1.nodes p).op2 = ⟨0, -1, -1, -1⟩ ∧
      (s1.nodes p).op3 = ⟨9, -1, -1, -1⟩) :=
  C14_ir_build_fills_slots (init_node_list (init_pool_list start_state)) [] IROpcode.IR_ADD
    7 (-4) 0 9 (Built_init start_state).1 (Built_init start_state).2.1

/-- C15: on a state whose node list (the cells `ptrs`, in order) and pool
bookkeeping are well linked, ir_new_node returns a node with the given opcode
and line whose three operands have `sr = vr = pr = nu = -1`; the node is a
fresh cell, and the forward traversal, which visited `ptrs` before, visits
`ptrs` and then the new node: it is the last element, the one before the
sentinel. The payload of the other nodes is unchanged. -/
theorem C15_new_node_unused_and_last (s : IRState) (ptrs : List NodePtr) (op : IROpcode)
    (line : Int) (fuel : Nat) (hc : Chain s ptrs) (hp : PoolInv s ptrs)
    (hfuel : ptrs.length + 1 < fuel) :
    ∃ s1 p, ir_new_node s op line = some (s1, p) ∧
      (s1.nodes p).opcode = op ∧ (s1.nodes p).line = line ∧
      (s1.nodes p).op1 = ⟨-1, -1, -1, -1⟩ ∧ (s1.nodes p).op2 = ⟨-1, -1, -1, -1⟩ ∧
      (s1.nodes p).op3 = ⟨-1, -1, -1, -1⟩ ∧
      p ∉ ptrs ∧
      fwd_ptrs fuel s (s.nodes node_head).next = some ptrs ∧
      fwd_ptrs fuel s1 (s1.nodes node_head).next = some (ptrs ++ [p]) ∧
      (s1.nodes node_head).prev = p ∧ (s1.nodes p).next = node_head ∧
      (∀ x ∈ ptrs, SamePayload (s1.nodes x) (s.nodes x)) := by
  obtain ⟨s1, k, i, hnew, hfresh, hc1, -, hline, hop, h1, h2, h3, hold⟩ :=
    ir_new_node_spec s ptrs op line hc hp
  refine ⟨s1, _, hnew, hop, hline, h1, h2, h3, hfresh,
    (Chain_traversals s ptrs hc fuel (by omega)).1,
    (Chain_traversals s1 _ hc1 fuel (by simpa using hfuel)).1, ?_, ?_,
    fun x hx => hold x (fun h => hfresh (h ▸ hx))⟩
  · have := Chain_tail s1 _ hc1
    simpa using this
  · have := hc1.2.1
    rw [List.reverse_append] at this
    simp only [List.reverse_cons, List.reverse_nil, List.nil_append, List.singleton_append,
      BwdLinked] at this
    have hf := hc1.1
    clear this
    -- the last cell of a forward chain points to the sentinel
    have last : ∀ (l : List NodePtr) (a x : NodePtr), FwdLinked s1 a (l ++ [x]) →
        (s1.nodes x).next = node_head := by
      intro l
      induction l with
      | nil => intro a x h; exact h.2
      | cons b rest ih => intro a x h; exact ih b x h.2
    exact last ptrs node_head _ hf

/-- C15 on the empty list after `init_pool_list(); init_node_list();`. -/
theorem C15_witness :
    ∃ s1 p, ir_new_node (init_node_list (init_pool_list start_state)) IROpcode.IR_NOP 3 =
        some (s1, p) ∧
      (s1.nodes p).opcode = IROpcode.IR_NOP ∧ (s1.nodes p).line = 3 ∧
      (s1.nodes p).op1 = ⟨-1, -1, -1, -1⟩ ∧ (s1.nodes p).op2 = ⟨-1, -1, -1, -1⟩ ∧
      (s1.nodes p).op3 = ⟨-1, -1, -1, -1⟩ ∧
      p ∉ ([] : List NodePtr) ∧
      fwd_ptrs 2 (init_node_list (init_pool_list start_state))
        ((init_node_list (init_pool_list start_state)).nodes node_head).next = some [] ∧
      fwd_ptrs 2 s1 (s1.nodes node_head).next = some ([] ++ [p]) ∧
      (s1.nodes node_head).prev = p ∧ (s1.nodes p).next = node_head ∧
      (∀ x ∈ ([] : List NodePtr), SamePayload (s1.nodes x)
        ((init_node_list (init_pool_list start_state)).nodes x)) :=
  C15_new_node_unused_and_last (init_node_list (init_pool_list start_state)) []
    IROpcode.IR_NOP 3 2 (Built_init start_state).1 (Built_init start_state).2.1 (by decide)

/-- C17: after `init_pool_list(); init_node_list();` on any memory, followed
by any sequence of calls of ir_build (each with the operand values its `nops`
reads), the calls return distinct handles, the predecessor of the sentinel is
the handle returned last (the sentinel itself when no call was made), and the
forward traversal from `node_head->next` ends at the sentinel after visiting
exactly the returned handles, in call order; the node at the `k`-th handle is
the one the `k`-th call made. -/
theorem C17_traversal_in_build_order (s0 : IRState) (calls : List BuildCall) (fuel : Nat)
    (he : ∀ c ∈ calls, c.enough_args) (hfuel : calls.length < fuel) :
    ∃ s ps, build_handles (init_node_list (init_pool_list s0)) calls = some (s, ps) ∧
      ps.length = calls.length ∧ ps.Nodup ∧
      (s.nodes node_head).prev = ps.getLast?.getD node_head ∧
      fwd_ptrs fuel s (s.nodes node_head).next = some ps ∧
      List.Forall₂ (fun c p => Matches c (s.nodes p)) calls ps := by
  obtain ⟨s, ps, h1, -, hlen, hb, hm, -⟩ :=
    build_handles_spec calls _ [] [] (Built_init s0) he
  simp only [List.nil_append] at hb
  refine ⟨s, ps, h1, hlen, hb.1.2.2.1, ?_,
    (Chain_traversals s ps hb.1 fuel (by omega)).1, hm⟩
  rw [Chain_tail s ps hb.1, List.getLast?_eq_head?_reverse]

/-- C17 at the block `load r1 => r2 ; store r2 => r1 ; add r1, r4 => r5`. -/
theorem C17_witness :
    ∃ s ps, build_handles (init_node_list (init_pool_list start_state)) live_in_block =
        some (s, ps) ∧
      ps.length = live_in_block.length ∧ ps.Nodup ∧
      (s.nodes node_head).prev = ps.getLast?.getD node_head ∧
      fwd_ptrs 4 s (s.nodes node_head).next = some ps ∧
      List.Forall₂ (fun c p => Matches c (s.nodes p)) live_in_block ps :=
  C17_traversal_in_build_order start_state live_in_block 4 (by decide) (by decide)

/-! ## Linked lists through a sentinel: removal of an element -/

theorem Linked_congr {α : Type} (nx nx1 : α → α) (hd a : α) (l : List α)
    (h : ∀ x ∈ a :: l, nx1 x = nx x) (hl : Linked nx hd a l) : Linked nx1 hd a l := by
  induction l generalizing a with
  | nil => simpa [Linked, h a (by simp)] using hl
  | cons b rest ih =>
    obtain ⟨h1, h2⟩ := hl
    exact ⟨by rw [h a (by simp)]; exact h1,
      ih b (fun x hx => h x (List.mem_cons_of_mem _ hx)) h2⟩

/-- The link of an element of the list leads to the element after it, or to
the sentinel from the last one. -/
theorem Linked_at {α : Type} (nx : α → α) (hd a : α) (l1 : List α) (n : α) (l2 : List α)
    (h : Linked nx hd a (l1 ++ n :: l2)) : nx n = l2.head?.getD hd := by
  induction l1 generalizing a with
  | nil =>
    obtain ⟨-, h2⟩ := h
    cases l2 with
    | nil => exact h2
    | cons c r => exact h2.1
  | cons b rest ih => exact ih b h.2

/-- Redirecting the link of the element before `n` to the element after `n`
takes `n` out of the list. -/
theorem Linked_erase {α : Type} [DecidableEq α] (nx nx1 : α → α) (hd a : α)
    (l1 : List α) (n : α) (l2 : List α)
    (h : Linked nx hd a (l1 ++ n :: l2)) (hnd : (a :: (l1 ++ n :: l2)).Nodup)
    (h1 : ∀ x, x ≠ n →
      nx1 x = if x = l1.getLast?.getD a then l2.head?.getD hd else nx x) :
    Linked nx1 hd a (l1 ++ l2) := by
  induction l1 generalizing a with
  | nil =>
    obtain ⟨-, h3⟩ := h
    simp only [List.nil_append, List.nodup_cons, List.mem_cons, not_or] at hnd
    obtain ⟨⟨han, hal2⟩, hnl2, hl2⟩ := hnd
    have ha : nx1 a = l2.head?.getD hd := by
      rw [h1 a han]; simp
    have hrest : ∀ x ∈ l2, nx1 x = nx x := by
      intro x hx
      rw [h1 x (fun e => hnl2 (e ▸ hx))]
      simp only [List.getLast?_nil, Option.getD_none]
      rw [if_neg (fun e : x = a => hal2 (e ▸ hx))]
    cases l2 with
    | nil => simpa [Linked] using ha
    | cons c r =>
      refine ⟨by simpa using ha, ?_⟩
      exact Linked_congr nx nx1 hd c r hrest h3.2
  | cons b rest ih =>
    obtain ⟨h2, h3⟩ := h
    have hnd2 : (b :: (rest ++ n :: l2)).Nodup := (List.nodup_cons.mp hnd).2
    have hmem : a ∉ b :: (rest ++ n :: l2) := (List.nodup_cons.mp hnd).1
    have hlast : (b :: rest).getLast?.getD a = rest.getLast?.getD b := by
      cases rest with
      | nil => simp
      | cons c r =>
        obtain ⟨y, hy⟩ : ∃ y, (c :: r).getLast? = some y :=
          ⟨_, List.getLast?_eq_getLast _ (by simp)⟩
        rw [List.getLast?_cons_cons, hy]
        rfl
    have hlastmem : rest.getLast?.getD b ∈ b :: (rest ++ n :: l2) := by
      cases hr : rest.getLast? with
      | none => simp
      | some y =>
        have := List.mem_of_getLast?_eq_some hr
        simp [this]
    refine ⟨?_, ih b h3 hnd2 (fun x hx => by rw [h1 x hx, hlast])⟩
    have han : a ≠ n := fun e => hmem (by simp [e])
    rw [h1 a han, hlast, if_neg (fun e : a = rest.getLast?.getD b => hmem (e ▸ hlastmem))]
    exact h2

theorem FwdLinked_iff (s : IRState) (a : NodePtr) (l : List NodePtr) :
    FwdLinked s a l ↔ Linked (fun x => (s.nodes x).next) node_head a l := by
  induction l generalizing a with
  | nil => exact Iff.rfl
  | cons b rest ih => exact and_congr Iff.rfl (ih b)

theorem BwdLinked_iff (s : IRState) (a : NodePtr) (l : List NodePtr) :
    BwdLinked s a l ↔ Linked (fun x => (s.nodes x).prev) node_head a l := by
  induction l generalizing a with
  | nil => exact Iff.rfl
  | cons b rest ih => exact and_congr Iff.rfl (ih b)

/-- What remove_from_node_list writes when the node is linked to two other
nodes. -/
theorem remove_from_node_list_eff (s : IRState) (n P N : NodePtr) (hn : n ≠ NodePtr.null)
    (hP : (s.nodes n).prev = P) (hN : (s.nodes n).next = N)
    (hP0 : P ≠ NodePtr.null) (hN0 : N ≠ NodePtr.null) (hPn : P ≠ n) (hNn : N ≠ n) :
    ∃ s1, remove_from_node_list s n = some s1 ∧ s1.pools = s.pools ∧ s1.npools = s.npools ∧
      s1.vrname = s.vrname ∧
      (∀ x, (s1.nodes x).next = if x = n then n else if x = P then N else (s.nodes x).next) ∧
      (∀ x, (s1.nodes x).prev = if x = n then n else if x = N then P else (s.nodes x).prev) ∧
      (∀ x, SamePayload (s1.nodes x) (s.nodes x)) := by
  simp only [remove_from_node_list, hP, hN, hn, hP0, hN0, hPn, hNn, or_self, and_self,
    if_false]
  clear hP hN
  refine ⟨_, rfl, rfl, rfl, rfl, ?_, ?_, ?_⟩
  · intro x
    simp only [setNode_nodes]
    split_ifs <;> subst_vars <;> simp_all
  · intro x
    simp only [setNode_nodes]
    split_ifs <;> subst_vars <;> simp_all
  · intro x
    simp only [setNode_nodes, SamePayload]
    split_ifs <;> subst_vars <;> simp_all

/-! ## The node list under insertion and removal -/

theorem Chain_decomp (s : IRState) (l1 : List NodePtr) (n : NodePtr) (l2 : List NodePtr)
    (hc : Chain s (l1 ++ n :: l2)) :
    (s.nodes n).next = l2.head?.getD node_head ∧
    (s.nodes n).prev = l1.getLast?.getD node_head := by
  obtain ⟨hf, hb, -, -⟩ := hc
  refine ⟨Linked_at _ _ _ l1 n l2 ((FwdLinked_iff s _ _).mp hf), ?_⟩
  have hrev : (l1 ++ n :: l2).reverse = l2.reverse ++ n :: l1.reverse := by simp
  rw [hrev] at hb
  have := Linked_at _ _ _ l2.reverse n l1.reverse ((BwdLinked_iff s _ _).mp hb)
  rw [this, List.head?_reverse]

theorem Chain_head (s : IRState) (l : List NodePtr) (hc : Chain s l) :
    (s.nodes node_head).next = l.head?.getD node_head ∧
    (s.nodes node_head).prev = l.getLast?.getD node_head := by
  refine ⟨?_, by rw [Chain_tail s l hc, List.head?_reverse]⟩
  obtain ⟨hf, -, -, -⟩ := hc
  cases l with
  | nil => exact hf
  | cons b rest => exact hf.1

/-- On a well-linked list the links are mutually consistent, at every node of
the list and at the sentinel. -/
theorem Chain_links (s : IRState) (l : List NodePtr) (hc : Chain s l) :
    ∀ x ∈ node_head :: l, (s.nodes (s.nodes x).next).prev = x ∧
      (s.nodes (s.nodes x).prev).next = x := by
  obtain ⟨hh1, hh2⟩ := Chain_head s l hc
  intro x hx
  rcases List.mem_cons.mp hx with rfl | hx
  · constructor
    · rw [hh1]
      cases l with
      | nil => simpa using hh2
      | cons c r =>
        have := (Chain_decomp s [] c r hc).2
        simpa using this
    · rw [hh2]
      rcases List.eq_nil_or_concat l with rfl | ⟨l1, n, rfl⟩
      · simpa using hh1
      · have := (Chain_decomp s l1 n [] (by simpa using hc)).1
        simpa using this
  · obtain ⟨l1, l2, rfl⟩ := List.append_of_mem hx
    obtain ⟨d1, d2⟩ := Chain_decomp s l1 x l2 hc
    constructor
    · rw [d1]
      cases l2 with
      | nil => simpa using hh2
      | cons c r =>
        have hc2 : Chain s ((l1 ++ [x]) ++ c :: r) := by simpa using hc
        have := (Chain_decomp s (l1 ++ [x]) c r hc2).2
        simpa using this
    · rw [d2]
      rcases List.eq_nil_or_concat l1 with rfl | ⟨l0, q, rfl⟩
      · simpa using hh1
      · have hc2 : Chain s (l0 ++ q :: (x :: l2)) := by simpa using hc
        have := (Chain_decomp s l0 q (x :: l2) hc2).1
        simpa using this

/-- Inserting a node that is not on the list appends it. -/
theorem Chain_insert (s : IRState) (l : List NodePtr) (n : NodePtr) (hc : Chain s l)
    (hn : n ∉ l) (hh : n ≠ node_head) (h0 : n ≠ NodePtr.null) :
    ∃ s1, insert_into_node_list s n = some s1 ∧ Chain s1 (l ++ [n]) ∧
      s1.pools = s.pools ∧ s1.npools = s.npools := by
  obtain ⟨s1, h1, h2, h3, h4, h5, -⟩ :=
    insert_into_node_list_spec s n _ h0 rfl (Chain_tail_ne_null s l hc)
  refine ⟨s1, h1, ?_, h2, h3⟩
  cases n with
  | null => exact absurd rfl h0
  | node_dummy => exact absurd rfl hh
  | cell k i => exact Chain_snoc s s1 l k i hc hn h4 h5

/-- Removing a node of the list takes it out, keeps the order of the others,
and leaves the node linked to itself. -/
theorem Chain_remove (s : IRState) (l : List NodePtr) (n : NodePtr) (hc : Chain s l)
    (hn : n ∈ l) :
    ∃ s1, remove_from_node_list s n = some s1 ∧ Chain s1 (l.erase n) ∧
      (s1.nodes n).next = n ∧ (s1.nodes n).prev = n ∧
      s1.pools = s.pools ∧ s1.npools = s.npools ∧
      (∀ x, SamePayload (s1.nodes x) (s.nodes x)) ∧
      (s1.nodes (s.nodes n).prev).next = (s.nodes n).next ∧
      (s1.nodes (s.nodes n).next).prev = (s.nodes n).prev := by
  obtain ⟨l1, l2, rfl⟩ := List.append_of_mem hn
  obtain ⟨dN, dP⟩ := Chain_decomp s l1 n l2 hc
  have hcells := Chain_cells s _ hc
  obtain ⟨hf, hb, hnd, hcell⟩ := hc
  have hnl1 : n ∉ l1 := by
    intro h
    have := (List.nodup_append.mp hnd).2.2
    exact this h (by simp)
  have hnl2 : n ∉ l2 := by
    have := (List.nodup_append.mp hnd).2.1
    exact (List.nodup_cons.mp this).1
  have hnh : n ≠ node_head := (hcells n (by simp)).1
  have hn0 : n ≠ NodePtr.null := (hcells n (by simp)).2
  -- the neighbours
  have hNmem : l2.head?.getD node_head ∈ node_head :: l2 := by
    cases l2 with
    | nil => simp
    | cons c r => simp
  have hPmem : l1.getLast?.getD node_head ∈ node_head :: l1 := by
    cases hr : l1.getLast? with
    | none => simp
    | some y => simp [List.mem_of_getLast?_eq_some hr]
  have hN0 : l2.head?.getD node_head ≠ NodePtr.null := by
    rcases List.mem_cons.mp hNmem with h | h
    · rw [h]; simp [node_head]
    · exact (hcells _ (by simp [h])).2
  have hP0 : l1.getLast?.getD node_head ≠ NodePtr.null := by
    rcases List.mem_cons.mp hPmem with h | h
    · rw [h]; simp [node_head]
    · exact (hcells _ (by simp [h])).2
  have hNn : l2.head?.getD node_head ≠ n := by
    rcases List.mem_cons.mp hNmem with h | h
    · rw [h]; exact fun e => hnh e.symm
    · exact fun e => hnl2 (e ▸ h)
  have hPn : l1.getLast?.getD node_head ≠ n := by
    rcases List.mem_cons.mp hPmem with h | h
    · rw [h]; exact fun e => hnh e.symm
    · exact fun e => hnl1 (e ▸ h)
  obtain ⟨s1, r1, r2, r3, -, r5, r6, r7⟩ :=
    remove_from_node_list_eff s n _ _ hn0 dP dN hP0 hN0 hPn hNn
  have herase : (l1 ++ n :: l2).erase n = l1 ++ l2 := by
    rw [List.erase_append_right _ hnl1, List.erase_cons_head]
  have hhead : node_head ∉ l1 ++ n :: l2 := fun h => (hcells _ h).1 rfl
  refine ⟨s1, r1, ?_, by simp [r5], by simp [r6], r2, r3, r7, ?_, ?_⟩
  · rw [herase]
    refine ⟨?_, ?_, ?_, ?_⟩
    · rw [FwdLinked_iff]
      exact Linked_erase _ _ node_head node_head l1 n l2 ((FwdLinked_iff s _ _).mp hf)
        (List.nodup_cons.mpr ⟨hhead, hnd⟩) (fun x hx => by simp only [r5 x, if_neg hx])
    · rw [BwdLinked_iff]
      have hrev : (l1 ++ n :: l2).reverse = l2.reverse ++ n :: l1.reverse := by simp
      rw [hrev] at hb
      rw [List.reverse_append]
      refine Linked_erase _ _ node_head node_head l2.reverse n l1.reverse
        ((BwdLinked_iff s _ _).mp hb) ?_ (fun x hx => ?_)
      · rw [← hrev]
        exact List.nodup_cons.mpr ⟨fun h => hhead (List.mem_reverse.mp h),
          List.nodup_reverse.mpr hnd⟩
      · simp only [r6 x, if_neg hx, List.getLast?_reverse, List.head?_reverse]
    · have := List.nodup_append.mp hnd
      refine List.nodup_append.mpr ⟨this.1, (List.nodup_cons.mp this.2.1).2, ?_⟩
      intro a ha hb2
      exact this.2.2 ha (List.mem_cons_of_mem _ hb2)
    · intro p hp
      exact hcell p (by
        rcases List.mem_append.mp hp with h | h
        · exact List.mem_append_left _ h
        · exact List.mem_append_right _ (List.mem_cons_of_mem _ h))
  · rw [dP, dN, r5, if_neg hPn, if_pos rfl]
  · rw [dP, dN, r6, if_neg hNn, if_pos rfl]

theorem Built_init_nodes (s0 : IRState) : Chain (init_node_list s0) [] := by
  refine ⟨?_, ?_, List.nodup_nil, by simp⟩
  · simp [FwdLinked, init_node_list]
  · simp [BwdLinked, init_node_list]

theorem fwd_ptrs_unique (s : IRState) (l : List NodePtr) (a : NodePtr)
    (hf : FwdLinked s a l) (hcell : ∀ p ∈ l, p ≠ node_head ∧ p ≠ NodePtr.null)
    (fuel : Nat) (l1 : List NodePtr) (h : fwd_ptrs fuel s (s.nodes a).next = some l1) :
    l1 = l := by
  induction l generalizing a fuel l1 with
  | nil =>
    cases fuel with
    | zero => simp [fwd_ptrs] at h
    | succ f =>
      simp only [FwdLinked] at hf
      simp only [fwd_ptrs, hf, if_true, Option.some.injEq] at h
      exact h.symm
  | cons b rest ih =>
    cases fuel with
    | zero => simp [fwd_ptrs] at h
    | succ f =>
      obtain ⟨h1, h2⟩ := hf
      obtain ⟨hb1, hb2⟩ := hcell b (by simp)
      rw [h1] at h
      simp only [fwd_ptrs, hb1, hb2, if_false] at h
      obtain ⟨l2, hl2, rfl⟩ := Option.map_eq_some'.mp h
      rw [ih b h2 (fun p hp => hcell p (List.mem_cons_of_mem _ hp)) f l2 hl2]

/-- Every reachable state of the node list is well linked. -/
theorem ListReachable_Chain (s : IRState) (h : ListReachable s) : ∃ l, Chain s l := by
  induction h with
  | init s0 => exact ⟨[], (Built_init_nodes s0)⟩
  | insert s s1 n l fuel _ hfw hn hh h0 hins ih =>
    obtain ⟨l0, hc⟩ := ih
    have : l = l0 := fwd_ptrs_unique s l0 node_head hc.1 (Chain_cells s l0 hc) fuel l hfw
    subst this
    obtain ⟨s2, h2, hc2, -⟩ := Chain_insert s l n hc hn hh h0
    rw [hins] at h2
    obtain rfl := Option.some.inj h2
    exact ⟨_, hc2⟩
  | remove s s1 n l fuel _ hfw hn hrem ih =>
    obtain ⟨l0, hc⟩ := ih
    have : l = l0 := fwd_ptrs_unique s l0 node_head hc.1 (Chain_cells s l0 hc) fuel l hfw
    subst this
    obtain ⟨s2, h2, hc2, -⟩ := Chain_remove s l n hc hn
    rw [hrem] at h2
    obtain rfl := Option.some.inj h2
    exact ⟨_, hc2⟩

/-! ## Removal is idempotent -/

/-- After remove_from_node_list has returned, a second removal of the same
node returns at once. -/
theorem remove_from_node_list_again (s s1 : IRState) (n : NodePtr)
    (h : remove_from_node_list s n = some s1) : remove_from_node_list s1 n = some s1 := by
  unfold remove_from_node_list at h
  by_cases hn : n = NodePtr.null
  · simp [hn] at h
  · rw [if_neg hn] at h
    by_cases hd : ((s.nodes n).next = n ∧ (s.nodes n).prev = n) ∨
        ((s.nodes n).next = NodePtr.null ∧ (s.nodes n).prev = NodePtr.null)
    · rw [if_pos hd] at h
      obtain rfl := Option.some.inj h
      unfold remove_from_node_list
      rw [if_neg hn, if_pos hd]
    · rw [if_neg hd] at h
      by_cases hz : (s.nodes n).prev = NodePtr.null ∨ (s.nodes n).next = NodePtr.null
      · simp [hz] at h
      · simp only [hz, if_false] at h
        obtain rfl := Option.some.inj h
        unfold remove_from_node_list
        rw [if_neg hn, if_pos (Or.inl (by simp))]

theorem remove_from_node_list_idem (s : IRState) (n : NodePtr) :
    ((remove_from_node_list s n).bind fun s1 => remove_from_node_list s1 n) =
      remove_from_node_list s n := by
  cases h : remove_from_node_list s n with
  | none => rfl
  | some s1 => exact remove_from_node_list_again s s1 n h

theorem remove_from_pool_list_again (s s1 : IRState) (p : PoolPtr)
    (h : remove_from_pool_list s p = some s1) : remove_from_pool_list s1 p = some s1 := by
  unfold remove_from_pool_list at h
  by_cases hn : p = PoolPtr.null
  · simp [hn] at h
  · rw [if_neg hn] at h
    by_cases hd : ((s.pools p).next = p ∧ (s.pools p).prev = p) ∨
        ((s.pools p).next = PoolPtr.null ∧ (s.pools p).prev = PoolPtr.null)
    · rw [if_pos hd] at h
      obtain rfl := Option.some.inj h
      unfold remove_from_pool_list
      rw [if_neg hn, if_pos hd]
    · rw [if_neg hd] at h
      by_cases hz : (s.pools p).prev = PoolPtr.null ∨ (s.pools p).next = PoolPtr.null
      · simp [hz] at h
      · simp only [hz, if_false] at h
        obtain rfl := Option.some.inj h
        unfold remove_from_pool_list
        rw [if_neg hn, if_pos (Or.inl (by simp))]

theorem remove_from_pool_list_idem (s : IRState) (p : PoolPtr) :
    ((remove_from_pool_list s p).bind fun s1 => remove_from_pool_list s1 p) =
      remove_from_pool_list s p := by
  cases h : remove_from_pool_list s p with
  | none => rfl
  | some s1 => exact remove_from_pool_list_again s s1 p h

/-! ## The pool list under removal -/

theorem remove_from_pool_list_eff (s : IRState) (p P N : PoolPtr) (hn : p ≠ PoolPtr.null)
    (hP : (s.pools p).prev = P) (hN : (s.pools p).next = N)
    (hP0 : P ≠ PoolPtr.null) (hN0 : N ≠ PoolPtr.null) (hPn : P ≠ p) (hNn : N ≠ p) :
    ∃ s1, remove_from_pool_list s p = some s1 ∧ s1.nodes = s.nodes ∧ s1.npools = s.npools ∧
      s1.vrname = s.vrname ∧
      (∀ x, (s1.pools x).next = if x = p then p else if x = P then N else (s.pools x).next) ∧
      (∀ x, (s1.pools x).prev = if x = p then p else if x = N then P else (s.pools x).prev) ∧
      (∀ x, (s1.pools x).next_free = (s.pools x).next_free) := by
  simp only [remove_from_pool_list, hP, hN, hn, hP0, hN0, hPn, hNn, or_self, and_self,
    if_false]
  clear hP hN
  refine ⟨_, rfl, rfl, rfl, rfl, ?_, ?_, ?_⟩
  · intro x
    simp only [setPool_pools]
    split_ifs <;> subst_vars <;> simp_all
  · intro x
    simp only [setPool_pools]
    split_ifs <;> subst_vars <;> simp_all
  · intro x
    simp only [setPool_pools]
    split_ifs <;> subst_vars <;> simp_all

theorem PoolChain_decomp (s : IRState) (l1 : List PoolPtr) (p : PoolPtr) (l2 : List PoolPtr)
    (hc : PoolChain s (l1 ++ p :: l2)) :
    (s.pools p).next = l2.head?.getD pool_head ∧
    (s.pools p).prev = l1.getLast?.getD pool_head := by
  obtain ⟨hf, hb, -, -⟩ := hc
  refine ⟨Linked_at _ _ _ l1 p l2 hf, ?_⟩
  have hrev : (l1 ++ p :: l2).reverse = l2.reverse ++ p :: l1.reverse := by simp
  rw [hrev] at hb
  have := Linked_at _ _ _ l2.reverse p l1.reverse hb
  rw [this, List.head?_reverse]

/-- Removing a pool of the pool list takes it out, keeps the order of the
others, and leaves the pool linked to itself. -/
theorem PoolChain_remove (s : IRState) (l : List PoolPtr) (p : PoolPtr) (hc : PoolChain s l)
    (hn : p ∈ l) :
    ∃ s1, remove_from_pool_list s p = some s1 ∧ PoolChain s1 (l.erase p) ∧
      (s1.pools p).next = p ∧ (s1.pools p).prev = p ∧
      s1.nodes = s.nodes ∧ s1.npools = s.npools ∧
      (∀ x, (s1.pools x).next_free = (s.pools x).next_free) ∧
      (s1.pools (s.pools p).prev).next = (s.pools p).next ∧
      (s1.pools (s.pools p).next).prev = (s.pools p).prev := by
  obtain ⟨l1, l2, rfl⟩ := List.append_of_mem hn
  obtain ⟨dN, dP⟩ := PoolChain_decomp s l1 p l2 hc
  obtain ⟨hf, hb, hnd, hcells⟩ := hc
  have hnl1 : p ∉ l1 := by
    intro h
    have := (List.nodup_append.mp hnd).2.2
    exact this h (by simp)
  have hnl2 : p ∉ l2 := by
    have := (List.nodup_append.mp hnd).2.1
    exact (List.nodup_cons.mp this).1
  have hnh : p ≠ pool_head := (hcells p (by simp)).1
  have hn0 : p ≠ PoolPtr.null := (hcells p (by simp)).2
  have hNmem : l2.head?.getD pool_head ∈ pool_head :: l2 := by
    cases l2 with
    | nil => simp
    | cons c r => simp
  have hPmem : l1.getLast?.getD pool_head ∈ pool_head :: l1 := by
    cases hr : l1.getLast? with
    | none => simp
    | some y => simp [List.mem_of_getLast?_eq_some hr]
  have hN0 : l2.head?.getD pool_head ≠ PoolPtr.null := by
    rcases List.mem_cons.mp hNmem with h | h
    · rw [h]; simp [pool_head]
    · exact (hcells _ (by simp [h])).2
  have hP0 : l1.getLast?.getD pool_head ≠ PoolPtr.null := by
    rcases List.mem_cons.mp hPmem with h | h
    · rw [h]; simp [pool_head]
    · exact (hcells _ (by simp [h])).2
  have hNn : l2.head?.getD pool_head ≠ p := by
    rcases List.mem_cons.mp hNmem with h | h
    · rw [h]; exact fun e => hnh e.symm
    · exact fun e => hnl2 (e ▸ h)
  have hPn : l1.getLast?.getD pool_head ≠ p := by
    rcases List.mem_cons.mp hPmem with h | h
    · rw [h]; exact fun e => hnh e.symm
    · exact fun e => hnl1 (e ▸ h)
  obtain ⟨s1, r1, r2, r3, -, r5, r6, r7⟩ :=
    remove_from_pool_list_eff s p _ _ hn0 dP dN hP0 hN0 hPn hNn
  have herase : (l1 ++ p :: l2).erase p = l1 ++ l2 := by
    rw [List.erase_append_right _ hnl1, List.erase_cons_head]
  have hhead : pool_head ∉ l1 ++ p :: l2 := fun h => (hcells _ h).1 rfl
  refine ⟨s1, r1, ?_, by simp [r5], by simp [r6], r2, r3, r7, ?_, ?_⟩
  · rw [herase]
    refine ⟨?_, ?_, ?_, ?_⟩
    · exact Linked_erase _ _ pool_head pool_head l1 p l2 hf
        (List.nodup_cons.mpr ⟨hhead, hnd⟩) (fun x hx => by simp only [r5 x, if_neg hx])
    · have hrev : (l1 ++ p :: l2).reverse = l2.reverse ++ p :: l1.reverse := by simp
      rw [hrev] at hb
      rw [List.reverse_append]
      refine Linked_erase _ _ pool_head pool_head l2.reverse p l1.reverse hb ?_
        (fun x hx => ?_)
      · rw [← hrev]
        exact List.nodup_cons.mpr ⟨fun h => hhead (List.mem_reverse.mp h),
          List.nodup_reverse.mpr hnd⟩
      · simp only [r6 x, if_neg hx, List.getLast?_reverse, List.head?_reverse]
    · have := List.nodup_append.mp hnd
      refine List.nodup_append.mpr ⟨this.1, (List.nodup_cons.mp this.2.1).2, ?_⟩
      intro a ha hb2
      exact this.2.2 ha (List.mem_cons_of_mem _ hb2)
    · intro q hq
      exact hcells q (by
        rcases List.mem_append.mp hq with h | h
        · exact List.mem_append_left _ h
        · exact List.mem_append_right _ (List.mem_cons_of_mem _ h))
  · rw [dP, dN, r5, if_neg hPn, if_pos rfl]
  · rw [dP, dN, r6, if_neg hNn, if_pos rfl]

theorem fwd_pools_spec (s : IRState) (l : List PoolPtr) (a : PoolPtr)
    (hf : Linked (fun x => (s.pools x).next) pool_head a l)
    (hcell : ∀ p ∈ l, p ≠ pool_head ∧ p ≠ PoolPtr.null)
    (fuel : Nat) (hfuel : l.length < fuel) :
    fwd_pools fuel s (s.pools a).next = some l := by
  induction l generalizing a fuel with
  | nil =>
    obtain ⟨f, rfl⟩ : ∃ f, fuel = f + 1 := ⟨fuel - 1, by simp at hfuel; omega⟩
    simp only [Linked] at hf
    simp [fwd_pools, hf]
  | cons b rest ih =>
    obtain ⟨f, rfl⟩ : ∃ f, fuel = f + 1 := ⟨fuel - 1, by simp at hfuel; omega⟩
    obtain ⟨h1, h2⟩ := hf
    obtain ⟨hb1, hb2⟩ := hcell b (by simp)
    simp only [] at h1
    rw [h1]
    simp only [fwd_pools, hb1, hb2, if_false]
    rw [ih b h2 (fun p hp => hcell p (List.mem_cons_of_mem _ hp)) f (by simp at hfuel; omega)]
    simp

/-! ## The claims on the node list and on removal -/

/-- C18: in every state reachable from init_node_list by insertions of nodes
that are not on the list and removals of nodes that are on it, there is a
list `l` of distinct nodes such that: at every node of `l` and at the
sentinel, `x->next->prev == x` and `x->prev->next == x`; the forward traversal
from `node_head->next` ends at the sentinel after visiting `l`; and the
backward traversal from `node_head->prev` ends at the sentinel after visiting
`l` in reverse order. In such a state every allowed insertion and removal
returns, and leads to a reachable state. -/
theorem C18_reachable_lists_are_consistent (s : IRState) (h : ListReachable s) :
    ∃ l : List NodePtr, l.Nodup ∧
      (∀ x ∈ node_head :: l, (s.nodes (s.nodes x).next).prev = x ∧
        (s.nodes (s.nodes x).prev).next = x) ∧
      (∀ fuel, l.length < fuel →
        fwd_ptrs fuel s (s.nodes node_head).next = some l ∧
        bwd_ptrs fuel s (s.nodes node_head).prev = some l.reverse) ∧
      (∀ n, n ∉ l → n ≠ node_head → n ≠ NodePtr.null →
        ∃ s1, insert_into_node_list s n = some s1 ∧ ListReachable s1) ∧
      (∀ n ∈ l, ∃ s1, remove_from_node_list s n = some s1 ∧ ListReachable s1) := by
  obtain ⟨l, hc⟩ := ListReachable_Chain s h
  refine ⟨l, hc.2.2.1, Chain_links s l hc, fun fuel hf => Chain_traversals s l hc fuel hf,
    ?_, ?_⟩
  · intro n hn hh h0
    obtain ⟨s1, h1, -⟩ := Chain_insert s l n hc hn hh h0
    exact ⟨s1, h1, ListReachable.insert s s1 n l (l.length + 1) h
      (Chain_traversals s l hc _ (Nat.lt_succ_self _)).1 hn hh h0 h1⟩
  · intro n hn
    obtain ⟨s1, h1, -⟩ := Chain_remove s l n hc hn
    exact ⟨s1, h1, ListReachable.remove s s1 n l (l.length + 1) h
      (Chain_traversals s l hc _ (Nat.lt_succ_self _)).1 hn h1⟩

/-- C18 at the state reached by inserting the cells `&pool_0->nodes[0]` and
`&pool_0->nodes[1]` and then removing the first of them. -/
theorem C18_witness :
    ∃ l : List NodePtr, l.Nodup ∧
      (∀ x ∈ node_head :: l, (list_state_c.nodes (list_state_c.nodes x).next).prev = x ∧
        (list_state_c.nodes (list_state_c.nodes x).prev).next = x) ∧
      (∀ fuel, l.length < fuel →
        fwd_ptrs fuel list_state_c (list_state_c.nodes node_head).next = some l ∧
        bwd_ptrs fuel list_state_c (list_state_c.nodes node_head).prev = some l.reverse) ∧
      (∀ n, n ∉ l → n ≠ node_head → n ≠ NodePtr.null →
        ∃ s1, insert_into_node_list list_state_c n = some s1 ∧ ListReachable s1) ∧
      (∀ n ∈ l, ∃ s1, remove_from_node_list list_state_c n = some s1 ∧ ListReachable s1) :=
  C18_reachable_lists_are_consistent list_state_c
    (ListReachable.remove list_state_b list_state_c (NodePtr.cell 0 0)
      [NodePtr.cell 0 0, NodePtr.cell 0 1] 3
      (ListReachable.insert list_state_a list_state_b (NodePtr.cell 0 1) [NodePtr.cell 0 0] 2
        (ListReachable.insert (init_node_list start_state) list_state_a (NodePtr.cell 0 0) [] 1
          (ListReachable.init start_state) (by decide) (by decide) (by decide) (by decide) rfl)
        (by decide) (by decide) (by decide) (by decide) rfl)
      (by decide) (by decide) rfl)

/-- C19: let the node list of the state be well linked with the nodes `l` and
its pool list with the pools `pl`. Removing a node `n` of `l` returns, takes
`n` out of the list and keeps the order of the others (the forward traversal
visits `l.erase n`), makes the former neighbours of `n` adjacent, leaves `n`
linked to itself and every payload unchanged, and a second removal of `n`
changes nothing. In any state at all, removing a node that is linked to
itself or has both links NULL returns the state unchanged, and
`remove(remove(s, n), n) = remove(s, n)`. The same three facts hold for
remove_from_pool_list and a pool `p` of `pl`. -/
theorem C19_remove_is_idempotent (s : IRState) (l : List NodePtr) (n : NodePtr)
    (pl : List PoolPtr) (p : PoolPtr)
    (hc : Chain s l) (hn : n ∈ l) (hpc : PoolChain s pl) (hp : p ∈ pl) :
    (∃ s1, remove_from_node_list s n = some s1 ∧
      fwd_ptrs (l.length + 1) s (s.nodes node_head).next = some l ∧
      fwd_ptrs (l.length + 1) s1 (s1.nodes node_head).next = some (l.erase n) ∧
      bwd_ptrs (l.length + 1) s1 (s1.nodes node_head).prev = some (l.erase n).reverse ∧
      (s1.nodes (s.nodes n).prev).next = (s.nodes n).next ∧
      (s1.nodes (s.nodes n).next).prev = (s.nodes n).prev ∧
      (s1.nodes n).next = n ∧ (s1.nodes n).prev = n ∧
      (∀ x, SamePayload (s1.nodes x) (s.nodes x)) ∧
      remove_from_node_list s1 n = some s1) ∧
    (∀ (t : IRState) (m : NodePtr), m ≠ NodePtr.null →
      ((t.nodes m).next = m ∧ (t.nodes m).prev = m) ∨
        ((t.nodes m).next = NodePtr.null ∧ (t.nodes m).prev = NodePtr.null) →
      remove_from_node_list t m = some t) ∧
    (∀ (t : IRState) (m : NodePtr),
      ((remove_from_node_list t m).bind fun t1 => remove_from_node_list t1 m) =
        remove_from_node_list t m) ∧
    (∃ s1, remove_from_pool_list s p = some s1 ∧
      fwd_pools (pl.length + 1) s (s.pools pool_head).next = some pl ∧
      fwd_pools (pl.length + 1) s1 (s1.pools pool_head).next = some (pl.erase p) ∧
      (s1.pools (s.pools p).prev).next = (s.pools p).next ∧
      (s1.pools (s.pools p).next).prev = (s.pools p).prev ∧
      (s1.pools p).next = p ∧ (s1.pools p).prev = p ∧
      s1.nodes = s.nodes ∧ (∀ x, (s1.pools x).next_free = (s.pools x).next_free) ∧
      remove_from_pool_list s1 p = some s1) ∧
    (∀ (t : IRState) (q : PoolPtr), q ≠ PoolPtr.null →
      ((t.pools q).next = q ∧ (t.pools q).prev = q) ∨
        ((t.pools q).next = PoolPtr.null ∧ (t.pools q).prev = PoolPtr.null) →
      remove_from_pool_list t q = some t) ∧
    (∀ (t : IRState) (q : PoolPtr),
      ((remove_from_pool_list t q).bind fun t1 => remove_from_pool_list t1 q) =
        remove_from_pool_list t q) := by
  refine ⟨?_, ?_, remove_from_node_list_idem, ?_, ?_, remove_from_pool_list_idem⟩
  · obtain ⟨s1, h1, hc1, h3, h4, -, -, h7, h8, h9⟩ := Chain_remove s l n hc hn
    have hlen : (l.erase n).length < l.length + 1 := by
      have := List.length_erase_of_mem hn
      omega
    exact ⟨s1, h1, (Chain_traversals s l hc _ (Nat.lt_succ_self _)).1,
      (Chain_traversals s1 _ hc1 _ hlen).1, (Chain_traversals s1 _ hc1 _ hlen).2,
      h8, h9, h3, h4, h7, remove_from_node_list_again s s1 n h1⟩
  · intro t m hm hd
    unfold remove_from_node_list
    rw [if_neg hm, if_pos hd]
  · obtain ⟨s1, h1, hc1, h3, h4, h5, -, h7, h8, h9⟩ := PoolChain_remove s pl p hpc hp
    have hlen : (pl.erase p).length < pl.length + 1 := by
      have := List.length_erase_of_mem hp
      omega
    exact ⟨s1, h1, fwd_pools_spec s pl pool_head hpc.1 hpc.2.2.2 _ (Nat.lt_succ_self _),
      fwd_pools_spec s1 _ pool_head hc1.1 hc1.2.2.2 _ hlen,
      h8, h9, h3, h4, h5, h7, remove_from_pool_list_again s s1 p h1⟩
  · intro t q hq hd
    unfold remove_from_pool_list
    rw [if_neg hq, if_pos hd]

/-- C19 at the state that holds the block `loadI 5 => r1 ; nop`: the node
list is `[&pool_0->nodes[0], &pool_0->nodes[1]]`, the pool list is `[pool_0]`;
the first node and the pool are removed. -/
theorem C19_witness :
    (∃ s1, remove_from_node_list two_node_state (NodePtr.cell 0 0) = some s1 ∧
      fwd_ptrs ([NodePtr.cell 0 0, NodePtr.cell 0 1].length + 1) two_node_state
        (two_node_state.nodes node_head).next = some [NodePtr.cell 0 0, NodePtr.cell 0 1] ∧
      fwd_ptrs ([NodePtr.cell 0 0, NodePtr.cell 0 1].length + 1) s1 (s1.nodes node_head).next =
        some ([NodePtr.cell 0 0, NodePtr.cell 0 1].erase (NodePtr.cell 0 0)) ∧
      bwd_ptrs ([NodePtr.cell 0 0, NodePtr.cell 0 1].length + 1) s1 (s1.nodes node_head).prev =
        some ([NodePtr.cell 0 0, NodePtr.cell 0 1].erase (NodePtr.cell 0 0)).reverse ∧
      (s1.nodes (two_node_state.nodes (NodePtr.cell 0 0)).prev).next =
        (two_node_state.nodes (NodePtr.cell 0 0)).next ∧
      (s1.nodes (two_node_state.nodes (NodePtr.cell 0 0)).next).prev =
        (two_node_state.nodes (NodePtr.cell 0 0)).prev ∧
      (s1.nodes (NodePtr.cell 0 0)).next = NodePtr.cell 0 0 ∧
      (s1.nodes (NodePtr.cell 0 0)).prev = NodePtr.cell 0 0 ∧
      (∀ x, SamePayload (s1.nodes x) (two_node_state.nodes x)) ∧
      remove_from_node_list s1 (NodePtr.cell 0 0) = some s1) ∧
    (∀ (t : IRState) (m : NodePtr), m ≠ NodePtr.null →
      ((t.nodes m).next = m ∧ (t.nodes m).prev = m) ∨
        ((t.nodes m).next = NodePtr.null ∧ (t.nodes m).prev = NodePtr.null) →
      remove_from_node_list t m = some t) ∧
    (∀ (t : IRState) (m : NodePtr),
      ((remove_from_node_list t m).bind fun t1 => remove_from_node_list t1 m) =
        remove_from_node_list t m) ∧
    (∃ s1, remove_from_pool_list two_node_state (PoolPtr.pool 0) = some s1 ∧
      fwd_pools ([PoolPtr.pool 0].length + 1) two_node_state
        (two_node_state.pools pool_head).next = some [PoolPtr.pool 0] ∧
      fwd_pools ([PoolPtr.pool 0].length + 1) s1 (s1.pools pool_head).next =
        some ([PoolPtr.pool 0].erase (PoolPtr.pool 0)) ∧
      (s1.pools (two_node_state.pools (PoolPtr.pool 0)).prev).next =
        (two_node_state.pools (PoolPtr.pool 0)).next ∧
      (s1.pools (two_node_state.pools (PoolPtr.pool 0)).next).prev =
        (two_node_state.pools (PoolPtr.pool 0)).prev ∧
      (s1.pools (PoolPtr.pool 0)).next = PoolPtr.pool 0 ∧
      (s1.pools (PoolPtr.pool 0)).prev = PoolPtr.pool 0 ∧
      s1.nodes = two_node_state.nodes ∧
      (∀ x, (s1.pools x).next_free = (two_node_state.pools x).next_free) ∧
      remove_from_pool_list s1 (PoolPtr.pool 0) = some s1) ∧
    (∀ (t : IRState) (q : PoolPtr), q ≠ PoolPtr.null →
      ((t.pools q).next = q ∧ (t.pools q).prev = q) ∨
        ((t.pools q).next = PoolPtr.null ∧ (t.pools q).prev = PoolPtr.null) →
      remove_from_pool_list t q = some t) ∧
    (∀ (t : IRState) (q : PoolPtr),
      ((remove_from_pool_list t q).bind fun t1 => remove_from_pool_list t1 q) =
        remove_from_pool_list t q) :=
  C19_remove_is_idempotent two_node_state [NodePtr.cell 0 0, NodePtr.cell 0 1]
    (NodePtr.cell 0 0) [PoolPtr.pool 0] (PoolPtr.pool 0)
    ⟨⟨rfl, rfl, rfl⟩, ⟨rfl, rfl, rfl⟩, by decide, fun p hp => by
      simp at hp; rcases hp with rfl | rfl <;> exact ⟨_, _, rfl⟩⟩
    (by decide)
    ⟨⟨rfl, rfl⟩, ⟨rfl, rfl⟩, by decide, fun p hp => by
      simp at hp; subst hp; decide⟩
    (by decide)

/-! ## The parser: reading tokens -/

theorem pop_token_suffix (l : List Token) : (pop_token l).2 <:+ l := by
  cases l with
  | nil => exact List.suffix_refl _
  | cons t rest => exact List.suffix_cons t rest

theorem TokOK_eof : TokOK eof_token := by
  intro h
  rcases h with h | h <;> simp [eof_token] at h

theorem TokOK_fst (l : List Token) (h : ∀ t ∈ l, TokOK t) : TokOK (pop_token l).1 := by
  cases l with
  | nil => exact TokOK_eof
  | cons t rest => exact h t (by simp)

theorem InputOK_snd (l : List Token) (h : ∀ t ∈ l, TokOK t) :
    ∀ t ∈ (pop_token l).2, TokOK t := by
  intro t ht
  exact h t ((pop_token_suffix l).subset ht)

theorem flush_line_suffix (w : Token) (l : List Token) : (flush_line w l).2 <:+ l := by
  induction l generalizing w with
  | nil => unfold flush_line; split_ifs <;> exact List.suffix_refl _
  | cons t rest ih =>
    unfold flush_line
    split_ifs
    · exact List.suffix_refl _
    · exact (ih t).trans (List.suffix_cons t rest)

theorem flush_line_stops (w : Token) (l : List Token) :
    (flush_line w l).1.type = TokenType.TOK_EOL ∨ (flush_line w l).1.type = TokenType.TOK_EOF := by
  induction l generalizing w with
  | nil =>
    unfold flush_line
    split_ifs with h
    · exact h
    · right; rfl
  | cons t rest ih =>
    unfold flush_line
    split_ifs with h
    · exact h
    · exact ih t

theorem suffix_next (x : ParserState) (l : List Token) (h : x.input <:+ l) :
    (next_word x).input <:+ l :=
  (pop_token_suffix x.input).trans h

theorem suffix_err (x : ParserState) (l : List Token) (h : x.input <:+ l) :
    (parse_errorf x).input <:+ l :=
  (flush_line_suffix x.word x.input).trans h

@[simp] theorem next_word_ir (x : ParserState) : (next_word x).ir = x.ir := rfl

@[simp] theorem parse_errorf_ir (x : ParserState) : (parse_errorf x).ir = x.ir := rfl

/-! ## The parser: building a node -/

theorem NodeOK_congr (a b : IRNode) (h : SamePayload a b) (hb : NodeOK b) : NodeOK a := by
  obtain ⟨-, h2, h3, h4, h5⟩ := h
  intro sl
  have := hb sl
  cases sl <;> simp only [IRNode.get] at this ⊢
  · rw [h3, h2]; exact this
  · rw [h4, h2]; exact this
  · rw [h5, h2]; exact this

theorem NodeOK_of_Matches (c : BuildCall) (n : IRNode) (hm : Matches c n) (hc : CallOK c) :
    NodeOK n := by
  obtain ⟨m1, -, m3⟩ := hm
  intro sl
  rw [m3 sl, m1]
  exact hc.2 sl

/-- A call of ir_build by the parser on a well-formed state returns, leaves
the token stream alone and keeps the nodes well-formed. -/
theorem build_and_count_ok (x : ParserState) (op : IROpcode) (line nops : Int)
    (args : List Int) (hinv : NodesOK x.ir) (hc : CallOK ⟨op, line, nops, args⟩) :
    ∃ st1, build_and_count x op line nops args = some st1 ∧ st1.input = x.input ∧
      NodesOK st1.ir := by
  obtain ⟨ptrs, h1, h2, h3⟩ := hinv
  obtain ⟨s1, k, i, b1, b2, b3, b4, b5, b6⟩ :=
    ir_build_total x.ir ptrs ⟨op, line, nops, args⟩ h1 h2 hc.1
  refine ⟨{ x with ir := s1, opCount := x.opCount + 1 },
    by simp only [build_and_count, b1, Option.map_some'], rfl,
    ptrs ++ [NodePtr.cell k i], b3, b4, ?_⟩
  intro p hp
  rcases List.mem_append.mp hp with hp | hp
  · exact NodeOK_congr _ _ (b6 p hp) (h3 p hp)
  · simp only [List.mem_singleton] at hp
    subst hp
    exact NodeOK_of_Matches _ _ b5 hc

theorem CallOK_two (op : IROpcode) (line a b : Int) (ha : 0 ≤ a) (hb : 0 ≤ b)
    (hop : op = IROpcode.IR_LOAD ∨ op = IROpcode.IR_STORE ∨ op = IROpcode.IR_LOADI) :
    CallOK ⟨op, line, 2, [a, b]⟩ := by
  refine ⟨by simp [BuildCall.enough_args], ?_⟩
  intro sl
  rcases hop with rfl | rfl | rfl <;> cases sl <;> simp [BuildCall.sr, slot_unused] <;> omega

theorem CallOK_three (op : IROpcode) (line a b c : Int) (ha : 0 ≤ a) (hb : 0 ≤ b)
    (hc : 0 ≤ c)
    (hop : op = IROpcode.IR_ADD ∨ op = IROpcode.IR_SUB ∨ op = IROpcode.IR_MULT ∨
      op = IROpcode.IR_LSHIFT ∨ op = IROpcode.IR_RSHIFT) :
    CallOK ⟨op, line, 3, [a, b, c]⟩ := by
  refine ⟨by simp [BuildCall.enough_args], ?_⟩
  intro sl
  rcases hop with rfl | rfl | rfl | rfl | rfl <;> cases sl <;>
    simp [BuildCall.sr, slot_unused] <;> omega

theorem CallOK_one (line a : Int) (ha : 0 ≤ a) :
    CallOK ⟨IROpcode.IR_OUTPUT, line, 1, [a]⟩ := by
  refine ⟨by simp [BuildCall.enough_args], ?_⟩
  intro sl
  cases sl <;> simp [BuildCall.sr, slot_unused]
  omega

theorem CallOK_zero (line : Int) : CallOK ⟨IROpcode.IR_NOP, line, 0, []⟩ := by
  refine ⟨by simp [BuildCall.enough_args], ?_⟩
  intro sl
  cases sl <;> simp [BuildCall.sr, slot_unused]

/-! ## The finish functions on any token stream -/

theorem finish_output_ok (line : Int) (st : ParserState)
    (hok : ∀ t ∈ st.input, TokOK t) (hinv : NodesOK st.ir) :
    ∃ st1, finish_output line st = some st1 ∧ st1.input <:+ st.input ∧ NodesOK st1.ir := by
  unfold finish_output
  simp only []
  split_ifs with h1 h2
  · exact ⟨_, rfl, suffix_err _ _ (suffix_next _ _ (List.suffix_refl _)), hinv⟩
  · exact ⟨_, rfl, suffix_err _ _ (suffix_next _ _ (suffix_next _ _ (List.suffix_refl _))),
      hinv⟩
  · have v0 : 0 ≤ (pop_token st.input).1.value :=
      TokOK_fst _ hok (Or.inl (not_not.mp h1))
    obtain ⟨st1, e1, e2, e3⟩ := build_and_count_ok
      (next_word { next_word st with tb0 := (next_word st).word }) IROpcode.IR_OUTPUT line 1
      [(pop_token st.input).1.value] hinv (CallOK_one line _ v0)
    exact ⟨st1, e1, by
      rw [e2]; exact suffix_next _ _ (suffix_next _ _ (List.suffix_refl _)), e3⟩

theorem finish_nop_ok (line : Int) (st : ParserState) (hinv : NodesOK st.ir) :
    ∃ st1, finish_nop line st = some st1 ∧ st1.input <:+ st.input ∧ NodesOK st1.ir := by
  unfold finish_nop
  simp only []
  split_ifs with h1
  · refine ⟨_, rfl, ?_, hinv⟩
    exact (flush_line_suffix _ _).trans (pop_token_suffix _)
  · obtain ⟨st1, e1, e2, e3⟩ := build_and_count_ok
      (get_next_token st).2 IROpcode.IR_NOP line 0 [] hinv
      (CallOK_zero line)
    exact ⟨st1, e1, by rw [e2]; exact pop_token_suffix _, e3⟩

theorem build_ok (x : ParserState) (op : IROpcode) (line nops : Int) (args : List Int)
    (l : List Token) (hinv : NodesOK x.ir) (hc : CallOK ⟨op, line, nops, args⟩)
    (hs : x.input <:+ l) :
    ∃ st1, build_and_count x op line nops args = some st1 ∧ st1.input <:+ l ∧
      NodesOK st1.ir := by
  obtain ⟨st1, e1, e2, e3⟩ := build_and_count_ok x op line nops args hinv hc
  exact ⟨st1, e1, by rw [e2]; exact hs, e3⟩

theorem finish_loadI_ok (line : Int) (st : ParserState)
    (hok : ∀ t ∈ st.input, TokOK t) (hinv : NodesOK st.ir) :
    ∃ st1, finish_loadI line st = some st1 ∧ st1.input <:+ st.input ∧ NodesOK st1.ir := by
  unfold finish_loadI
  simp only []
  have ok1 := InputOK_snd _ hok
  have ok2 := InputOK_snd _ ok1
  split_ifs with h1 h2 h3 h4
  · exact ⟨_, rfl, suffix_err _ _ (suffix_next _ _ (List.suffix_refl _)), hinv⟩
  · exact ⟨_, rfl, suffix_err _ _ (suffix_next _ _ (suffix_next _ _ (List.suffix_refl _))),
      hinv⟩
  · exact ⟨_, rfl, suffix_err _ _ (suffix_next _ _ (suffix_next _ _ (suffix_next _ _
      (List.suffix_refl _)))), hinv⟩
  · exact ⟨_, rfl, suffix_err _ _ (suffix_next _ _ (suffix_next _ _ (suffix_next _ _
      (suffix_next _ _ (List.suffix_refl _))))), hinv⟩
  · have v0 : 0 ≤ (pop_token st.input).1.value :=
      TokOK_fst _ hok (Or.inl (not_not.mp h1))
    have v1 : 0 ≤ (pop_token (pop_token (pop_token st.input).2).2).1.value :=
      TokOK_fst _ ok2 (Or.inr (not_not.mp h3))
    exact build_ok _ _ _ _ _ _ hinv (CallOK_two _ _ _ _ v0 v1 (Or.inr (Or.inr rfl)))
      (suffix_next _ _ (suffix_next _ _ (suffix_next _ _ (suffix_next _ _
        (List.suffix_refl _)))))

theorem finish_memop_ok (first : Token) (line : Int) (st : ParserState)
    (hok : ∀ t ∈ st.input, TokOK t) (hinv : NodesOK st.ir) :
    ∃ st1, finish_memop first line st = some st1 ∧ st1.input <:+ st.input ∧
      NodesOK st1.ir := by
  unfold finish_memop
  simp only []
  have ok1 := InputOK_snd _ hok
  have ok2 := InputOK_snd _ ok1
  have s4 : ∀ x : ParserState, x.input = st.input →
      (next_word (next_word (next_word (next_word x)))).input <:+ st.input := fun x hx =>
    suffix_next _ _ (suffix_next _ _ (suffix_next _ _ (suffix_next _ _ (hx ▸ List.suffix_refl _))))
  split_ifs with h1 h2 h3 h4 h5 h6
  · exact ⟨_, rfl, suffix_err _ _ (suffix_next _ _ (List.suffix_refl _)), hinv⟩
  · exact ⟨_, rfl, suffix_err _ _ (suffix_next _ _ (suffix_next _ _ (List.suffix_refl _))),
      hinv⟩
  · exact ⟨_, rfl, suffix_err _ _ (suffix_next _ _ (suffix_next _ _ (suffix_next _ _
      (List.suffix_refl _)))), hinv⟩
  · exact ⟨_, rfl, suffix_err _ _ (s4 st rfl), hinv⟩
  · have v0 : 0 ≤ (pop_token st.input).1.value :=
      TokOK_fst _ hok (Or.inr (not_not.mp h1))
    have v1 : 0 ≤ (pop_token (pop_token (pop_token st.input).2).2).1.value :=
      TokOK_fst _ ok2 (Or.inr (not_not.mp h3))
    exact build_ok _ _ _ _ _ _ hinv (CallOK_two _ _ _ _ v0 v1 (Or.inl rfl)) (s4 st rfl)
  · have v0 : 0 ≤ (pop_token st.input).1.value :=
      TokOK_fst _ hok (Or.inr (not_not.mp h1))
    have v1 : 0 ≤ (pop_token (pop_token (pop_token st.input).2).2).1.value :=
      TokOK_fst _ ok2 (Or.inr (not_not.mp h3))
    exact build_ok _ _ _ _ _ _ hinv (CallOK_two _ _ _ _ v0 v1 (Or.inr (Or.inl rfl)))
      (s4 st rfl)
  · exact ⟨_, rfl, suffix_err _ _ (s4 st rfl), hinv⟩

theorem next_word_facts (x y : ParserState) (l : List Token) (h : next_word x = y)
    (hok : ∀ t ∈ x.input, TokOK t) (hs : x.input <:+ l) :
    y.input <:+ l ∧ (∀ t ∈ y.input, TokOK t) ∧ TokOK y.word ∧ y.ir = x.ir ∧
    y.tb0 = x.tb0 ∧ y.tb1 = x.tb1 ∧ y.tb2 = x.tb2 := by
  subst h
  exact ⟨suffix_next _ _ hs, InputOK_snd _ hok, TokOK_fst _ hok, rfl, rfl, rfl, rfl⟩

theorem finish_arithop_ok (first : Token) (line : Int) (st : ParserState)
    (hok : ∀ t ∈ st.input, TokOK t) (hinv : NodesOK st.ir) :
    ∃ st1, finish_arithop first line st = some st1 ∧ st1.input <:+ st.input ∧
      NodesOK st1.ir := by
  unfold finish_arithop
  generalize hx1 : next_word st = x1
  obtain ⟨a1, a2, a3, a4, -⟩ := next_word_facts _ _ st.input hx1 hok (List.suffix_refl _)
  show ∃ st1, (if x1.word.type ≠ TokenType.TOK_REG then _ else _) = some st1 ∧ _
  by_cases h1 : x1.word.type ≠ TokenType.TOK_REG
  · rw [if_pos h1]
    exact ⟨_, rfl, suffix_err _ _ a1, by rw [parse_errorf_ir, a4]; exact hinv⟩
  rw [if_neg h1]
  generalize hx2 : next_word { x1 with tb0 := x1.word } = x2
  obtain ⟨b1, b2, b3, b4, b5, -⟩ :=
    next_word_facts { x1 with tb0 := x1.word } _ st.input hx2 a2 a1
  show ∃ st1, (if x2.word.type ≠ TokenType.TOK_COMMA then _ else _) = some st1 ∧ _
  have ir2 : x2.ir = st.ir := by rw [b4]; exact a4
  by_cases h2 : x2.word.type ≠ TokenType.TOK_COMMA
  · rw [if_pos h2]
    exact ⟨_, rfl, suffix_err _ _ b1, by rw [parse_errorf_ir, ir2]; exact hinv⟩
  rw [if_neg h2]
  generalize hx3 : next_word x2 = x3
  obtain ⟨c1, c2, c3, c4, c5, -⟩ := next_word_facts _ _ st.input hx3 b2 b1
  show ∃ st1, (if x3.word.type ≠ TokenType.TOK_REG then _ else _) = some st1 ∧ _
  have ir3 : x3.ir = st.ir := by rw [c4]; exact ir2
  by_cases h3 : x3.word.type ≠ TokenType.TOK_REG
  · rw [if_pos h3]
    exact ⟨_, rfl, suffix_err _ _ c1, by rw [parse_errorf_ir, ir3]; exact hinv⟩
  rw [if_neg h3]
  generalize hx4 : next_word { x3 with tb1 := x3.word } = x4
  obtain ⟨d1, d2, d3, d4, d5, d6, -⟩ :=
    next_word_facts { x3 with tb1 := x3.word } _ st.input hx4 c2 c1
  show ∃ st1, (if x4.word.type ≠ TokenType.TOK_INTO then _ else _) = some st1 ∧ _
  have ir4 : x4.ir = st.ir := by rw [d4]; exact ir3
  by_cases h4 : x4.word.type ≠ TokenType.TOK_INTO
  · rw [if_pos h4]
    exact ⟨_, rfl, suffix_err _ _ d1, by rw [parse_errorf_ir, ir4]; exact hinv⟩
  rw [if_neg h4]
  generalize hx5 : next_word x4 = x5
  obtain ⟨e1, e2, e3, e4, e5, e6, -⟩ := next_word_facts _ _ st.input hx5 d2 d1
  show ∃ st1, (if x5.word.type ≠ TokenType.TOK_REG then _ else _) = some st1 ∧ _
  have ir5 : x5.ir = st.ir := by rw [e4]; exact ir4
  by_cases h5 : x5.word.type ≠ TokenType.TOK_REG
  · rw [if_pos h5]
    exact ⟨_, rfl, suffix_err _ _ e1, by rw [parse_errorf_ir, ir5]; exact hinv⟩
  rw [if_neg h5]
  generalize hx6 : next_word { x5 with tb2 := x5.word } = x6
  obtain ⟨f1, f2, f3, f4, f5, f6, f7⟩ :=
    next_word_facts { x5 with tb2 := x5.word } _ st.input hx6 e2 e1
  show ∃ st1, (if x6.word.type ≠ TokenType.TOK_EOL ∧ x6.word.type ≠ TokenType.TOK_EOF
    then _ else _) = some st1 ∧ _
  have ir6 : x6.ir = st.ir := by rw [f4]; exact ir5
  have hinv6 : NodesOK x6.ir := by rw [ir6]; exact hinv
  have herr : ∃ st1, some (parse_errorf x6) = some st1 ∧ st1.input <:+ st.input ∧
      NodesOK st1.ir := ⟨_, rfl, suffix_err _ _ f1, by rw [parse_errorf_ir]; exact hinv6⟩
  by_cases h6 : x6.word.type ≠ TokenType.TOK_EOL ∧ x6.word.type ≠ TokenType.TOK_EOF
  · rw [if_pos h6]
    exact herr
  rw [if_neg h6]
  have v0 : 0 ≤ x6.tb0.value := by
    have : x6.tb0 = x1.word := by
      rw [f5]; show x5.tb0 = _; rw [e5, d5]; show x3.tb0 = _; rw [c5, b5]
    rw [this]
    exact a3 (Or.inr (not_not.mp h1))
  have v1 : 0 ≤ x6.tb1.value := by
    have : x6.tb1 = x3.word := by
      rw [f6]; show x5.tb1 = _; rw [e6, d6]
    rw [this]
    exact c3 (Or.inr (not_not.mp h3))
  have v2 : 0 ≤ x6.tb2.value := by
    have : x6.tb2 = x5.word := by rw [f7]
    rw [this]
    exact e3 (Or.inr (not_not.mp h5))
  have hb : ∀ op, op = IROpcode.IR_ADD ∨ op = IROpcode.IR_SUB ∨ op = IROpcode.IR_MULT ∨
      op = IROpcode.IR_LSHIFT ∨ op = IROpcode.IR_RSHIFT →
      ∃ st1, build_and_count x6 op line 3 [x6.tb0.value, x6.tb1.value, x6.tb2.value] =
        some st1 ∧ st1.input <:+ st.input ∧ NodesOK st1.ir := fun op hop =>
    build_ok _ _ _ _ _ _ hinv6 (CallOK_three _ _ _ _ _ v0 v1 v2 hop) f1
  show ∃ st1, (if first.value = ARITH_ADD then _ else if first.value = ARITH_SUB then _
    else if first.value = ARITH_MULT then _ else if first.value = ARITH_LSHIFT then _
    else if first.value = ARITH_RSHIFT then _ else _) = some st1 ∧ _
  split_ifs
  · exact hb _ (Or.inl rfl)
  · exact hb _ (Or.inr (Or.inl rfl))
  · exact hb _ (Or.inr (Or.inr (Or.inl rfl)))
  · exact hb _ (Or.inr (Or.inr (Or.inr (Or.inl rfl))))
  · exact hb _ (Or.inr (Or.inr (Or.inr (Or.inr rfl))))
  · exact herr

/-- One iteration of the loop of parse_program returns; it consumes tokens
only, and keeps the nodes well-formed. -/
theorem parse_step_ok (st : ParserState) (hok : ∀ t ∈ st.input, TokOK t)
    (hinv : NodesOK st.ir) :
    ∃ st1, parse_step st = some (next_word st1) ∧ st1.input <:+ st.input ∧
      NodesOK st1.ir := by
  have lift : ∀ r : Option ParserState,
      (∃ st1, r = some st1 ∧ st1.input <:+ st.input ∧ NodesOK st1.ir) →
      ∃ st1, r.map next_word = some (next_word st1) ∧ st1.input <:+ st.input ∧
        NodesOK st1.ir := by
    rintro r ⟨st1, rfl, h2, h3⟩
    exact ⟨st1, rfl, h2, h3⟩
  unfold parse_step
  simp only []
  apply lift
  cases st.word.type
  · exact finish_memop_ok _ _ st hok hinv
  · exact finish_loadI_ok _ st hok hinv
  · exact finish_arithop_ok _ _ st hok hinv
  · exact finish_output_ok _ st hok hinv
  · exact finish_nop_ok _ st hinv
  all_goals
    first
    | exact ⟨st, rfl, List.suffix_refl _, hinv⟩
    | exact ⟨_, rfl, suffix_err _ _ (List.suffix_refl _), hinv⟩

/-- The loop of parse_program ends on every token stream, with fuel above the
number of tokens left, and keeps the nodes well-formed. -/
theorem parse_loop_ok (fuel : Nat) (st : ParserState)
    (hfuel : st.input.length + (if st.word.type = TokenType.TOK_EOF then 0 else 1) < fuel)
    (hok : ∀ t ∈ st.input, TokOK t) (hinv : NodesOK st.ir) :
    ∃ st1, parse_loop fuel st = some st1 ∧ NodesOK st1.ir := by
  induction fuel generalizing st with
  | zero => omega
  | succ f ih =>
    unfold parse_loop
    by_cases he : st.word.type = TokenType.TOK_EOF
    · rw [if_pos he]
      exact ⟨st, rfl, hinv⟩
    · rw [if_neg he] at hfuel ⊢
      obtain ⟨st1, h1, h2, h3⟩ := parse_step_ok st hok hinv
      rw [h1]
      simp only [Option.some_bind]
      apply ih
      · have hlen := h2.length_le
        show (pop_token st1.input).2.length +
          (if (pop_token st1.input).1.type = TokenType.TOK_EOF then 0 else 1) < f
        cases hh : st1.input with
        | nil =>
          simp only [pop_token, eof_token, List.length_nil, if_true]
          omega
        | cons t rest =>
          rw [hh] at hlen
          simp only [pop_token, List.length_cons] at hlen ⊢
          split_ifs <;> omega
      · exact InputOK_snd _ (fun t ht => hok t (h2.subset ht))
      · exact h3

/-! ## The claims on the parser -/

theorem NodesOK_init (s0 : IRState) : NodesOK (init_node_list (init_pool_list s0)) :=
  ⟨[], (Built_init s0).1, (Built_init s0).2.1, by simp⟩

/-- C16: for every token stream whose CONST and REG tokens have non-negative
values, whatever lexical errors the scanner reports on it and whatever the
memory held before, parse_program returns (with fuel
above the number of tokens), the node sequence it leaves can be traversed,
and in every node of it, for each of the three slots, `sr = -1` exactly when
the opcode-to-slot table marks the slot unused for the opcode of the node. -/
theorem C16_unused_slots_hold_sentinel (toks : List Token) (errs : List Bool) (s0 : IRState)
    (fuel : Nat)
    (hok : ∀ t ∈ toks,
      (t.type = TokenType.TOK_CONST ∨ t.type = TokenType.TOK_REG) → 0 ≤ t.value)
    (hfuel : toks.length < fuel) :
    ∃ st count nodes, parse_program fuel (parser_start toks errs s0) = some (st, count) ∧
      (∀ fuel2, nodes.length < fuel2 → node_seq fuel2 st.ir = some nodes) ∧
      ∀ n ∈ nodes, ∀ sl, (n.get sl).sr = -1 ↔ slot_unused n.opcode sl = true := by
  have hlen : (pop_token toks).2.length +
      (if (pop_token toks).1.type = TokenType.TOK_EOF then 0 else 1) < fuel := by
    cases toks with
    | nil => simp only [pop_token, eof_token, List.length_nil, if_true]; omega
    | cons t rest =>
      simp only [pop_token, List.length_cons] at hfuel ⊢
      split_ifs <;> omega
  obtain ⟨st1, h1, ptrs, hc, -, hn⟩ :=
    parse_loop_ok fuel (next_word { parser_start toks errs s0 with opCount := 0 }) hlen
      (InputOK_snd toks hok) (NodesOK_init s0)
  refine ⟨st1, st1.opCount, ptrs.map st1.ir.nodes, ?_, ?_, ?_⟩
  · simp only [parse_program, h1, Option.map_some']
  · intro fuel2 hf2
    exact node_list_spec st1.ir ptrs node_head hc.1 (Chain_cells _ _ hc) fuel2
      (by simpa using hf2)
  · intro n hn2 sl
    obtain ⟨p, hp, rfl⟩ := List.mem_map.mp hn2
    exact hn p hp sl

/-- C16 at the tokens of `loadI 5 => r1`, `nop r3` (a syntax error),
`output 2`, `add r1, r1 => r2`. -/
theorem C16_witness :
    ∃ st count nodes, parse_program 18 (parser_start sample_tokens [] start_state) =
        some (st, count) ∧
      (∀ fuel2, nodes.length < fuel2 → node_seq fuel2 st.ir = some nodes) ∧
      ∀ n ∈ nodes, ∀ sl, (n.get sl).sr = -1 ↔ slot_unused n.opcode sl = true :=
  C16_unused_slots_hold_sentinel sample_tokens [] start_state 18 (by decide) (by decide)

/-! ## The parser on well-formed statements -/

theorem build_and_count_built (x : ParserState) (c : BuildCall) (ptrs : List NodePtr)
    (calls0 : List BuildCall) (hb : Built x.ir ptrs calls0) (he : c.enough_args) :
    ∃ s1 p, build_and_count x c.op c.line c.nops c.args =
        some { x with ir := s1, opCount := x.opCount + 1 } ∧
      Built s1 (ptrs ++ [p]) (calls0 ++ [c]) := by
  obtain ⟨hc, hp, hm⟩ := hb
  obtain ⟨s1, k, i, b1, -, b3, b4, b5, b6⟩ := ir_build_total x.ir ptrs c hc hp he
  refine ⟨s1, NodePtr.cell k i, by simp only [build_and_count, b1, Option.map_some'],
    b3, b4, List.rel_append ?_ (List.Forall₂.cons b5 List.Forall₂.nil)⟩
  exact Forall₂_congr_right hm (fun a b hb hab => Matches_congr a _ _ (b6 b hb) hab)

theorem term_cond (rest : List Token)
    (ht : (pop_token rest).1.type = TokenType.TOK_EOL ∨
      (pop_token rest).1.type = TokenType.TOK_EOF) :
    ¬ ((pop_token rest).1.type ≠ TokenType.TOK_EOL ∧
      (pop_token rest).1.type ≠ TokenType.TOK_EOF) := by
  rintro ⟨h1, h2⟩
  rcases ht with h | h
  · exact h1 h
  · exact h2 h

theorem pop_token_cons (t : Token) (r : List Token) :
    pop_token (t :: r) = (t, r) := rfl

theorem lex_flag_NoLex (l : List Bool) (f : Int) (h : ∀ b ∈ l, b = false) : lex_flag l f = f := by
  unfold lex_flag
  rw [if_neg]
  intro hh
  cases l with
  | nil => exact Option.noConfusion hh
  | cons a r =>
    have := h a (by simp)
    simp only [List.head?_cons, Option.some.injEq] at hh
    rw [hh] at this
    exact Bool.noConfusion this

theorem lex_flags_NoLex (k : Nat) (l : List Bool) (f : Int) (h : ∀ b ∈ l, b = false) :
    lex_flags k l f = f ∧ ∀ b ∈ lex_rest k l, b = false := by
  induction k generalizing l f with
  | zero => exact ⟨rfl, h⟩
  | succ k ih =>
    have := ih l.tail (lex_flag l f) (fun b hb => h b (List.mem_of_mem_tail hb))
    exact ⟨this.1.trans (lex_flag_NoLex l f h), this.2⟩

theorem next_word_NoLex (st : ParserState) (h : NoLex st) :
    (next_word st).error_flag = st.error_flag ∧ NoLex (next_word st) :=
  lex_flags_NoLex 1 st.lex st.error_flag h

theorem finish_memop_eval (first : Token) (line : Int) (st : ParserState)
    (r1 into r2 : Token) (rest : List Token)
    (h1 : r1.type = TokenType.TOK_REG) (h2 : into.type = TokenType.TOK_INTO)
    (h3 : r2.type = TokenType.TOK_REG) (hin : st.input = r1 :: into :: r2 :: rest)
    (ht : (pop_token rest).1.type = TokenType.TOK_EOL ∨
      (pop_token rest).1.type = TokenType.TOK_EOF)
    (op : IROpcode)
    (hop : (first.value = LOAD ∧ op = IROpcode.IR_LOAD) ∨
      (first.value = STORE ∧ op = IROpcode.IR_STORE)) :
    finish_memop first line st =
      build_and_count { st with tb0 := r1, tb1 := r2, word := (pop_token rest).1,
                                input := (pop_token rest).2,
                                error_flag := lex_flags 4 st.lex st.error_flag,
                                lex := lex_rest 4 st.lex }
        op line 2 [r1.value, r2.value] := by
  obtain ⟨word, opCount, tb0, tb1, tb2, ef, input, lex, out, ir⟩ := st
  simp only at hin
  subst hin
  have ht2 := term_cond rest ht
  rcases hop with ⟨hv, rfl⟩ | ⟨hv, rfl⟩
  · simp [finish_memop, next_word, get_next_token, lex_flags, lex_rest, pop_token_cons, h1, h2, h3, ht2, hv]
  · simp [finish_memop, next_word, get_next_token, lex_flags, lex_rest, pop_token_cons, h1, h2, h3, ht2, hv, LOAD, STORE]

theorem finish_loadI_eval (line : Int) (st : ParserState)
    (c into r : Token) (rest : List Token)
    (h1 : c.type = TokenType.TOK_CONST) (h2 : into.type = TokenType.TOK_INTO)
    (h3 : r.type = TokenType.TOK_REG) (hin : st.input = c :: into :: r :: rest)
    (ht : (pop_token rest).1.type = TokenType.TOK_EOL ∨
      (pop_token rest).1.type = TokenType.TOK_EOF) :
    finish_loadI line st =
      build_and_count { st with tb0 := c, tb1 := r, word := (pop_token rest).1,
                                input := (pop_token rest).2,
                                error_flag := lex_flags 4 st.lex st.error_flag,
                                lex := lex_rest 4 st.lex }
        IROpcode.IR_LOADI line 2 [c.value, r.value] := by
  obtain ⟨word, opCount, tb0, tb1, tb2, ef, input, lex, out, ir⟩ := st
  simp only at hin
  subst hin
  have ht2 := term_cond rest ht
  simp [finish_loadI, next_word, get_next_token, lex_flags, lex_rest, pop_token_cons, h1, h2, h3, ht2]

theorem finish_output_eval (line : Int) (st : ParserState)
    (c : Token) (rest : List Token)
    (h1 : c.type = TokenType.TOK_CONST) (hin : st.input = c :: rest)
    (ht : (pop_token rest).1.type = TokenType.TOK_EOL ∨
      (pop_token rest).1.type = TokenType.TOK_EOF) :
    finish_output line st =
      build_and_count { st with tb0 := c, word := (pop_token rest).1,
                                input := (pop_token rest).2,
                                error_flag := lex_flags 2 st.lex st.error_flag,
                                lex := lex_rest 2 st.lex }
        IROpcode.IR_OUTPUT line 1 [c.value] := by
  obtain ⟨word, opCount, tb0, tb1, tb2, ef, input, lex, out, ir⟩ := st
  simp only at hin
  subst hin
  have ht2 := term_cond rest ht
  simp [finish_output, next_word, get_next_token, lex_flags, lex_rest, pop_token_cons, h1, ht2]

theorem finish_nop_eval (line : Int) (st : ParserState) (rest : List Token)
    (hin : st.input = rest)
    (ht : (pop_token rest).1.type = TokenType.TOK_EOL ∨
      (pop_token rest).1.type = TokenType.TOK_EOF) :
    finish_nop line st =
      build_and_count { st with input := (pop_token rest).2,
                                error_flag := lex_flags 1 st.lex st.error_flag,
                                lex := lex_rest 1 st.lex }
        IROpcode.IR_NOP line 0 [] := by
  obtain ⟨word, opCount, tb0, tb1, tb2, ef, input, lex, out, ir⟩ := st
  simp only at hin
  subst hin
  have ht2 := term_cond _ ht
  simp [finish_nop, get_next_token, lex_flags, lex_rest, ht2]

theorem finish_arithop_eval (first : Token) (line : Int) (st : ParserState)
    (r1 comma r2 into r3 : Token) (rest : List Token)
    (h1 : r1.type = TokenType.TOK_REG) (h2 : comma.type = TokenType.TOK_COMMA)
    (h3 : r2.type = TokenType.TOK_REG) (h4 : into.type = TokenType.TOK_INTO)
    (h5 : r3.type = TokenType.TOK_REG)
    (hin : st.input = r1 :: comma :: r2 :: into :: r3 :: rest)
    (ht : (pop_token rest).1.type = TokenType.TOK_EOL ∨
      (pop_token rest).1.type = TokenType.TOK_EOF)
    (op : IROpcode) (hop : arith_opcode first.value = some op) :
    finish_arithop first line st =
      build_and_count { st with tb0 := r1, tb1 := r2, tb2 := r3,
                                word := (pop_token rest).1,
                                input := (pop_token rest).2,
                                error_flag := lex_flags 6 st.lex st.error_flag,
                                lex := lex_rest 6 st.lex }
        op line 3 [r1.value, r2.value, r3.value] := by
  obtain ⟨word, opCount, tb0, tb1, tb2, ef, input, lex, out, ir⟩ := st
  simp only at hin
  subst hin
  have ht2 := term_cond rest ht
  unfold arith_opcode at hop
  split_ifs at hop with e1 e2 e3 e4 e5 <;> simp only [Option.some.injEq] at hop <;> subst hop
  · simp [finish_arithop, next_word, get_next_token, lex_flags, lex_rest, pop_token_cons, h1, h2, h3, h4, h5, ht2, e1,
      ARITH_ADD, ARITH_SUB, ARITH_MULT, ARITH_LSHIFT, ARITH_RSHIFT]
  · simp [finish_arithop, next_word, get_next_token, lex_flags, lex_rest, pop_token_cons, h1, h2, h3, h4, h5, ht2, e1, e2,
      ARITH_ADD, ARITH_SUB, ARITH_MULT, ARITH_LSHIFT, ARITH_RSHIFT]
  · simp [finish_arithop, next_word, get_next_token, lex_flags, lex_rest, pop_token_cons, h1, h2, h3, h4, h5, ht2, e1, e2, e3,
      ARITH_ADD, ARITH_SUB, ARITH_MULT, ARITH_LSHIFT, ARITH_RSHIFT]
  · simp [finish_arithop, next_word, get_next_token, lex_flags, lex_rest, pop_token_cons, h1, h2, h3, h4, h5, ht2, e1, e2, e3, e4,
      ARITH_ADD, ARITH_SUB, ARITH_MULT, ARITH_LSHIFT, ARITH_RSHIFT]
  · simp [finish_arithop, next_word, get_next_token, lex_flags, lex_rest, pop_token_cons, h1, h2, h3, h4, h5, ht2, e1, e2, e3, e4,
      e5,
      ARITH_ADD, ARITH_SUB, ARITH_MULT, ARITH_LSHIFT, ARITH_RSHIFT]

/-- One iteration of the loop of parse_program on a well-formed statement:
the node is built, `opCount` is incremented, `error_flag` is not touched
unless the scanner reports a lexical error, and
the scanner is left after the token that ends the statement. -/
theorem stmt_step (ts : List Token) (c : BuildCall) (hs : StmtTokens ts c)
    (st : ParserState) (rest : List Token) (ptrs : List NodePtr) (calls0 : List BuildCall)
    (hcons : st.word :: st.input = ts ++ rest)
    (ht : (pop_token rest).1.type = TokenType.TOK_EOL ∨
      (pop_token rest).1.type = TokenType.TOK_EOF)
    (hb : Built st.ir ptrs calls0) :
    ∃ st1 p, parse_step st = some (next_word st1) ∧
      st1.input = (pop_token rest).2 ∧ st1.opCount = st.opCount + 1 ∧
      (NoLex st → st1.error_flag = st.error_flag ∧ NoLex st1) ∧
      Built st1.ir (ptrs ++ [p]) (calls0 ++ [c]) := by
  have fin : ∀ (x : ParserState) (r : Option ParserState),
      r = build_and_count x c.op c.line c.nops c.args →
      x.ir = st.ir → x.input = (pop_token rest).2 → x.opCount = st.opCount →
      (NoLex st → x.error_flag = st.error_flag ∧ NoLex x) → c.enough_args →
      ∃ st1 p, r.map next_word = some (next_word st1) ∧
        st1.input = (pop_token rest).2 ∧ st1.opCount = st.opCount + 1 ∧
        (NoLex st → st1.error_flag = st.error_flag ∧ NoLex st1) ∧
        Built st1.ir (ptrs ++ [p]) (calls0 ++ [c]) := by
    intro x r hr hir hinp hcnt hef he
    obtain ⟨s1, p, e1, e2⟩ := build_and_count_built x c ptrs calls0 (by rw [hir]; exact hb) he
    refine ⟨{ x with ir := s1, opCount := x.opCount + 1 }, p, by rw [hr, e1]; rfl, hinp,
      by simp only [hcnt], hef, e2⟩
  unfold parse_step
  cases hs with
  | load op r1 into r2 g1 g2 g3 g4 g5 =>
    simp only [List.cons_append, List.nil_append, List.cons.injEq] at hcons
    obtain ⟨hw, hin⟩ := hcons
    simp only [hw, g1]
    exact fin _ _
      (finish_memop_eval op op.line st r1 into r2 rest g3 g4 g5 hin ht _ (Or.inl ⟨g2, rfl⟩))
      rfl rfl rfl (fun h => lex_flags_NoLex _ _ _ h) (by simp [BuildCall.enough_args])
  | store op r1 into r2 g1 g2 g3 g4 g5 =>
    simp only [List.cons_append, List.nil_append, List.cons.injEq] at hcons
    obtain ⟨hw, hin⟩ := hcons
    simp only [hw, g1]
    exact fin _ _
      (finish_memop_eval op op.line st r1 into r2 rest g3 g4 g5 hin ht _ (Or.inr ⟨g2, rfl⟩))
      rfl rfl rfl (fun h => lex_flags_NoLex _ _ _ h) (by simp [BuildCall.enough_args])
  | loadI op k into r g1 g2 g3 g4 =>
    simp only [List.cons_append, List.nil_append, List.cons.injEq] at hcons
    obtain ⟨hw, hin⟩ := hcons
    simp only [hw, g1]
    exact fin _ _
      (finish_loadI_eval op.line st k into r rest g2 g3 g4 hin ht)
      rfl rfl rfl (fun h => lex_flags_NoLex _ _ _ h) (by simp [BuildCall.enough_args])
  | arith op r1 comma r2 into r3 ir g1 g2 g3 g4 g5 g6 g7 =>
    simp only [List.cons_append, List.nil_append, List.cons.injEq] at hcons
    obtain ⟨hw, hin⟩ := hcons
    simp only [hw, g1]
    exact fin _ _
      (finish_arithop_eval op op.line st r1 comma r2 into r3 rest g3 g4 g5 g6 g7 hin ht ir g2)
      rfl rfl rfl (fun h => lex_flags_NoLex _ _ _ h) (by simp [BuildCall.enough_args])
  | output op k g1 g2 =>
    simp only [List.cons_append, List.nil_append, List.cons.injEq] at hcons
    obtain ⟨hw, hin⟩ := hcons
    simp only [hw, g1]
    exact fin _ _
      (finish_output_eval op.line st k rest g2 hin ht)
      rfl rfl rfl (fun h => lex_flags_NoLex _ _ _ h) (by simp [BuildCall.enough_args])
  | nop op g1 =>
    simp only [List.cons_append, List.nil_append, List.cons.injEq] at hcons
    obtain ⟨hw, hin⟩ := hcons
    simp only [hw, g1]
    exact fin _ _
      (finish_nop_eval op.line st rest hin ht)
      rfl rfl rfl (fun h => lex_flags_NoLex _ _ _ h) (by simp [BuildCall.enough_args])

theorem StmtTokens_ne_nil (ts : List Token) (c : BuildCall) (hs : StmtTokens ts c) :
    ∃ op body, ts = op :: body ∧ op.type ≠ TokenType.TOK_EOF := by
  cases hs with
  | load op r1 into r2 g1 => exact ⟨op, _, rfl, by rw [g1]; decide⟩
  | store op r1 into r2 g1 => exact ⟨op, _, rfl, by rw [g1]; decide⟩
  | loadI op k into r g1 => exact ⟨op, _, rfl, by rw [g1]; decide⟩
  | arith op r1 comma r2 into r3 ir g1 => exact ⟨op, _, rfl, by rw [g1]; decide⟩
  | output op k g1 => exact ⟨op, _, rfl, by rw [g1]; decide⟩
  | nop op g1 => exact ⟨op, _, rfl, by rw [g1]; decide⟩

theorem eof_read (rest : List Token) (h : ∀ t ∈ rest, t.type = TokenType.TOK_EOF) :
    (pop_token rest).1.type = TokenType.TOK_EOF ∧
    ∀ t ∈ (pop_token rest).2, t.type = TokenType.TOK_EOF := by
  cases rest with
  | nil => exact ⟨rfl, by simp [pop_token]⟩
  | cons t r => exact ⟨h t (by simp), fun u hu => h u (List.mem_cons_of_mem _ hu)⟩

/-- The loop of parse_program on a well-formed token stream that the scanner
is about to return. -/
theorem parse_loop_wf (toks : List Token) (calls : List BuildCall)
    (hwf : WellFormed toks calls) (st : ParserState) (fuel : Nat) (ptrs : List NodePtr)
    (calls0 : List BuildCall) (hin : st.input = toks) (hfuel : toks.length < fuel)
    (hb : Built st.ir ptrs calls0) :
    ∃ st1 ps, parse_loop fuel (next_word st) = some st1 ∧
      st1.opCount = st.opCount + (calls.length : Int) ∧
      (NoLex st → st1.error_flag = st.error_flag ∧ NoLex st1) ∧
      ps.length = calls.length ∧ Built st1.ir (ptrs ++ ps) (calls0 ++ calls) := by
  induction hwf generalizing st fuel ptrs calls0 with
  | done rest hall =>
    obtain ⟨f, rfl⟩ : ∃ f, fuel = f + 1 := ⟨fuel - 1, by omega⟩
    have : (next_word st).word.type = TokenType.TOK_EOF := by
      show (pop_token st.input).1.type = _
      rw [hin]; exact (eof_read rest hall).1
    refine ⟨next_word st, [], by simp only [parse_loop, this, if_true],
      by show st.opCount = _; simp, next_word_NoLex st, rfl, by simpa using hb⟩
  | blank eol rest calls heol _ ih =>
    obtain ⟨f, rfl⟩ : ∃ f, fuel = f + 1 := ⟨fuel - 1, by omega⟩
    have hw : (next_word st).word = eol := by
      show (pop_token st.input).1 = _
      rw [hin]; rfl
    have hi : (next_word st).input = rest := by
      show (pop_token st.input).2 = _
      rw [hin]; rfl
    have hne : (next_word st).word.type ≠ TokenType.TOK_EOF := by rw [hw, heol]; decide
    obtain ⟨st1, ps, h1, h2, h3, h4, h5⟩ :=
      ih (next_word st) f ptrs calls0 hi (by simp at hfuel; omega) hb
    refine ⟨st1, ps, ?_, h2, ?_, h4, h5⟩
    · simp only [parse_loop, hne, if_false, parse_step, hw, heol, Option.map_some',
        Option.some_bind]
      exact h1
    · intro hl
      obtain ⟨n1, n2⟩ := next_word_NoLex st hl
      exact ⟨(h3 n2).1.trans n1, (h3 n2).2⟩
  | stmt ts c eol rest calls hs heol _ ih =>
    obtain ⟨f, rfl⟩ : ∃ f, fuel = f + 1 := ⟨fuel - 1, by omega⟩
    obtain ⟨op, body, rfl, hop⟩ := StmtTokens_ne_nil ts c hs
    have hw : (next_word st).word = op := by
      show (pop_token st.input).1 = _
      rw [hin]; rfl
    have hi : (next_word st).input = body ++ eol :: rest := by
      show (pop_token st.input).2 = _
      rw [hin]; rfl
    have hne : (next_word st).word.type ≠ TokenType.TOK_EOF := by rw [hw]; exact hop
    obtain ⟨st1, p, g1, g2, g3, g4, g5⟩ :=
      stmt_step (op :: body) c hs (next_word st) (eol :: rest) ptrs calls0
        (by rw [hw, hi]; rfl) (Or.inl heol) hb
    obtain ⟨st2, ps, h1, h2, h3, h4, h5⟩ :=
      ih st1 f (ptrs ++ [p]) (calls0 ++ [c]) g2
        (by simp at hfuel; omega) g5
    refine ⟨st2, p :: ps, ?_, ?_, ?_, by simp [h4], by simpa using h5⟩
    · simp only [parse_loop, hne, if_false, g1, Option.some_bind]
      exact h1
    · rw [h2, g3]
      show st.opCount + 1 + (calls.length : Int) = st.opCount + ((calls.length + 1 : Nat) : Int)
      push_cast
      ring
    · intro hl
      obtain ⟨n1, n2⟩ := next_word_NoLex st hl
      obtain ⟨m1, m2⟩ := g4 n2
      exact ⟨((h3 m2).1.trans m1).trans n1, (h3 m2).2⟩
  | last ts c rest hs hall =>
    obtain ⟨op, body, rfl, hop⟩ := StmtTokens_ne_nil ts c hs
    obtain ⟨f, rfl⟩ : ∃ f, fuel = f + 1 := ⟨fuel - 1, by omega⟩
    obtain ⟨f, rfl⟩ : ∃ g, f = g + 1 := ⟨f - 1, by simp at hfuel; omega⟩
    have hw : (next_word st).word = op := by
      show (pop_token st.input).1 = _
      rw [hin]; rfl
    have hi : (next_word st).input = body ++ rest := by
      show (pop_token st.input).2 = _
      rw [hin]; rfl
    have hne : (next_word st).word.type ≠ TokenType.TOK_EOF := by rw [hw]; exact hop
    obtain ⟨e1, e2⟩ := eof_read rest hall
    obtain ⟨st1, p, g1, g2, g3, g4, g5⟩ :=
      stmt_step (op :: body) c hs (next_word st) rest ptrs calls0
        (by rw [hw, hi]; rfl) (Or.inr e1) hb
    have hend : (next_word st1).word.type = TokenType.TOK_EOF := by
      show (pop_token st1.input).1.type = _
      rw [g2]; exact (eof_read _ e2).1
    refine ⟨next_word st1, [p], ?_, ?_, ?_, rfl, g5⟩
    · simp only [parse_loop, hne, if_false, g1, Option.some_bind, hend, if_true]
    · show st1.opCount = _
      rw [g3]
      show st.opCount + 1 = _
      simp
    · intro hl
      obtain ⟨n1, n2⟩ := next_word_NoLex st hl
      obtain ⟨m1, m2⟩ := g4 n2
      obtain ⟨k1, k2⟩ := next_word_NoLex st1 m2
      exact ⟨(k1.trans m1).trans n1, k2⟩

/-- C20, amended: for every token stream that consists of well-formed
statements only (`WellFormed`: blank lines allowed, every statement ended by
an end-of-line or by the end of the file, end-of-file sticky) and stands for
the nodes `calls`, whatever lexical errors `errs` the scanner reports while
it returns the stream and whatever the memory held before, parse_program
returns (with fuel above the number of tokens), leaves `error_flag` at 0 when
the scanner reports no lexical error, reports `count` equal
to the number of statements, and leaves a node sequence of exactly one node
per statement, in source order: the node of a statement has the opcode of
the statement, the line of its opcode token, and its operand values in slots
1 and 3 (load, store, loadI), in slots 1, 2, 3 (arithmetic), in slot 1
(output), in no slot (nop), every other field being -1. -/
theorem C20_well_formed_stream (toks : List Token) (errs : List Bool)
    (calls : List BuildCall) (s0 : IRState)
    (fuel : Nat) (hwf : WellFormed toks calls) (hfuel : toks.length < fuel) :
    ∃ st count ps, parse_program fuel (parser_start toks errs s0) = some (st, count) ∧
      ((∀ b ∈ errs, b = false) → st.error_flag = 0) ∧ count = (calls.length : Int) ∧ ps.length = calls.length ∧
      (∀ fuel2, ps.length < fuel2 →
        fwd_ptrs fuel2 st.ir (st.ir.nodes node_head).next = some ps) ∧
      List.Forall₂ (fun c p => (st.ir.nodes p).opcode = c.op ∧ (st.ir.nodes p).line = c.line ∧
        (st.ir.nodes p).op1 = ⟨c.sr Slot.s1, -1, -1, -1⟩ ∧
        (st.ir.nodes p).op2 = ⟨c.sr Slot.s2, -1, -1, -1⟩ ∧
        (st.ir.nodes p).op3 = ⟨c.sr Slot.s3, -1, -1, -1⟩) calls ps := by
  obtain ⟨st1, ps, h1, h2, h3, h4, h5⟩ :=
    parse_loop_wf toks calls hwf { parser_start toks errs s0 with opCount := 0 } fuel [] [] rfl
      hfuel (Built_init s0)
  simp only [List.nil_append] at h5
  refine ⟨st1, st1.opCount, ps, by simp only [parse_program, h1, Option.map_some'],
    fun hl => (h3 hl).1,
    by rw [h2]; simp, h4, ?_, ?_⟩
  · intro fuel2 hf2
    exact (Chain_traversals st1.ir ps h5.1 fuel2 hf2).1
  · exact Forall₂_congr_right h5.2.2
      (fun c p _ hm => ⟨hm.1, hm.2.1, hm.2.2 Slot.s1, hm.2.2 Slot.s2, hm.2.2 Slot.s3⟩)

/-- C20, amended, at the tokens of `load r1 => r2`, a blank line, `nop`,
`store r2 => r1` ended by the end of the file, scanned without a lexical
error. -/
theorem C20_witness :
    ∃ st count ps, parse_program 14 (parser_start program_tokens [] start_state) =
        some (st, count) ∧
      ((∀ b ∈ ([] : List Bool), b = false) → st.error_flag = 0) ∧ count = (program_calls.length : Int) ∧
      ps.length = program_calls.length ∧
      (∀ fuel2, ps.length < fuel2 →
        fwd_ptrs fuel2 st.ir (st.ir.nodes node_head).next = some ps) ∧
      List.Forall₂ (fun c p => (st.ir.nodes p).opcode = c.op ∧ (st.ir.nodes p).line = c.line ∧
        (st.ir.nodes p).op1 = ⟨c.sr Slot.s1, -1, -1, -1⟩ ∧
        (st.ir.nodes p).op2 = ⟨c.sr Slot.s2, -1, -1, -1⟩ ∧
        (st.ir.nodes p).op3 = ⟨c.sr Slot.s3, -1, -1, -1⟩) program_calls ps :=
  C20_well_formed_stream program_tokens [] program_calls start_state 14
    (WellFormed.stmt _ _ _ _ _
      (StmtTokens.load ⟨TokenType.TOK_MEMOP, 0, 1⟩ ⟨TokenType.TOK_REG, 1, 1⟩
        ⟨TokenType.TOK_INTO, 0, 1⟩ ⟨TokenType.TOK_REG, 2, 1⟩ rfl rfl rfl rfl rfl) rfl
      (WellFormed.blank ⟨TokenType.TOK_EOL, 0, 2⟩ _ _ rfl
        (WellFormed.stmt _ _ _ _ _ (StmtTokens.nop ⟨TokenType.TOK_NOP, 0, 3⟩ rfl) rfl
          (WellFormed.last _ _ [⟨TokenType.TOK_EOF, 0, 4⟩]
            (StmtTokens.store ⟨TokenType.TOK_MEMOP, 1, 4⟩ ⟨TokenType.TOK_REG, 2, 4⟩
              ⟨TokenType.TOK_INTO, 0, 4⟩ ⟨TokenType.TOK_REG, 1, 4⟩ rfl rfl rfl rfl rfl)
            (by decide)))))
    (by decide)

/-! ## The printer -/

theorem print_loop_eq (fuel : Nat) (s : IRState) (p : NodePtr) :
    print_loop fuel s p = (node_list fuel s p).map text_of := by
  induction fuel generalizing p with
  | zero => rfl
  | succ f ih =>
    simp only [print_loop, node_list]
    by_cases h1 : p = node_head
    · simp [h1, text_of, concat_lines]
    · by_cases h2 : p = NodePtr.null
      · subst h2
        simp only [if_neg h1, if_true, Option.map_none']
      · simp only [h1, h2, if_false, ih, Option.map_map]
        rfl

theorem ir_print_eq (fuel : Nat) (s : IRState) :
    ir_print fuel s = (node_seq fuel s).map text_of :=
  print_loop_eq fuel s _

theorem text_of_ops (l : List IRNode) :
    text_of l = concat_lines ((operands_of l).map print_ops) := by
  simp only [text_of, operands_of, List.map_map]
  rfl

theorem print_opcode_eq (op : IROpcode) : print_opcode op = mnemonic op ++ "\t" := by
  cases op <;> decide

theorem nu_text (a : String) : a ++ " nu=" ++ fmt_d (-1) ++ " ]" = a ++ " nu=-1 ]" := by
  rw [String.append_assoc, String.append_assoc]
  rfl

theorem print_operand_eq (op : IROpcode) (sl : Slot) (o : IROperand)
    (h : literal_slot op sl = true → o.sr ≠ -1) :
    print_operand o (literal_slot op sl) = slot_text op sl o := by
  unfold print_operand slot_text
  cases hl : literal_slot op sl with
  | true =>
    have := h hl
    simp [this]
  | false =>
    by_cases h1 : o.sr = -1
    · simp [h1]
    · by_cases h2 : o.nu = INT_MAX
      · simp only [h1, h2, if_true, if_false, Bool.false_eq_true]
        exact (nu_text _).symm
      · simp [h1, h2]

theorem print_node_eq (n : IRNode)
    (h : n.opcode = IROpcode.IR_LOADI ∨ n.opcode = IROpcode.IR_OUTPUT → n.op1.sr ≠ -1) :
    print_node n = line_text n := by
  have e1 : print_operand n.op1 (literal_slot n.opcode Slot.s1) =
      slot_text n.opcode Slot.s1 n.op1 :=
    print_operand_eq _ _ _ (fun hl => h (by simpa [literal_slot] using hl))
  have e2 : print_operand n.op2 (literal_slot n.opcode Slot.s2) =
      slot_text n.opcode Slot.s2 n.op2 :=
    print_operand_eq _ _ _ (fun hl => by simp [literal_slot] at hl)
  have e3 : print_operand n.op3 (literal_slot n.opcode Slot.s3) =
      slot_text n.opcode Slot.s3 n.op3 :=
    print_operand_eq _ _ _ (fun hl => by simp [literal_slot] at hl)
  have l2 : literal_slot n.opcode Slot.s2 = false := by simp [literal_slot]
  have l3 : literal_slot n.opcode Slot.s3 = false := by simp [literal_slot]
  rw [l2] at e2
  rw [l3] at e3
  unfold print_node line_text print_operands
  rw [print_opcode_eq, ← e1, ← e2, ← e3]
  cases hop : n.opcode <;> simp [literal_slot, String.append_assoc]

theorem text_of_lines (l : List IRNode)
    (h : ∀ n ∈ l, n.opcode = IROpcode.IR_LOADI ∨ n.opcode = IROpcode.IR_OUTPUT → n.op1.sr ≠ -1) :
    text_of l = concat_lines (l.map line_text) := by
  unfold text_of
  congr 1
  exact List.map_congr_left (fun n hn => print_node_eq n (h n hn))

/-! ## The text after renaming, before renaming, and printing twice -/

theorem next_use_nodes_range (l : List IRNode) (p r : Int) :
    next_use_nodes l p r = INT_MAX ∨ p ≤ next_use_nodes l p r := by
  induction l generalizing p with
  | nil => exact Or.inl rfl
  | cons n rest ih =>
    unfold next_use_nodes
    split_ifs
    · exact Or.inr (le_refl p)
    · exact Or.inl rfl
    · rcases ih (p + 1) with h | h
      · exact Or.inl h
      · exact Or.inr (by omega)

theorem valid_slot_stamped (c : BuildCall) (hv : c.valid) (sl : Slot)
    (h1 : literal_slot c.op sl = false) (h2 : c.sr sl ≠ -1) : sl ∈ stamped_slots c.op := by
  obtain ⟨hn, -, -, -, -⟩ := hv
  cases hop : c.op <;> cases sl <;>
    simp_all [BuildCall.sr, arity, stamped_slots, has_def, tagged_use_slots, literal_slot]

theorem valid_literal (c : BuildCall) (hv : c.valid) (hlit : ∀ a ∈ c.args, 0 ≤ a)
    (hop : c.op = IROpcode.IR_LOADI ∨ c.op = IROpcode.IR_OUTPUT) : c.sr Slot.s1 ≠ -1 := by
  obtain ⟨hn, hl, -, -, -⟩ := hv
  have h0 : 0 < c.args.length := by
    rcases hop with h | h <;> rw [hl, h] <;> decide
  have hnops : c.nops = 1 ∨ c.nops = 2 ∨ c.nops = 3 := by
    rcases hop with h | h <;> rw [hn, h] <;> simp [arity]
  have hmem : c.args.getD 0 (-1) ∈ c.args := by
    rw [List.getD_eq_getElem _ _ h0]
    exact List.getElem_mem _
  have := hlit _ hmem
  simp only [BuildCall.sr, hnops, if_true]
  omega

/-- C22: for every block built from valid calls whose operand values are
non-negative, after ir_rename the text of ir_print is the concatenation, in
program order, of one line per node of the form
`<mnemonic>\t<slot1>, <slot2>, <slot3>\n`, where the literal slot 1 of LoadI
and Output is `[ val N ]`, a slot with source_id -1 is `[ ]`, and every
other slot is `[ srN vrM nu=K ]` with K = -1 when next_use is INT_MAX and
K = next_use otherwise (`line_text`); the next_use of such a register slot is
INT_MAX or non-negative, so K = -1 occurs for the sentinel only. -/
theorem C22_print_after_rename (s0 : IRState) (calls : List BuildCall) (fuel : Nat)
    (hv : ∀ c ∈ calls, c.valid) (hlit : ∀ c ∈ calls, ∀ a ∈ c.args, 0 ≤ a)
    (hfuel : calls.length < fuel) :
    ∃ s1 maxlive out, build_and_rename fuel s0 calls = some (s1, maxlive) ∧
      node_seq fuel s1 = some out ∧ out.length = calls.length ∧
      ir_print fuel s1 = some (concat_lines (out.map line_text)) ∧
      ∀ (i : Nat) (oi : IRNode) (sl : Slot), out[i]? = some oi →
        literal_slot oi.opcode sl = false → (oi.get sl).sr ≠ -1 →
        (oi.get sl).nu = INT_MAX ∨ 0 ≤ (oi.get sl).nu := by
  obtain ⟨pre, out, t, s1, hm, hw, hbr, -, hseq, hl1, hl2, hT, -⟩ :=
    renamed_setup s0 calls hv fuel hfuel
  have hat : ∀ (i : Nat) (oi : IRNode), out[i]? = some oi →
      ∃ ci pi, calls[i]? = some ci ∧ pre[i]? = some pi ∧ Matches ci pi ∧
        oi.opcode = ci.op ∧ ∀ sl, (oi.get sl).sr = ci.sr sl := by
    intro i oi hoi
    have hlt : i < out.length := by
      by_contra hge
      rw [List.getElem?_eq_none (by omega)] at hoi
      exact Option.noConfusion hoi
    obtain ⟨ci, hci⟩ : ∃ ci, calls[i]? = some ci :=
      ⟨calls[i], List.getElem?_eq_getElem (by omega)⟩
    obtain ⟨pi, hpi, hmi⟩ := Forall₂_getElem?_left hm i ci hci
    obtain ⟨f1, -, f3, -⟩ := rename_walk_frame_at pre out _ t hw i pi oi hpi hoi
    exact ⟨ci, pi, hci, hpi, hmi, by rw [f1, hmi.1],
      fun sl => by rw [(f3 sl).1, hmi.2.2 sl]⟩
  refine ⟨s1, t.maxlive, out, hbr, hseq, hl2, ?_, ?_⟩
  · rw [ir_print_eq, hseq, Option.map_some', text_of_lines]
    intro n hn hop
    obtain ⟨i, hi, rfl⟩ := List.getElem_of_mem hn
    obtain ⟨ci, pi, hci, -, -, e1, e2⟩ := hat i out[i] (List.getElem?_eq_getElem hi)
    have := e2 Slot.s1
    simp only [IRNode.get] at this
    rw [this]
    exact valid_literal ci (hv ci (List.mem_iff_getElem?.mpr ⟨i, hci⟩))
      (hlit ci (List.mem_iff_getElem?.mpr ⟨i, hci⟩)) (by rw [← e1]; exact hop)
  · intro i oi sl hoi h1 h2
    obtain ⟨ci, pi, hci, hpi, hmi, e1, e2⟩ := hat i oi hoi
    have hst : sl ∈ stamped_slots ci.op :=
      valid_slot_stamped ci (hv ci (List.mem_iff_getElem?.mpr ⟨i, hci⟩)) sl (by rw [← e1]; exact h1)
        (by rw [← e2]; exact h2)
    obtain ⟨w1, w2⟩ := walk_next_use pre out (entry_vars pre) t 0 hw (fun _ => rfl)
      (by simp [entry_vars]) i pi oi hpi hoi
    have hr := fun r => next_use_nodes_range (pre.drop (i + 1)) ((0 : Int) + i + 1) r
    unfold stamped_slots at hst
    rw [List.mem_append] at hst
    rcases hst with hd | hu
    · by_cases hdef : has_def ci.op = true
      · simp only [hdef, if_true, List.mem_singleton] at hd
        subst hd
        rw [w1 (by rw [hmi.1]; exact hdef)]
        rcases hr (pi.get Slot.s3).sr with h | h
        · exact Or.inl h
        · exact Or.inr (by omega)
      · simp [hdef] at hd
    · rw [w2 sl (by rw [hmi.1]; exact hu)]
      split_ifs
      · exact Or.inl rfl
      · rcases hr (pi.get sl).sr with h | h
        · exact Or.inl h
        · exact Or.inr (by omega)

set_option maxHeartbeats 1000000 in
/-- C22 on the worked scenario `loadI 5 => r1 ; add r1, r1 => r2 ;
store r2 => r3`. -/
theorem C22_witness :
    ∃ s1 maxlive out, build_and_rename 4 start_state worked_block = some (s1, maxlive) ∧
      node_seq 4 s1 = some out ∧ out.length = worked_block.length ∧
      ir_print 4 s1 = some (concat_lines (out.map line_text)) ∧
      ∀ (i : Nat) (oi : IRNode) (sl : Slot), out[i]? = some oi →
        literal_slot oi.opcode sl = false → (oi.get sl).sr ≠ -1 →
        (oi.get sl).nu = INT_MAX ∨ 0 ≤ (oi.get sl).nu :=
  C22_print_after_rename start_state worked_block 4 (by decide) (by decide) (by decide)

set_option maxHeartbeats 1000000 in
/-- The text of the worked scenario after renaming. -/
theorem print_worked_block :
    printed_renamed_block 4 start_state worked_block = some
      "loadI\t[ val 5 ], [ ], [ sr1 vr2 nu=1 ]\nadd\t[ sr1 vr2 nu=-1 ], [ sr1 vr2 nu=-1 ], [ sr2 vr0 nu=2 ]\nstore\t[ sr2 vr0 nu=-1 ], [ ], [ sr3 vr1 nu=-1 ]\n" := by
  decide

set_option maxHeartbeats 1000000 in
/-- C23: in the mode `-r` the block `load r1 => r2` is built and printed
without renaming, and ir_print writes `[ sr1 vr-1 nu=-1 ]` for the register
slot with source_id 1, not `[ sr1 ]`: print_operand of src/ir.c prints the
`vr` and `nu` fields of every register slot, and before renaming both hold
the -1 of ir_new_node. The same holds for every source_id N other than -1.
The copy of print_operand in src/scripts/ir.c writes `[ sr1 ]`. -/
theorem C23_unrenamed_slot_prints_vr_and_nu :
    built_block 2 start_state load_block = some
      [ (IROpcode.IR_LOAD, ⟨1, -1, -1, -1⟩, ⟨-1, -1, -1, -1⟩, ⟨2, -1, -1, -1⟩) ] ∧
    printed_block 2 start_state load_block =
      some "load\t[ sr1 vr-1 nu=-1 ], [ ], [ sr2 vr-1 nu=-1 ]\n" ∧
    print_operand ⟨1, -1, -1, -1⟩ false = "[ sr1 vr-1 nu=-1 ]" ∧
    unrenamed_slot_text ⟨1, -1, -1, -1⟩ = "[ sr1 ]" ∧
    print_operand_scripts ⟨1, -1, -1, -1⟩ false = "[ sr1 ]" ∧
    ∀ N : Int, N ≠ -1 →
      print_operand ⟨N, -1, -1, -1⟩ false = "[ sr" ++ fmt_d N ++ " vr-1 nu=-1 ]" ∧
      print_operand_scripts ⟨N, -1, -1, -1⟩ false = unrenamed_slot_text ⟨N, -1, -1, -1⟩ := by
  refine ⟨by decide, by decide, by decide, by decide, by decide, fun N hN => ⟨?_, ?_⟩⟩
  · have h2 : ¬ ((-1 : Int) = INT_MAX) := by decide
    simp only [print_operand, hN, h2, if_false, Bool.false_eq_true]
    simp only [String.append_assoc]
    rfl
  · simp [print_operand_scripts, unrenamed_slot_text, hN]

theorem Chain_two_node_state : Chain two_node_state [NodePtr.cell 0 0, NodePtr.cell 0 1] :=
  ⟨⟨by decide, by decide,
      (by decide : (two_node_state.nodes (NodePtr.cell 0 1)).next = node_head)⟩,
   ⟨by decide, by decide,
      (by decide : (two_node_state.nodes (NodePtr.cell 0 0)).prev = node_head)⟩,
   by decide,
   fun p hp => by
      simp only [List.mem_cons, List.mem_singleton, List.not_mem_nil, or_false] at hp
      rcases hp with rfl | rfl
      · exact ⟨0, 0, rfl⟩
      · exact ⟨0, 1, rfl⟩⟩

/-- C24: in a state whose node list is well linked with the cells `ptrs`,
ir_print returns (given fuel for the traversal), and its text is the
concatenation of `print_ops` over the opcodes and operands of the node
sequence, so it depends on nothing else: any state with the same opcodes and
operands in its node sequence prints the same text, and two calls of
ir_print in a row write the same text twice. The node sequence is read, not
written: ir_print has no assignment to a node. -/
theorem C24_print_reads_the_node_sequence (s : IRState) (ptrs : List NodePtr) (fuel : Nat)
    (hc : Chain s ptrs) (hfuel : ptrs.length < fuel) :
    node_seq fuel s = some (ptrs.map s.nodes) ∧
    ir_print fuel s = some (concat_lines ((operands_of (ptrs.map s.nodes)).map print_ops)) ∧
    ir_print_twice fuel s = some
      (concat_lines ((operands_of (ptrs.map s.nodes)).map print_ops),
       concat_lines ((operands_of (ptrs.map s.nodes)).map print_ops)) ∧
    ∀ (s1 : IRState) (fuel1 : Nat),
      (node_seq fuel1 s1).map operands_of = some (operands_of (ptrs.map s.nodes)) →
      ir_print fuel1 s1 = ir_print fuel s := by
  have hseq : node_seq fuel s = some (ptrs.map s.nodes) :=
    node_list_spec s ptrs node_head hc.1 (Chain_cells s ptrs hc) fuel hfuel
  have hp : ir_print fuel s =
      some (concat_lines ((operands_of (ptrs.map s.nodes)).map print_ops)) := by
    rw [ir_print_eq, hseq, Option.map_some', text_of_ops]
  refine ⟨hseq, hp, by simp only [ir_print_twice, hp, Option.some_bind, Option.map_some'], ?_⟩
  intro s1 fuel1 h1
  rw [hp, ir_print_eq]
  cases hs : node_seq fuel1 s1 with
  | none => rw [hs] at h1; exact Option.noConfusion h1
  | some l =>
    rw [hs, Option.map_some', Option.some.injEq] at h1
    rw [Option.map_some', text_of_ops, h1]

/-- C24 on the state after building `loadI 5 => r1 ; nop`. -/
theorem C24_witness :
    node_seq 3 two_node_state =
      some ([NodePtr.cell 0 0, NodePtr.cell 0 1].map two_node_state.nodes) ∧
    ir_print 3 two_node_state = some (concat_lines ((operands_of
      ([NodePtr.cell 0 0, NodePtr.cell 0 1].map two_node_state.nodes)).map print_ops)) ∧
    ir_print_twice 3 two_node_state = some
      (concat_lines ((operands_of
        ([NodePtr.cell 0 0, NodePtr.cell 0 1].map two_node_state.nodes)).map print_ops),
       concat_lines ((operands_of
        ([NodePtr.cell 0 0, NodePtr.cell 0 1].map two_node_state.nodes)).map print_ops)) ∧
    ∀ (s1 : IRState) (fuel1 : Nat),
      (node_seq fuel1 s1).map operands_of = some (operands_of
        ([NodePtr.cell 0 0, NodePtr.cell 0 1].map two_node_state.nodes)) →
      ir_print fuel1 s1 = ir_print 3 two_node_state :=
  C24_print_reads_the_node_sequence two_node_state [NodePtr.cell 0 0, NodePtr.cell 0 1] 3
    Chain_two_node_state (by decide)

/-! ## The tables of the renamer: size and bounds -/

theorem scan_step_attained (n : IRNode) (m : Int) :
    scan_step n m = m ∨ ∃ sl, (n.get sl).sr = scan_step n m := by
  unfold scan_step
  simp only
  split_ifs
  all_goals first
    | exact Or.inl rfl
    | exact Or.inr ⟨Slot.s1, rfl⟩
    | exact Or.inr ⟨Slot.s2, rfl⟩
    | exact Or.inr ⟨Slot.s3, rfl⟩

theorem scan_max_attained (l : List IRNode) (m : Int) :
    scan_max m l = m ∨ ∃ n ∈ l, ∃ sl, (n.get sl).sr = scan_max m l := by
  induction l generalizing m with
  | nil => exact Or.inl rfl
  | cons x xs ih =>
    unfold scan_max
    rcases ih (scan_step x m) with h | ⟨n, hn, sl, h⟩
    · rcases scan_step_attained x m with h1 | ⟨sl, h1⟩
      · exact Or.inl (by rw [h, h1])
      · exact Or.inr ⟨x, by simp, sl, by rw [h, h1]⟩
    · exact Or.inr ⟨n, List.mem_cons_of_mem _ hn, sl, h⟩

/-- The tables and counters at the entry of the backward loop of ir_rename
on a block built from valid calls. -/
theorem entry_setup (s0 : IRState) (calls : List BuildCall) (hv : ∀ c ∈ calls, c.valid)
    (fuel : Nat) (hfuel : calls.length < fuel) :
    ∃ s ptrs s1 maxlive, build_block s0 calls = some s ∧ Built s ptrs calls ∧
      rename_entry fuel s = some (entry_vars (ptrs.map s.nodes)) ∧
      ir_rename fuel s = some (s1, maxlive) ∧
      List.Forall₂ Matches calls (ptrs.map s.nodes) := by
  obtain ⟨s, ptrs, hb, hbuilt⟩ := build_block_spec s0 calls hv
  have hm := Built_pre s ptrs calls hbuilt
  obtain ⟨hmax, hrange⟩ := Matches_in_range calls _ hv hm
  obtain ⟨out, t, hw⟩ := rename_walk_total _ _ hrange
  have hlen : ptrs.length = calls.length := by
    have := hm.length_eq
    simpa using this.symm
  obtain ⟨e1, -, s1, e3, -⟩ :=
    ir_rename_spec s ptrs hbuilt.1 fuel (by omega) hmax out t hw
  exact ⟨s, ptrs, s1, t.maxlive, hb, hbuilt, e1, e3, hm⟩

/-- C26, amended: for every block built from valid calls (the arity matches
the opcode, operand values are non-negative and below INT_MAX), ir_rename
returns, which in this model means that no access to `SRToVR` or `LU` was out
of bounds, and the indices it uses are in range: the tables have `nSR >= 1`
entries, and the source_id of every slot passed to tag_def (the definition
slot) or to tag_use and the last-use update (the tagged use slots) satisfies
`0 <= index < nSR`. -/
theorem C26_table_indices_in_bounds (s0 : IRState) (calls : List BuildCall) (fuel : Nat)
    (hv : ∀ c ∈ calls, c.valid) (hfuel : calls.length < fuel) :
    ∃ s t0 s1 maxlive, build_block s0 calls = some s ∧ rename_entry fuel s = some t0 ∧
      ir_rename fuel s = some (s1, maxlive) ∧ 1 ≤ t0.nSR ∧
      ∀ c ∈ calls,
        (has_def c.op = true → 0 ≤ c.sr Slot.s3 ∧ c.sr Slot.s3 < t0.nSR) ∧
        (∀ sl ∈ tagged_use_slots c.op, 0 ≤ c.sr sl ∧ c.sr sl < t0.nSR) := by
  obtain ⟨s, ptrs, s1, maxlive, hb, hbuilt, he, hr, hm⟩ := entry_setup s0 calls hv fuel hfuel
  obtain ⟨-, hrange⟩ := Matches_in_range calls _ hv hm
  refine ⟨s, _, s1, maxlive, hb, he, hr, ?_, ?_⟩
  · simp only [entry_vars]
    split_ifs <;> omega
  · intro c hc
    obtain ⟨i, hi⟩ := List.mem_iff_getElem?.mp hc
    obtain ⟨n, hn, hmn⟩ := Forall₂_getElem?_left hm i c hi
    have hnm : n ∈ ptrs.map s.nodes := List.mem_iff_getElem?.mpr ⟨i, hn⟩
    have hsr : ∀ sl, (n.get sl).sr = c.sr sl := fun sl => by rw [hmn.2.2 sl]
    refine ⟨fun hd => ?_, fun sl hsl => ?_⟩
    · have := hrange n hnm Slot.s3 (by
        unfold stamped_slots
        rw [hmn.1, hd]
        simp)
      rwa [hsr] at this
    · have := hrange n hnm sl (tagged_use_sub_stamped _ _ (by rw [hmn.1]; exact hsl))
      rwa [hsr] at this

set_option maxHeartbeats 1000000 in
/-- C26, amended, on the block `loadI 5 => r1 ; output 1`. -/
theorem C26_witness :
    ∃ s t0 s1 maxlive, build_block start_state loadI_output_block = some s ∧
      rename_entry 3 s = some t0 ∧ ir_rename 3 s = some (s1, maxlive) ∧ 1 ≤ t0.nSR ∧
      ∀ c ∈ loadI_output_block,
        (has_def c.op = true → 0 ≤ c.sr Slot.s3 ∧ c.sr Slot.s3 < t0.nSR) ∧
        (∀ sl ∈ tagged_use_slots c.op, 0 ≤ c.sr sl ∧ c.sr sl < t0.nSR) :=
  C26_table_indices_in_bounds start_state loadI_output_block 3 (by decide) (by decide)

/-- C27: the claim fails on the code. For the block `loadI 9 => r1`
ir_rename computes the table size 10, one more than the literal 9, while
1 + the maximum source_id over the register-role slots, which the claim and
section 4.4 of the specification give, is 2: the first loop of ir_rename takes
the maximum over all three slots of every node, whatever the opcode. -/
theorem C27_literal_enlarges_the_tables :
    table_size 2 start_state loadI_block = some 10 ∧ register_role_size loadI_block = 2 ∧
    ∀ c ∈ loadI_block, c.valid := by
  decide

/-- What the code computes: for every block built from valid calls, the
table size `nSR` of ir_rename is 1 + the maximum source_id over all three
slots of all nodes, the literal slots of LoadI and Output included, and 1
when no slot holds a non-negative source_id: `nSR >= 1`, every slot value is
below `nSR`, and either `nSR = 1` or some slot holds `nSR - 1`. -/
theorem table_size_counts_every_slot (s0 : IRState) (calls : List BuildCall) (fuel : Nat)
    (hv : ∀ c ∈ calls, c.valid) (hfuel : calls.length < fuel) :
    ∃ n, table_size fuel s0 calls = some n ∧ 1 ≤ n ∧
      (∀ c ∈ calls, ∀ sl, c.sr sl < n) ∧ (n = 1 ∨ ∃ c ∈ calls, ∃ sl, c.sr sl + 1 = n) := by
  obtain ⟨s, ptrs, s1, maxlive, hb, hbuilt, he, hr, hm⟩ := entry_setup s0 calls hv fuel hfuel
  refine ⟨(entry_vars (ptrs.map s.nodes)).nSR, ?_, ?_, ?_, ?_⟩
  · simp only [table_size, hb, Option.some_bind, he, Option.map_some']
  · simp only [entry_vars]
    split_ifs <;> omega
  · intro c hc sl
    obtain ⟨i, hi⟩ := List.mem_iff_getElem?.mp hc
    obtain ⟨n, hn, hmn⟩ := Forall₂_getElem?_left hm i c hi
    have := entry_vars_nSR (ptrs.map s.nodes) n (List.mem_iff_getElem?.mpr ⟨i, hn⟩) sl
    rwa [hmn.2.2 sl] at this
  · simp only [entry_vars]
    split_ifs with h0
    · rcases scan_max_attained (ptrs.map s.nodes) (-1) with h | ⟨n, hn, sl, h⟩
      · omega
      · obtain ⟨i, hi⟩ := List.mem_iff_getElem?.mp hn
        obtain ⟨c, hc, hmc⟩ := Forall₂_getElem?_right hm i n hi
        exact Or.inr ⟨c, List.mem_iff_getElem?.mpr ⟨i, hc⟩, sl, by rw [← h, hmc.2.2 sl]⟩
    · exact Or.inl rfl

/-- The table size of the block `loadI 9 => r1`. -/
theorem table_size_loadI_block :
    ∃ n, table_size 2 start_state loadI_block = some n ∧ 1 ≤ n ∧
      (∀ c ∈ loadI_block, ∀ sl, c.sr sl < n) ∧
      (n = 1 ∨ ∃ c ∈ loadI_block, ∃ sl, c.sr sl + 1 = n) :=
  table_size_counts_every_slot start_state loadI_block 2 (by decide) (by decide)

/-! ## Two uses of one register -/

theorem rename_walk_at (pre out : List IRNode) (t T : RenameVars)
    (h : rename_walk pre t = some (out, T)) (i : Nat) (ni oi : IRNode)
    (hi : pre[i]? = some ni) (hoi : out[i]? = some oi) :
    ∃ o2 ti t1, rename_walk (pre.drop (i + 1)) t = some (o2, ti) ∧
      rename_body ni ti = some (oi, t1) ∧
      rename_walk (pre.drop i) t = some (oi :: o2, t1) ∧ out.drop i = oi :: o2 := by
  induction pre generalizing out T i with
  | nil => simp at hi
  | cons x xs ih =>
    obtain ⟨o1, t2, x1, h1, h2, rfl⟩ := rename_walk_cons x xs out t T h
    cases i with
    | zero =>
      simp only [List.getElem?_cons_zero, Option.some.injEq] at hi hoi
      subst hi
      subst hoi
      exact ⟨o1, t2, T, by simpa using h1, h2, by simpa using h, rfl⟩
    | succ j =>
      simp only [List.getElem?_cons_succ] at hi hoi
      obtain ⟨o2, ti, t1, e1, e2, e3, e4⟩ := ih o1 t2 h1 j hi hoi
      exact ⟨o2, ti, t1, by simpa using e1, e2, by simpa using e3, by simpa using e4⟩

theorem body_use_ne_def (n n1 : IRNode) (t t1 : RenameVars)
    (h : rename_body n t = some (n1, t1)) (hT : TInv t) (hd : has_def n.opcode = true)
    (sl : Slot) (hsl : sl ∈ tagged_use_slots n.opcode) :
    (n1.get sl).vr ≠ (n1.get Slot.s3).vr := by
  obtain ⟨-, h2, -, -, h5⟩ := rename_body_spec n n1 t t1 h hT
  have hR := h5 hd
  rw [← (h2 sl hsl).1]
  exact hR.2.2 _

theorem walk_stamp_ne_later_def (pre out : List IRNode) (t T : RenameVars)
    (h : rename_walk pre t = some (out, T)) (hT : TInv t)
    (p k : Nat) (np op nk ok : IRNode) (sl : Slot) (hpk : p < k)
    (hp : pre[p]? = some np) (hop : out[p]? = some op)
    (hk : pre[k]? = some nk) (hok : out[k]? = some ok)
    (hdef : has_def nk.opcode = true) (hsl : sl ∈ stamped_slots np.opcode) :
    (op.get sl).vr ≠ (ok.get Slot.s3).vr := by
  induction pre generalizing out T p k with
  | nil => simp at hp
  | cons x xs ih =>
    obtain ⟨o1, t2, x1, h1, h2, rfl⟩ := rename_walk_cons x xs out t T h
    cases k with
    | zero => omega
    | succ k1 =>
      simp only [List.getElem?_cons_succ] at hk hok
      cases p with
      | zero =>
        simp only [List.getElem?_cons_zero, Option.some.injEq] at hp hop
        subst hp
        subst hop
        have hR := walk_def_retired xs o1 t t2 h1 hT k1 nk ok hk hok hdef
        exact (rename_body_retired _ _ _ t2 T h2 (rename_walk_TInv xs o1 t t2 h1 hT) hR).2
          sl hsl
      | succ p1 =>
        simp only [List.getElem?_cons_succ] at hp hop
        exact ih o1 t2 h1 p1 k1 (by omega) hp hop hk hok

theorem exists_last (P : Nat → Prop) (p q k : Nat) (h1 : p ≤ k) (h2 : k < q) (h3 : P k) :
    ∃ m, p ≤ m ∧ m < q ∧ P m ∧ ∀ j, m < j → j < q → ¬ P j := by
  classical
  have hs : p ≤ Nat.findGreatest (fun j => p ≤ j ∧ P j) (q - 1) ∧
      P (Nat.findGreatest (fun j => p ≤ j ∧ P j) (q - 1)) :=
    Nat.findGreatest_spec (P := fun j => p ≤ j ∧ P j) (by omega : k ≤ q - 1) ⟨h1, h3⟩
  have hle : Nat.findGreatest (fun j => p ≤ j ∧ P j) (q - 1) ≤ q - 1 :=
    Nat.findGreatest_le _
  refine ⟨_, hs.1, by omega, hs.2, fun j hj1 hj2 hPj => ?_⟩
  exact Nat.findGreatest_is_greatest hj1 (by omega) ⟨by omega, hPj⟩

/-- Two uses of a register by the walk: the operands at positions `p < q`
carry the same virtual id exactly when no node at `p .. q-1` defines the
register. -/
theorem walk_use_use (pre out : List IRNode) (t T : RenameVars)
    (h : rename_walk pre t = some (out, T)) (hT : TInv t)
    (p q : Nat) (np nq op oq : IRNode) (slp slq : Slot) (hpq : p < q)
    (hp : pre[p]? = some np) (hq : pre[q]? = some nq)
    (hop : out[p]? = some op) (hoq : out[q]? = some oq)
    (hslp : slp ∈ tagged_use_slots np.opcode) (hslq : slq ∈ tagged_use_slots nq.opcode)
    (hr : (np.get slp).sr = (nq.get slq).sr) :
    (op.get slp).vr = (oq.get slq).vr ↔
      ∀ k nk, p ≤ k → k < q → pre[k]? = some nk →
        ¬ (has_def nk.opcode = true ∧ (nk.get Slot.s3).sr = (nq.get slq).sr) := by
  constructor
  · intro heq k nk hk1 hk2 hk hdef
    obtain ⟨m, hm1, hm2, ⟨nm, hnm, hdm⟩, hlast⟩ :=
      exists_last (fun j => ∃ nj, pre[j]? = some nj ∧
        (has_def nj.opcode = true ∧ (nj.get Slot.s3).sr = (nq.get slq).sr)) p q k hk1 hk2
        ⟨nk, hk, hdef⟩
    have hlen := (rename_walk_frame pre t out T h).1
    obtain ⟨om, hom⟩ : ∃ om, out[m]? = some om :=
      getElem?_of_length_eq pre out hlen.symm m nm hnm
    have e1 : (oq.get slq).vr = (om.get Slot.s3).vr :=
      walk_def_use pre out t T h hT m q nm nq om oq slq hm2 hnm hq hom hoq hdm.1 hdm.2 hslq
        (fun j nj hj1 hj2 hj hd => hlast j hj1 hj2 ⟨nj, hj, hd⟩)
    rcases Nat.lt_or_ge p m with hlt | hge
    · exact walk_stamp_ne_later_def pre out t T h hT p m np op nm om slp hlt hp hop hnm hom
        hdm.1 (tagged_use_sub_stamped _ _ hslp) (by rw [heq, e1])
    · have hpm : m = p := by omega
      subst hpm
      rw [hp] at hnm
      rw [hop] at hom
      simp only [Option.some.injEq] at hnm hom
      subst hnm
      subst hom
      obtain ⟨o2, ti, t1, w1, w2, -, -⟩ := rename_walk_at pre out t T h m np op hp hop
      have hTi : TInv ti := rename_walk_TInv _ o2 t ti w1 hT
      exact body_use_ne_def np op ti t1 w2 hTi hdm.1 slp hslp (by rw [heq, e1])
  · intro hno
    obtain ⟨o2, ti, t1, w1, w2, w3, w4⟩ := rename_walk_at pre out t T h p np op hp hop
    have hTi : TInv ti := rename_walk_TInv _ o2 t ti w1 hT
    obtain ⟨-, b2, -, -, -⟩ := rename_body_spec np op ti t1 w2 hTi
    have hq1 : (pre.drop p)[q - p]? = some nq := by
      rw [List.getElem?_drop]
      rw [show p + (q - p) = q by omega]
      exact hq
    have hoq1 : (op :: o2)[q - p]? = some oq := by
      rw [← w4, List.getElem?_drop]
      rw [show p + (q - p) = q by omega]
      exact hoq
    have top := walk_use_top (pre.drop p) (op :: o2) t t1 w3 hT (q - p) nq oq slq hq1 hoq1 hslq
      (fun k nk hk hnk => by
        rw [List.getElem?_drop] at hnk
        exact hno (p + k) nk (by omega) (by omega) hnk)
    rw [← (b2 slp hslp).1, hr, top.1]

/-! ## The claims on two uses of one register -/

/-- C29: for every block built from valid calls and positions `p < q` whose
instructions both use source register `r` in a register-role use slot, the
two use operands carry the same virtual_id after ir_rename if and only if
no instruction at positions `p .. q-1` defines `r` (uses in between do not
matter); and an instruction that both uses and defines `r` gives its use
operand a virtual_id different from that of its own definition operand. -/
theorem C29_uses_share_id_iff_no_definition (s0 : IRState) (calls : List BuildCall)
    (fuel p q : Nat) (cp cq : BuildCall) (slp slq : Slot) (r : Int)
    (hv : ∀ c ∈ calls, c.valid) (hfuel : calls.length < fuel) (hpq : p < q)
    (hp : calls[p]? = some cp) (hq : calls[q]? = some cq)
    (hslp : slp ∈ reg_use_slots cp.op) (hslq : slq ∈ reg_use_slots cq.op)
    (hrp : cp.sr slp = r) (hrq : cq.sr slq = r) :
    ∃ s1 maxlive out op oq, build_and_rename fuel s0 calls = some (s1, maxlive) ∧
      node_seq fuel s1 = some out ∧ out[p]? = some op ∧ out[q]? = some oq ∧
      ((op.get slp).vr = (oq.get slq).vr ↔
        ∀ (k : Nat) (ck : BuildCall), p ≤ k → k < q → calls[k]? = some ck → ¬ ck.defines r) ∧
      (cp.defines r → (op.get slp).vr ≠ (op.get Slot.s3).vr) ∧
      (cq.defines r → (oq.get slq).vr ≠ (oq.get Slot.s3).vr) := by
  obtain ⟨pre, out, t, s1, hm, hw, hbr, -, hseq, hl1, hl2, hT, -⟩ :=
    renamed_setup s0 calls hv fuel hfuel
  obtain ⟨np, hnp, hmp⟩ := Forall₂_getElem?_left hm p cp hp
  obtain ⟨nq, hnq, hmq⟩ := Forall₂_getElem?_left hm q cq hq
  obtain ⟨op, hop⟩ : ∃ x, out[p]? = some x :=
    getElem?_of_length_eq pre out (by omega) p np hnp
  obtain ⟨oq, hoq⟩ : ∃ x, out[q]? = some x :=
    getElem?_of_length_eq pre out (by omega) q nq hnq
  have hup : slp ∈ tagged_use_slots np.opcode :=
    reg_use_sub_tagged _ _ (by rw [hmp.1]; exact hslp)
  have huq : slq ∈ tagged_use_slots nq.opcode :=
    reg_use_sub_tagged _ _ (by rw [hmq.1]; exact hslq)
  have hsp : (np.get slp).sr = r := by rw [hmp.2.2 slp]; exact hrp
  have hsq : (nq.get slq).sr = r := by rw [hmq.2.2 slq]; exact hrq
  have same_node : ∀ (i : Nat) (ci ni oi : IRNode) (sl : Slot), pre[i]? = some ni →
      out[i]? = some oi → sl ∈ tagged_use_slots ni.opcode → has_def ni.opcode = true →
      (oi.get sl).vr ≠ (oi.get Slot.s3).vr := by
    intro i _ ni oi sl hni hoi hsl hd
    obtain ⟨o2, ti, t1, w1, w2, -, -⟩ := rename_walk_at pre out _ t hw i ni oi hni hoi
    exact body_use_ne_def ni oi ti t1 w2 (rename_walk_TInv _ o2 _ ti w1 hT) hd sl hsl
  refine ⟨s1, t.maxlive, out, op, oq, hbr, hseq, hop, hoq, ?_, ?_, ?_⟩
  · rw [walk_use_use pre out _ t hw hT p q np nq op oq slp slq hpq hnp hnq hop hoq hup huq
      (by rw [hsp, hsq]), hsq]
    constructor
    · intro h k ck hk1 hk2 hck hd
      obtain ⟨nk, hnk, hmk⟩ := Forall₂_getElem?_left hm k ck hck
      exact h k nk hk1 hk2 hnk ((Matches_defines ck nk hmk r).mpr hd)
    · intro h k nk hk1 hk2 hnk hd
      obtain ⟨ck, hck, hmk⟩ := Forall₂_getElem?_right hm k nk hnk
      exact h k ck hk1 hk2 hck ((Matches_defines ck nk hmk r).mp hd)
  · intro hd
    exact same_node p np np op slp hnp hop hup (by rw [hmp.1]; exact hd.1)
  · intro hd
    exact same_node q nq nq oq slq hnq hoq huq (by rw [hmq.1]; exact hd.1)

set_option maxHeartbeats 1000000 in
/-- C29 on the block `load r1 => r2 ; add r2, r2 => r2 ; store r2 => r1`, for
the uses of `r2` by the add (position 1) and by the store (position 2). -/
theorem C29_witness :
    ∃ s1 maxlive out op oq, build_and_rename 4 start_state redefine_block = some (s1, maxlive) ∧
      node_seq 4 s1 = some out ∧ out[1]? = some op ∧ out[2]? = some oq ∧
      ((op.get Slot.s1).vr = (oq.get Slot.s1).vr ↔
        ∀ (k : Nat) (ck : BuildCall), 1 ≤ k → k < 2 → redefine_block[k]? = some ck →
          ¬ ck.defines 2) ∧
      (BuildCall.defines { op := IROpcode.IR_ADD, line := 2, nops := 3, args := [2, 2, 2] } 2 →
        (op.get Slot.s1).vr ≠ (op.get Slot.s3).vr) ∧
      (BuildCall.defines { op := IROpcode.IR_STORE, line := 3, nops := 2, args := [2, 1] } 2 →
        (oq.get Slot.s1).vr ≠ (oq.get Slot.s3).vr) :=
  C29_uses_share_id_iff_no_definition start_state redefine_block 4 1 2
    { op := IROpcode.IR_ADD, line := 2, nops := 3, args := [2, 2, 2] }
    { op := IROpcode.IR_STORE, line := 3, nops := 2, args := [2, 1] }
    Slot.s1 Slot.s1 2 (by decide) (by decide) (by decide) rfl rfl (by decide) (by decide)
    rfl rfl

set_option maxHeartbeats 1000000 in
/-- The block `load r1 => r2 ; add r2, r2 => r2 ; store r2 => r1` after
renaming: the use of `r2` by the add carries id 2, its definition and the
use by the store carry id 0. -/
theorem renamed_redefine_block :
    renamed_block 4 start_state redefine_block = some (
      [ (IROpcode.IR_LOAD, ⟨1, 1, -1, 2⟩, ⟨-1, -1, -1, -1⟩, ⟨2, 2, -1, 1⟩),
        (IROpcode.IR_ADD, ⟨2, 2, -1, INT_MAX⟩, ⟨2, 2, -1, INT_MAX⟩, ⟨2, 0, -1, 2⟩),
        (IROpcode.IR_STORE, ⟨2, 0, -1, INT_MAX⟩, ⟨-1, -1, -1, -1⟩, ⟨1, 1, -1, INT_MAX⟩) ], 2) := by
  decide

set_option maxHeartbeats 1000000 in
/-- C28, the claim fails: in the block `add r1, r1 => r1 ; store r1 => r2`
the add has `r1` in both use slots. Before the add is processed (after one
iteration of the backward loop) `last_use[r1]` holds 1, the position of the
store, but both use slots of the add get next_use INT_MAX: the definition
slot of the add is processed first and resets `last_use[r1]`. -/
theorem C28_counterexample :
    renamed_block 3 start_state add_same_block = some (
      [ (IROpcode.IR_ADD, ⟨1, 2, -1, INT_MAX⟩, ⟨1, 2, -1, INT_MAX⟩, ⟨1, 0, -1, 1⟩),
        (IROpcode.IR_STORE, ⟨1, 0, -1, INT_MAX⟩, ⟨-1, -1, -1, -1⟩, ⟨2, 1, -1, INT_MAX⟩) ], 2) ∧
    (vars_after_steps 3 1 start_state add_same_block).map (fun t => t.LU 1) = some 1 ∧
    ∀ c ∈ add_same_block, c.valid := by
  refine ⟨by decide, by decide, by decide⟩

/-- C28, amended: for every block built from valid calls and every
instruction `i` with two register-role use slots that name the same source
register `r`, ir_rename stamps both use slots with the same virtual_id and
the same next_use; that next_use is the value `last_use[r]` held before the
instruction was processed (`tpre.LU r`, the table after the instructions
behind `i`) when the instruction does not define `r`, and INT_MAX when it
does; it is INT_MAX or a position after `i`, never `i` itself. -/
theorem C28_same_register_in_both_use_slots (s0 : IRState) (calls : List BuildCall)
    (fuel i : Nat) (ci : BuildCall) (sl1 sl2 : Slot) (r : Int)
    (hv : ∀ c ∈ calls, c.valid) (hfuel : calls.length < fuel)
    (hi : calls[i]? = some ci)
    (h1 : sl1 ∈ reg_use_slots ci.op) (h2 : sl2 ∈ reg_use_slots ci.op)
    (hr1 : ci.sr sl1 = r) (hr2 : ci.sr sl2 = r) :
    ∃ s1 maxlive out oi tpre, build_and_rename fuel s0 calls = some (s1, maxlive) ∧
      node_seq fuel s1 = some out ∧ out[i]? = some oi ∧
      vars_after_steps fuel (calls.length - 1 - i) s0 calls = some tpre ∧
      (oi.get sl1).vr = (oi.get sl2).vr ∧ (oi.get sl1).nu = (oi.get sl2).nu ∧
      (oi.get sl1).nu = (if ci.defines r then INT_MAX else tpre.LU r) ∧
      ((oi.get sl1).nu = INT_MAX ∨ (i : Int) < (oi.get sl1).nu) := by
  have hlt : i < calls.length := by
    by_contra hge
    rw [List.getElem?_eq_none (by omega)] at hi
    exact Option.noConfusion hi
  obtain ⟨pre, outs, tm, hm, ⟨out, t, hw, s1, hbr, hseq⟩, hwd, hvars⟩ :=
    vars_after_steps_spec s0 calls hv fuel hfuel (calls.length - 1 - i) (by omega)
  rw [show calls.length - (calls.length - 1 - i) = i + 1 by omega] at hwd
  have hlen := hm.length_eq
  have hlen2 := (rename_walk_frame pre _ out t hw).1
  obtain ⟨ni, hni, hmi⟩ := Forall₂_getElem?_left hm i ci hi
  obtain ⟨oi, hoi⟩ : ∃ x, out[i]? = some x :=
    getElem?_of_length_eq pre out (by omega) i ni hni
  obtain ⟨o2, ti, t1, w1, w2, -, -⟩ := rename_walk_at pre out _ t hw i ni oi hni hoi
  rw [hwd] at w1
  simp only [Option.some.injEq, Prod.mk.injEq] at w1
  obtain ⟨-, rfl⟩ := w1
  have hT0 : TInv (entry_vars pre) := (SInv_init (entry_vars pre) rfl (fun _ => rfl)).1
  have hTi : TInv tm := rename_walk_TInv _ outs _ tm hwd hT0
  obtain ⟨-, b2, -, -, -⟩ := rename_body_spec ni oi tm t1 w2 hTi
  obtain ⟨-, -, l3⟩ := rename_body_LU ni oi tm t1 w2
  have hu1 : sl1 ∈ tagged_use_slots ni.opcode :=
    reg_use_sub_tagged _ _ (by rw [hmi.1]; exact h1)
  have hu2 : sl2 ∈ tagged_use_slots ni.opcode :=
    reg_use_sub_tagged _ _ (by rw [hmi.1]; exact h2)
  have hs1 : (ni.get sl1).sr = r := by rw [hmi.2.2 sl1]; exact hr1
  have hs2 : (ni.get sl2).sr = r := by rw [hmi.2.2 sl2]; exact hr2
  have hd : node_defines ni r ↔ ci.defines r := Matches_defines ci ni hmi r
  have n1 : (oi.get sl1).nu = if ci.defines r then INT_MAX else tm.LU r := by
    rw [l3 sl1 hu1, hs1]
    simp only [hd]
  have n2 : (oi.get sl2).nu = if ci.defines r then INT_MAX else tm.LU r := by
    rw [l3 sl2 hu2, hs2]
    simp only [hd]
  have hLU : tm.LU r = next_use_nodes (pre.drop (i + 1)) ((i : Int) + 1) r :=
    walk_LU (pre.drop (i + 1)) outs (entry_vars pre) tm ((i : Int) + 1) hwd (fun _ => rfl)
      (by
        simp only [entry_vars, List.length_drop]
        have : i + 1 ≤ pre.length := by omega
        push_cast [this]
        ring) r
  refine ⟨s1, t.maxlive, out, oi, tm, hbr, hseq, hoi, hvars, ?_, by rw [n1, n2], n1, ?_⟩
  · rw [← (b2 sl1 hu1).1, ← (b2 sl2 hu2).1, hs1, hs2]
  · rw [n1]
    split_ifs
    · exact Or.inl rfl
    · rw [hLU]
      rcases next_use_nodes_range (pre.drop (i + 1)) ((i : Int) + 1) r with h | h
      · exact Or.inl h
      · exact Or.inr (by omega)

set_option maxHeartbeats 1000000 in
/-- C28 (amended) on the add of the worked scenario `loadI 5 => r1 ;
add r1, r1 => r2 ; store r2 => r3`. -/
theorem C28_witness :
    ∃ s1 maxlive out oi tpre, build_and_rename 4 start_state worked_block = some (s1, maxlive) ∧
      node_seq 4 s1 = some out ∧ out[1]? = some oi ∧
      vars_after_steps 4 (worked_block.length - 1 - 1) start_state worked_block = some tpre ∧
      (oi.get Slot.s1).vr = (oi.get Slot.s2).vr ∧ (oi.get Slot.s1).nu = (oi.get Slot.s2).nu ∧
      (oi.get Slot.s1).nu =
        (if BuildCall.defines { op := IROpcode.IR_ADD, line := 2, nops := 3, args := [1, 1, 2] } 1
          then INT_MAX else tpre.LU 1) ∧
      ((oi.get Slot.s1).nu = INT_MAX ∨ ((1 : Nat) : Int) < (oi.get Slot.s1).nu) :=
  C28_same_register_in_both_use_slots start_state worked_block 4 1
    { op := IROpcode.IR_ADD, line := 2, nops := 3, args := [1, 1, 2] } Slot.s1 Slot.s2 1
    (by decide) (by decide) rfl (by decide) (by decide) rfl rfl

/-! ## The pool list under ir_new_node -/

theorem insert_into_pool_list_eff (s : IRState) (p tail : PoolPtr) (hp : p ≠ PoolPtr.null)
    (htail : (s.pools pool_head).prev = tail) (ht : tail ≠ PoolPtr.null) :
    ∃ s1, insert_into_pool_list s p = some s1 ∧ s1.nodes = s.nodes ∧ s1.npools = s.npools ∧
      (∀ x, (s1.pools x).next =
        if x = p then pool_head else if x = tail then p else (s.pools x).next) ∧
      (∀ x, (s1.pools x).prev =
        if x = pool_head then p else if x = p then tail else (s.pools x).prev) ∧
      (∀ x, (s1.pools x).next_free = (s.pools x).next_free) := by
  simp only [insert_into_pool_list, htail, hp, ht, or_self, if_false]
  clear htail
  refine ⟨_, rfl, rfl, rfl, ?_, ?_, ?_⟩
  · intro x
    simp only [setPool_pools]
    split_ifs <;> subst_vars <;> simp_all
  · intro x
    simp only [setPool_pools]
    split_ifs <;> subst_vars <;> simp_all
  · intro x
    simp only [setPool_pools]
    split_ifs <;> subst_vars <;> simp_all

theorem getLast_cons_head {α : Type} (a : α) (l : List α) :
    (a :: l).getLast (by simp) = (l.reverse.head?).getD a := by
  induction l generalizing a with
  | nil => simp
  | cons b rest ih =>
    rw [List.getLast_cons (by simp), ih b]
    simp only [List.reverse_cons, List.head?_append, List.head?_reverse]
    cases rest.getLast? <;> simp

theorem Linked_snoc {α : Type} [DecidableEq α] (nx nx1 : α → α) (hd a n : α) (l : List α)
    (hnd : (a :: l).Nodup) (hn : n ∉ a :: l)
    (hnext : ∀ x, nx1 x =
        if x = n then hd else if x = (a :: l).getLast (by simp) then n else nx x)
    (hl : Linked nx hd a l) : Linked nx1 hd a (l ++ [n]) := by
  induction l generalizing a with
  | nil =>
    have han : a ≠ n := fun h => hn (by simp [h])
    simp [Linked, hnext, han]
  | cons b rest ih =>
    obtain ⟨h1, h2⟩ := hl
    have han : a ≠ n := fun h => hn (by simp [h])
    have hlast : (a :: b :: rest).getLast (by simp) = (b :: rest).getLast (by simp) := by
      simp [List.getLast_cons]
    have hal : a ≠ (b :: rest).getLast (by simp) := by
      intro h
      have : a ∈ b :: rest := h ▸ List.getLast_mem _
      exact (List.nodup_cons.mp hnd).1 this
    refine ⟨?_, ih b (List.nodup_cons.mp hnd).2 (fun h => hn (List.mem_cons_of_mem _ h)) ?_ h2⟩
    · rw [hnext a, if_neg han, hlast, if_neg hal]; exact h1
    · intro x; rw [hnext x, hlast]

theorem PoolChain_tail (s : IRState) (pl : List PoolPtr) (h : PoolChain s pl) :
    (s.pools pool_head).prev = (pl.reverse.head?).getD pool_head := by
  obtain ⟨-, hb, -, -⟩ := h
  cases hr : pl.reverse with
  | nil => rw [hr] at hb; simpa [Linked] using hb
  | cons b rest => rw [hr] at hb; simpa [Linked] using hb.1

theorem PoolChain_congr (s s1 : IRState) (pl : List PoolPtr)
    (h : ∀ x, (s1.pools x).next = (s.pools x).next ∧ (s1.pools x).prev = (s.pools x).prev)
    (hc : PoolChain s pl) : PoolChain s1 pl :=
  ⟨Linked_congr _ _ _ _ _ (fun x _ => (h x).1) hc.1,
   Linked_congr _ _ _ _ _ (fun x _ => (h x).2) hc.2.1, hc.2.2.1, hc.2.2.2⟩

theorem PoolChain_snoc (s s1 : IRState) (pl : List PoolPtr) (p : PoolPtr)
    (hc : PoolChain s pl) (hn : p ∉ pl) (hp : p ≠ pool_head) (hp0 : p ≠ PoolPtr.null)
    (hnext : ∀ x, (s1.pools x).next =
        if x = p then pool_head
        else if x = (s.pools pool_head).prev then p else (s.pools x).next)
    (hprev : ∀ x, (s1.pools x).prev =
        if x = pool_head then p
        else if x = p then (s.pools pool_head).prev else (s.pools x).prev) :
    PoolChain s1 (pl ++ [p]) := by
  have htail := PoolChain_tail s pl hc
  obtain ⟨hf, hb, hnd, hcell⟩ := hc
  have hhead : pool_head ∉ pl := fun h => (hcell _ h).1 rfl
  refine ⟨?_, ?_, ?_, ?_⟩
  · apply Linked_snoc _ _ pool_head pool_head p pl
        (List.nodup_cons.mpr ⟨hhead, hnd⟩) _ _ hf
    · simp only [List.mem_cons, not_or]
      exact ⟨hp, hn⟩
    · intro x
      rw [hnext x, getLast_cons_head, htail]
  · rw [List.reverse_append]
    refine ⟨by simp [hprev], ?_⟩
    cases hr : pl.reverse with
    | nil =>
      rw [hr] at htail
      simp only [List.head?_nil, Option.getD_none] at htail
      simp [Linked, hprev, htail, hp]
    | cons b rest =>
      rw [hr] at htail hb
      have hmem : ∀ x ∈ b :: rest, x ∈ pl := by
        intro x hx
        rw [← hr] at hx
        exact List.mem_reverse.mp hx
      simp only [List.head?_cons, Option.getD_some] at htail
      refine ⟨by simp [hprev, htail, hp], ?_⟩
      apply Linked_congr _ _ _ b rest _ hb.2
      intro x hx
      have hx1 := hmem x hx
      have h1 : x ≠ pool_head := fun h => hhead (h ▸ hx1)
      have h2 : x ≠ p := fun h => hn (h ▸ hx1)
      simp only [hprev x, if_neg h1, if_neg h2]
  · rw [List.nodup_append]
    refine ⟨hnd, by simp, ?_⟩
    intro x hx hx2
    simp only [List.mem_singleton] at hx2
    exact hn (hx2 ▸ hx)
  · intro x hx
    rw [List.mem_append] at hx
    rcases hx with hx | hx
    · exact hcell x hx
    · simp only [List.mem_singleton] at hx
      subst hx
      exact ⟨hp, hp0⟩

/-! ## The arena after `n` calls of ir_new_node -/

theorem pools_from_succ (base P : Nat) :
    pools_from base (P + 1) = pools_from base P ++ [PoolPtr.pool (base + P)] := by
  simp [pools_from, List.range_succ]

theorem cells_from_succ (base n : Nat) :
    cells_from base (n + 1) =
      cells_from base n ++ [NodePtr.cell (base + n / 2000) (n % 2000)] := by
  simp [cells_from, List.range_succ]

theorem mem_pools_from (base P : Nat) (x : PoolPtr) :
    x ∈ pools_from base P ↔ ∃ k, k < P ∧ x = PoolPtr.pool (base + k) := by
  simp only [pools_from, List.mem_map, List.mem_range]
  constructor
  · rintro ⟨k, hk, rfl⟩; exact ⟨k, hk, rfl⟩
  · rintro ⟨k, hk, rfl⟩; exact ⟨k, hk, rfl⟩

theorem mem_cells_from (base n : Nat) (x : NodePtr) :
    x ∈ cells_from base n ↔ ∃ j, j < n ∧ x = NodePtr.cell (base + j / 2000) (j % 2000) := by
  simp only [cells_from, List.mem_map, List.mem_range]
  constructor
  · rintro ⟨k, hk, rfl⟩; exact ⟨k, hk, rfl⟩
  · rintro ⟨k, hk, rfl⟩; exact ⟨k, hk, rfl⟩

theorem pools_from_tail (base P : Nat) :
    ((pools_from base P).reverse.head?).getD pool_head =
      if P = 0 then pool_head else PoolPtr.pool (base + (P - 1)) := by
  cases P with
  | zero => simp [pools_from]
  | succ Q => rw [pools_from_succ]; simp

theorem new_pool_eff (s : IRState) (pl : List PoolPtr) (hc : PoolChain s pl)
    (hn : PoolPtr.pool s.npools ∉ pl) :
    ∃ sA, new_pool s = some (sA, PoolPtr.pool s.npools) ∧ sA.nodes = s.nodes ∧
      sA.npools = s.npools + 1 ∧ PoolChain sA (pl ++ [PoolPtr.pool s.npools]) ∧
      (sA.pools (PoolPtr.pool s.npools)).next_free = 0 ∧
      (∀ x, x ≠ PoolPtr.pool s.npools → (sA.pools x).next_free = (s.pools x).next_free) := by
  generalize hs2 : ({ s with npools := s.npools + 1 } : IRState).setPool (PoolPtr.pool s.npools)
      (fun x => { x with next_free := 0 }) = s2
  have hlinks : ∀ x, (s2.pools x).next = (s.pools x).next ∧
      (s2.pools x).prev = (s.pools x).prev := by
    intro x
    subst hs2
    simp only [setPool_pools]
    split_ifs with h
    · subst h; exact ⟨rfl, rfl⟩
    · exact ⟨rfl, rfl⟩
  have hc2 : PoolChain s2 pl := PoolChain_congr s s2 pl hlinks hc
  have htl := PoolChain_tail s2 pl hc2
  have hnn : (s2.pools pool_head).prev ≠ PoolPtr.null := by
    rw [htl]
    cases hr : pl.reverse.head? with
    | none => simp
    | some b =>
      have hb : b ∈ pl := List.mem_reverse.mp (List.mem_of_mem_head? hr)
      simpa using (hc.2.2.2 b hb).2
  obtain ⟨s3, h3, hn3, hnp3, hnext, hprev, hnf⟩ :=
    insert_into_pool_list_eff s2 (PoolPtr.pool s.npools) _ (by simp) rfl hnn
  refine ⟨s3, ?_, ?_, ?_, ?_, ?_, ?_⟩
  · simp only [new_pool, hs2, h3, Option.map_some']
  · rw [hn3, ← hs2]; rfl
  · rw [hnp3, ← hs2]; rfl
  · exact PoolChain_snoc s2 s3 pl _ hc2 hn (by simp) (by simp) hnext hprev
  · rw [hnf, ← hs2]; simp
  · intro x hx
    rw [hnf, ← hs2]
    simp [hx]

/-- One call of ir_new_node in the arena: it returns cell `n % 2000` of pool
`n / 2000`, and it allocates a pool exactly when there is no pool or the tail
pool is full. -/
theorem Arena_step (s : IRState) (base n : Nat) (op : IROpcode) (line : Int)
    (h : Arena s base n) :
    ∃ s1, ir_new_node s op line =
        some (s1, NodePtr.cell (base + n / 2000) (n % 2000)) ∧
      Arena s1 base (n + 1) ∧
      (s1.npools = s.npools + 1 ∨ s1.npools = s.npools) ∧
      (s1.npools = s.npools + 1 ↔
        ((s.pools pool_head).prev = pool_head ∨
          (s.pools (s.pools pool_head).prev).next_free = POOL_SIZE)) := by
  obtain ⟨hnp, hpc, hnf, hch⟩ := h
  have htail := PoolChain_tail s _ hpc
  rw [pools_from_tail] at htail
  have hnn : (s.pools pool_head).prev ≠ PoolPtr.null := by
    rw [htail]; split_ifs <;> simp
  by_cases hmod : n % 2000 = 0
  · -- a new pool is allocated
    have hP : (n + 1999) / 2000 = n / 2000 := by omega
    have hP1 : (n + 1 + 1999) / 2000 = n / 2000 + 1 := by omega
    rw [hP] at hnp hpc hnf htail
    have hcond : (s.pools pool_head).prev = pool_head ∨
        (s.pools (s.pools pool_head).prev).next_free = POOL_SIZE := by
      by_cases h0 : n / 2000 = 0
      · left; rw [htail, if_pos h0]
      · right
        rw [htail, if_neg h0, hnf (n / 2000 - 1) (by omega)]
        have : min 2000 (n - 2000 * (n / 2000 - 1)) = 2000 := by omega
        rw [this]; rfl
    have hcond2 : (s.pools pool_head).prev = pool_head ∨
        (s.pools (s.pools pool_head).prev).next_free ≥ POOL_SIZE := by
      rcases hcond with h | h
      · exact Or.inl h
      · exact Or.inr (by rw [h])
    have hfreshp : PoolPtr.pool s.npools ∉ pools_from base (n / 2000) := by
      rw [mem_pools_from]
      rintro ⟨k, hk, e⟩
      simp only [PoolPtr.pool.injEq] at e
      omega
    obtain ⟨sA, hA, hAn, hAnp, hApc, hAnf, hAold⟩ := new_pool_eff s _ hpc hfreshp
    have hcA : Chain sA (cells_from base n) :=
      Chain_congr s sA _ (fun x => by rw [hAn]; simp) hch
    have hfresh : NodePtr.cell s.npools (0 : Int).toNat ∉ cells_from base n := by
      rw [mem_cells_from]
      rintro ⟨j, hj, e⟩
      simp only [NodePtr.cell.injEq] at e
      omega
    obtain ⟨s6, h6, hc6, hnp6, hpools6, -⟩ :=
      new_node_in_spec sA _ s.npools op line 0 hcA hAnf (le_refl 0) (by decide) hfresh
    have hidx : NodePtr.cell s.npools (0 : Int).toNat =
        NodePtr.cell (base + n / 2000) (n % 2000) := by
      rw [hnp, hmod]; rfl
    rw [hidx] at h6 hc6
    refine ⟨s6, ?_, ⟨?_, ?_, ?_, ?_⟩, Or.inl (by rw [hnp6, hAnp]), ?_⟩
    · rw [ir_new_node_eq, if_neg hnn, if_pos hcond2, hA]
      exact h6
    · rw [hnp6, hAnp, hnp, hP1]; omega
    · rw [hP1, pools_from_succ, ← hnp]
      refine PoolChain_congr sA s6 _ (fun x => ?_) hApc
      rw [hpools6]
      split_ifs <;> exact ⟨rfl, rfl⟩
    · intro k hk
      rw [hP1] at hk
      rw [hpools6]
      by_cases hkl : k = n / 2000
      · subst hkl
        rw [if_pos (by rw [hnp])]
        have : min 2000 (n + 1 - 2000 * (n / 2000)) = 1 := by omega
        rw [this]
        rfl
      · rw [if_neg (by rw [hnp]; simp; omega), hAold _ (by rw [hnp]; simp; omega),
          hnf k (by omega)]
        have : min 2000 (n + 1 - 2000 * k) = min 2000 (n - 2000 * k) := by omega
        rw [this]
    · rw [cells_from_succ]
      exact hc6
    · constructor
      · intro _; exact hcond
      · intro _; rw [hnp6, hAnp]
  · -- the tail pool has room
    have hP : (n + 1999) / 2000 = n / 2000 + 1 := by omega
    have hP1 : (n + 1 + 1999) / 2000 = n / 2000 + 1 := by omega
    rw [hP] at hnp hpc hnf htail
    rw [if_neg (by omega)] at htail
    simp only [Nat.add_sub_cancel] at htail
    have hi : (s.pools (PoolPtr.pool (base + n / 2000))).next_free = ((n % 2000 : Nat) : Int) := by
      rw [hnf (n / 2000) (by omega)]
      have : min 2000 (n - 2000 * (n / 2000)) = n % 2000 := by omega
      rw [this]
    have hlt : ((n % 2000 : Nat) : Int) < POOL_SIZE := by
      have : n % 2000 < 2000 := Nat.mod_lt _ (by decide)
      unfold POOL_SIZE
      omega
    have hncond : ¬ ((s.pools pool_head).prev = pool_head ∨
        (s.pools (s.pools pool_head).prev).next_free ≥ POOL_SIZE) := by
      rw [htail, hi]
      push_neg
      exact ⟨by simp, hlt⟩
    have hncond1 : ¬ ((s.pools pool_head).prev = pool_head ∨
        (s.pools (s.pools pool_head).prev).next_free = POOL_SIZE) := by
      rw [htail, hi]
      push_neg
      exact ⟨by simp, by omega⟩
    have hfresh : NodePtr.cell (base + n / 2000) ((n % 2000 : Nat) : Int).toNat ∉
        cells_from base n := by
      rw [mem_cells_from]
      rintro ⟨j, hj, e⟩
      simp only [NodePtr.cell.injEq, Int.toNat_ofNat] at e
      omega
    obtain ⟨s6, h6, hc6, hnp6, hpools6, -⟩ :=
      new_node_in_spec s _ (base + n / 2000) op line _ hch hi (by omega) hlt hfresh
    simp only [Int.toNat_ofNat] at h6 hc6
    refine ⟨s6, ?_, ⟨?_, ?_, ?_, ?_⟩, Or.inr hnp6, ?_⟩
    · rw [ir_new_node_eq, if_neg hnn, if_neg hncond]
      simp only [Option.some_bind, htail]
      exact h6
    · rw [hnp6, hnp, hP1]
    · rw [hP1]
      refine PoolChain_congr s s6 _ (fun x => ?_) hpc
      rw [hpools6]
      split_ifs <;> exact ⟨rfl, rfl⟩
    · intro k hk
      rw [hP1] at hk
      rw [hpools6]
      by_cases hkl : k = n / 2000
      · subst hkl
        rw [if_pos rfl]
        show ((n % 2000 : Nat) : Int) + 1 = _
        have : min 2000 (n + 1 - 2000 * (n / 2000)) = n % 2000 + 1 := by omega
        rw [this]
        push_cast
        rfl
      · rw [if_neg (by simp; omega), hnf k (by omega)]
        have : min 2000 (n + 1 - 2000 * k) = min 2000 (n - 2000 * k) := by omega
        rw [this]
    · rw [cells_from_succ]
      exact hc6
    · constructor
      · intro e; rw [hnp6] at e; omega
      · intro e; exact absurd e hncond1

theorem Arena_init (s0 : IRState) : Arena (init_node_list (init_pool_list s0)) s0.npools 0 := by
  refine ⟨rfl, ⟨?_, ?_, by simp [pools_from], by simp [pools_from]⟩, ?_, (Built_init s0).1⟩
  · show ((init_node_list (init_pool_list s0)).pools pool_head).next = pool_head
    simp [init_node_list, init_pool_list]
  · show ((init_node_list (init_pool_list s0)).pools pool_head).prev = pool_head
    simp [init_node_list, init_pool_list]
  · intro k hk
    simp at hk

theorem new_nodes_spec (reqs : List (IROpcode × Int)) (s : IRState) (base n : Nat)
    (h : Arena s base n) :
    ∃ s1, new_nodes s reqs = some (s1, (List.range reqs.length).map
        (fun j => NodePtr.cell (base + (n + j) / 2000) ((n + j) % 2000))) ∧
      Arena s1 base (n + reqs.length) := by
  induction reqs generalizing s n with
  | nil => exact ⟨s, rfl, h⟩
  | cons r rest ih =>
    obtain ⟨s1, h1, hA, -, -⟩ := Arena_step s base n r.1 r.2 h
    obtain ⟨s2, h2, hA2⟩ := ih s1 (n + 1) hA
    refine ⟨s2, ?_, by rw [List.length_cons, ← Nat.add_assoc, Nat.add_right_comm]; exact hA2⟩
    simp only [new_nodes, h1, Option.some_bind, h2, Option.map_some', List.length_cons,
      List.range_succ_eq_map, List.map_cons, List.map_map, Nat.add_zero]
    congr 3
    apply List.map_congr_left
    intro j _
    simp only [Function.comp_apply]
    rw [show n + 1 + j = n + (j + 1) by omega]

/-- C30: after `init_pool_list(); init_node_list();` on any memory, `n`
calls of ir_new_node return, and with `P = ceil(n / 2000)`: the nodes
returned are the cells `(j / 2000, j % 2000)` for `j < n` of the pools created
by these calls, pairwise distinct; exactly `P` pools have been allocated, and
the forward traversal of the pool list visits them in creation order; every
pool but the last has `next_free = 2000`; when `n > 0` the tail pool is the
last one created, and its `next_free` is `n - 2000 (P - 1)`, which lies in
`1 .. 2000`; and the next call of ir_new_node allocates a pool if and only if
there is no pool or the tail pool is full. -/
theorem C30_pool_list_after_n_nodes (s0 : IRState) (reqs : List (IROpcode × Int)) :
    ∃ s ps, new_nodes (init_node_list (init_pool_list s0)) reqs = some (s, ps) ∧
      ps = cells_from s0.npools reqs.length ∧ ps.Nodup ∧
      s.npools = s0.npools + (reqs.length + 1999) / 2000 ∧
      fwd_pools ((reqs.length + 1999) / 2000 + 1) s (s.pools pool_head).next =
        some (pools_from s0.npools ((reqs.length + 1999) / 2000)) ∧
      (∀ k, k + 1 < (reqs.length + 1999) / 2000 →
        (s.pools (PoolPtr.pool (s0.npools + k))).next_free = 2000) ∧
      (0 < reqs.length →
        (s.pools pool_head).prev =
          PoolPtr.pool (s0.npools + ((reqs.length + 1999) / 2000 - 1)) ∧
        (s.pools (s.pools pool_head).prev).next_free =
          (reqs.length : Int) - 2000 * ((((reqs.length + 1999) / 2000 : Nat) : Int) - 1) ∧
        0 < (s.pools (s.pools pool_head).prev).next_free ∧
        (s.pools (s.pools pool_head).prev).next_free ≤ 2000) ∧
      ∀ (op : IROpcode) (line : Int), ∃ s1 p, ir_new_node s op line = some (s1, p) ∧
        (s1.npools = s.npools + 1 ∨ s1.npools = s.npools) ∧
        (s1.npools = s.npools + 1 ↔
          ((s.pools pool_head).prev = pool_head ∨
            (s.pools (s.pools pool_head).prev).next_free = POOL_SIZE)) := by
  obtain ⟨s, hs, hA⟩ := new_nodes_spec reqs _ s0.npools 0 (Arena_init s0)
  simp only [Nat.zero_add] at hs hA
  obtain ⟨hnp, hpc, hnf, hch⟩ := hA
  have htail := PoolChain_tail s _ hpc
  rw [pools_from_tail] at htail
  refine ⟨s, _, hs, rfl, hch.2.2.1, hnp, ?_, ?_, ?_, ?_⟩
  · exact fwd_pools_spec s _ pool_head hpc.1 hpc.2.2.2 _ (by simp [pools_from])
  · intro k hk
    rw [hnf k (by omega)]
    have : min 2000 (reqs.length - 2000 * k) = 2000 := by omega
    rw [this]
    rfl
  · intro hpos
    have hP : (reqs.length + 1999) / 2000 ≠ 0 := by omega
    rw [if_neg hP] at htail
    rw [htail, hnf _ (by omega)]
    refine ⟨rfl, ?_, ?_, ?_⟩ <;> omega
  · intro op line
    obtain ⟨s1, h1, -, h3, h4⟩ := Arena_step s s0.npools reqs.length op line
      ⟨hnp, hpc, hnf, hch⟩
    exact ⟨s1, _, h1, h3, h4⟩

/-! ## The parser builds valid calls -/

theorem TokRange_eof : TokRange eof_token := by
  intro h
  rcases h with h | h <;> simp [eof_token] at h

theorem TokRange_fst (l : List Token) (h : ∀ t ∈ l, TokRange t) :
    TokRange (pop_token l).1 := by
  cases l with
  | nil => exact TokRange_eof
  | cons t rest => exact h t (by simp)

theorem InputRange_snd (l : List Token) (h : ∀ t ∈ l, TokRange t) :
    ∀ t ∈ (pop_token l).2, TokRange t := by
  intro t ht
  exact h t ((pop_token_suffix l).subset ht)

theorem valid_enough (c : BuildCall) (hv : c.valid) : c.enough_args := by
  obtain ⟨h1, h2, -⟩ := hv
  refine ⟨fun h => ?_, fun h => ?_, fun h => ?_⟩ <;>
    · rw [h] at h1
      have : (arity c.op : Int) = c.args.length := by rw [h2]
      omega

theorem build_and_count_valid (x : ParserState) (op : IROpcode) (line nops : Int)
    (args : List Int) (hinv : ValidIR x.ir) (hc : BuildCall.valid ⟨op, line, nops, args⟩) :
    ∃ st1, build_and_count x op line nops args = some st1 ∧ st1.input = x.input ∧
      ValidIR st1.ir := by
  obtain ⟨ptrs, calls, hb, hv⟩ := hinv
  obtain ⟨s1, p, e1, e2⟩ :=
    build_and_count_built x ⟨op, line, nops, args⟩ ptrs calls hb (valid_enough _ hc)
  refine ⟨_, e1, rfl, ptrs ++ [p], calls ++ [⟨op, line, nops, args⟩], e2, ?_⟩
  intro c hcm
  rcases List.mem_append.mp hcm with h | h
  · exact hv c h
  · simp only [List.mem_singleton] at h
    subst h
    exact hc

theorem valid_two (op : IROpcode) (line a b : Int) (ha : 0 ≤ a ∧ a < INT_MAX)
    (hb : 0 ≤ b ∧ b < INT_MAX)
    (hop : op = IROpcode.IR_LOAD ∨ op = IROpcode.IR_STORE ∨ op = IROpcode.IR_LOADI) :
    BuildCall.valid ⟨op, line, 2, [a, b]⟩ := by
  obtain ⟨a0, a1⟩ := ha
  obtain ⟨b0, b1⟩ := hb
  rcases hop with rfl | rfl | rfl <;>
    simp [BuildCall.valid, arity, has_def, tagged_use_slots, BuildCall.sr, a0, a1, b0, b1]

theorem valid_three (op : IROpcode) (line a b c : Int) (ha : 0 ≤ a ∧ a < INT_MAX)
    (hb : 0 ≤ b ∧ b < INT_MAX) (hc : 0 ≤ c ∧ c < INT_MAX)
    (hop : op = IROpcode.IR_ADD ∨ op = IROpcode.IR_SUB ∨ op = IROpcode.IR_MULT ∨
      op = IROpcode.IR_LSHIFT ∨ op = IROpcode.IR_RSHIFT) :
    BuildCall.valid ⟨op, line, 3, [a, b, c]⟩ := by
  obtain ⟨a0, a1⟩ := ha
  obtain ⟨b0, b1⟩ := hb
  obtain ⟨c0, c1⟩ := hc
  rcases hop with rfl | rfl | rfl | rfl | rfl <;>
    simp [BuildCall.valid, arity, has_def, tagged_use_slots, BuildCall.sr, a0, a1, b0, b1,
      c0, c1]

theorem valid_one (line a : Int) (ha : 0 ≤ a ∧ a < INT_MAX) :
    BuildCall.valid ⟨IROpcode.IR_OUTPUT, line, 1, [a]⟩ := by
  obtain ⟨a0, a1⟩ := ha
  simp [BuildCall.valid, arity, has_def, tagged_use_slots, BuildCall.sr, a0, a1]

theorem valid_zero (line : Int) : BuildCall.valid ⟨IROpcode.IR_NOP, line, 0, []⟩ := by
  simp [BuildCall.valid, arity, has_def, tagged_use_slots]

/-! ## The finish functions keep the block valid -/

theorem finish_output_valid (line : Int) (st : ParserState)
    (hok : ∀ t ∈ st.input, TokRange t) (hinv : ValidIR st.ir) :
    ∃ st1, finish_output line st = some st1 ∧ st1.input <:+ st.input ∧ ValidIR st1.ir := by
  unfold finish_output
  simp only []
  split_ifs with h1 h2
  · exact ⟨_, rfl, suffix_err _ _ (suffix_next _ _ (List.suffix_refl _)), hinv⟩
  · exact ⟨_, rfl, suffix_err _ _ (suffix_next _ _ (suffix_next _ _ (List.suffix_refl _))),
      hinv⟩
  · have v0 :=
      TokRange_fst _ hok (Or.inl (not_not.mp h1))
    obtain ⟨st1, e1, e2, e3⟩ := build_and_count_valid
      (next_word { next_word st with tb0 := (next_word st).word }) IROpcode.IR_OUTPUT line 1
      [(pop_token st.input).1.value] hinv (valid_one line _ v0)
    exact ⟨st1, e1, by
      rw [e2]; exact suffix_next _ _ (suffix_next _ _ (List.suffix_refl _)), e3⟩

theorem finish_nop_valid (line : Int) (st : ParserState) (hinv : ValidIR st.ir) :
    ∃ st1, finish_nop line st = some st1 ∧ st1.input <:+ st.input ∧ ValidIR st1.ir := by
  unfold finish_nop
  simp only []
  split_ifs with h1
  · refine ⟨_, rfl, ?_, hinv⟩
    exact (flush_line_suffix _ _).trans (pop_token_suffix _)
  · obtain ⟨st1, e1, e2, e3⟩ := build_and_count_valid
      (get_next_token st).2 IROpcode.IR_NOP line 0 [] hinv
      (valid_zero line)
    exact ⟨st1, e1, by rw [e2]; exact pop_token_suffix _, e3⟩

theorem build_valid (x : ParserState) (op : IROpcode) (line nops : Int) (args : List Int)
    (l : List Token) (hinv : ValidIR x.ir) (hc : BuildCall.valid ⟨op, line, nops, args⟩)
    (hs : x.input <:+ l) :
    ∃ st1, build_and_count x op line nops args = some st1 ∧ st1.input <:+ l ∧
      ValidIR st1.ir := by
  obtain ⟨st1, e1, e2, e3⟩ := build_and_count_valid x op line nops args hinv hc
  exact ⟨st1, e1, by rw [e2]; exact hs, e3⟩

theorem finish_loadI_valid (line : Int) (st : ParserState)
    (hok : ∀ t ∈ st.input, TokRange t) (hinv : ValidIR st.ir) :
    ∃ st1, finish_loadI line st = some st1 ∧ st1.input <:+ st.input ∧ ValidIR st1.ir := by
  unfold finish_loadI
  simp only []
  have ok1 := InputRange_snd _ hok
  have ok2 := InputRange_snd _ ok1
  split_ifs with h1 h2 h3 h4
  · exact ⟨_, rfl, suffix_err _ _ (suffix_next _ _ (List.suffix_refl _)), hinv⟩
  · exact ⟨_, rfl, suffix_err _ _ (suffix_next _ _ (suffix_next _ _ (List.suffix_refl _))),
      hinv⟩
  · exact ⟨_, rfl, suffix_err _ _ (suffix_next _ _ (suffix_next _ _ (suffix_next _ _
      (List.suffix_refl _)))), hinv⟩
  · exact ⟨_, rfl, suffix_err _ _ (suffix_next _ _ (suffix_next _ _ (suffix_next _ _
      (suffix_next _ _ (List.suffix_refl _))))), hinv⟩
  · have v0 :=
      TokRange_fst _ hok (Or.inl (not_not.mp h1))
    have v1 :=
      TokRange_fst _ ok2 (Or.inr (not_not.mp h3))
    exact build_valid _ _ _ _ _ _ hinv (valid_two _ _ _ _ v0 v1 (Or.inr (Or.inr rfl)))
      (suffix_next _ _ (suffix_next _ _ (suffix_next _ _ (suffix_next _ _
        (List.suffix_refl _)))))

theorem finish_memop_valid (first : Token) (line : Int) (st : ParserState)
    (hok : ∀ t ∈ st.input, TokRange t) (hinv : ValidIR st.ir) :
    ∃ st1, finish_memop first line st = some st1 ∧ st1.input <:+ st.input ∧
      ValidIR st1.ir := by
  unfold finish_memop
  simp only []
  have ok1 := InputRange_snd _ hok
  have ok2 := InputRange_snd _ ok1
  have s4 : ∀ x : ParserState, x.input = st.input →
      (next_word (next_word (next_word (next_word x)))).input <:+ st.input := fun x hx =>
    suffix_next _ _ (suffix_next _ _ (suffix_next _ _ (suffix_next _ _ (hx ▸ List.suffix_refl _))))
  split_ifs with h1 h2 h3 h4 h5 h6
  · exact ⟨_, rfl, suffix_err _ _ (suffix_next _ _ (List.suffix_refl _)), hinv⟩
  · exact ⟨_, rfl, suffix_err _ _ (suffix_next _ _ (suffix_next _ _ (List.suffix_refl _))),
      hinv⟩
  · exact ⟨_, rfl, suffix_err _ _ (suffix_next _ _ (suffix_next _ _ (suffix_next _ _
      (List.suffix_refl _)))), hinv⟩
  · exact ⟨_, rfl, suffix_err _ _ (s4 st rfl), hinv⟩
  · have v0 :=
      TokRange_fst _ hok (Or.inr (not_not.mp h1))
    have v1 :=
      TokRange_fst _ ok2 (Or.inr (not_not.mp h3))
    exact build_valid _ _ _ _ _ _ hinv (valid_two _ _ _ _ v0 v1 (Or.inl rfl)) (s4 st rfl)
  · have v0 :=
      TokRange_fst _ hok (Or.inr (not_not.mp h1))
    have v1 :=
      TokRange_fst _ ok2 (Or.inr (not_not.mp h3))
    exact build_valid _ _ _ _ _ _ hinv (valid_two _ _ _ _ v0 v1 (Or.inr (Or.inl rfl)))
      (s4 st rfl)
  · exact ⟨_, rfl, suffix_err _ _ (s4 st rfl), hinv⟩

theorem next_word_range (x y : ParserState) (l : List Token) (h : next_word x = y)
    (hok : ∀ t ∈ x.input, TokRange t) (hs : x.input <:+ l) :
    y.input <:+ l ∧ (∀ t ∈ y.input, TokRange t) ∧ TokRange y.word ∧ y.ir = x.ir ∧
    y.tb0 = x.tb0 ∧ y.tb1 = x.tb1 ∧ y.tb2 = x.tb2 := by
  subst h
  exact ⟨suffix_next _ _ hs, InputRange_snd _ hok, TokRange_fst _ hok, rfl, rfl, rfl, rfl⟩

theorem finish_arithop_valid (first : Token) (line : Int) (st : ParserState)
    (hok : ∀ t ∈ st.input, TokRange t) (hinv : ValidIR st.ir) :
    ∃ st1, finish_arithop first line st = some st1 ∧ st1.input <:+ st.input ∧
      ValidIR st1.ir := by
  unfold finish_arithop
  generalize hx1 : next_word st = x1
  obtain ⟨a1, a2, a3, a4, -⟩ := next_word_range _ _ st.input hx1 hok (List.suffix_refl _)
  show ∃ st1, (if x1.word.type ≠ TokenType.TOK_REG then _ else _) = some st1 ∧ _
  by_cases h1 : x1.word.type ≠ TokenType.TOK_REG
  · rw [if_pos h1]
    exact ⟨_, rfl, suffix_err _ _ a1, by rw [parse_errorf_ir, a4]; exact hinv⟩
  rw [if_neg h1]
  generalize hx2 : next_word { x1 with tb0 := x1.word } = x2
  obtain ⟨b1, b2, b3, b4, b5, -⟩ :=
    next_word_range { x1 with tb0 := x1.word } _ st.input hx2 a2 a1
  show ∃ st1, (if x2.word.type ≠ TokenType.TOK_COMMA then _ else _) = some st1 ∧ _
  have ir2 : x2.ir = st.ir := by rw [b4]; exact a4
  by_cases h2 : x2.word.type ≠ TokenType.TOK_COMMA
  · rw [if_pos h2]
    exact ⟨_, rfl, suffix_err _ _ b1, by rw [parse_errorf_ir, ir2]; exact hinv⟩
  rw [if_neg h2]
  generalize hx3 : next_word x2 = x3
  obtain ⟨c1, c2, c3, c4, c5, -⟩ := next_word_range _ _ st.input hx3 b2 b1
  show ∃ st1, (if x3.word.type ≠ TokenType.TOK_REG then _ else _) = some st1 ∧ _
  have ir3 : x3.ir = st.ir := by rw [c4]; exact ir2
  by_cases h3 : x3.word.type ≠ TokenType.TOK_REG
  · rw [if_pos h3]
    exact ⟨_, rfl, suffix_err _ _ c1, by rw [parse_errorf_ir, ir3]; exact hinv⟩
  rw [if_neg h3]
  generalize hx4 : next_word { x3 with tb1 := x3.word } = x4
  obtain ⟨d1, d2, d3, d4, d5, d6, -⟩ :=
    next_word_range { x3 with tb1 := x3.word } _ st.input hx4 c2 c1
  show ∃ st1, (if x4.word.type ≠ TokenType.TOK_INTO then _ else _) = some st1 ∧ _
  have ir4 : x4.ir = st.ir := by rw [d4]; exact ir3
  by_cases h4 : x4.word.type ≠ TokenType.TOK_INTO
  · rw [if_pos h4]
    exact ⟨_, rfl, suffix_err _ _ d1, by rw [parse_errorf_ir, ir4]; exact hinv⟩
  rw [if_neg h4]
  generalize hx5 : next_word x4 = x5
  obtain ⟨e1, e2, e3, e4, e5, e6, -⟩ := next_word_range _ _ st.input hx5 d2 d1
  show ∃ st1, (if x5.word.type ≠ TokenType.TOK_REG then _ else _) = some st1 ∧ _
  have ir5 : x5.ir = st.ir := by rw [e4]; exact ir4
  by_cases h5 : x5.word.type ≠ TokenType.TOK_REG
  · rw [if_pos h5]
    exact ⟨_, rfl, suffix_err _ _ e1, by rw [parse_errorf_ir, ir5]; exact hinv⟩
  rw [if_neg h5]
  generalize hx6 : next_word { x5 with tb2 := x5.word } = x6
  obtain ⟨f1, f2, f3, f4, f5, f6, f7⟩ :=
    next_word_range { x5 with tb2 := x5.word } _ st.input hx6 e2 e1
  show ∃ st1, (if x6.word.type ≠ TokenType.TOK_EOL ∧ x6.word.type ≠ TokenType.TOK_EOF
    then _ else _) = some st1 ∧ _
  have ir6 : x6.ir = st.ir := by rw [f4]; exact ir5
  have hinv6 : ValidIR x6.ir := by rw [ir6]; exact hinv
  have herr : ∃ st1, some (parse_errorf x6) = some st1 ∧ st1.input <:+ st.input ∧
      ValidIR st1.ir := ⟨_, rfl, suffix_err _ _ f1, by rw [parse_errorf_ir]; exact hinv6⟩
  by_cases h6 : x6.word.type ≠ TokenType.TOK_EOL ∧ x6.word.type ≠ TokenType.TOK_EOF
  · rw [if_pos h6]
    exact herr
  rw [if_neg h6]
  have v0 : 0 ≤ x6.tb0.value ∧ x6.tb0.value < INT_MAX := by
    have : x6.tb0 = x1.word := by
      rw [f5]; show x5.tb0 = _; rw [e5, d5]; show x3.tb0 = _; rw [c5, b5]
    rw [this]
    exact a3 (Or.inr (not_not.mp h1))
  have v1 : 0 ≤ x6.tb1.value ∧ x6.tb1.value < INT_MAX := by
    have : x6.tb1 = x3.word := by
      rw [f6]; show x5.tb1 = _; rw [e6, d6]
    rw [this]
    exact c3 (Or.inr (not_not.mp h3))
  have v2 : 0 ≤ x6.tb2.value ∧ x6.tb2.value < INT_MAX := by
    have : x6.tb2 = x5.word := by rw [f7]
    rw [this]
    exact e3 (Or.inr (not_not.mp h5))
  have hb : ∀ op, op = IROpcode.IR_ADD ∨ op = IROpcode.IR_SUB ∨ op = IROpcode.IR_MULT ∨
      op = IROpcode.IR_LSHIFT ∨ op = IROpcode.IR_RSHIFT →
      ∃ st1, build_and_count x6 op line 3 [x6.tb0.value, x6.tb1.value, x6.tb2.value] =
        some st1 ∧ st1.input <:+ st.input ∧ ValidIR st1.ir := fun op hop =>
    build_valid _ _ _ _ _ _ hinv6 (valid_three _ _ _ _ _ v0 v1 v2 hop) f1
  show ∃ st1, (if first.value = ARITH_ADD then _ else if first.value = ARITH_SUB then _
    else if first.value = ARITH_MULT then _ else if first.value = ARITH_LSHIFT then _
    else if first.value = ARITH_RSHIFT then _ else _) = some st1 ∧ _
  split_ifs
  · exact hb _ (Or.inl rfl)
  · exact hb _ (Or.inr (Or.inl rfl))
  · exact hb _ (Or.inr (Or.inr (Or.inl rfl)))
  · exact hb _ (Or.inr (Or.inr (Or.inr (Or.inl rfl))))
  · exact hb _ (Or.inr (Or.inr (Or.inr (Or.inr rfl))))
  · exact herr

/-- One iteration of the loop of parse_program on tokens with values in
range keeps the block valid. -/
theorem parse_step_valid (st : ParserState) (hok : ∀ t ∈ st.input, TokRange t)
    (hinv : ValidIR st.ir) :
    ∃ st1, parse_step st = some (next_word st1) ∧ st1.input <:+ st.input ∧
      ValidIR st1.ir := by
  have lift : ∀ r : Option ParserState,
      (∃ st1, r = some st1 ∧ st1.input <:+ st.input ∧ ValidIR st1.ir) →
      ∃ st1, r.map next_word = some (next_word st1) ∧ st1.input <:+ st.input ∧
        ValidIR st1.ir := by
    rintro r ⟨st1, rfl, h2, h3⟩
    exact ⟨st1, rfl, h2, h3⟩
  unfold parse_step
  simp only []
  apply lift
  cases st.word.type
  · exact finish_memop_valid _ _ st hok hinv
  · exact finish_loadI_valid _ st hok hinv
  · exact finish_arithop_valid _ _ st hok hinv
  · exact finish_output_valid _ st hok hinv
  · exact finish_nop_valid _ st hinv
  all_goals
    first
    | exact ⟨st, rfl, List.suffix_refl _, hinv⟩
    | exact ⟨_, rfl, suffix_err _ _ (List.suffix_refl _), hinv⟩

/-- The loop of parse_program on tokens with values in range ends with a
valid block. -/
theorem parse_loop_valid (fuel : Nat) (st : ParserState)
    (hfuel : st.input.length + (if st.word.type = TokenType.TOK_EOF then 0 else 1) < fuel)
    (hok : ∀ t ∈ st.input, TokRange t) (hinv : ValidIR st.ir) :
    ∃ st1, parse_loop fuel st = some st1 ∧ ValidIR st1.ir := by
  induction fuel generalizing st with
  | zero => omega
  | succ f ih =>
    unfold parse_loop
    by_cases he : st.word.type = TokenType.TOK_EOF
    · rw [if_pos he]
      exact ⟨st, rfl, hinv⟩
    · rw [if_neg he] at hfuel ⊢
      obtain ⟨st1, h1, h2, h3⟩ := parse_step_valid st hok hinv
      rw [h1]
      simp only [Option.some_bind]
      apply ih
      · have hlen := h2.length_le
        show (pop_token st1.input).2.length +
          (if (pop_token st1.input).1.type = TokenType.TOK_EOF then 0 else 1) < f
        cases hh : st1.input with
        | nil =>
          simp only [pop_token, eof_token, List.length_nil, if_true]
          omega
        | cons t rest =>
          rw [hh] at hlen
          simp only [pop_token, List.length_cons] at hlen ⊢
          split_ifs <;> omega
      · exact InputRange_snd _ (fun t ht => hok t (h2.subset ht))
      · exact h3

/-! ## The front end -/

theorem parse_loop_mono (f : Nat) (st r : ParserState) (h : parse_loop f st = some r)
    (k : Nat) : parse_loop (f + k) st = some r := by
  induction f generalizing st with
  | zero => exact Option.noConfusion h
  | succ g ih =>
    rw [Nat.succ_add]
    unfold parse_loop at h ⊢
    split_ifs at h ⊢ with he
    · exact h
    · cases hs : parse_step st with
      | none => rw [hs] at h; exact Option.noConfusion h
      | some st1 =>
        rw [hs, Option.some_bind] at h
        rw [Option.some_bind]
        exact ih st1 h

theorem parse_program_mono (f : Nat) (st r : ParserState) (c : Int)
    (h : parse_program f st = some (r, c)) (g : Nat) (hg : f ≤ g) :
    parse_program g st = some (r, c) := by
  obtain ⟨k, rfl⟩ : ∃ k, g = f + k := ⟨g - f, by omega⟩
  unfold parse_program at h ⊢
  cases hl : parse_loop f (next_word { st with opCount := 0 }) with
  | none => rw [hl] at h; exact Option.noConfusion h
  | some x =>
    rw [hl] at h
    rw [parse_loop_mono f _ x hl k]
    exact h

theorem ValidIR_init (s0 : IRState) : ValidIR (init_node_list (init_pool_list s0)) :=
  ⟨[], [], Built_init s0, by simp⟩

/-- The parser returns on every token stream whose values are in range, and
leaves a block built by valid calls. -/
theorem parse_program_valid (toks : List Token) (errs : List Bool) (s0 : IRState)
    (hok : ∀ t ∈ toks, TokRange t) (fuel : Nat) (hfuel : toks.length < fuel) :
    ∃ st count, parse_program fuel (parser_start toks errs s0) = some (st, count) ∧
      ValidIR st.ir := by
  obtain ⟨st1, h1, h2⟩ := parse_loop_valid fuel
    (next_word { parser_start toks errs s0 with opCount := 0 })
    (by
      show (pop_token toks).2.length +
        (if (pop_token toks).1.type = TokenType.TOK_EOF then 0 else 1) < fuel
      cases toks with
      | nil => simp only [pop_token, eof_token, List.length_nil, if_true]; omega
      | cons t rest =>
        simp only [pop_token, List.length_cons] at hfuel ⊢
        split_ifs <;> omega)
    (InputRange_snd toks hok) (ValidIR_init s0)
  exact ⟨st1, st1.opCount, by simp only [parse_program, h1, Option.map_some'], h2⟩

theorem ir_print_total (s : IRState) (ptrs : List NodePtr) (hc : Chain s ptrs)
    (fuel : Nat) (hfuel : ptrs.length < fuel) :
    ir_print fuel s = some (text_of (ptrs.map s.nodes)) := by
  rw [ir_print_eq, node_seq,
    node_list_spec s ptrs node_head hc.1 (Chain_cells s ptrs hc) fuel hfuel]
  rfl

theorem rename_total_of_Built (s : IRState) (ptrs : List NodePtr) (calls : List BuildCall)
    (hb : Built s ptrs calls) (hv : ∀ c ∈ calls, c.valid) (fuel : Nat)
    (hfuel : ptrs.length < fuel) :
    ∃ s1 maxlive, ir_rename fuel s = some (s1, maxlive) ∧ Chain s1 ptrs := by
  have hm := Built_pre s ptrs calls hb
  obtain ⟨hmax, hrange⟩ := Matches_in_range calls _ hv hm
  obtain ⟨out, t, hw⟩ := rename_walk_total _ _ hrange
  obtain ⟨-, -, s1, e3, -, -, e6, -⟩ := ir_rename_spec s ptrs hb.1 fuel hfuel hmax out t hw
  exact ⟨s1, t.maxlive, e3, e6⟩

set_option maxHeartbeats 4000000 in
/-- The two branches of main on a stream with a syntax error and on a
well-formed one: the passes called and the text written. -/
theorem main_runs :
    (main_MODE_RENAME 18 (parser_start sample_tokens [] start_state)).map
        (fun r => (r.passes, r.out)) =
      some ([], "\nDue to syntax error(s), run terminates.\n") ∧
    (main_MODE_PRINT 18 (parser_start sample_tokens [] start_state)).map
        (fun r => (r.passes, r.out)) =
      some ([], "\nDue to syntax error(s), run terminates.\n") ∧
    (main_MODE_RENAME 14 (parser_start program_tokens [] start_state)).map
        (fun r => (r.passes, r.out)) =
      some ([Pass.rename, Pass.print],
        "load\t[ sr1 vr1 nu=2 ], [ ], [ sr2 vr0 nu=2 ]\nnop\t[ ], [ ], [ ]\nstore\t[ sr2 vr0 nu=-1 ], [ ], [ sr1 vr1 nu=-1 ]\n") ∧
    (main_MODE_PRINT 14 (parser_start program_tokens [] start_state)).map
        (fun r => (r.passes, r.out)) =
      some ([Pass.print],
        "Parse succeeded. Processed 3 operations.\nload\t[ sr1 vr-1 nu=-1 ], [ ], [ sr2 vr-1 nu=-1 ]\nnop\t[ ], [ ], [ ]\nstore\t[ sr2 vr-1 nu=-1 ], [ ], [ sr1 vr-1 nu=-1 ]\n") := by
  refine ⟨by decide, by decide, by decide, by decide⟩

/-! ## The parser on a statement without its separator -/

theorem flush_to_term (w : Token) (l rest : List Token)
    (hw : ¬ (w.type = TokenType.TOK_EOL ∨ w.type = TokenType.TOK_EOF))
    (hl : ∀ t ∈ l, ¬ (t.type = TokenType.TOK_EOL ∨ t.type = TokenType.TOK_EOF))
    (ht : (pop_token rest).1.type = TokenType.TOK_EOL ∨
      (pop_token rest).1.type = TokenType.TOK_EOF) :
    flush_line w (l ++ rest) = pop_token rest := by
  induction l generalizing w with
  | nil =>
    cases rest with
    | nil => simp [flush_line, hw, pop_token]
    | cons t r =>
      simp only [pop_token] at ht
      simp only [List.nil_append, flush_line, hw, if_false, pop_token]
      cases r <;> simp [flush_line, ht]
  | cons a l1 ih =>
    simp only [List.cons_append, flush_line, hw, if_false]
    exact ih a (hl a (by simp)) (fun t h => hl t (List.mem_cons_of_mem _ h))

/-- The shapes of a statement without its separator. -/
theorem MissingSep_cases (bad : List Token) (h : MissingSep bad) :
    (∃ op r1 r2, bad = [op, r1, r2] ∧ op.type = TokenType.TOK_MEMOP ∧
      r1.type = TokenType.TOK_REG ∧ r2.type = TokenType.TOK_REG) ∨
    (∃ op c r, bad = [op, c, r] ∧ op.type = TokenType.TOK_LOADI ∧
      c.type = TokenType.TOK_CONST ∧ r.type = TokenType.TOK_REG) ∨
    (∃ op r1 r2 into r3, bad = [op, r1, r2, into, r3] ∧ op.type = TokenType.TOK_ARITHOP ∧
      r1.type = TokenType.TOK_REG ∧ r2.type = TokenType.TOK_REG ∧
      into.type = TokenType.TOK_INTO ∧ r3.type = TokenType.TOK_REG) ∨
    (∃ op r1 comma r2 r3, bad = [op, r1, comma, r2, r3] ∧ op.type = TokenType.TOK_ARITHOP ∧
      r1.type = TokenType.TOK_REG ∧ comma.type = TokenType.TOK_COMMA ∧
      r2.type = TokenType.TOK_REG ∧ r3.type = TokenType.TOK_REG) := by
  obtain ⟨ts, c, sep, hs, hmem, hty, rfl⟩ := h
  have hne : ∀ a b : Token, a.type ≠ b.type → a ≠ b := fun a b h e => h (e ▸ rfl)
  cases hs with
  | load op r1 into r2 g1 g2 g3 g4 g5 =>
    left
    simp only [List.mem_cons, List.mem_singleton, List.not_mem_nil, or_false] at hmem
    rcases hmem with rfl | rfl | rfl | rfl
    · rcases hty with h | h <;> rw [g1] at h <;> exact absurd h (by decide)
    · rcases hty with h | h <;> rw [g3] at h <;> exact absurd h (by decide)
    · have e1 : op ≠ sep := hne _ _ (by rw [g1, g4]; decide)
      have e2 : r1 ≠ sep := hne _ _ (by rw [g3, g4]; decide)
      exact ⟨op, r1, r2, by simp [List.erase_cons, e1, e2], g1, g3, g5⟩
    · rcases hty with h | h <;> rw [g5] at h <;> exact absurd h (by decide)
  | store op r1 into r2 g1 g2 g3 g4 g5 =>
    left
    simp only [List.mem_cons, List.mem_singleton, List.not_mem_nil, or_false] at hmem
    rcases hmem with rfl | rfl | rfl | rfl
    · rcases hty with h | h <;> rw [g1] at h <;> exact absurd h (by decide)
    · rcases hty with h | h <;> rw [g3] at h <;> exact absurd h (by decide)
    · have e1 : op ≠ sep := hne _ _ (by rw [g1, g4]; decide)
      have e2 : r1 ≠ sep := hne _ _ (by rw [g3, g4]; decide)
      exact ⟨op, r1, r2, by simp [List.erase_cons, e1, e2], g1, g3, g5⟩
    · rcases hty with h | h <;> rw [g5] at h <;> exact absurd h (by decide)
  | loadI op k into r g1 g2 g3 g4 =>
    right; left
    simp only [List.mem_cons, List.mem_singleton, List.not_mem_nil, or_false] at hmem
    rcases hmem with rfl | rfl | rfl | rfl
    · rcases hty with h | h <;> rw [g1] at h <;> exact absurd h (by decide)
    · rcases hty with h | h <;> rw [g2] at h <;> exact absurd h (by decide)
    · have e1 : op ≠ sep := hne _ _ (by rw [g1, g3]; decide)
      have e2 : k ≠ sep := hne _ _ (by rw [g2, g3]; decide)
      exact ⟨op, k, r, by simp [List.erase_cons, e1, e2], g1, g2, g4⟩
    · rcases hty with h | h <;> rw [g4] at h <;> exact absurd h (by decide)
  | arith op r1 comma r2 into r3 ir g1 g2 g3 g4 g5 g6 g7 =>
    right; right
    simp only [List.mem_cons, List.mem_singleton, List.not_mem_nil, or_false] at hmem
    rcases hmem with rfl | rfl | rfl | rfl | rfl | rfl
    · rcases hty with h | h <;> rw [g1] at h <;> exact absurd h (by decide)
    · rcases hty with h | h <;> rw [g3] at h <;> exact absurd h (by decide)
    · left
      have e1 : op ≠ sep := hne _ _ (by rw [g1, g4]; decide)
      have e2 : r1 ≠ sep := hne _ _ (by rw [g3, g4]; decide)
      exact ⟨op, r1, r2, into, r3, by simp [List.erase_cons, e1, e2], g1, g3, g5, g6, g7⟩
    · rcases hty with h | h <;> rw [g5] at h <;> exact absurd h (by decide)
    · right
      have e1 : op ≠ sep := hne _ _ (by rw [g1, g6]; decide)
      have e2 : r1 ≠ sep := hne _ _ (by rw [g3, g6]; decide)
      have e3 : comma ≠ sep := hne _ _ (by rw [g4, g6]; decide)
      have e4 : r2 ≠ sep := hne _ _ (by rw [g5, g6]; decide)
      exact ⟨op, r1, comma, r2, r3, by simp [List.erase_cons, e1, e2, e3, e4], g1, g3, g4,
        g5, g7⟩
    · rcases hty with h | h <;> rw [g7] at h <;> exact absurd h (by decide)
  | output op k g1 g2 =>
    simp only [List.mem_cons, List.mem_singleton, List.not_mem_nil, or_false] at hmem
    rcases hmem with rfl | rfl
    · rcases hty with h | h <;> rw [g1] at h <;> exact absurd h (by decide)
    · rcases hty with h | h <;> rw [g2] at h <;> exact absurd h (by decide)
  | nop op g1 =>
    simp only [List.mem_singleton] at hmem
    subst hmem
    rcases hty with h | h <;> rw [g1] at h <;> exact absurd h (by decide)

/-- The effect of parse_errorf when the rest of the line holds no
end-of-line before `rest`: the line is skipped up to its end. -/
theorem parse_errorf_line (y : ParserState) (l rest : List Token)
    (hw : ¬ (y.word.type = TokenType.TOK_EOL ∨ y.word.type = TokenType.TOK_EOF))
    (hl : ∀ t ∈ l, ¬ (t.type = TokenType.TOK_EOL ∨ t.type = TokenType.TOK_EOF))
    (hin : y.input = l ++ rest)
    (ht : (pop_token rest).1.type = TokenType.TOK_EOL ∨
      (pop_token rest).1.type = TokenType.TOK_EOF) :
    (parse_errorf y).input = (pop_token rest).2 ∧
    (parse_errorf y).word = (pop_token rest).1 ∧
    (parse_errorf y).ir = y.ir ∧ (parse_errorf y).opCount = y.opCount ∧
    (parse_errorf y).error_flag = 1 := by
  have := flush_to_term y.word l rest hw hl ht
  refine ⟨?_, ?_, rfl, rfl, rfl⟩
  · show (flush_line y.word y.input).2 = _
    rw [hin, this]
  · show (flush_line y.word y.input).1 = _
    rw [hin, this]

/-- One iteration of the loop of parse_program on a statement without its
separator: no node is built, `opCount` is not touched, `error_flag` is set,
and the scanner is left after the token that ends the statement. -/
theorem bad_step (bad : List Token) (hb : MissingSep bad)
    (st : ParserState) (rest : List Token)
    (hcons : st.word :: st.input = bad ++ rest)
    (ht : (pop_token rest).1.type = TokenType.TOK_EOL ∨
      (pop_token rest).1.type = TokenType.TOK_EOF) :
    ∃ st1, parse_step st = some (next_word st1) ∧
      st1.input = (pop_token rest).2 ∧ st1.word = (pop_token rest).1 ∧
      st1.ir = st.ir ∧ st1.opCount = st.opCount ∧ st1.error_flag = 1 := by
  have fin : ∀ (r : Option ParserState) (y : ParserState) (l : List Token),
      r = some (parse_errorf y) →
      ¬ (y.word.type = TokenType.TOK_EOL ∨ y.word.type = TokenType.TOK_EOF) →
      (∀ t ∈ l, ¬ (t.type = TokenType.TOK_EOL ∨ t.type = TokenType.TOK_EOF)) →
      y.input = l ++ rest → y.ir = st.ir → y.opCount = st.opCount →
      ∃ st1, r.map next_word = some (next_word st1) ∧
        st1.input = (pop_token rest).2 ∧ st1.word = (pop_token rest).1 ∧
        st1.ir = st.ir ∧ st1.opCount = st.opCount ∧ st1.error_flag = 1 := by
    intro r y l hr hw hl hin hir hcnt
    obtain ⟨e1, e2, e3, e4, e5⟩ := parse_errorf_line y l rest hw hl hin ht
    exact ⟨parse_errorf y, by rw [hr]; rfl, e1, e2, by rw [e3, hir], by rw [e4, hcnt], e5⟩
  unfold parse_step
  rcases MissingSep_cases bad hb with
    ⟨op, r1, r2, rfl, g1, g2, g3⟩ | ⟨op, k, r, rfl, g1, g2, g3⟩ |
    ⟨op, r1, r2, into, r3, rfl, g1, g2, g3, g4, g5⟩ |
    ⟨op, r1, comma, r2, r3, rfl, g1, g2, g3, g4, g5⟩
  · simp only [List.cons_append, List.nil_append, List.cons.injEq] at hcons
    obtain ⟨hw, hin⟩ := hcons
    simp only [hw, g1]
    refine fin _ (next_word { next_word st with tb0 := (next_word st).word }) [] ?_ ?_ ?_ ?_
      rfl rfl
    · simp [finish_memop, next_word, get_next_token, hin, pop_token_cons, g2, g3]
    · simp [next_word, get_next_token, hin, pop_token_cons, g3]
    · simp
    · simp [next_word, get_next_token, hin, pop_token_cons]
  · simp only [List.cons_append, List.nil_append, List.cons.injEq] at hcons
    obtain ⟨hw, hin⟩ := hcons
    simp only [hw, g1]
    refine fin _ (next_word { next_word st with tb0 := (next_word st).word }) [] ?_ ?_ ?_ ?_
      rfl rfl
    · simp [finish_loadI, next_word, get_next_token, hin, pop_token_cons, g2, g3]
    · simp [next_word, get_next_token, hin, pop_token_cons, g3]
    · simp
    · simp [next_word, get_next_token, hin, pop_token_cons]
  · simp only [List.cons_append, List.nil_append, List.cons.injEq] at hcons
    obtain ⟨hw, hin⟩ := hcons
    simp only [hw, g1]
    refine fin _ (next_word { next_word st with tb0 := (next_word st).word }) [into, r3]
      ?_ ?_ ?_ ?_ rfl rfl
    · simp [finish_arithop, next_word, get_next_token, hin, pop_token_cons, g2, g3]
    · simp [next_word, get_next_token, hin, pop_token_cons, g3]
    · simp [g4, g5]
    · simp [next_word, get_next_token, hin, pop_token_cons]
  · simp only [List.cons_append, List.nil_append, List.cons.injEq] at hcons
    obtain ⟨hw, hin⟩ := hcons
    simp only [hw, g1]
    refine fin _ (next_word { next_word (next_word
        { next_word st with tb0 := (next_word st).word }) with
          tb1 := (next_word (next_word
            { next_word st with tb0 := (next_word st).word })).word }) [] ?_ ?_ ?_ ?_ rfl rfl
    · simp [finish_arithop, next_word, get_next_token, hin, pop_token_cons, g2, g3, g4, g5]
    · simp [next_word, get_next_token, hin, pop_token_cons, g5]
    · simp
    · simp [next_word, get_next_token, hin, pop_token_cons]

/-! ## The state of ir.c after parsing a well-formed stream -/

theorem lex_flag_one (l : List Bool) (f : Int) (h : f = 1) : lex_flag l f = 1 := by
  unfold lex_flag
  split_ifs
  · rfl
  · exact h

theorem lex_flags_one (k : Nat) (l : List Bool) (f : Int) (h : f = 1) : lex_flags k l f = 1 := by
  induction k generalizing l f with
  | zero => exact h
  | succ k ih => exact ih l.tail (lex_flag l f) (lex_flag_one l f h)

theorem next_word_one (st : ParserState) (h : st.error_flag = 1) :
    (next_word st).error_flag = 1 :=
  lex_flag_one st.lex st.error_flag h

/-- The flag facts of two steps in a row. -/
theorem flag_facts_trans (a b c : ParserState)
    (h1 : (NoLex a → b.error_flag = a.error_flag ∧ NoLex b) ∧
      (a.error_flag = 1 → b.error_flag = 1))
    (h2 : (NoLex b → c.error_flag = b.error_flag ∧ NoLex c) ∧
      (b.error_flag = 1 → c.error_flag = 1)) :
    (NoLex a → c.error_flag = a.error_flag ∧ NoLex c) ∧
      (a.error_flag = 1 → c.error_flag = 1) :=
  ⟨fun h => ⟨((h2.1 (h1.1 h).2).1).trans (h1.1 h).1, (h2.1 (h1.1 h).2).2⟩,
    fun h => h2.2 (h1.2 h)⟩

theorem flag_facts_next (st : ParserState) :
    (NoLex st → (next_word st).error_flag = st.error_flag ∧ NoLex (next_word st)) ∧
      (st.error_flag = 1 → (next_word st).error_flag = 1) :=
  ⟨next_word_NoLex st, next_word_one st⟩

/-- One iteration of the loop of parse_program on a well-formed statement,
with the state of ir.c it leaves: the one that the call of ir_build for the
statement returns. -/
theorem stmt_step_ir (ts : List Token) (c : BuildCall) (hs : StmtTokens ts c)
    (st : ParserState) (rest : List Token) (ptrs : List NodePtr) (calls0 : List BuildCall)
    (hcons : st.word :: st.input = ts ++ rest)
    (ht : (pop_token rest).1.type = TokenType.TOK_EOL ∨
      (pop_token rest).1.type = TokenType.TOK_EOF)
    (hb : Built st.ir ptrs calls0) :
    ∃ st1 p, parse_step st = some (next_word st1) ∧
      st1.input = (pop_token rest).2 ∧ st1.opCount = st.opCount + 1 ∧
      ((NoLex st → st1.error_flag = st.error_flag ∧ NoLex st1) ∧
        (st.error_flag = 1 → st1.error_flag = 1)) ∧
      Built st1.ir (ptrs ++ [p]) (calls0 ++ [c]) ∧
      ∃ q, ir_build st.ir c.op c.line c.nops c.args = some (st1.ir, q) := by
  have fin : ∀ (x : ParserState) (r : Option ParserState),
      r = build_and_count x c.op c.line c.nops c.args →
      x.ir = st.ir → x.input = (pop_token rest).2 → x.opCount = st.opCount →
      ((NoLex st → x.error_flag = st.error_flag ∧ NoLex x) ∧
        (st.error_flag = 1 → x.error_flag = 1)) → c.enough_args →
      ∃ st1 p, r.map next_word = some (next_word st1) ∧
        st1.input = (pop_token rest).2 ∧ st1.opCount = st.opCount + 1 ∧
        ((NoLex st → st1.error_flag = st.error_flag ∧ NoLex st1) ∧
        (st.error_flag = 1 → st1.error_flag = 1)) ∧
        Built st1.ir (ptrs ++ [p]) (calls0 ++ [c]) ∧
        ∃ q, ir_build st.ir c.op c.line c.nops c.args = some (st1.ir, q) := by
    intro x r hr hir hinp hcnt hef he
    obtain ⟨s1, p, e1, e2⟩ := build_and_count_built x c ptrs calls0 (by rw [hir]; exact hb) he
    refine ⟨{ x with ir := s1, opCount := x.opCount + 1 }, p, by rw [hr, e1]; rfl, hinp,
      by simp only [hcnt], hef, e2, ?_⟩
    rw [← hir]
    cases hbd : ir_build x.ir c.op c.line c.nops c.args with
    | none =>
      simp only [build_and_count, hbd, Option.map_none'] at e1
      exact Option.noConfusion e1
    | some v =>
      simp only [build_and_count, hbd, Option.map_some', Option.some.injEq] at e1
      have : v.1 = s1 := congrArg ParserState.ir e1
      exact ⟨v.2, by rw [← this]⟩
  unfold parse_step
  cases hs with
  | load op r1 into r2 g1 g2 g3 g4 g5 =>
    simp only [List.cons_append, List.nil_append, List.cons.injEq] at hcons
    obtain ⟨hw, hin⟩ := hcons
    simp only [hw, g1]
    exact fin _ _
      (finish_memop_eval op op.line st r1 into r2 rest g3 g4 g5 hin ht _ (Or.inl ⟨g2, rfl⟩))
      rfl rfl rfl ⟨fun h => lex_flags_NoLex _ _ _ h, fun h => lex_flags_one _ _ _ h⟩
      (by simp [BuildCall.enough_args])
  | store op r1 into r2 g1 g2 g3 g4 g5 =>
    simp only [List.cons_append, List.nil_append, List.cons.injEq] at hcons
    obtain ⟨hw, hin⟩ := hcons
    simp only [hw, g1]
    exact fin _ _
      (finish_memop_eval op op.line st r1 into r2 rest g3 g4 g5 hin ht _ (Or.inr ⟨g2, rfl⟩))
      rfl rfl rfl ⟨fun h => lex_flags_NoLex _ _ _ h, fun h => lex_flags_one _ _ _ h⟩
      (by simp [BuildCall.enough_args])
  | loadI op k into r g1 g2 g3 g4 =>
    simp only [List.cons_append, List.nil_append, List.cons.injEq] at hcons
    obtain ⟨hw, hin⟩ := hcons
    simp only [hw, g1]
    exact fin _ _
      (finish_loadI_eval op.line st k into r rest g2 g3 g4 hin ht)
      rfl rfl rfl ⟨fun h => lex_flags_NoLex _ _ _ h, fun h => lex_flags_one _ _ _ h⟩
      (by simp [BuildCall.enough_args])
  | arith op r1 comma r2 into r3 ir g1 g2 g3 g4 g5 g6 g7 =>
    simp only [List.cons_append, List.nil_append, List.cons.injEq] at hcons
    obtain ⟨hw, hin⟩ := hcons
    simp only [hw, g1]
    exact fin _ _
      (finish_arithop_eval op op.line st r1 comma r2 into r3 rest g3 g4 g5 g6 g7 hin ht ir g2)
      rfl rfl rfl ⟨fun h => lex_flags_NoLex _ _ _ h, fun h => lex_flags_one _ _ _ h⟩
      (by simp [BuildCall.enough_args])
  | output op k g1 g2 =>
    simp only [List.cons_append, List.nil_append, List.cons.injEq] at hcons
    obtain ⟨hw, hin⟩ := hcons
    simp only [hw, g1]
    exact fin _ _
      (finish_output_eval op.line st k rest g2 hin ht)
      rfl rfl rfl ⟨fun h => lex_flags_NoLex _ _ _ h, fun h => lex_flags_one _ _ _ h⟩
      (by simp [BuildCall.enough_args])
  | nop op g1 =>
    simp only [List.cons_append, List.nil_append, List.cons.injEq] at hcons
    obtain ⟨hw, hin⟩ := hcons
    simp only [hw, g1]
    exact fin _ _
      (finish_nop_eval op.line st rest hin ht)
      rfl rfl rfl ⟨fun h => lex_flags_NoLex _ _ _ h, fun h => lex_flags_one _ _ _ h⟩
      (by simp [BuildCall.enough_args])


/-- The loop of parse_program on a well-formed token stream, with the state
of ir.c it leaves: the one that the calls of ir_build for its statements
leave, in order. -/
theorem parse_loop_wf_ir (toks : List Token) (calls : List BuildCall)
    (hwf : WellFormed toks calls) (st : ParserState) (fuel : Nat) (ptrs : List NodePtr)
    (calls0 : List BuildCall) (hin : st.input = toks) (hfuel : toks.length < fuel)
    (hb : Built st.ir ptrs calls0) :
    ∃ st1 ps, parse_loop fuel (next_word st) = some st1 ∧
      st1.opCount = st.opCount + (calls.length : Int) ∧
      ((NoLex st → st1.error_flag = st.error_flag ∧ NoLex st1) ∧
        (st.error_flag = 1 → st1.error_flag = 1)) ∧
      ps.length = calls.length ∧ Built st1.ir (ptrs ++ ps) (calls0 ++ calls) ∧
      build_from st.ir calls = some st1.ir := by
  induction hwf generalizing st fuel ptrs calls0 with
  | done rest hall =>
    obtain ⟨f, rfl⟩ : ∃ f, fuel = f + 1 := ⟨fuel - 1, by omega⟩
    have : (next_word st).word.type = TokenType.TOK_EOF := by
      show (pop_token st.input).1.type = _
      rw [hin]; exact (eof_read rest hall).1
    refine ⟨next_word st, [], by simp only [parse_loop, this, if_true],
      by show st.opCount = _; simp, flag_facts_next st, rfl, by simpa using hb, rfl⟩
  | blank eol rest calls heol _ ih =>
    obtain ⟨f, rfl⟩ : ∃ f, fuel = f + 1 := ⟨fuel - 1, by omega⟩
    have hw : (next_word st).word = eol := by
      show (pop_token st.input).1 = _
      rw [hin]; rfl
    have hi : (next_word st).input = rest := by
      show (pop_token st.input).2 = _
      rw [hin]; rfl
    have hne : (next_word st).word.type ≠ TokenType.TOK_EOF := by rw [hw, heol]; decide
    obtain ⟨st1, ps, h1, h2, h3, h4, h5, h6⟩ :=
      ih (next_word st) f ptrs calls0 hi (by simp at hfuel; omega) hb
    refine ⟨st1, ps, ?_, h2,
      flag_facts_trans st (next_word st) st1 (flag_facts_next st) h3, h4, h5, h6⟩
    simp only [parse_loop, hne, if_false, parse_step, hw, heol, Option.map_some',
      Option.some_bind]
    exact h1
  | stmt ts c eol rest calls hs heol _ ih =>
    obtain ⟨f, rfl⟩ : ∃ f, fuel = f + 1 := ⟨fuel - 1, by omega⟩
    obtain ⟨op, body, rfl, hop⟩ := StmtTokens_ne_nil ts c hs
    have hw : (next_word st).word = op := by
      show (pop_token st.input).1 = _
      rw [hin]; rfl
    have hi : (next_word st).input = body ++ eol :: rest := by
      show (pop_token st.input).2 = _
      rw [hin]; rfl
    have hne : (next_word st).word.type ≠ TokenType.TOK_EOF := by rw [hw]; exact hop
    obtain ⟨st1, p, g1, g2, g3, g4, g5, q, g6⟩ :=
      stmt_step_ir (op :: body) c hs (next_word st) (eol :: rest) ptrs calls0
        (by rw [hw, hi]; rfl) (Or.inl heol) hb
    obtain ⟨st2, ps, h1, h2, h3, h4, h5, h6⟩ :=
      ih st1 f (ptrs ++ [p]) (calls0 ++ [c]) g2
        (by simp at hfuel; omega) g5
    refine ⟨st2, p :: ps, ?_, ?_, flag_facts_trans st (next_word st) st2 (flag_facts_next st)
      (flag_facts_trans (next_word st) st1 st2 g4 h3), by simp [h4], by simpa using h5, ?_⟩
    · simp only [parse_loop, hne, if_false, g1, Option.some_bind]
      exact h1
    · rw [h2, g3]
      show st.opCount + 1 + (calls.length : Int) = st.opCount + ((calls.length + 1 : Nat) : Int)
      push_cast
      ring
    · have g7 : ir_build st.ir c.op c.line c.nops c.args = some (st1.ir, q) := g6
      simp only [build_from, g7, Option.some_bind]
      exact h6
  | last ts c rest hs hall =>
    obtain ⟨op, body, rfl, hop⟩ := StmtTokens_ne_nil ts c hs
    obtain ⟨f, rfl⟩ : ∃ f, fuel = f + 1 := ⟨fuel - 1, by omega⟩
    obtain ⟨f, rfl⟩ : ∃ g, f = g + 1 := ⟨f - 1, by simp at hfuel; omega⟩
    have hw : (next_word st).word = op := by
      show (pop_token st.input).1 = _
      rw [hin]; rfl
    have hi : (next_word st).input = body ++ rest := by
      show (pop_token st.input).2 = _
      rw [hin]; rfl
    have hne : (next_word st).word.type ≠ TokenType.TOK_EOF := by rw [hw]; exact hop
    obtain ⟨e1, e2⟩ := eof_read rest hall
    obtain ⟨st1, p, g1, g2, g3, g4, g5, q, g6⟩ :=
      stmt_step_ir (op :: body) c hs (next_word st) rest ptrs calls0
        (by rw [hw, hi]; rfl) (Or.inr e1) hb
    have hend : (next_word st1).word.type = TokenType.TOK_EOF := by
      show (pop_token st1.input).1.type = _
      rw [g2]; exact (eof_read _ e2).1
    refine ⟨next_word st1, [p], ?_, ?_, flag_facts_trans st (next_word st) (next_word st1) (flag_facts_next st)
      (flag_facts_trans (next_word st) st1 (next_word st1) g4 (flag_facts_next st1)), rfl, g5, ?_⟩
    · simp only [parse_loop, hne, if_false, g1, Option.some_bind, hend, if_true]
    · show st1.opCount = _
      rw [g3]
      show st.opCount + 1 = _
      simp
    · have g7 : ir_build st.ir c.op c.line c.nops c.args = some (st1.ir, q) := g6
      simp only [build_from, g7, Option.some_bind]
      rfl

/-- The loop of parse_program on a token stream in which one statement is
missing its separator: the flag is set, and the nodes built and the count
are those of the well-formed statements. -/
theorem parse_loop_malformed (toks toks1 : List Token) (calls : List BuildCall)
    (hm : OneMalformed toks toks1 calls) (st : ParserState) (fuel : Nat)
    (ptrs : List NodePtr) (calls0 : List BuildCall) (hin : st.input = toks)
    (hfuel : toks.length < fuel) (hb : Built st.ir ptrs calls0) :
    ∃ st1 ps, parse_loop fuel (next_word st) = some st1 ∧
      st1.opCount = st.opCount + (calls.length : Int) ∧ st1.error_flag = 1 ∧
      ps.length = calls.length ∧ Built st1.ir (ptrs ++ ps) (calls0 ++ calls) ∧
      build_from st.ir calls = some st1.ir := by
  induction hm generalizing st fuel ptrs calls0 with
  | here bad eol rest calls hbad heol hwf =>
    obtain ⟨f, rfl⟩ : ∃ f, fuel = f + 1 := ⟨fuel - 1, by omega⟩
    obtain ⟨op, body, rfl, hop⟩ : ∃ op body, bad = op :: body ∧
        op.type ≠ TokenType.TOK_EOF := by
      rcases MissingSep_cases bad hbad with
        ⟨op, r1, r2, rfl, g1, -⟩ | ⟨op, k, r, rfl, g1, -⟩ |
        ⟨op, r1, r2, into, r3, rfl, g1, -⟩ | ⟨op, r1, comma, r2, r3, rfl, g1, -⟩ <;>
        exact ⟨op, _, rfl, by rw [g1]; decide⟩
    have hw : (next_word st).word = op := by
      show (pop_token st.input).1 = _
      rw [hin]; rfl
    have hi : (next_word st).input = body ++ eol :: rest := by
      show (pop_token st.input).2 = _
      rw [hin]; rfl
    have hne : (next_word st).word.type ≠ TokenType.TOK_EOF := by rw [hw]; exact hop
    obtain ⟨st1, g1, g2, -, g4, g5, g6⟩ :=
      bad_step (op :: body) hbad (next_word st) (eol :: rest)
        (by rw [hw, hi]; rfl) (Or.inl heol)
    have g4a : st1.ir = st.ir := g4
    have g5a : st1.opCount = st.opCount := g5
    obtain ⟨st2, ps, h1, h2, h3, h4, h5, h6⟩ :=
      parse_loop_wf_ir rest calls hwf st1 f ptrs calls0 g2
        (by simp at hfuel; omega) (by rw [g4a]; exact hb)
    refine ⟨st2, ps, ?_, by rw [h2, g5a], h3.2 g6, h4, h5, by rw [← g4a]; exact h6⟩
    simp only [parse_loop, hne, if_false, g1, Option.some_bind]
    exact h1
  | here_last bad rest hbad hall =>
    obtain ⟨op, body, rfl, hop, hlen⟩ : ∃ op body, bad = op :: body ∧
        op.type ≠ TokenType.TOK_EOF ∧ 1 ≤ body.length := by
      rcases MissingSep_cases bad hbad with
        ⟨op, r1, r2, rfl, g1, -⟩ | ⟨op, k, r, rfl, g1, -⟩ |
        ⟨op, r1, r2, into, r3, rfl, g1, -⟩ | ⟨op, r1, comma, r2, r3, rfl, g1, -⟩ <;>
        exact ⟨op, _, rfl, by rw [g1]; decide, by simp⟩
    obtain ⟨f, rfl⟩ : ∃ f, fuel = f + 1 := ⟨fuel - 1, by omega⟩
    obtain ⟨f, rfl⟩ : ∃ g, f = g + 1 := ⟨f - 1, by simp at hfuel; omega⟩
    have hw : (next_word st).word = op := by
      show (pop_token st.input).1 = _
      rw [hin]; rfl
    have hi : (next_word st).input = body ++ rest := by
      show (pop_token st.input).2 = _
      rw [hin]; rfl
    have hne : (next_word st).word.type ≠ TokenType.TOK_EOF := by rw [hw]; exact hop
    obtain ⟨e1, e2⟩ := eof_read rest hall
    obtain ⟨st1, g1, g2, -, g4, g5, g6⟩ :=
      bad_step (op :: body) hbad (next_word st) rest (by rw [hw, hi]; rfl) (Or.inr e1)
    have hend : (next_word st1).word.type = TokenType.TOK_EOF := by
      show (pop_token st1.input).1.type = _
      rw [g2]; exact (eof_read _ e2).1
    refine ⟨next_word st1, [], ?_, ?_, next_word_one st1 g6, rfl, ?_, ?_⟩
    · simp only [parse_loop, hne, if_false, g1, Option.some_bind, hend, if_true]
    · show st1.opCount = _
      rw [g5]
      show st.opCount = _
      simp
    · show Built st1.ir _ _
      rw [g4]
      simpa using hb
    · show some st.ir = some st1.ir
      rw [g4]
      rfl
  | blank eol rest rest1 calls heol _ ih =>
    obtain ⟨f, rfl⟩ : ∃ f, fuel = f + 1 := ⟨fuel - 1, by omega⟩
    have hw : (next_word st).word = eol := by
      show (pop_token st.input).1 = _
      rw [hin]; rfl
    have hi : (next_word st).input = rest := by
      show (pop_token st.input).2 = _
      rw [hin]; rfl
    have hne : (next_word st).word.type ≠ TokenType.TOK_EOF := by rw [hw, heol]; decide
    obtain ⟨st1, ps, h1, h2, h3, h4, h5, h6⟩ :=
      ih (next_word st) f ptrs calls0 hi (by simp at hfuel; omega) hb
    refine ⟨st1, ps, ?_, h2, h3, h4, h5, h6⟩
    simp only [parse_loop, hne, if_false, parse_step, hw, heol, Option.map_some',
      Option.some_bind]
    exact h1
  | stmt ts c eol rest rest1 calls hs heol _ ih =>
    obtain ⟨f, rfl⟩ : ∃ f, fuel = f + 1 := ⟨fuel - 1, by omega⟩
    obtain ⟨op, body, rfl, hop⟩ := StmtTokens_ne_nil ts c hs
    have hw : (next_word st).word = op := by
      show (pop_token st.input).1 = _
      rw [hin]; rfl
    have hi : (next_word st).input = body ++ eol :: rest := by
      show (pop_token st.input).2 = _
      rw [hin]; rfl
    have hne : (next_word st).word.type ≠ TokenType.TOK_EOF := by rw [hw]; exact hop
    obtain ⟨st1, p, g1, g2, g3, g4, g5, q, g6⟩ :=
      stmt_step_ir (op :: body) c hs (next_word st) (eol :: rest) ptrs calls0
        (by rw [hw, hi]; rfl) (Or.inl heol) hb
    obtain ⟨st2, ps, h1, h2, h3, h4, h5, h6⟩ :=
      ih st1 f (ptrs ++ [p]) (calls0 ++ [c]) g2
        (by simp at hfuel; omega) g5
    refine ⟨st2, p :: ps, ?_, ?_, h3, by simp [h4], by simpa using h5, ?_⟩
    · simp only [parse_loop, hne, if_false, g1, Option.some_bind]
      exact h1
    · rw [h2, g3]
      show st.opCount + 1 + (calls.length : Int) = st.opCount + ((calls.length + 1 : Nat) : Int)
      push_cast
      ring
    · have g7 : ir_build st.ir c.op c.line c.nops c.args = some (st1.ir, q) := g6
      simp only [build_from, g7, Option.some_bind]
      exact h6

theorem OneMalformed_repaired (toks toks1 : List Token) (calls : List BuildCall)
    (hm : OneMalformed toks toks1 calls) :
    WellFormed toks1 calls ∧ toks1.length ≤ toks.length := by
  induction hm with
  | here bad eol rest calls _ heol hwf =>
    exact ⟨WellFormed.blank eol rest calls heol hwf, by simp⟩
  | here_last bad rest _ hall => exact ⟨WellFormed.done rest hall, by simp⟩
  | blank eol rest rest1 calls heol _ ih =>
    exact ⟨WellFormed.blank eol rest1 calls heol ih.1, by simpa using ih.2⟩
  | stmt ts c eol rest rest1 calls hs heol _ ih =>
    exact ⟨WellFormed.stmt ts c eol rest1 calls hs heol ih.1, by simpa using ih.2⟩

/-- C21: for every token stream `toks` in which one statement is missing
its separator (`=>` or `,`) and every other statement is well-formed, with
`toks1` the stream in which the malformed line is replaced by an empty line
and `calls` the nodes of the well-formed statements, whatever lexical errors
the scanner reports on the two streams (`errs`, `errs1`): parse_program
returns on both streams; on `toks` it sets `error_flag`, on `toks1` it leaves
it clear when the scanner reports no lexical error;
the state of ir.c after the two runs is the same, so the nodes appended
(opcode, line, operands, order) are the same, they are one node per
well-formed statement and none for the malformed one, and the counts agree.
In the iteration of the loop that meets the malformed statement, no node is
appended, `opCount` is not touched, the flag is set, and the tokens discarded
are exactly those of the statement up to the end-of-line (or end-of-file)
that ends it: afterwards `word` is that token and the scanner stands after
it. -/
theorem C21_missing_separator_is_skipped (toks toks1 : List Token) (errs errs1 : List Bool)
    (calls : List BuildCall) (s0 : IRState) (fuel : Nat)
    (hm : OneMalformed toks toks1 calls) (hfuel : toks.length < fuel) :
    (∃ st count st1 count1 ps,
      parse_program fuel (parser_start toks errs s0) = some (st, count) ∧
      parse_program fuel (parser_start toks1 errs1 s0) = some (st1, count1) ∧
      st.error_flag = 1 ∧ ((∀ b ∈ errs1, b = false) → st1.error_flag = 0) ∧
      st.ir = st1.ir ∧ count = count1 ∧
      count = (calls.length : Int) ∧ ps.length = calls.length ∧
      fwd_ptrs fuel st.ir (st.ir.nodes node_head).next = some ps ∧
      List.Forall₂ (fun c p => Matches c (st.ir.nodes p)) calls ps) ∧
    ∀ (bad : List Token) (x : ParserState) (rest : List Token), MissingSep bad →
      x.word :: x.input = bad ++ rest →
      ((pop_token rest).1.type = TokenType.TOK_EOL ∨
        (pop_token rest).1.type = TokenType.TOK_EOF) →
      ∃ x1, parse_step x = some (next_word x1) ∧ x1.word = (pop_token rest).1 ∧
        x1.input = (pop_token rest).2 ∧ x1.ir = x.ir ∧ x1.opCount = x.opCount ∧
        x1.error_flag = 1 := by
  constructor
  · obtain ⟨hwf, hlen⟩ := OneMalformed_repaired toks toks1 calls hm
    obtain ⟨st, ps, h1, h2, h3, h4, h5, h6⟩ :=
      parse_loop_malformed toks toks1 calls hm { parser_start toks errs s0 with opCount := 0 }
        fuel [] [] rfl hfuel (Built_init s0)
    obtain ⟨st1, ps1, k1, k2, k3, k4, k5, k6⟩ :=
      parse_loop_wf_ir toks1 calls hwf { parser_start toks1 errs1 s0 with opCount := 0 }
        fuel [] [] rfl (by omega) (Built_init s0)
    simp only [List.nil_append] at h5
    have hir : st.ir = st1.ir := by
      have e : build_from (init_node_list (init_pool_list s0)) calls = some st.ir := h6
      have e1 : build_from (init_node_list (init_pool_list s0)) calls = some st1.ir := k6
      rw [e] at e1
      exact Option.some.inj e1
    have c0 : st.opCount = (calls.length : Int) := by rw [h2]; simp
    have c1 : st1.opCount = (calls.length : Int) := by rw [k2]; simp
    refine ⟨st, st.opCount, st1, st1.opCount, ps,
      by simp only [parse_program, h1, Option.map_some'],
      by simp only [parse_program, k1, Option.map_some'],
      h3, fun hl => (k3.1 hl).1, hir, by rw [c0, c1], c0, h4, ?_, h5.2.2⟩
    exact (Chain_traversals st.ir ps h5.1 fuel (by
      have := hm
      rw [h4]
      have hc : calls.length ≤ toks1.length := by
        clear h1 h2 h3 h5 h6 k1 k2 k3 k4 k5 k6 hir c0 c1 this hm hfuel hlen h4
        induction hwf with
        | done rest _ => simp
        | blank eol rest calls _ _ ih => simp only [List.length_cons]; omega
        | stmt ts c eol rest calls _ _ _ ih =>
          simp only [List.length_cons, List.length_append]; omega
        | last ts c rest hs _ =>
          obtain ⟨op, body, rfl, -⟩ := StmtTokens_ne_nil ts c hs
          simp
      omega)).1
  · intro bad x rest hb hcons ht
    obtain ⟨x1, e1, e2, e3, e4, e5, e6⟩ := bad_step bad hb x rest hcons ht
    exact ⟨x1, e1, e3, e2, e4, e5, e6⟩

/-- C21 on the tokens of `load r1 => r2`, `add r2 r2 => r3` (the comma is
missing) and `store r3 => r1`. -/
theorem C21_witness :
    (∃ st count st1 count1 ps,
      parse_program 17 (parser_start malformed_tokens [] start_state) = some (st, count) ∧
      parse_program 17 (parser_start repaired_tokens [] start_state) = some (st1, count1) ∧
      st.error_flag = 1 ∧ ((∀ b ∈ ([] : List Bool), b = false) → st1.error_flag = 0) ∧
      st.ir = st1.ir ∧ count = count1 ∧
      count = (malformed_calls.length : Int) ∧ ps.length = malformed_calls.length ∧
      fwd_ptrs 17 st.ir (st.ir.nodes node_head).next = some ps ∧
      List.Forall₂ (fun c p => Matches c (st.ir.nodes p)) malformed_calls ps) ∧
    ∀ (bad : List Token) (x : ParserState) (rest : List Token), MissingSep bad →
      x.word :: x.input = bad ++ rest →
      ((pop_token rest).1.type = TokenType.TOK_EOL ∨
        (pop_token rest).1.type = TokenType.TOK_EOF) →
      ∃ x1, parse_step x = some (next_word x1) ∧ x1.word = (pop_token rest).1 ∧
        x1.input = (pop_token rest).2 ∧ x1.ir = x.ir ∧ x1.opCount = x.opCount ∧
        x1.error_flag = 1 :=
  C21_missing_separator_is_skipped malformed_tokens repaired_tokens [] [] malformed_calls
    start_state 17
    (OneMalformed.stmt _ _ ⟨TokenType.TOK_EOL, 0, 1⟩ _ _ _
      (StmtTokens.load ⟨TokenType.TOK_MEMOP, 0, 1⟩ ⟨TokenType.TOK_REG, 1, 1⟩
        ⟨TokenType.TOK_INTO, 0, 1⟩ ⟨TokenType.TOK_REG, 2, 1⟩ rfl rfl rfl rfl rfl) rfl
      (OneMalformed.here
        [⟨TokenType.TOK_ARITHOP, 0, 2⟩, ⟨TokenType.TOK_REG, 2, 2⟩, ⟨TokenType.TOK_REG, 2, 2⟩,
          ⟨TokenType.TOK_INTO, 0, 2⟩, ⟨TokenType.TOK_REG, 3, 2⟩]
        ⟨TokenType.TOK_EOL, 0, 2⟩ _ _
        ⟨_, _, ⟨TokenType.TOK_COMMA, 0, 2⟩,
          StmtTokens.arith ⟨TokenType.TOK_ARITHOP, 0, 2⟩ ⟨TokenType.TOK_REG, 2, 2⟩
            ⟨TokenType.TOK_COMMA, 0, 2⟩ ⟨TokenType.TOK_REG, 2, 2⟩ ⟨TokenType.TOK_INTO, 0, 2⟩
            ⟨TokenType.TOK_REG, 3, 2⟩ IROpcode.IR_ADD rfl rfl rfl rfl rfl rfl rfl,
          by decide, Or.inr rfl, by decide⟩
        rfl
        (WellFormed.stmt _ _ ⟨TokenType.TOK_EOL, 0, 3⟩ [] []
          (StmtTokens.store ⟨TokenType.TOK_MEMOP, 1, 3⟩ ⟨TokenType.TOK_REG, 3, 3⟩
            ⟨TokenType.TOK_INTO, 0, 3⟩ ⟨TokenType.TOK_REG, 1, 3⟩ rfl rfl rfl rfl rfl) rfl
          (WellFormed.done [] (by decide)))))
    (by decide)

set_option maxHeartbeats 1000000 in
/-- The two runs on the streams of that example, evaluated: the flag, the count, and the
nodes. -/
theorem malformed_run :
    (parse_program 17 (parser_start malformed_tokens [] start_state)).map
        (fun r => (r.1.error_flag, r.2)) = some (1, 2) ∧
    (parse_program 17 (parser_start repaired_tokens [] start_state)).map
        (fun r => (r.1.error_flag, r.2)) = some (0, 2) ∧
    ((parse_program 17 (parser_start malformed_tokens [] start_state)).bind
        fun r => (node_seq 3 r.1.ir).map operands_of) = some
      [ (IROpcode.IR_LOAD, ⟨1, -1, -1, -1⟩, ⟨-1, -1, -1, -1⟩, ⟨2, -1, -1, -1⟩),
        (IROpcode.IR_STORE, ⟨3, -1, -1, -1⟩, ⟨-1, -1, -1, -1⟩, ⟨1, -1, -1, -1⟩) ] := by
  refine ⟨by decide, by decide, by decide⟩

/-! ## Renaming twice -/

theorem tag_def_skel (o o1 : IROperand) (t : RenameVars) (h1 : o1.sr = o.sr)
    (h2 : o1.pr = o.pr) : tag_def o1 t = tag_def o t := by
  cases o
  cases o1
  simp only at h1 h2
  subst h1
  subst h2
  rfl

theorem tag_use_skel (o o1 : IROperand) (t : RenameVars) (h1 : o1.sr = o.sr)
    (h2 : o1.pr = o.pr) : tag_use o1 t = tag_use o t := by
  cases o
  cases o1
  simp only at h1 h2
  subst h1
  subst h2
  rfl

theorem get_set_other (n : IRNode) (sl e : Slot) (o : IROperand) (h : sl ≠ e) :
    (n.set e o).get sl = n.get sl := by
  cases sl <;> cases e <;> first | rfl | exact absurd rfl h

theorem set_frame (n : IRNode) (e : Slot) (o : IROperand) :
    (n.set e o).opcode = n.opcode ∧ (n.set e o).line = n.line ∧
    (n.set e o).prev = n.prev ∧ (n.set e o).next = n.next := by
  cases e <;> exact ⟨rfl, rfl, rfl, rfl⟩

theorem tag_slot_skel (e : Bool × Slot) (n n1 m : IRNode) (t t1 : RenameVars)
    (h : tag_slot e n t = some (m, t1))
    (hs : (n1.get e.2).sr = (n.get e.2).sr ∧ (n1.get e.2).pr = (n.get e.2).pr) :
    tag_slot e n1 t = some (n1.set e.2 (m.get e.2), t1) := by
  unfold tag_slot at h ⊢
  have e1 : (if e.1 then tag_def (n1.get e.2) t else tag_use (n1.get e.2) t) =
      (if e.1 then tag_def (n.get e.2) t else tag_use (n.get e.2) t) := by
    split_ifs
    · exact tag_def_skel _ _ t hs.1 hs.2
    · exact tag_use_skel _ _ t hs.1 hs.2
  rw [e1]
  cases hr : (if e.1 then tag_def (n.get e.2) t else tag_use (n.get e.2) t) with
  | none => rw [hr] at h; exact Option.noConfusion h
  | some r =>
    rw [hr] at h
    simp only [Option.map_some', Option.some.injEq, Prod.mk.injEq] at h ⊢
    obtain ⟨rfl, rfl⟩ := h
    exact ⟨by rw [get_set_same], rfl⟩

/-- Tagging a list of slots reads only the `sr` (and keeps the `pr`) of those
slots: on a node that agrees with `n` on them, the same operands are stamped
and the same tables result. -/
theorem tag_slots_skel (es : List (Bool × Slot)) (hnd : (es.map fun e => e.2).Nodup)
    (n n1 m : IRNode) (t t1 : RenameVars) (h : tag_slots es n t = some (m, t1))
    (hs : ∀ e ∈ es, (n1.get e.2).sr = (n.get e.2).sr ∧ (n1.get e.2).pr = (n.get e.2).pr) :
    ∃ m1, tag_slots es n1 t = some (m1, t1) ∧ (∀ e ∈ es, m1.get e.2 = m.get e.2) ∧
      (∀ sl, (∀ e ∈ es, sl ≠ e.2) → m1.get sl = n1.get sl) ∧
      m1.opcode = n1.opcode ∧ m1.line = n1.line ∧ m1.prev = n1.prev ∧ m1.next = n1.next := by
  induction es generalizing n n1 t with
  | nil =>
    simp only [tag_slots, Option.some.injEq, Prod.mk.injEq] at h
    obtain ⟨rfl, rfl⟩ := h
    exact ⟨n1, rfl, by simp, fun _ _ => rfl, rfl, rfl, rfl, rfl⟩
  | cons e es ih =>
    simp only [List.map_cons, List.nodup_cons, List.mem_map, not_exists, not_and] at hnd
    obtain ⟨hne, hnd2⟩ := hnd
    simp only [tag_slots] at h
    rcases he : tag_slot e n t with _ | ⟨n2, t2⟩
    · simp [he] at h
    · simp only [he, Option.some_bind] at h
      have he1 := tag_slot_skel e n n1 n2 t t2 he (hs e (by simp))
      obtain ⟨-, -, -, -, a5, a6, -⟩ := tag_slot_frame e n n2 t t2 he
      have hrest : ∀ e1 ∈ es, ((n1.set e.2 (n2.get e.2)).get e1.2).sr = (n2.get e1.2).sr ∧
          ((n1.set e.2 (n2.get e.2)).get e1.2).pr = (n2.get e1.2).pr := by
        intro e1 he1m
        have hne1 : e1.2 ≠ e.2 := fun hh => hne e1 he1m hh
        rw [get_set_other _ _ _ _ hne1, a6 e1.2 hne1]
        exact hs e1 (List.mem_cons_of_mem _ he1m)
      obtain ⟨m1, b1, b2, b3, b4, b5, b6, b7⟩ := ih hnd2 n2 _ t2 h hrest
      obtain ⟨c1, c2, c3, c4⟩ := set_frame n1 e.2 (n2.get e.2)
      obtain ⟨-, -, -, -, -, d6, -⟩ := tag_slots_frame es n2 m t2 t1 h
      refine ⟨m1, by simp only [tag_slots, he1, Option.some_bind]; exact b1, ?_, ?_,
        b4.trans c1, b5.trans c2, b6.trans c3, b7.trans c4⟩
      · intro e1 he1m
        rcases List.mem_cons.mp he1m with rfl | he1m
        · rw [b3 e1.2 (fun e2 he2 hh => hne e2 he2 hh.symm), get_set_same,
            d6 e1.2 (fun e2 he2 hh => hne e2 he2 hh.symm)]
        · exact b2 e1 he1m
      · intro sl hsl
        rw [b3 sl (fun e2 he2 => hsl e2 (List.mem_cons_of_mem _ he2)),
          get_set_other _ _ _ _ (hsl e (by simp))]

theorem node_ext (a b : IRNode) (h1 : a.opcode = b.opcode) (h2 : a.line = b.line)
    (h3 : a.prev = b.prev) (h4 : a.next = b.next) (h5 : ∀ sl, a.get sl = b.get sl) : a = b := by
  cases a
  cases b
  have e1 := h5 Slot.s1
  have e2 := h5 Slot.s2
  have e3 := h5 Slot.s3
  simp only [IRNode.get] at e1 e2 e3
  simp only at h1 h2 h3 h4
  subst h1 h2 h3 h4 e1 e2 e3
  rfl

/-- The loop body of ir_rename on a node it has already stamped, with the
same tables, stamps the same values again. -/
theorem rename_body_again (n m : IRNode) (t t1 : RenameVars)
    (h : rename_body n t = some (m, t1)) : rename_body m t = some (m, t1) := by
  obtain ⟨t2, t3, h1, h2, h3⟩ := rename_body_some n m t t1 h
  obtain ⟨f1, f2, f3, f4, f5, -, -⟩ := tag_slots_frame _ n m t t2 h1
  obtain ⟨m1, g1, g2, g3, g4, g5, g6, g7⟩ :=
    tag_slots_skel (events n.opcode) (events_nodup n.opcode) n m m t t2 h1
      (fun e _ => f5 e.2)
  have hm : m1 = m := by
    apply node_ext _ _ g4 g5 g6 g7
    intro sl
    by_cases hsl : ∃ e ∈ events n.opcode, sl = e.2
    · obtain ⟨e, he, rfl⟩ := hsl
      exact g2 e he
    · push_neg at hsl
      exact g3 sl hsl
  subst hm
  rw [rename_body_eq, f1, g1]
  simp only [Option.some_bind, h2, Option.map_some', h3]

theorem rename_walk_again (pre out : List IRNode) (t T : RenameVars)
    (h : rename_walk pre t = some (out, T)) : rename_walk out t = some (out, T) := by
  induction pre generalizing out T with
  | nil =>
    simp only [rename_walk, Option.some.injEq, Prod.mk.injEq] at h
    obtain ⟨rfl, rfl⟩ := h
    rfl
  | cons x xs ih =>
    obtain ⟨o1, t2, x1, h1, h2, rfl⟩ := rename_walk_cons x xs out t T h
    simp only [rename_walk, ih o1 t2 h1, Option.some_bind, rename_body_again x x1 t2 T h2]

theorem scan_step_congr (a b : IRNode) (m : Int) (h : ∀ sl, (a.get sl).sr = (b.get sl).sr) :
    scan_step a m = scan_step b m := by
  have e1 := h Slot.s1
  have e2 := h Slot.s2
  have e3 := h Slot.s3
  simp only [IRNode.get] at e1 e2 e3
  simp only [scan_step, e1, e2, e3]

theorem entry_vars_again (pre out : List IRNode) (t T : RenameVars)
    (h : rename_walk pre t = some (out, T)) : entry_vars out = entry_vars pre := by
  have hlen := (rename_walk_frame pre t out T h).1
  have hscan : ∀ (l1 l2 : List IRNode) (m : Int),
      List.Forall₂ (fun a b => ∀ sl, (a.get sl).sr = (b.get sl).sr) l1 l2 →
      scan_max m l1 = scan_max m l2 := by
    intro l1 l2 m hf
    induction hf generalizing m with
    | nil => rfl
    | cons hab _ ih => simp only [scan_max, scan_step_congr _ _ m hab, ih]
  have hf : List.Forall₂ (fun a b => ∀ sl, (a.get sl).sr = (b.get sl).sr) out pre := by
    clear hlen
    induction pre generalizing out T with
    | nil =>
      simp only [rename_walk, Option.some.injEq, Prod.mk.injEq] at h
      obtain ⟨rfl, rfl⟩ := h
      exact List.Forall₂.nil
    | cons x xs ih =>
      obtain ⟨o1, t2, x1, h1, h2, rfl⟩ := rename_walk_cons x xs out t T h
      obtain ⟨-, -, -, -, f5, -⟩ := rename_body_frame x x1 t2 T h2
      exact List.Forall₂.cons (fun sl => (f5 sl).1) (ih o1 t2 h1)
  simp only [entry_vars, hscan out pre (-1) hf, hlen]

/-- C31: on every builder-produced block, running ir_rename a second time
returns the same MAXLIVE, leaves the id counter at the same value, and leaves
every node of the sequence (hence every operand's virtual_id and next_use)
exactly as the first run left it. -/
theorem C31_rename_twice (s0 : IRState) (calls : List BuildCall) (fuel : Nat)
    (hv : ∀ c ∈ calls, c.valid) (hfuel : calls.length < fuel) :
    ∃ s1 maxlive out, build_and_rename fuel s0 calls = some (s1, maxlive) ∧
      node_seq fuel s1 = some out ∧ out.length = calls.length ∧
      ∃ s2, ir_rename fuel s1 = some (s2, maxlive) ∧ node_seq fuel s2 = some out ∧
        s2.vrname = s1.vrname := by
  obtain ⟨s, ptrs, hbuild, hb⟩ := build_block_spec s0 calls hv
  have hpre := Built_pre s ptrs calls hb
  have hlen : ptrs.length = calls.length := by
    have := hpre.length_eq
    simpa using this.symm
  obtain ⟨hmax, hrange⟩ := Matches_in_range calls _ hv hpre
  obtain ⟨out, t, hw⟩ :=
    rename_walk_total (ptrs.map s.nodes) (entry_vars (ptrs.map s.nodes)) hrange
  obtain ⟨-, -, s1, h1, h2, h3, h4, -⟩ :=
    ir_rename_spec s ptrs hb.1 fuel (by omega) hmax out t hw
  have hout : ptrs.map s1.nodes = out := by
    have h5 := node_list_spec s1 ptrs node_head h4.1 (Chain_cells s1 ptrs h4) fuel (by omega)
    have h6 : node_seq fuel s1 = some (ptrs.map s1.nodes) := h5
    rw [h3] at h6
    exact (Option.some.inj h6).symm
  have hol := (rename_walk_frame _ _ out t hw).1
  have hw2 : rename_walk (ptrs.map s1.nodes) (entry_vars (ptrs.map s1.nodes)) = some (out, t) := by
    rw [hout, entry_vars_again _ out _ t hw]
    exact rename_walk_again _ out _ t hw
  have hmax2 : ∀ n ∈ ptrs.map s1.nodes, ∀ sl, (n.get sl).sr < INT_MAX := by
    rw [hout]
    intro n hn sl
    obtain ⟨i, hi, rfl⟩ := List.mem_iff_getElem.mp hn
    have hi2 : i < (ptrs.map s.nodes).length := by omega
    obtain ⟨-, -, f3, -⟩ := rename_walk_frame_at _ out _ t hw i _ _
      (List.getElem?_eq_getElem hi2) (List.getElem?_eq_getElem hi)
    rw [(f3 sl).1]
    exact hmax _ (List.getElem_mem _) sl
  obtain ⟨-, -, s2, g1, g2, g3, -⟩ :=
    ir_rename_spec s1 ptrs h4 fuel (by omega) hmax2 out t hw2
  refine ⟨s1, t.maxlive, out, by simp [build_and_rename, hbuild, h1], h3, ?_, s2, g1, g3,
    g2.trans h2.symm⟩
  simp only [List.length_map] at hol
  omega

set_option maxHeartbeats 1000000 in
/-- C31 on the worked scenario `loadI 5 => r1 ; add r1, r1 => r2 ;
store r2 => r3`. -/
theorem C31_witness :
    ∃ s1 maxlive out, build_and_rename 4 start_state worked_block = some (s1, maxlive) ∧
      node_seq 4 s1 = some out ∧ out.length = worked_block.length ∧
      ∃ s2, ir_rename 4 s1 = some (s2, maxlive) ∧ node_seq 4 s2 = some out ∧
        s2.vrname = s1.vrname :=
  C31_rename_twice start_state worked_block 4 (by decide) (by decide)

/-! ## The count of the parser -/

theorem CountInv_of_eq (p0 : List NodePtr) (x y : ParserState) (h1 : y.ir = x.ir)
    (h2 : y.opCount = x.opCount) (h : CountInv p0 x) : CountInv p0 y := by
  unfold CountInv at h ⊢
  rw [h1, h2]
  exact h

/-- A call of ir_build by the parser returns, leaves the token stream alone,
appends one node and adds one to the count. -/
theorem build_and_count_cnt (p0 : List NodePtr) (x : ParserState) (op : IROpcode)
    (line nops : Int) (args : List Int) (hinv : CountInv p0 x)
    (he : BuildCall.enough_args ⟨op, line, nops, args⟩) :
    ∃ st1, build_and_count x op line nops args = some st1 ∧ st1.input = x.input ∧
      CountInv p0 st1 := by
  obtain ⟨ps, h1, h2, h3⟩ := hinv
  obtain ⟨s1, k, i, b1, -, b3, b4, -, -⟩ :=
    ir_build_total x.ir (p0 ++ ps) ⟨op, line, nops, args⟩ h1 h2 he
  refine ⟨{ x with ir := s1, opCount := x.opCount + 1 },
    by simp only [build_and_count, b1, Option.map_some'], rfl,
    ps ++ [NodePtr.cell k i], by rw [← List.append_assoc]; exact b3,
    by rw [← List.append_assoc]; exact b4, ?_⟩
  show x.opCount + 1 = _
  rw [h3]
  simp

theorem build_cnt (p0 : List NodePtr) (x : ParserState) (op : IROpcode) (line nops : Int)
    (args : List Int) (l : List Token) (hinv : CountInv p0 x)
    (he : BuildCall.enough_args ⟨op, line, nops, args⟩) (hs : x.input <:+ l) :
    ∃ st1, build_and_count x op line nops args = some st1 ∧ st1.input <:+ l ∧
      CountInv p0 st1 := by
  obtain ⟨st1, e1, e2, e3⟩ := build_and_count_cnt p0 x op line nops args hinv he
  exact ⟨st1, e1, by rw [e2]; exact hs, e3⟩

theorem finish_output_cnt (p0 : List NodePtr) (line : Int) (st : ParserState)
    (hinv : CountInv p0 st) :
    ∃ st1, finish_output line st = some st1 ∧ st1.input <:+ st.input ∧ CountInv p0 st1 := by
  unfold finish_output
  simp only []
  split_ifs with h1 h2
  · exact ⟨_, rfl, suffix_err _ _ (suffix_next _ _ (List.suffix_refl _)), hinv⟩
  · exact ⟨_, rfl, suffix_err _ _ (suffix_next _ _ (suffix_next _ _ (List.suffix_refl _))),
      hinv⟩
  · exact build_cnt p0 _ _ _ _ _ _ hinv (by simp [BuildCall.enough_args])
      (suffix_next _ _ (suffix_next _ _ (List.suffix_refl _)))

theorem finish_nop_cnt (p0 : List NodePtr) (line : Int) (st : ParserState)
    (hinv : CountInv p0 st) :
    ∃ st1, finish_nop line st = some st1 ∧ st1.input <:+ st.input ∧ CountInv p0 st1 := by
  unfold finish_nop
  simp only []
  split_ifs with h1
  · refine ⟨_, rfl, ?_, hinv⟩
    exact (flush_line_suffix _ _).trans (pop_token_suffix _)
  · exact build_cnt p0 (get_next_token st).2 _ _ _ _ _ hinv
      (by simp [BuildCall.enough_args]) (pop_token_suffix _)

theorem finish_loadI_cnt (p0 : List NodePtr) (line : Int) (st : ParserState)
    (hinv : CountInv p0 st) :
    ∃ st1, finish_loadI line st = some st1 ∧ st1.input <:+ st.input ∧ CountInv p0 st1 := by
  unfold finish_loadI
  simp only []
  split_ifs with h1 h2 h3 h4
  · exact ⟨_, rfl, suffix_err _ _ (suffix_next _ _ (List.suffix_refl _)), hinv⟩
  · exact ⟨_, rfl, suffix_err _ _ (suffix_next _ _ (suffix_next _ _ (List.suffix_refl _))),
      hinv⟩
  · exact ⟨_, rfl, suffix_err _ _ (suffix_next _ _ (suffix_next _ _ (suffix_next _ _
      (List.suffix_refl _)))), hinv⟩
  · exact ⟨_, rfl, suffix_err _ _ (suffix_next _ _ (suffix_next _ _ (suffix_next _ _
      (suffix_next _ _ (List.suffix_refl _))))), hinv⟩
  · exact build_cnt p0 _ _ _ _ _ _ hinv (by simp [BuildCall.enough_args])
      (suffix_next _ _ (suffix_next _ _ (suffix_next _ _ (suffix_next _ _
        (List.suffix_refl _)))))

theorem finish_memop_cnt (p0 : List NodePtr) (first : Token) (line : Int) (st : ParserState)
    (hinv : CountInv p0 st) :
    ∃ st1, finish_memop first line st = some st1 ∧ st1.input <:+ st.input ∧
      CountInv p0 st1 := by
  unfold finish_memop
  simp only []
  have s4 : ∀ x : ParserState, x.input = st.input →
      (next_word (next_word (next_word (next_word x)))).input <:+ st.input := fun x hx =>
    suffix_next _ _ (suffix_next _ _ (suffix_next _ _ (suffix_next _ _ (hx ▸ List.suffix_refl _))))
  split_ifs with h1 h2 h3 h4 h5 h6
  · exact ⟨_, rfl, suffix_err _ _ (suffix_next _ _ (List.suffix_refl _)), hinv⟩
  · exact ⟨_, rfl, suffix_err _ _ (suffix_next _ _ (suffix_next _ _ (List.suffix_refl _))),
      hinv⟩
  · exact ⟨_, rfl, suffix_err _ _ (suffix_next _ _ (suffix_next _ _ (suffix_next _ _
      (List.suffix_refl _)))), hinv⟩
  · exact ⟨_, rfl, suffix_err _ _ (s4 st rfl), hinv⟩
  · exact build_cnt p0 _ _ _ _ _ _ hinv (by simp [BuildCall.enough_args]) (s4 st rfl)
  · exact build_cnt p0 _ _ _ _ _ _ hinv (by simp [BuildCall.enough_args]) (s4 st rfl)
  · exact ⟨_, rfl, suffix_err _ _ (s4 st rfl), hinv⟩

theorem next_word_cnt (p0 : List NodePtr) (x y : ParserState) (l : List Token)
    (h : next_word x = y) (hs : x.input <:+ l) (hinv : CountInv p0 x) :
    y.input <:+ l ∧ CountInv p0 y := by
  subst h
  exact ⟨suffix_next _ _ hs, hinv⟩

theorem finish_arithop_cnt (p0 : List NodePtr) (first : Token) (line : Int) (st : ParserState)
    (hinv : CountInv p0 st) :
    ∃ st1, finish_arithop first line st = some st1 ∧ st1.input <:+ st.input ∧
      CountInv p0 st1 := by
  unfold finish_arithop
  generalize hx1 : next_word st = x1
  obtain ⟨a1, a2⟩ := next_word_cnt p0 _ _ st.input hx1 (List.suffix_refl _) hinv
  show ∃ st1, (if x1.word.type ≠ TokenType.TOK_REG then _ else _) = some st1 ∧ _
  by_cases h1 : x1.word.type ≠ TokenType.TOK_REG
  · rw [if_pos h1]
    exact ⟨_, rfl, suffix_err _ _ a1, a2⟩
  rw [if_neg h1]
  generalize hx2 : next_word { x1 with tb0 := x1.word } = x2
  obtain ⟨b1, b2⟩ := next_word_cnt p0 { x1 with tb0 := x1.word } _ st.input hx2 a1 a2
  show ∃ st1, (if x2.word.type ≠ TokenType.TOK_COMMA then _ else _) = some st1 ∧ _
  by_cases h2 : x2.word.type ≠ TokenType.TOK_COMMA
  · rw [if_pos h2]
    exact ⟨_, rfl, suffix_err _ _ b1, b2⟩
  rw [if_neg h2]
  generalize hx3 : next_word x2 = x3
  obtain ⟨c1, c2⟩ := next_word_cnt p0 _ _ st.input hx3 b1 b2
  show ∃ st1, (if x3.word.type ≠ TokenType.TOK_REG then _ else _) = some st1 ∧ _
  by_cases h3 : x3.word.type ≠ TokenType.TOK_REG
  · rw [if_pos h3]
    exact ⟨_, rfl, suffix_err _ _ c1, c2⟩
  rw [if_neg h3]
  generalize hx4 : next_word { x3 with tb1 := x3.word } = x4
  obtain ⟨d1, d2⟩ := next_word_cnt p0 { x3 with tb1 := x3.word } _ st.input hx4 c1 c2
  show ∃ st1, (if x4.word.type ≠ TokenType.TOK_INTO then _ else _) = some st1 ∧ _
  by_cases h4 : x4.word.type ≠ TokenType.TOK_INTO
  · rw [if_pos h4]
    exact ⟨_, rfl, suffix_err _ _ d1, d2⟩
  rw [if_neg h4]
  generalize hx5 : next_word x4 = x5
  obtain ⟨e1, e2⟩ := next_word_cnt p0 _ _ st.input hx5 d1 d2
  show ∃ st1, (if x5.word.type ≠ TokenType.TOK_REG then _ else _) = some st1 ∧ _
  by_cases h5 : x5.word.type ≠ TokenType.TOK_REG
  · rw [if_pos h5]
    exact ⟨_, rfl, suffix_err _ _ e1, e2⟩
  rw [if_neg h5]
  generalize hx6 : next_word { x5 with tb2 := x5.word } = x6
  obtain ⟨f1, f2⟩ := next_word_cnt p0 { x5 with tb2 := x5.word } _ st.input hx6 e1 e2
  show ∃ st1, (if x6.word.type ≠ TokenType.TOK_EOL ∧ x6.word.type ≠ TokenType.TOK_EOF
    then _ else _) = some st1 ∧ _
  have herr : ∃ st1, some (parse_errorf x6) = some st1 ∧ st1.input <:+ st.input ∧
      CountInv p0 st1 := ⟨_, rfl, suffix_err _ _ f1, f2⟩
  by_cases h6 : x6.word.type ≠ TokenType.TOK_EOL ∧ x6.word.type ≠ TokenType.TOK_EOF
  · rw [if_pos h6]
    exact herr
  rw [if_neg h6]
  have hb : ∀ op, ∃ st1,
      build_and_count x6 op line 3 [x6.tb0.value, x6.tb1.value, x6.tb2.value] =
        some st1 ∧ st1.input <:+ st.input ∧ CountInv p0 st1 := fun op =>
    build_cnt p0 _ _ _ _ _ _ f2 (by simp [BuildCall.enough_args]) f1
  show ∃ st1, (if first.value = ARITH_ADD then _ else if first.value = ARITH_SUB then _
    else if first.value = ARITH_MULT then _ else if first.value = ARITH_LSHIFT then _
    else if first.value = ARITH_RSHIFT then _ else _) = some st1 ∧ _
  split_ifs
  · exact hb _
  · exact hb _
  · exact hb _
  · exact hb _
  · exact hb _
  · exact herr

/-- One iteration of the loop of parse_program returns on any token stream;
it consumes tokens only, and the count follows the nodes appended. -/
theorem parse_step_cnt (p0 : List NodePtr) (st : ParserState) (hinv : CountInv p0 st) :
    ∃ st1, parse_step st = some (next_word st1) ∧ st1.input <:+ st.input ∧
      CountInv p0 st1 := by
  have lift : ∀ r : Option ParserState,
      (∃ st1, r = some st1 ∧ st1.input <:+ st.input ∧ CountInv p0 st1) →
      ∃ st1, r.map next_word = some (next_word st1) ∧ st1.input <:+ st.input ∧
        CountInv p0 st1 := by
    rintro r ⟨st1, rfl, h2, h3⟩
    exact ⟨st1, rfl, h2, h3⟩
  unfold parse_step
  simp only []
  apply lift
  cases st.word.type
  · exact finish_memop_cnt p0 _ _ st hinv
  · exact finish_loadI_cnt p0 _ st hinv
  · exact finish_arithop_cnt p0 _ _ st hinv
  · exact finish_output_cnt p0 _ st hinv
  · exact finish_nop_cnt p0 _ st hinv
  all_goals
    first
    | exact ⟨st, rfl, List.suffix_refl _, hinv⟩
    | exact ⟨_, rfl, suffix_err _ _ (List.suffix_refl _), hinv⟩

/-- The loop of parse_program ends on every token stream, with fuel above the
number of tokens left, and the count follows the nodes appended. -/
theorem parse_loop_cnt (p0 : List NodePtr) (fuel : Nat) (st : ParserState)
    (hfuel : st.input.length + (if st.word.type = TokenType.TOK_EOF then 0 else 1) < fuel)
    (hinv : CountInv p0 st) :
    ∃ st1, parse_loop fuel st = some st1 ∧ CountInv p0 st1 := by
  induction fuel generalizing st with
  | zero => omega
  | succ f ih =>
    unfold parse_loop
    by_cases he : st.word.type = TokenType.TOK_EOF
    · rw [if_pos he]
      exact ⟨st, rfl, hinv⟩
    · rw [if_neg he] at hfuel ⊢
      obtain ⟨st1, h1, h2, h3⟩ := parse_step_cnt p0 st hinv
      rw [h1]
      simp only [Option.some_bind]
      apply ih
      · have hlen := h2.length_le
        show (pop_token st1.input).2.length +
          (if (pop_token st1.input).1.type = TokenType.TOK_EOF then 0 else 1) < f
        cases hh : st1.input with
        | nil =>
          simp only [pop_token, eof_token, List.length_nil, if_true]
          omega
        | cons t rest =>
          rw [hh] at hlen
          simp only [pop_token, List.length_cons] at hlen ⊢
          split_ifs <;> omega
      · exact h3

theorem node_seq_length (s : IRState) (ptrs : List NodePtr) (hc : Chain s ptrs) (f : Nat)
    (hf : ptrs.length < f) : (node_seq f s).map List.length = some ptrs.length := by
  have h : node_seq f s = some (ptrs.map s.nodes) :=
    node_list_spec s ptrs node_head hc.1 (Chain_cells s ptrs hc) f hf
  rw [h]
  simp

/-- C34: on every token stream, well-formed or not, and from every parser
state whose node list is well linked, parse_program returns (with fuel above
the number of tokens), and the count it reports is the number of nodes it
appended: the node list afterwards is the list before followed by exactly
`count` further cells, so the forward traversal has `count` nodes more than
before the call. -/
theorem C34_count_is_nodes_appended (st0 : ParserState) (p0 : List NodePtr) (fuel : Nat)
    (hc : Chain st0.ir p0) (hp : PoolInv st0.ir p0) (hfuel : st0.input.length < fuel) :
    ∃ st count ps, parse_program fuel st0 = some (st, count) ∧
      Chain st.ir (p0 ++ ps) ∧ count = (ps.length : Int) ∧
      (∀ f, p0.length < f → (node_seq f st0.ir).map List.length = some p0.length) ∧
      (∀ f, p0.length + ps.length < f →
        (node_seq f st.ir).map List.length = some (p0.length + ps.length)) := by
  have h0 : CountInv p0 (next_word { st0 with opCount := 0 }) :=
    ⟨[], by simpa using hc, by simpa using hp, rfl⟩
  obtain ⟨st1, h1, ps, h2, -, h4⟩ := parse_loop_cnt p0 fuel
    (next_word { st0 with opCount := 0 })
    (by
      show (pop_token st0.input).2.length +
        (if (pop_token st0.input).1.type = TokenType.TOK_EOF then 0 else 1) < fuel
      cases hh : st0.input with
      | nil => simp only [pop_token, eof_token, List.length_nil, if_true]; omega
      | cons t rest =>
        rw [hh] at hfuel
        simp only [pop_token, List.length_cons] at hfuel ⊢
        split_ifs <;> omega) h0
  refine ⟨st1, st1.opCount, ps, by simp only [parse_program, h1, Option.map_some'], h2, h4,
    fun f hf => node_seq_length _ _ hc f hf, fun f hf => ?_⟩
  have := node_seq_length _ _ h2 f (by simpa using hf)
  simpa using this

/-- C34 on the stream `sample_tokens`, whose second line is a syntax error,
from the state in which main calls the parser. -/
theorem C34_witness :
    ∃ st count ps, parse_program 20 (parser_start sample_tokens [] start_state) = some (st, count) ∧
      Chain st.ir ([] ++ ps) ∧ count = (ps.length : Int) ∧
      (∀ f, ([] : List NodePtr).length < f →
        (node_seq f (parser_start sample_tokens [] start_state).ir).map List.length =
          some ([] : List NodePtr).length) ∧
      (∀ f, ([] : List NodePtr).length + ps.length < f →
        (node_seq f st.ir).map List.length = some (([] : List NodePtr).length + ps.length)) :=
  C34_count_is_nodes_appended (parser_start sample_tokens [] start_state) [] 20
    (Built_init start_state).1 (Built_init start_state).2.1 (by decide)

/-! ## The renamer of src/scripts/ir.c -/

/-- C35: the claim fails on the code of src/scripts/ir.c. On the block
`add r1, r2 => r3` its ir_rename returns with every operand stored in the
node sequence still at `vr = -1`, `nu = -1` (it stamps local copies only, and
never enters an id into SRToVR), so ir_rename_print writes
`add    r-1, r-1 => r-1`, while ir_rename of src/ir.c stamps the ids 1, 2, 0
on the same block. On `load r1 => r2` it indexes its tables with the `-1` of
the unused second slot and has no defined result. -/
theorem C35_scripts_renamer_stamps_nothing :
    Scripts.renamed_block 2 start_state add_block =
      some [(IROpcode.IR_ADD, ⟨1, -1, -1, -1⟩, ⟨2, -1, -1, -1⟩, ⟨3, -1, -1, -1⟩)] ∧
    Scripts.renamed_text 2 start_state add_block = some "add    r-1, r-1 => r-1\n" ∧
    (renamed_block 2 start_state add_block).map (fun l => l.1.map fun r =>
      (r.2.1.vr, r.2.2.1.vr, r.2.2.2.vr)) = some [(1, 2, 0)] ∧
    (Scripts.renamed_block 2 start_state load_block).isSome = false := by
  refine ⟨by decide, by decide, by decide, by decide⟩

/-! ## The scanner -/

/-- C33: the claim fails on the code of report_error. On the text of the two
lines `x` and `nop`, the scanner returns two end-of-line tokens for the
first line, numbered 1 and 2, and the tokens of the second source line carry
the line number 3: after the invalid word `x` one character, the newline, is
left on the line, the guard `sb->bufpos + 1 < sb->linelen` of report_error is
false, and the newline is scanned again as a line of its own. With two
characters left (the lines `xy` and `nop`) report_error consumes the rest of
the line and the numbers are right. -/
theorem C33_error_line_yields_two_end_of_lines :
    Scanner.tokens 6 8 (Scanner.sb_init (text "x\nnop\n")) =
      some [⟨TokenType.TOK_EOL, 0, 1⟩, ⟨TokenType.TOK_EOL, 0, 2⟩, ⟨TokenType.TOK_NOP, 0, 3⟩,
        ⟨TokenType.TOK_EOL, 0, 3⟩, ⟨TokenType.TOK_EOF, 0, 4⟩] ∧
    Scanner.tokens 6 8 (Scanner.sb_init (text "xy\nnop\n")) =
      some [⟨TokenType.TOK_EOL, 0, 1⟩, ⟨TokenType.TOK_NOP, 0, 2⟩, ⟨TokenType.TOK_EOL, 0, 2⟩,
        ⟨TokenType.TOK_EOF, 0, 3⟩] := by
  refine ⟨by decide, by decide⟩

/-! ## The scanner: reading characters -/

theorem ch_digit_zero : ch '0' = 48 := by decide
theorem ch_digit_nine : ch '9' = 57 := by decide
theorem ch_newline : ch '\n' = 10 := by decide
theorem ch_return : ch '\r' = 13 := by decide
theorem ch_blank : ch ' ' = 32 := by decide
theorem ch_tab : ch '\t' = 9 := by decide
theorem ch_equals : ch '=' = 61 := by decide
theorem ch_comma : ch ',' = 44 := by decide
theorem ch_slash : ch '/' = 47 := by decide
theorem ch_letter_s : ch 's' = 115 := by decide
theorem ch_letter_l : ch 'l' = 108 := by decide
theorem ch_letter_r : ch 'r' = 114 := by decide
theorem ch_letter_a : ch 'a' = 97 := by decide
theorem ch_letter_m : ch 'm' = 109 := by decide
theorem ch_letter_n : ch 'n' = 110 := by decide
theorem ch_letter_o : ch 'o' = 111 := by decide

theorem getline_append (l : List Int) :
    (Scanner.getline l).1 ++ (Scanner.getline l).2 = l := by
  induction l with
  | nil => rfl
  | cons c rest ih =>
    unfold Scanner.getline
    split_ifs
    · rfl
    · simp only [List.cons_append, ih]

theorem getline_head (c : Int) (u : List Int) :
    ∃ l1, (Scanner.getline (c :: u)).1 = c :: l1 := by
  unfold Scanner.getline
  split_ifs
  · exact ⟨[], rfl⟩
  · exact ⟨_, rfl⟩

theorem sb_fetch_spec (s : ScanState) (c : Int) (u : List Int) (hb : BufferOK s)
    (hlt : s.bufpos < s.linelen) (hu : unread s = c :: u) (hr : TbRoom s) :
    ∃ s1, Scanner.sb_fetch s = some (c, s1) ∧ BufferOK s1 ∧ unread s1 = u ∧
      s1.lineno = s.lineno ∧ s1.tb_recording = s.tb_recording ∧
      s1.tb_bufpos = (if s.tb_recording ≠ 0 then s.tb_bufpos + 1 else s.tb_bufpos) ∧
      s1.error_flag = s.error_flag ∧
      unread { s1 with bufpos := s1.bufpos - 1 } = c :: u ∧
      BufferOK { s1 with bufpos := s1.bufpos - 1 } := by
  obtain ⟨h1, h2, h3⟩ := hb
  have hlen : s.bufpos.toNat < s.linebuf.length := by omega
  have hget : s.linebuf.get? s.bufpos.toNat = some (s.linebuf.get ⟨_, hlen⟩) :=
    List.get?_eq_get hlen
  have hdrop : s.linebuf.drop s.bufpos.toNat =
      s.linebuf.get ⟨_, hlen⟩ :: s.linebuf.drop (s.bufpos.toNat + 1) :=
    (List.drop_eq_getElem_cons hlen)
  have hc : s.linebuf.get ⟨_, hlen⟩ = c ∧ s.linebuf.drop (s.bufpos.toNat + 1) ++ s.file = u := by
    unfold unread at hu
    rw [hdrop, List.cons_append] at hu
    exact ⟨(List.cons.inj hu).1, (List.cons.inj hu).2⟩
  have hnat : (s.bufpos + 1).toNat = s.bufpos.toNat + 1 := by omega
  have hback : ∀ x : ScanState, x.linebuf = s.linebuf → x.file = s.file →
      x.bufpos = s.bufpos + 1 → x.linelen = s.linelen →
      unread x = u ∧ unread { x with bufpos := x.bufpos - 1 } = c :: u ∧ BufferOK x ∧
      BufferOK { x with bufpos := x.bufpos - 1 } := by
    intro x e1 e2 e3 e4
    refine ⟨?_, ?_, ⟨by rw [e4, e1]; exact h1, by omega, by omega⟩,
      ⟨by show x.linelen = _; rw [e4, e1]; exact h1, by show 0 ≤ x.bufpos - 1; omega,
        by show x.bufpos - 1 ≤ x.linelen; omega⟩⟩
    · unfold unread
      rw [e1, e2, e3, hnat]
      exact hc.2
    · unfold unread
      show x.linebuf.drop (x.bufpos - 1).toNat ++ x.file = _
      rw [e1, e2, e3, show s.bufpos + 1 - 1 = s.bufpos by omega]
      exact hu
  unfold Scanner.sb_fetch
  rw [if_pos h2, hget]
  simp only [hc.1]
  by_cases hrec : s.tb_recording ≠ 0
  · obtain ⟨r1, r2⟩ := hr hrec
    rw [if_pos hrec, if_pos hrec]
    unfold Scanner.do_tb_append
    rw [if_pos (show 0 ≤ s.tb_bufpos ∧ s.tb_bufpos + 1 < 128 from ⟨r1, r2⟩)]
    obtain ⟨b1, b2, b3, b4⟩ :=
      hback { s with bufpos := s.bufpos + 1, tb_bufpos := s.tb_bufpos + 1 } rfl rfl rfl rfl
    exact ⟨_, rfl, b3, b1, rfl, rfl, rfl, rfl, b2, b4⟩
  · rw [if_neg hrec, if_neg hrec]
    obtain ⟨b1, b2, b3, b4⟩ := hback { s with bufpos := s.bufpos + 1 } rfl rfl rfl rfl
    exact ⟨_, rfl, b3, b1, rfl, rfl, rfl, rfl, b2, b4⟩

theorem sb_refill_cons (s : ScanState) (c : Int) (u : List Int) (hfile : s.file = c :: u) :
    (Scanner.sb_refill s).1 = 1 ∧ BufferOK (Scanner.sb_refill s).2 ∧
    (Scanner.sb_refill s).2.bufpos < (Scanner.sb_refill s).2.linelen ∧
    unread (Scanner.sb_refill s).2 = c :: u ∧
    (Scanner.sb_refill s).2.lineno = s.lineno ∧
    (Scanner.sb_refill s).2.tb_recording = s.tb_recording ∧
    (Scanner.sb_refill s).2.tb_bufpos = s.tb_bufpos ∧
    (Scanner.sb_refill s).2.error_flag = s.error_flag := by
  have hne : s.file ≠ [] := by rw [hfile]; exact List.cons_ne_nil _ _
  obtain ⟨l1, hl1⟩ := getline_head c u
  have happ := getline_append (c :: u)
  unfold Scanner.sb_refill
  rw [if_neg hne]
  refine ⟨rfl, ⟨rfl, le_refl _, ?_⟩, ?_, ?_, rfl, rfl, rfl, rfl⟩
  · show (0 : Int) ≤ ((Scanner.getline s.file).1.length : Int)
    omega
  · show (0 : Int) < ((Scanner.getline s.file).1.length : Int)
    rw [hfile, hl1]
    simp only [List.length_cons]
    omega
  · show List.drop (0 : Int).toNat (Scanner.getline s.file).1 ++ (Scanner.getline s.file).2 = _
    rw [hfile]
    simpa using happ

/-- The function sb_getc hands out the next unread character. -/
theorem sb_getc_cons (s : ScanState) (c : Int) (u : List Int) (hb : BufferOK s)
    (hu : unread s = c :: u) (hr : TbRoom s) :
    ∃ s1, Scanner.sb_getc s = some (c, s1) ∧ BufferOK s1 ∧ unread s1 = u ∧
      s1.lineno = s.lineno ∧ s1.tb_recording = s.tb_recording ∧
      s1.tb_bufpos = (if s.tb_recording ≠ 0 then s.tb_bufpos + 1 else s.tb_bufpos) ∧
      s1.error_flag = s.error_flag ∧
      unread { s1 with bufpos := s1.bufpos - 1 } = c :: u ∧
      BufferOK { s1 with bufpos := s1.bufpos - 1 } := by
  unfold Scanner.sb_getc
  by_cases hge : s.bufpos ≥ s.linelen
  · rw [if_pos hge]
    have hdrop : s.linebuf.drop s.bufpos.toNat = [] := by
      apply List.drop_eq_nil_of_le
      have := hb.1
      omega
    have hfile : s.file = c :: u := by
      unfold unread at hu
      rw [hdrop, List.nil_append] at hu
      exact hu
    obtain ⟨r1, r2, r3, r4, r5, r6, r7, r8⟩ := sb_refill_cons s c u hfile
    rw [r1, if_neg one_ne_zero]
    have hr2 : TbRoom (Scanner.sb_refill s).2 := by
      unfold TbRoom
      rw [r6, r7]
      exact hr
    obtain ⟨s1, a1, a2, a3, a4, a5, a6, a7, a8, a9⟩ :=
      sb_fetch_spec (Scanner.sb_refill s).2 c u r2 r3 r4 hr2
    rw [r5] at a4
    rw [r6] at a5
    rw [r6, r7] at a6
    rw [r8] at a7
    exact ⟨s1, a1, a2, a3, a4, a5, a6, a7, a8, a9⟩
  · rw [if_neg hge]
    exact sb_fetch_spec s c u hb (by omega) hu hr

/-- At the end of the text sb_getc returns EOF. -/
theorem sb_getc_nil (s : ScanState) (hb : BufferOK s) (hu : unread s = []) :
    ∃ s1, Scanner.sb_getc s = some (EOF, s1) ∧ unread s1 = [] ∧
      s1.lineno = s.lineno ∧ s1.tb_recording = s.tb_recording ∧
      s1.tb_bufpos = s.tb_bufpos ∧ s1.error_flag = s.error_flag := by
  unfold unread at hu
  obtain ⟨h1, h2⟩ := List.append_eq_nil.mp hu
  have hge : s.bufpos ≥ s.linelen := by
    have := List.drop_eq_nil_iff.mp h1
    obtain ⟨b1, b2, b3⟩ := hb
    omega
  unfold Scanner.sb_getc Scanner.sb_refill
  rw [if_pos hge, if_pos h2]
  simp only [if_true]
  refine ⟨_, rfl, ?_, rfl, rfl, rfl, rfl⟩
  unfold unread
  simp [h2]

/-! ## The scanner: numbers -/

theorem wrap32_id (x : Int) (h1 : -2147483648 ≤ x) (h2 : x ≤ 2147483647) : wrap32 x = x := by
  unfold wrap32
  omega

theorem is_digit_iff (c : Int) : is_digit c ↔ 48 ≤ c ∧ c ≤ 57 := by
  unfold is_digit
  rw [ch_digit_zero, ch_digit_nine]

theorem is_blank_iff (c : Int) : is_blank c ↔ c = 32 ∨ c = 9 := by
  unfold is_blank
  rw [ch_blank, ch_tab]

theorem decimal_from_cons (n d : Int) (ds : List Int) :
    decimal_from n (d :: ds) = decimal_from (n * 10 + (d - 48)) ds := by
  simp only [decimal_from, List.foldl_cons, ch_digit_zero]

theorem decimal_from_ge (ds : List Int) (n : Int) (hn : 0 ≤ n) (hds : ∀ c ∈ ds, is_digit c) :
    n ≤ decimal_from n ds := by
  induction ds generalizing n with
  | nil => exact le_refl _
  | cons d ds ih =>
    rw [decimal_from_cons]
    have hd := (is_digit_iff d).mp (hds d (by simp))
    have := ih (n * 10 + (d - 48)) (by omega) (fun c hc => hds c (List.mem_cons_of_mem _ hc))
    omega

theorem decimal_value_cons (d : Int) (ds : List Int) :
    decimal_value (d :: ds) = decimal_from (d - 48) ds := by
  simp only [decimal_value, decimal_from, List.foldl_cons, ch_digit_zero, zero_mul, zero_add]

theorem digits_loop_stop (fuel : Nat) (n c : Int) (s : ScanState) (hc : ¬ is_digit c) :
    Scanner.digits_loop (fuel + 1) n c s = some (n, c, s) := by
  unfold Scanner.digits_loop
  rw [if_neg]
  intro h
  exact hc ⟨h.1, h.2⟩

theorem digits_loop_step (fuel : Nat) (n c : Int) (s : ScanState) (hc : is_digit c)
    (hn : 0 ≤ n) (hmax : n * 10 + (c - 48) ≤ 2147483647) :
    Scanner.digits_loop (fuel + 1) n c s =
      (Scanner.sb_getc s).bind fun r => Scanner.digits_loop fuel (n * 10 + (c - 48)) r.1 r.2 := by
  have hd := (is_digit_iff c).mp hc
  conv_lhs => unfold Scanner.digits_loop
  rw [if_pos (show c ≥ ch '0' ∧ c ≤ ch '9' from ⟨hc.1, hc.2⟩)]
  rw [ch_digit_zero, wrap32_id (n * 10) (by omega) (by omega),
    wrap32_id (n * 10 + (c - 48)) (by omega) hmax]

/-- The digit loop of get_next_token over a run of digits whose value fits
an `int`: it ends with the decimal value, at the first character after the
run. -/
theorem digits_loop_spec (rest : List Int) (hrest : ∀ c, rest.head? = some c → ¬ is_digit c)
    (ds : List Int) (n : Int) (s : ScanState) (fuel : Nat) (hb : BufferOK s)
    (hu : unread s = ds ++ rest) (hds : ∀ c ∈ ds, is_digit c)
    (hr : s.tb_recording ≠ 0 → 0 ≤ s.tb_bufpos ∧ s.tb_bufpos + (ds.length : Int) + 1 < 128)
    (hn : 0 ≤ n) (hmax : decimal_from n ds ≤ 2147483647) (hfuel : ds.length < fuel) :
    ∃ c0 s1 c s2, Scanner.sb_getc s = some (c0, s1) ∧
      Scanner.digits_loop fuel n c0 s1 = some (decimal_from n ds, c, s2) ∧
      s2.lineno = s.lineno := by
  induction ds generalizing n s fuel with
  | nil =>
    obtain ⟨f, rfl⟩ : ∃ f, fuel = f + 1 := ⟨fuel - 1, by omega⟩
    rw [List.nil_append] at hu
    cases rest with
    | nil =>
      obtain ⟨s1, a1, -, a3, -⟩ := sb_getc_nil s hb hu
      exact ⟨EOF, s1, EOF, s1, a1, digits_loop_stop f n EOF s1
        (by rw [is_digit_iff]; unfold EOF; omega), a3⟩
    | cons c u =>
      obtain ⟨s1, a1, -, -, a4, -⟩ := sb_getc_cons s c u hb hu
        (fun h => by have := hr h; simp only [List.length_nil] at this; omega)
      exact ⟨c, s1, c, s1, a1, digits_loop_stop f n c s1 (hrest c rfl), a4⟩
  | cons d ds ih =>
    obtain ⟨f, rfl⟩ : ∃ f, fuel = f + 1 := ⟨fuel - 1, by omega⟩
    simp only [List.length_cons, Nat.cast_add, Nat.cast_one] at hr hfuel
    rw [List.cons_append] at hu
    obtain ⟨s1, a1, a2, a3, a4, a5, a6, -⟩ := sb_getc_cons s d (ds ++ rest) hb hu
      (fun h => by have := hr h; omega)
    have hd := hds d (by simp)
    have hd2 := (is_digit_iff d).mp hd
    rw [decimal_from_cons] at hmax
    have hge := decimal_from_ge ds (n * 10 + (d - 48)) (by omega)
      (fun c hc => hds c (List.mem_cons_of_mem _ hc))
    obtain ⟨c0, t1, c, t2, b1, b2, b3⟩ := ih (n * 10 + (d - 48)) s1 f a2 a3
      (fun c hc => hds c (List.mem_cons_of_mem _ hc))
      (fun h => by
        rw [a5] at h
        have := hr h
        rw [a6, if_pos h]
        omega)
      (by omega) hmax (by omega)
    refine ⟨d, s1, c, t2, a1, ?_, b3.trans a4⟩
    rw [digits_loop_step f n d s1 hd hn (by omega), b1, decimal_from_cons]
    exact b2

/-- The number code of get_next_token on a run of digits whose value fits an
`int`: the token carries the decimal value of the run. -/
theorem scan_number_spec (t : TokenType) (d : Int) (ds rest : List Int)
    (hrest : ∀ c, rest.head? = some c → ¬ is_digit c) (s : ScanState) (fuel : Nat)
    (hb : BufferOK s) (hu : unread s = ds ++ rest) (hd : is_digit d)
    (hds : ∀ c ∈ ds, is_digit c)
    (hr : s.tb_recording ≠ 0 → 0 ≤ s.tb_bufpos ∧ s.tb_bufpos + (ds.length : Int) + 1 < 128)
    (hmax : decimal_value (d :: ds) ≤ 2147483647) (hfuel : ds.length < fuel) :
    ∃ s1, Scanner.scan_number fuel t d s =
      some (⟨t, decimal_value (d :: ds), s.lineno⟩, s1) := by
  have hd2 := (is_digit_iff d).mp hd
  rw [decimal_value_cons] at hmax ⊢
  obtain ⟨c0, s1, c, s2, a1, a2, a3⟩ := digits_loop_spec rest hrest ds (d - 48) s fuel hb hu
    hds hr (by omega) hmax hfuel
  unfold Scanner.scan_number
  rw [a1]
  simp only [Option.some_bind, ch_digit_zero, a2, Scanner.make_token, a3]
  exact ⟨_, rfl⟩

/-- The loop over blanks and tabs of get_next_token stops at the first other
character. -/
theorem skip_blanks_spec (c : Int) (u : List Int) (hc : ¬ is_blank c) (ws : List Int)
    (s : ScanState) (flag : Int) (fuel : Nat) (hb : BufferOK s) (hrec : s.tb_recording = 0)
    (hu : unread s = ws ++ c :: u) (hws : ∀ x ∈ ws, is_blank x) (hfuel : ws.length < fuel) :
    ∃ c0 s1 flag1 s2, Scanner.sb_getc s = some (c0, s1) ∧
      Scanner.skip_blanks fuel c0 flag s1 = some (c, flag1, s2) ∧
      BufferOK s2 ∧ unread s2 = u ∧ s2.lineno = s.lineno ∧ s2.tb_recording = 0 := by
  induction ws generalizing s flag fuel with
  | nil =>
    obtain ⟨f, rfl⟩ : ∃ f, fuel = f + 1 := ⟨fuel - 1, by omega⟩
    rw [List.nil_append] at hu
    obtain ⟨s1, a1, a2, a3, a4, a5, -⟩ := sb_getc_cons s c u hb hu (fun h => absurd hrec h)
    refine ⟨c, s1, flag, s1, a1, ?_, a2, a3, a4, a5.trans hrec⟩
    unfold Scanner.skip_blanks
    rw [if_neg]
    exact hc
  | cons w ws ih =>
    obtain ⟨f, rfl⟩ : ∃ f, fuel = f + 1 := ⟨fuel - 1, by omega⟩
    rw [List.cons_append] at hu
    obtain ⟨s1, a1, a2, a3, a4, a5, -⟩ := sb_getc_cons s w (ws ++ c :: u) hb hu
      (fun h => absurd hrec h)
    obtain ⟨c0, t1, flag1, t2, b1, b2, b3, b4, b5, b6⟩ :=
      ih s1 (if flag = 0 then 1 else flag) f a2 (a5.trans hrec) a3
        (fun x hx => hws x (List.mem_cons_of_mem _ hx))
        (by simp only [List.length_cons] at hfuel; omega)
    refine ⟨w, s1, flag1, t2, a1, ?_, b3, b4, b5.trans a4, b6⟩
    have hw : w = ch ' ' ∨ w = ch '\t' := hws w (by simp)
    conv_lhs => unfold Scanner.skip_blanks
    rw [if_pos hw, b1]
    exact b2

/-! ## The scanner: constants and registers -/

theorem dispatch_digit (fuel : Nat) (c : Int) (s : ScanState) (hc : is_digit c) :
    Scanner.dispatch fuel c s = Scanner.scan_number fuel TokenType.TOK_CONST c s := by
  have hd := (is_digit_iff c).mp hc
  unfold Scanner.dispatch
  rw [if_neg (show ¬ c = EOF by unfold EOF; omega),
    if_neg (show ¬ c = ch '\n' by rw [ch_newline]; omega),
    if_neg (show ¬ c = ch '\r' by rw [ch_return]; omega),
    if_neg (show ¬ c = ch '=' by rw [ch_equals]; omega),
    if_neg (show ¬ c = ch ',' by rw [ch_comma]; omega),
    if_neg (show ¬ c = ch '/' by rw [ch_slash]; omega),
    if_neg (show ¬ c = ch 's' by rw [ch_letter_s]; omega),
    if_neg (show ¬ c = ch 'l' by rw [ch_letter_l]; omega),
    if_neg (show ¬ c = ch 'r' by rw [ch_letter_r]; omega),
    if_neg (show ¬ c = ch 'a' by rw [ch_letter_a]; omega),
    if_neg (show ¬ c = ch 'm' by rw [ch_letter_m]; omega),
    if_neg (show ¬ c = ch 'n' by rw [ch_letter_n]; omega),
    if_neg (show ¬ c = ch 'o' by rw [ch_letter_o]; omega),
    if_pos (show c ≥ ch '0' ∧ c ≤ ch '9' from ⟨hc.1, hc.2⟩)]

theorem dispatch_r (fuel : Nat) (s : ScanState) :
    Scanner.dispatch fuel (ch 'r') s = Scanner.scan_r fuel s := by
  unfold Scanner.dispatch
  rw [if_neg (show ¬ ch 'r' = EOF by decide),
    if_neg (show ¬ ch 'r' = ch '\n' by decide),
    if_neg (show ¬ ch 'r' = ch '\r' by decide),
    if_neg (show ¬ ch 'r' = ch '=' by decide),
    if_neg (show ¬ ch 'r' = ch ',' by decide),
    if_neg (show ¬ ch 'r' = ch '/' by decide),
    if_neg (show ¬ ch 'r' = ch 's' by decide),
    if_neg (show ¬ ch 'r' = ch 'l' by decide),
    if_pos rfl]

/-- The assignment to `tb` after the loop over the blanks leaves the line
buffer alone. -/
theorem after_blanks (s : ScanState) (flag : Int) (u : List Int) (hb : BufferOK s)
    (hu : unread s = u) (hrec : s.tb_recording = 0) :
    BufferOK (if flag ≠ 0 then { s with tb_bufpos := 1 } else s) ∧
    unread (if flag ≠ 0 then { s with tb_bufpos := 1 } else s) = u ∧
    (if flag ≠ 0 then { s with tb_bufpos := 1 } else s).lineno = s.lineno ∧
    (if flag ≠ 0 then { s with tb_bufpos := 1 } else s).tb_recording = 0 := by
  by_cases h : flag ≠ 0
  · rw [if_pos h]
    exact ⟨hb, hu, rfl, hrec⟩
  · rw [if_neg h]
    exact ⟨hb, hu, rfl, hrec⟩

/-- The first steps of get_next_token up to the chain of branches, on a text
that starts with blanks `ws` and then a character `c` that is not a
blank. -/
theorem get_next_token_start (c : Int) (u : List Int) (hc : ¬ is_blank c) (ws : List Int)
    (s : ScanState) (fuel : Nat) (hb : BufferOK s) (hu : unread s = ws ++ c :: u)
    (hws : ∀ x ∈ ws, is_blank x) (hfuel : ws.length < fuel) :
    ∃ s3, Scanner.get_next_token fuel s = Scanner.dispatch fuel c s3 ∧ BufferOK s3 ∧
      unread s3 = u ∧ s3.lineno = s.lineno ∧ s3.tb_recording = 0 := by
  obtain ⟨c0, s1, flag1, s2, a1, a2, a3, a4, a5, a6⟩ :=
    skip_blanks_spec c u hc ws { s with tb_bufpos := 0, tb_recording := 0 } 0 fuel hb rfl hu
      hws hfuel
  obtain ⟨b1, b2, b3, b4⟩ := after_blanks s2 flag1 u a3 a4 a6
  refine ⟨_, ?_, b1, b2, b3.trans a5, b4⟩
  unfold Scanner.get_next_token
  rw [a1]
  simp only [Option.some_bind, a2]

set_option maxHeartbeats 1000000 in
/-- The two number branches of get_next_token on a run of digits whose value
fits an `int`. -/
theorem digit_run_value (s : ScanState) (ws ds rest : List Int) (fuel : Nat)
    (hb : BufferOK s) (hws : ∀ x ∈ ws, is_blank x) (hne : ds ≠ [])
    (hds : ∀ c ∈ ds, is_digit c) (hrest : ∀ c, rest.head? = some c → ¬ is_digit c)
    (hval : decimal_value ds ≤ INT_MAX) (hfuel : ws.length + ds.length < fuel) :
    0 ≤ decimal_value ds ∧
    (unread s = ws ++ (ds ++ rest) →
      ∃ s1, Scanner.get_next_token fuel s =
        some (⟨TokenType.TOK_CONST, decimal_value ds, s.lineno⟩, s1)) ∧
    (ds.length ≤ 125 → unread s = ws ++ (ch 'r' :: (ds ++ rest)) →
      ∃ s1, Scanner.get_next_token fuel s =
        some (⟨TokenType.TOK_REG, decimal_value ds, s.lineno⟩, s1)) := by
  obtain ⟨d, ds1, rfl⟩ : ∃ d ds1, ds = d :: ds1 := by
    cases ds with
    | nil => exact absurd rfl hne
    | cons d ds1 => exact ⟨d, ds1, rfl⟩
  have hd := hds d (by simp)
  have hd2 := (is_digit_iff d).mp hd
  have hds1 : ∀ c ∈ ds1, is_digit c := fun c hc => hds c (List.mem_cons_of_mem _ hc)
  have hval2 : decimal_value (d :: ds1) ≤ 2147483647 := hval
  simp only [List.length_cons] at hfuel
  refine ⟨?_, ?_, ?_⟩
  · rw [decimal_value_cons]
    have := decimal_from_ge ds1 (d - 48) (by omega) hds1
    omega
  · intro hu
    rw [List.cons_append] at hu
    obtain ⟨s3, a1, a2, a3, a4, a5⟩ := get_next_token_start d (ds1 ++ rest)
      (by rw [is_blank_iff]; omega) ws s fuel hb hu hws (by omega)
    rw [a1, dispatch_digit fuel d s3 hd, ← a4]
    exact scan_number_spec TokenType.TOK_CONST d ds1 rest hrest s3 fuel a2 a3 hd hds1
      (fun h => absurd a5 h) hval2 (by omega)
  · intro hlen hu
    simp only [List.length_cons] at hlen
    rw [List.cons_append] at hu
    obtain ⟨s3, a1, a2, a3, a4, a5⟩ := get_next_token_start (ch 'r') (d :: (ds1 ++ rest))
      (by rw [is_blank_iff, ch_letter_r]; omega) ws s fuel hb hu hws (by omega)
    rw [a1, dispatch_r]
    unfold Scanner.scan_r
    have h4 : Scanner.do_tb_append (Scanner.start_tb_recording s3) =
        some { s3 with tb_bufpos := 1, tb_recording := 1 } := by
      unfold Scanner.do_tb_append Scanner.start_tb_recording
      rw [if_pos (⟨le_refl _, by norm_num⟩ : (0 : Int) ≤ 0 ∧ (0 : Int) + 1 < 128)]
      simp only [zero_add]
    rw [h4]
    obtain ⟨s5, b1, b2, b3, b4, b5, b6, -⟩ :=
      sb_getc_cons { s3 with tb_bufpos := 1, tb_recording := 1 } d (ds1 ++ rest) a2 a3
        (fun _ => ⟨(by norm_num : (0 : Int) ≤ 1), (by norm_num : (1 : Int) + 1 < 128)⟩)
    simp only [Option.some_bind, b1]
    rw [if_pos (show d ≥ ch '0' ∧ d ≤ ch '9' from ⟨hd.1, hd.2⟩), ← a4]
    have b4s : s5.lineno = s3.lineno := b4
    rw [← b4s]
    have b5s : s5.tb_recording = 1 := b5
    have b6s : s5.tb_bufpos = 2 := by
      rw [b6]
      rfl
    exact scan_number_spec TokenType.TOK_REG d ds1 rest hrest s5 fuel b2 b3 hd hds1
      (fun _ => by rw [b6s]; omega) hval2 (by omega)

/-- C32, amended: for every run `ds` of decimal digits whose decimal value is
at most INT_MAX, followed by the end of the text or by a character that is
not a digit, and read after any blanks and tabs `ws` from a consistent line
buffer: get_next_token returns a TOK_CONST token when the run starts the
word, and a TOK_REG token when the run follows the letter r and has at most
125 digits; the value of the token is the decimal value of the run, which is
non-negative, and its line is the current line number. -/
theorem C32_digit_run_value (s : ScanState) (ws ds rest : List Int) (reg : Bool) (fuel : Nat)
    (hb : BufferOK s) (hws : ∀ x ∈ ws, is_blank x) (hne : ds ≠ [])
    (hds : ∀ c ∈ ds, is_digit c) (hrest : ∀ c, rest.head? = some c → ¬ is_digit c)
    (hval : decimal_value ds ≤ INT_MAX) (hlen : reg = true → ds.length ≤ 125)
    (hu : unread s = ws ++ ((if reg then [ch 'r'] else []) ++ (ds ++ rest)))
    (hfuel : ws.length + ds.length < fuel) :
    0 ≤ decimal_value ds ∧
    ∃ s1, Scanner.get_next_token fuel s =
      some (⟨if reg then TokenType.TOK_REG else TokenType.TOK_CONST, decimal_value ds,
        s.lineno⟩, s1) := by
  obtain ⟨h1, h2, h3⟩ := digit_run_value s ws ds rest fuel hb hws hne hds hrest hval hfuel
  refine ⟨h1, ?_⟩
  cases reg with
  | false => exact h2 hu
  | true => exact h3 (hlen rfl) hu

/-- C32, amended, on the register `r12` of the text `  r12, 34`. -/
theorem C32_witness :
    0 ≤ decimal_value (text "12") ∧
    ∃ s1, Scanner.get_next_token 5 (Scanner.sb_init (text "  r12, 34")) =
      some (⟨if true then TokenType.TOK_REG else TokenType.TOK_CONST, decimal_value (text "12"),
        (Scanner.sb_init (text "  r12, 34")).lineno⟩, s1) :=
  C32_digit_run_value (Scanner.sb_init (text "  r12, 34")) (text "  ") (text "12")
    (text ", 34") true 5 ⟨rfl, by decide, by decide⟩ (by decide) (by decide) (by decide)
    (by decide) (by decide) (by decide) (by decide) (by decide)

/-- C32 as stated fails: on the text `2147483648` get_next_token returns a
TOK_CONST token with the value -2147483648, which is negative and is not the
decimal value 2147483648 of the digit string; on `r4294967297` it returns
the register number 1. -/
theorem C32_counterexample :
    (Scanner.get_next_token 12 (Scanner.sb_init (text "2147483648"))).map (fun r => r.1) =
      some ⟨TokenType.TOK_CONST, -2147483648, 1⟩ ∧
    decimal_value (text "2147483648") = 2147483648 ∧
    (Scanner.get_next_token 12 (Scanner.sb_init (text "r4294967297"))).map (fun r => r.1) =
      some ⟨TokenType.TOK_REG, 1, 1⟩ ∧
    decimal_value (text "4294967297") = 4294967297 := by
  refine ⟨by decide, by decide, by decide, by decide⟩

/-! ## The text the parser writes to stdout -/

theorem OutInv_next (x : ParserState) (h : OutInv x) : OutInv (next_word x) := by
  rcases h with h | h
  · exact Or.inl h
  · exact Or.inr (next_word_one x h)

theorem OutInv_scan (x : ParserState) (h : OutInv x) : OutInv (get_next_token x).2 := by
  rcases h with h | h
  · exact Or.inl h
  · exact Or.inr (lex_flag_one x.lex x.error_flag h)

theorem OutInv_err (x : ParserState) : OutInv (parse_errorf x) := Or.inr rfl

theorem OutInv_build (x y : ParserState) (op : IROpcode) (line nops : Int) (args : List Int)
    (h : build_and_count x op line nops args = some y) (hx : OutInv x) : OutInv y := by
  unfold build_and_count at h
  cases hb : ir_build x.ir op line nops args with
  | none => rw [hb] at h; exact Option.noConfusion h
  | some r =>
    rw [hb] at h
    simp only [Option.map_some', Option.some.injEq] at h
    subst h
    exact hx

theorem finish_memop_out (first : Token) (line : Int) (st st1 : ParserState)
    (h : finish_memop first line st = some st1) (hinv : OutInv st) : OutInv st1 := by
  unfold finish_memop at h
  simp only [] at h
  split_ifs at h
  all_goals first
    | (cases h; exact OutInv_err _)
    | exact OutInv_build _ _ _ _ _ _ h
        (OutInv_next _ (OutInv_next _ (OutInv_next _ (OutInv_next _ hinv))))

theorem finish_loadI_out (line : Int) (st st1 : ParserState)
    (h : finish_loadI line st = some st1) (hinv : OutInv st) : OutInv st1 := by
  unfold finish_loadI at h
  simp only [] at h
  split_ifs at h
  all_goals first
    | (cases h; exact OutInv_err _)
    | exact OutInv_build _ _ _ _ _ _ h
        (OutInv_next _ (OutInv_next _ (OutInv_next _ (OutInv_next _ hinv))))

theorem finish_output_out (line : Int) (st st1 : ParserState)
    (h : finish_output line st = some st1) (hinv : OutInv st) : OutInv st1 := by
  unfold finish_output at h
  simp only [] at h
  split_ifs at h
  all_goals first
    | (cases h; exact OutInv_err _)
    | exact OutInv_build _ _ _ _ _ _ h (OutInv_next _ (OutInv_next _ hinv))

theorem finish_nop_out (line : Int) (st st1 : ParserState)
    (h : finish_nop line st = some st1) (hinv : OutInv st) : OutInv st1 := by
  unfold finish_nop at h
  simp only [] at h
  split_ifs at h
  all_goals first
    | (cases h; exact OutInv_err _)
    | exact OutInv_build _ _ _ _ _ _ h (OutInv_scan _ hinv)

theorem next_word_out (x y : ParserState) (h : next_word x = y) (hinv : OutInv x) :
    OutInv y := by
  subst h
  exact OutInv_next x hinv

theorem finish_arithop_out (first : Token) (line : Int) (st : ParserState)
    (hinv : OutInv st) : ∀ st1, finish_arithop first line st = some st1 → OutInv st1 := by
  have herr : ∀ (x st1 : ParserState), some (parse_errorf x) = some st1 → OutInv st1 := by
    intro x st1 h
    cases h
    exact OutInv_err _
  unfold finish_arithop
  generalize hx1 : next_word st = x1
  have a2 := next_word_out _ _ hx1 hinv
  show ∀ st1, (if x1.word.type ≠ TokenType.TOK_REG then _ else _) = some st1 → _
  by_cases h1 : x1.word.type ≠ TokenType.TOK_REG
  · rw [if_pos h1]
    exact herr _
  rw [if_neg h1]
  generalize hx2 : next_word { x1 with tb0 := x1.word } = x2
  have b2 := next_word_out { x1 with tb0 := x1.word } _ hx2 a2
  show ∀ st1, (if x2.word.type ≠ TokenType.TOK_COMMA then _ else _) = some st1 → _
  by_cases h2 : x2.word.type ≠ TokenType.TOK_COMMA
  · rw [if_pos h2]
    exact herr _
  rw [if_neg h2]
  generalize hx3 : next_word x2 = x3
  have c2 := next_word_out _ _ hx3 b2
  show ∀ st1, (if x3.word.type ≠ TokenType.TOK_REG then _ else _) = some st1 → _
  by_cases h3 : x3.word.type ≠ TokenType.TOK_REG
  · rw [if_pos h3]
    exact herr _
  rw [if_neg h3]
  generalize hx4 : next_word { x3 with tb1 := x3.word } = x4
  have d2 := next_word_out { x3 with tb1 := x3.word } _ hx4 c2
  show ∀ st1, (if x4.word.type ≠ TokenType.TOK_INTO then _ else _) = some st1 → _
  by_cases h4 : x4.word.type ≠ TokenType.TOK_INTO
  · rw [if_pos h4]
    exact herr _
  rw [if_neg h4]
  generalize hx5 : next_word x4 = x5
  have e2 := next_word_out _ _ hx5 d2
  show ∀ st1, (if x5.word.type ≠ TokenType.TOK_REG then _ else _) = some st1 → _
  by_cases h5 : x5.word.type ≠ TokenType.TOK_REG
  · rw [if_pos h5]
    exact herr _
  rw [if_neg h5]
  generalize hx6 : next_word { x5 with tb2 := x5.word } = x6
  have f2 := next_word_out { x5 with tb2 := x5.word } _ hx6 e2
  show ∀ st1, (if x6.word.type ≠ TokenType.TOK_EOL ∧ x6.word.type ≠ TokenType.TOK_EOF
    then _ else _) = some st1 → _
  by_cases h6 : x6.word.type ≠ TokenType.TOK_EOL ∧ x6.word.type ≠ TokenType.TOK_EOF
  · rw [if_pos h6]
    exact herr _
  rw [if_neg h6]
  have hb : ∀ op st1,
      build_and_count x6 op line 3 [x6.tb0.value, x6.tb1.value, x6.tb2.value] = some st1 →
      OutInv st1 := fun op st1 h => OutInv_build _ _ _ _ _ _ h f2
  show ∀ st1, (if first.value = ARITH_ADD then _ else if first.value = ARITH_SUB then _
    else if first.value = ARITH_MULT then _ else if first.value = ARITH_LSHIFT then _
    else if first.value = ARITH_RSHIFT then _ else _) = some st1 → _
  split_ifs
  · exact hb _
  · exact hb _
  · exact hb _
  · exact hb _
  · exact hb _
  · exact herr _

theorem parse_step_out (st st1 : ParserState) (h : parse_step st = some st1)
    (hinv : OutInv st) : OutInv st1 := by
  unfold parse_step at h
  simp only [Option.map_eq_some'] at h
  obtain ⟨y, hr, rfl⟩ := h
  apply OutInv_next
  cases ht : st.word.type <;> rw [ht] at hr <;> simp only [] at hr
  · exact finish_memop_out _ _ st y hr hinv
  · exact finish_loadI_out _ st y hr hinv
  · exact finish_arithop_out _ _ st hinv y hr
  · exact finish_output_out _ st y hr hinv
  · exact finish_nop_out _ st y hr hinv
  all_goals first
    | (cases hr; exact hinv)
    | (cases hr; exact OutInv_err _)

theorem parse_loop_out (fuel : Nat) (st st1 : ParserState) (h : parse_loop fuel st = some st1)
    (hinv : OutInv st) : OutInv st1 := by
  induction fuel generalizing st with
  | zero => exact Option.noConfusion h
  | succ f ih =>
    unfold parse_loop at h
    split_ifs at h with he
    · cases h
      exact hinv
    · cases hs : parse_step st with
      | none => rw [hs] at h; exact Option.noConfusion h
      | some y =>
        rw [hs, Option.some_bind] at h
        exact ih y h (parse_step_out st y hs hinv)

/-- When parse_program leaves `error_flag` clear, it has written nothing to
stdout. -/
theorem parse_program_out (fuel : Nat) (st0 st : ParserState) (count : Int)
    (h : parse_program fuel st0 = some (st, count)) (h0 : OutInv st0)
    (hf : st.error_flag = 0) : st.out = "" := by
  unfold parse_program at h
  cases hl : parse_loop fuel (next_word { st0 with opCount := 0 }) with
  | none => rw [hl] at h; exact Option.noConfusion h
  | some y =>
    rw [hl] at h
    simp only [Option.map_some', Option.some.injEq, Prod.mk.injEq] at h
    obtain ⟨rfl, -⟩ := h
    rcases parse_loop_out fuel _ y hl (OutInv_next _ h0) with h1 | h1
    · exact h1
    · rw [h1] at hf
      exact absurd hf (by decide)

/-! ## The parser returns on every stream; the table size at INT_MAX -/

/-- The parser returns on every token stream and every list of lexical
errors, and leaves a well-linked node list. -/
theorem parse_program_chain (toks : List Token) (errs : List Bool) (s0 : IRState)
    (fuel : Nat) (hfuel : toks.length < fuel) :
    ∃ st count ps, parse_program fuel (parser_start toks errs s0) = some (st, count) ∧
      Chain st.ir ps := by
  have h0 : CountInv [] (next_word { parser_start toks errs s0 with opCount := 0 }) :=
    ⟨[], by simpa using (Built_init s0).1, by simpa using (Built_init s0).2.1, rfl⟩
  obtain ⟨st1, h1, ps, h2, -, -⟩ := parse_loop_cnt [] fuel
    (next_word { parser_start toks errs s0 with opCount := 0 })
    (by
      show (pop_token toks).2.length +
        (if (pop_token toks).1.type = TokenType.TOK_EOF then 0 else 1) < fuel
      cases toks with
      | nil => simp only [pop_token, eof_token, List.length_nil, if_true]; omega
      | cons t rest =>
        simp only [pop_token, List.length_cons] at hfuel ⊢
        split_ifs <;> omega) h0
  exact ⟨st1, st1.opCount, ps, by simp only [parse_program, h1, Option.map_some'],
    by simpa using h2⟩

theorem Chain_unique (s : IRState) (a b : List NodePtr) (ha : Chain s a) (hb : Chain s b) :
    a = b := by
  have h1 := (Chain_traversals s a ha (a.length + b.length + 1) (by omega)).1
  have h2 := (Chain_traversals s b hb (a.length + b.length + 1) (by omega)).1
  rw [h1] at h2
  exact Option.some.inj h2

/-- The first loop of ir_rename returns the same pair for every fuel with
which it returns. -/
theorem scan_loop_det (f1 : Nat) : ∀ (f2 : Nat) (s : IRState) (p : NodePtr) (a b : Int)
    (r1 r2 : Int × Int), scan_loop f1 s p a b = some r1 → scan_loop f2 s p a b = some r2 →
    r1 = r2 := by
  induction f1 with
  | zero =>
    intro f2 s p a b r1 r2 h1
    exact Option.noConfusion h1
  | succ g ih =>
    intro f2 s p a b r1 r2 h1 h2
    cases f2 with
    | zero => exact Option.noConfusion h2
    | succ g2 =>
      unfold scan_loop at h1 h2
      by_cases hp : p = node_head
      · rw [if_pos hp] at h1 h2
        rw [h1] at h2
        exact Option.some.inj h2
      · rw [if_neg hp] at h1 h2
        by_cases hn : p = NodePtr.null
        · rw [if_pos hn] at h1
          exact Option.noConfusion h1
        · rw [if_neg hn] at h1 h2
          exact ih g2 s _ _ _ r1 r2 h1 h2

/-- When the largest `sr` of the block is INT_MAX, `max_sr + 1` is outside
the range of int and ir_rename has no result, whatever the fuel. -/
theorem ir_rename_overflow (s : IRState) (F : Nat) (n : Int)
    (h : scan_loop F s (s.nodes node_head).next 0 (-1) = some (n, INT_MAX)) (fuel : Nat) :
    ir_rename fuel s = none := by
  have he : rename_entry fuel s = none := by
    unfold rename_entry
    cases hs : scan_loop fuel s (s.nodes node_head).next 0 (-1) with
    | none => rfl
    | some r =>
      have := scan_loop_det F fuel s _ _ _ _ _ h hs
      subst this
      simp only [Option.some_bind, if_true]
  unfold ir_rename
  rw [he]
  rfl

/-- The entry values of ir_rename are the same for every fuel with which the
first loop returns. -/
theorem rename_entry_det (s : IRState) (f1 f2 : Nat) (a b : RenameVars)
    (h1 : rename_entry f1 s = some a) (h2 : rename_entry f2 s = some b) : a = b := by
  unfold rename_entry at h1 h2
  cases hs1 : scan_loop f1 s (s.nodes node_head).next 0 (-1) with
  | none => rw [hs1] at h1; exact Option.noConfusion h1
  | some r1 =>
    cases hs2 : scan_loop f2 s (s.nodes node_head).next 0 (-1) with
    | none => rw [hs2] at h2; exact Option.noConfusion h2
    | some r2 =>
      have := scan_loop_det f1 f2 s _ _ _ _ _ hs1 hs2
      subst this
      rw [hs1] at h1
      rw [hs2] at h2
      rw [h1] at h2
      exact Option.some.inj h2

/-- When the first iteration of the backward loop of ir_rename indexes a
table out of bounds, ir_rename has no result, whatever the fuel. -/
theorem ir_rename_first_iter_none (s : IRState) (F : Nat)
    (h : (rename_entry F s).map (fun t0 =>
      decide ((s.nodes node_head).prev ≠ node_head) &&
        (rename_iter s (s.nodes node_head).prev t0).isNone) = some true) (fuel : Nat) :
    ir_rename fuel s = none := by
  unfold ir_rename
  cases he : rename_entry fuel s with
  | none => rfl
  | some t =>
    cases hF : rename_entry F s with
    | none => rw [hF] at h; exact Option.noConfusion h
    | some tF =>
      have := rename_entry_det s F fuel tF t hF he
      subst this
      rw [hF] at h
      simp only [Option.map_some', Option.some.injEq, Bool.and_eq_true, decide_eq_true_eq,
        Option.isNone_iff_eq_none] at h
      rw [Option.some_bind]
      cases fuel with
      | zero => rfl
      | succ f =>
        unfold rename_loop
        rw [if_neg h.1, h.2]
        rfl

/-- When ir_rename has no result on the state the parser leaves with
`error_flag` clear, the branch of main for `-x` has none. -/
theorem main_MODE_RENAME_none (st0 : ParserState) (F : Nat) (x : ParserState × Int)
    (hF : parse_program F st0 = some x) (hr : ∀ fuel, ir_rename fuel x.1.ir = none)
    (hf : x.1.error_flag = 0) (fuel : Nat) : main_MODE_RENAME fuel st0 = none := by
  unfold main_MODE_RENAME
  cases h : parse_program fuel st0 with
  | none => rfl
  | some y =>
    have e1 := parse_program_mono F _ x.1 x.2 hF (max fuel F) (le_max_right _ _)
    have e2 := parse_program_mono fuel _ y.1 y.2 h (max fuel F) (le_max_left _ _)
    rw [e1] at e2
    have hx : x = y := Prod.ext (congrArg Prod.fst (Option.some.inj e2))
      (congrArg Prod.snd (Option.some.inj e2))
    subst hx
    simp only [Option.some_bind, if_pos hf, call_ir_rename, after_parse_program,
      hr fuel, Option.map_none', Option.none_bind]

/-! ## Dense ids and the Output literal -/

/-- C6: the claim fails on the code. On the block `store r1 => r2 ; output 7 ;
store r3 => r4` ir_rename mints five ids, and the definition and register use
operands, visited in backward-walk order, carry the ids 0, 1, 3, 4: the id 2
is given to the literal in slot 1 of Output, which the second switch of
ir_rename passes to tag_use, so the ids on the register operands are not the
set 0 .. K-1. -/
theorem C6_output_literal_takes_an_id :
    ((build_and_rename 4 start_state store_output_store_block).bind fun r =>
      (node_seq 4 r.1).map fun out =>
        ((register_stamps out).map (fun o => o.vr), (stamps out).map (fun o => o.vr),
          r.1.vrname)) =
      some ([0, 1, 3, 4], [0, 1, 2, 3, 4], 5) := by
  decide

/-! ## Lexical errors and the parser -/

/-- C20 counterexample: for the text of the two lines `x` and `nop` the
scanner returns two end-of-line tokens, `nop` and an end-of-line, and sets
`error_flag` in report_error during the first call. The stream consists of
well-formed statements only (two blank lines and a `nop`), and parse_program
appends the one node and reports count 1, but `error_flag` is 1 when it
returns. -/
theorem C20_counterexample :
    Scanner.stream 6 8 (Scanner.sb_init (text "x\nnop\n")) =
      some (error_line_tokens, [true, false, false, false]) ∧
    WellFormed error_line_tokens [{ op := IROpcode.IR_NOP, line := 3, nops := 0, args := [] }] ∧
    (parse_program 6 (parser_start error_line_tokens [true, false, false, false]
      start_state)).map (fun r => (r.1.error_flag, r.2)) = some (1, 1) := by
  refine ⟨by decide, ?_, by decide⟩
  exact WellFormed.blank ⟨TokenType.TOK_EOL, 0, 1⟩ _ _ rfl
    (WellFormed.blank ⟨TokenType.TOK_EOL, 0, 2⟩ _ _ rfl
      (WellFormed.stmt [⟨TokenType.TOK_NOP, 0, 3⟩] _ ⟨TokenType.TOK_EOL, 0, 3⟩ [] []
        (StmtTokens.nop ⟨TokenType.TOK_NOP, 0, 3⟩ rfl) rfl
        (WellFormed.done [] (by simp))))

/-! ## The branches of main -/

set_option maxRecDepth 100000 in
set_option maxHeartbeats 4000000 in
/-- C25 counterexample: on the tokens of `loadI 2147483647 => r1` the parse
leaves `error_flag` clear and `-r` prints the success line and the node, but
in `-x` the call of ir_rename has no result (the largest `sr` is INT_MAX and
`max_sr + 1` is outside the range of int, whatever the fuel), so ir_print is
not reached. The same holds on the tokens the scanner returns for
`load r2147483648 => r1`, where the register value has wrapped to a negative
number and tag_use indexes `SRToVR` with it. On the tokens of the line `r1`
the flag is set and stdout holds the line that the default case of
parse_program printed, before the failure summary. -/
theorem C25_counterexample :
    Scanner.stream 7 30 (Scanner.sb_init (text "loadI 2147483647 => r1\n")) =
      some (big_literal_tokens, [false, false, false, false, false]) ∧
    (parse_program 7 (parser_start big_literal_tokens [] start_state)).map
      (fun r => (r.1.error_flag, r.1.out, r.2)) = some (0, "", 1) ∧
    (∀ fuel, main_MODE_RENAME fuel (parser_start big_literal_tokens [] start_state) = none) ∧
    (main_MODE_PRINT 7 (parser_start big_literal_tokens [] start_state)).map
      (fun r => (r.passes, r.out)) =
      some ([Pass.print],
        "Parse succeeded. Processed 1 operations.\nloadI\t[ val 2147483647 ], [ ], [ sr1 vr-1 nu=-1 ]\n") ∧
    Scanner.stream 7 30 (Scanner.sb_init (text "load r2147483648 => r1\n")) =
      some (wrapped_register_tokens, [false, false, false, false, false]) ∧
    (parse_program 7 (parser_start wrapped_register_tokens [] start_state)).map
      (fun r => (r.1.error_flag, r.1.out, r.2)) = some (0, "", 1) ∧
    (∀ fuel, main_MODE_RENAME fuel (parser_start wrapped_register_tokens [] start_state) =
      none) ∧
    (main_MODE_RENAME 6 (parser_start [⟨TokenType.TOK_REG, 1, 1⟩, ⟨TokenType.TOK_EOL, 0, 1⟩] []
      start_state)).map (fun r => (r.passes, r.out)) =
      some ([], "Unexpected token type 6 at line 1\n\nDue to syntax error(s), run terminates.\n") := by
  refine ⟨by decide, by decide, ?_, by decide, by decide, by decide, ?_, by decide⟩
  · have hscan : ((parse_program 7 (parser_start big_literal_tokens [] start_state)).bind
        fun r => scan_loop 2 r.1.ir (r.1.ir.nodes node_head).next 0 (-1)) =
        some (1, INT_MAX) := by decide
    have hflag : (parse_program 7 (parser_start big_literal_tokens [] start_state)).map
        (fun r => r.1.error_flag) = some 0 := by decide
    cases h7 : parse_program 7 (parser_start big_literal_tokens [] start_state) with
    | none => rw [h7] at hscan; exact Option.noConfusion hscan
    | some x7 =>
      rw [h7, Option.some_bind] at hscan
      rw [h7] at hflag
      exact main_MODE_RENAME_none _ 7 x7 h7 (ir_rename_overflow x7.1.ir 2 1 hscan)
        (Option.some.inj hflag)
  · have hiter : ((parse_program 7 (parser_start wrapped_register_tokens [] start_state)).bind
        fun r => (rename_entry 2 r.1.ir).map fun t0 =>
          decide ((r.1.ir.nodes node_head).prev ≠ node_head) &&
            (rename_iter r.1.ir (r.1.ir.nodes node_head).prev t0).isNone) = some true := by
      decide
    have hflag : (parse_program 7 (parser_start wrapped_register_tokens [] start_state)).map
        (fun r => r.1.error_flag) = some 0 := by decide
    cases h7 : parse_program 7 (parser_start wrapped_register_tokens [] start_state) with
    | none => rw [h7] at hiter; exact Option.noConfusion hiter
    | some x7 =>
      rw [h7, Option.some_bind] at hiter
      rw [h7] at hflag
      exact main_MODE_RENAME_none _ 7 x7 h7 (ir_rename_first_iter_none x7.1.ir 2 hiter)
        (Option.some.inj hflag)

/-- C25, amended: for every token stream, whatever lexical errors the scanner
reports on it and whatever the memory held before, parse_program returns, and
the branches of main for `-x` and `-r` test `error_flag` once, after it. If
the flag is set, neither ir_rename nor ir_print is called, and stdout holds
what parse_program printed followed by the failure summary. If it is clear,
parse_program has printed nothing, `-r` calls ir_print only, on the state the
parser left, after the success line, and ir_print returns; and when every
CONST and REG value is non-negative and below INT_MAX, `-x` calls ir_rename
once, which returns, and then ir_print on the renamed state, and stdout holds
the text of ir_print. -/
theorem C25_error_flag_gates_the_passes (toks : List Token) (errs : List Bool)
    (s0 : IRState) :
    ∃ F, ∀ fuel, F ≤ fuel →
      ∃ st count, parse_program fuel (parser_start toks errs s0) = some (st, count) ∧
        (st.error_flag ≠ 0 →
          main_MODE_RENAME fuel (parser_start toks errs s0) = some
            { passes := [],
              out := st.out ++ "\nDue to syntax error(s), run terminates.\n",
              ir := st.ir } ∧
          main_MODE_PRINT fuel (parser_start toks errs s0) = some
            { passes := [],
              out := st.out ++ "\nDue to syntax error(s), run terminates.\n",
              ir := st.ir }) ∧
        (st.error_flag = 0 →
          st.out = "" ∧
          (∃ txt0, ir_print fuel st.ir = some txt0 ∧
            main_MODE_PRINT fuel (parser_start toks errs s0) = some
              { passes := [Pass.print],
                out := "Parse succeeded. Processed " ++ fmt_d count ++ " operations.\n" ++ txt0,
                ir := st.ir }) ∧
          ((∀ t ∈ toks, TokRange t) →
            ∃ s1 maxlive txt, ir_rename fuel st.ir = some (s1, maxlive) ∧
              ir_print fuel s1 = some txt ∧
              main_MODE_RENAME fuel (parser_start toks errs s0) = some
                { passes := [Pass.rename, Pass.print], out := txt, ir := s1 })) := by
  obtain ⟨st, count, ps, hp, hc⟩ := parse_program_chain toks errs s0 (toks.length + 1) (by omega)
  refine ⟨max (toks.length + 1) (ps.length + 1), fun fuel hfuel => ?_⟩
  have hp1 := parse_program_mono _ _ st count hp fuel (by omega)
  refine ⟨st, count, hp1, ?_, ?_⟩
  · intro hne
    simp only [main_MODE_RENAME, main_MODE_PRINT, hp1, Option.some_bind, if_neg hne,
      call_printf, after_parse_program, and_self]
  · intro he
    have hout : st.out = "" := parse_program_out fuel _ st count hp1 (Or.inl rfl) he
    have hpr0 := ir_print_total st.ir ps hc fuel (by omega)
    refine ⟨hout, ⟨_, hpr0, ?_⟩, ?_⟩
    · simp only [main_MODE_PRINT, hp1, Option.some_bind, if_pos he, call_ir_print,
        call_printf, after_parse_program, hpr0, Option.map_some', hout, List.nil_append,
        String.empty_append]
    · intro hok
      obtain ⟨st2, count2, hp2, ptrs, calls, hb, hv⟩ :=
        parse_program_valid toks errs s0 hok (toks.length + 1) (by omega)
      rw [hp] at hp2
      obtain ⟨rfl, -⟩ := Prod.mk.inj (Option.some.inj hp2)
      have hps : ptrs = ps := Chain_unique st.ir ptrs ps hb.1 hc
      subst hps
      obtain ⟨s1, maxlive, hr, hc1⟩ :=
        rename_total_of_Built st.ir ptrs calls hb hv fuel (by omega)
      have hpr1 := ir_print_total s1 ptrs hc1 fuel (by omega)
      refine ⟨s1, maxlive, _, hr, hpr1, ?_⟩
      simp only [main_MODE_RENAME, hp1, Option.some_bind, if_pos he, call_ir_rename,
        call_ir_print, after_parse_program, hr, hpr1, Option.map_some', hout,
        List.nil_append, List.cons_append, String.empty_append]

/-- C25, amended, on the stream the scanner returns for the lines `x` and
`nop`, on which it reports a lexical error. -/
theorem C25_witness :
    ∃ F, ∀ fuel, F ≤ fuel →
      ∃ st count, parse_program fuel (parser_start error_line_tokens
          [true, false, false, false] start_state) = some (st, count) ∧
        (st.error_flag ≠ 0 →
          main_MODE_RENAME fuel (parser_start error_line_tokens
              [true, false, false, false] start_state) = some
            { passes := [],
              out := st.out ++ "\nDue to syntax error(s), run terminates.\n",
              ir := st.ir } ∧
          main_MODE_PRINT fuel (parser_start error_line_tokens
              [true, false, false, false] start_state) = some
            { passes := [],
              out := st.out ++ "\nDue to syntax error(s), run terminates.\n",
              ir := st.ir }) ∧
        (st.error_flag = 0 →
          st.out = "" ∧
          (∃ txt0, ir_print fuel st.ir = some txt0 ∧
            main_MODE_PRINT fuel (parser_start error_line_tokens
                [true, false, false, false] start_state) = some
              { passes := [Pass.print],
                out := "Parse succeeded. Processed " ++ fmt_d count ++ " operations.\n" ++ txt0,
                ir := st.ir }) ∧
          ((∀ t ∈ error_line_tokens, TokRange t) →
            ∃ s1 maxlive txt, ir_rename fuel st.ir = some (s1, maxlive) ∧
              ir_print fuel s1 = some txt ∧
              main_MODE_RENAME fuel (parser_start error_line_tokens
                  [true, false, false, false] start_state) = some
                { passes := [Pass.rename, Pass.print], out := txt, ir := s1 })) :=
  C25_error_flag_gates_the_passes error_line_tokens [true, false, false, false] start_state

set_option maxHeartbeats 4000000 in
/-- The branches of main on the stream of the lines `x` and `nop`, on which
the scanner reports a lexical error: no pass is called, in either mode. -/
theorem main_runs_lexical_error :
    (main_MODE_RENAME 7 (parser_start error_line_tokens [true, false, false, false]
      start_state)).map (fun r => (r.passes, r.out)) =
      some ([], "\nDue to syntax error(s), run terminates.\n") ∧
    (main_MODE_PRINT 7 (parser_start error_line_tokens [true, false, false, false]
      start_state)).map (fun r => (r.passes, r.out)) =
      some ([], "\nDue to syntax error(s), run terminates.\n") := by
  refine ⟨by decide, by decide⟩

/-! ## The tables of the renamer at INT_MAX -/

/-- C26 counterexample: the blocks `load r2147483647 => r1` and
`loadI 2147483647 => r1` are built with matching arity and non-negative
operand values. The first loop of ir_rename ends with `max_sr` = INT_MAX, the
table size `max_sr + 1` is outside the range of int (wrapped to 32 bits it is
-2147483648), and ir_rename has no result on either block, whatever the
fuel: no table size bounds the index 2147483647 of the first block. -/
theorem C26_counterexample :
    (∀ c ∈ big_register_block, c.non_negative) ∧
    (∀ c ∈ big_literal_block, c.non_negative) ∧
    ((build_block start_state big_register_block).bind fun s =>
      scan_loop 2 s (s.nodes node_head).next 0 (-1)) = some (1, 2147483647) ∧
    ((build_block start_state big_literal_block).bind fun s =>
      scan_loop 2 s (s.nodes node_head).next 0 (-1)) = some (1, 2147483647) ∧
    wrap32 (2147483647 + 1) = -2147483648 ∧
    (∀ fuel, build_and_rename fuel start_state big_register_block = none) ∧
    (∀ fuel, build_and_rename fuel start_state big_literal_block = none) ∧
    (∀ fuel, table_size fuel start_state big_register_block = none) := by
  have h1 : ((build_block start_state big_register_block).bind fun s =>
      scan_loop 2 s (s.nodes node_head).next 0 (-1)) = some (1, INT_MAX) := by decide
  have h2 : ((build_block start_state big_literal_block).bind fun s =>
      scan_loop 2 s (s.nodes node_head).next 0 (-1)) = some (1, INT_MAX) := by decide
  refine ⟨by decide, by decide, by decide, by decide, by decide, ?_, ?_, ?_⟩
  · intro fuel
    unfold build_and_rename
    cases hb : build_block start_state big_register_block with
    | none => rfl
    | some s =>
      rw [hb, Option.some_bind] at h1
      rw [Option.some_bind]
      exact ir_rename_overflow s 2 1 h1 fuel
  · intro fuel
    unfold build_and_rename
    cases hb : build_block start_state big_literal_block with
    | none => rfl
    | some s =>
      rw [hb, Option.some_bind] at h2
      rw [Option.some_bind]
      exact ir_rename_overflow s 2 1 h2 fuel
  · intro fuel
    unfold table_size
    cases hb : build_block start_state big_register_block with
    | none => rfl
    | some s =>
      rw [hb, Option.some_bind] at h1
      rw [Option.some_bind]
      have he : rename_entry fuel s = none := by
        unfold rename_entry
        cases hs : scan_loop fuel s (s.nodes node_head).next 0 (-1) with
        | none => rfl
        | some r =>
          have := scan_loop_det 2 fuel s _ _ _ _ _ h1 hs
          subst this
          simp only [Option.some_bind, if_true]
      rw [he]
      rfl

end ILOC
